import Mathlib

/-!
# Numbers: a verification development for the "Le compte est bon" solver

Shallow embedding of `NumbersLibrary.c` (solver and validator).

Conventions of the embedding
* `uint32_t`, `uint16_t` and `uint8_t` values are natural numbers; every C
  operation that can wrap is followed by an explicit `% 2 ^ w`.
* A pointer argument that may be `NULL` is an `Option` (or a `Bool` when only
  its presence matters, as for output buffers).
* The arena `operations[]` and the array `operationIds[]` are lists whose
  lengths are `operationSize` and `operationIdSize`; their initial content is
  arbitrary (`malloc` does not clear it, earlier solves leave their data).
* Loops whose C condition gives no structural bound (`do ... while` over tile
  groups, the recursion of `GenerateSolution`) take a fuel argument and
  return `none` when it runs out.
-/

namespace Numbers

/-! ## Data model (NumbersLibrary.h, NumbersLibrary.c) -/

/-- Error codes, `NumbersError` of NumbersLibrary.h. -/
inductive NumbersError where
  | Success
  | AbortedError
  | ZeroSizeError
  | MemoryAllocationError
  | NullPointerError
  | TooManyTilesError
  | IncorrectTileIdError
  | TileUsedTwiceError
  | NegativeResultError
  | DivisionByZeroError
  | RemainderNotNullError
  deriving DecidableEq, Inhabited

/-- Largest `uint32_t`. -/
def UINT32_MAX : Nat := 4294967295

/-- Largest `uint16_t`. -/
def UINT16_MAX : Nat := 65535

/-- Operator code `ADD = 0`. -/
def ADD : Nat := 0
/-- Operator code `SUB = 1`. -/
def SUB : Nat := 1
/-- Operator code `MUL = 2`. -/
def MUL : Nat := 2
/-- Operator code `DIV = 3`. -/
def DIV : Nat := 3
/-- Operator code `NOP` (= 4), the mark of a leaf. -/
def NOP : Nat := 4

/-- Arena record, `Operation` of NumbersLibrary.c. -/
structure Operation where
  operationIdLeft : Nat
  operationIdRight : Nat
  result : Nat
  op : Nat
  weight : Nat
  complexity : Nat
  deriving DecidableEq, Inhabited

/-- Half-open arena range, `OperationGroup` of NumbersLibrary.c. -/
structure OperationGroup where
  operationIdFirst : Nat
  operationIdLast : Nat
  deriving DecidableEq, Inhabited

/-- The member `final` of `struct NumbersStruct`. -/
structure Final where
  target : Nat
  tileCount : Nat
  deriving DecidableEq, Inhabited

/-- The member `solution` of `struct NumbersStruct` (its output cursor
`operations` is the byte list returned by `GenerateSolution`). -/
structure Solution where
  operationId : Nat
  targetDiff : Nat
  tileCount : Nat
  aborted : Bool
  deriving DecidableEq, Inhabited

/-- The member `current` of `struct NumbersStruct`. -/
structure Current where
  tileCount : Nat
  complexityMax : Nat
  operationIdFirst : Nat
  operationIdLast : Nat
  operationIdLeft : Nat
  operationIdRight : Nat
  deriving DecidableEq, Inhabited

/-- The library object, `struct NumbersStruct`. -/
structure NumbersStruct where
  final : Final
  solution : Solution
  current : Current
  operationIdSize : Nat
  operationIds : List Nat
  operationSize : Nat
  operations : List Operation
  deriving DecidableEq, Inhabited

/-- Read `operations[operationId]`. -/
def NumbersStruct.operation (s : NumbersStruct) (operationId : Nat) : Operation :=
  s.operations.getD operationId default

/-- What `NumbersInitialize` guarantees of an object, and every solve keeps:
non-zero 16-bit sizes and arrays of those sizes. -/
def NumbersStruct.WellFormed (s : NumbersStruct) : Prop :=
  0 < s.operationSize ∧ s.operationSize ≤ UINT16_MAX ∧
  0 < s.operationIdSize ∧ s.operationIdSize ≤ UINT16_MAX ∧
  s.operations.length = s.operationSize ∧
  s.operationIds.length = s.operationIdSize

instance (s : NumbersStruct) : Decidable s.WellFormed := by
  unfold NumbersStruct.WellFormed; infer_instance

/-- An object as `NumbersInitialize` returns it, when the memory it got happens
to hold zeros: used for concrete runs. -/
def NumbersStruct.zeroed (operationSize operationIdSize : Nat) : NumbersStruct :=
  { final := ⟨0, 0⟩
    solution := ⟨0, 0, 0, false⟩
    current := ⟨0, 0, 0, 0, 0, 0⟩
    operationIdSize := operationIdSize
    operationIds := List.replicate operationIdSize 0
    operationSize := operationSize
    operations := List.replicate operationSize ⟨0, 0, 0, 0, 0, 0⟩ }

/-! ## Recorder -/

/-- `SearchOperation`: look a result up in the current operation group; the
sentinel "not found" is `current.operationIdLast`. -/
def SearchOperation (s : NumbersStruct) (result : Nat) : Nat :=
  if result < s.operationIdSize then
    let operationId := s.operationIds.getD result 0
    if operationId ≥ s.current.operationIdFirst
        ∧ operationId < s.current.operationIdLast
        ∧ (s.operation operationId).result = result then
      operationId
    else s.current.operationIdLast
  else s.current.operationIdLast

/-- `ComputeResultWeight`. -/
def ComputeResultWeight (result : Nat) : Nat :=
  if result > 100 then
    if result > 1000 then 7
    else if result % 10 ≠ 0 then 5
    else if result % 100 ≠ 0 then 3
    else 1
  else if result > 10 then
    if result % 10 ≠ 0 then
      if result ≠ 25 ∧ result ≠ 75 then 3 else 1
    else if result = 100 then 0
    else 1
  else if result = 1 ∨ result = 10 then 0
  else 1

/-- The absolute difference `|result - target|` as computed in
`RecordOperation` and `CheckResult`. -/
def targetDiffOf (target result : Nat) : Nat :=
  if result > target then result - target else target - result

/-- First half of `RecordOperation`: decide where the candidate goes.
`none` stands for the early `return`s; `some (operationId, bestResult)` for
reaching "Record or update the operation". -/
def RecordOperation.classify (s : NumbersStruct) (result complexity : Nat) :
    Option (Nat × Bool) :=
  let targetDiff := targetDiffOf s.final.target result
  if targetDiff < s.solution.targetDiff
      ∨ s.solution.operationId ≥ s.operationSize then
    some (s.current.operationIdLast, true)
  else if s.current.tileCount = s.final.tileCount then
    if targetDiff > s.solution.targetDiff
        ∨ complexity ≥ (s.operation s.solution.operationId).complexity
        ∨ s.current.tileCount > s.solution.tileCount then
      none
    else some (SearchOperation s result, true)
  else
    let operationId := SearchOperation s result
    if operationId = s.current.operationIdLast then
      some (operationId,
        decide (targetDiff = s.solution.targetDiff
          ∧ complexity < (s.operation s.solution.operationId).complexity
          ∧ s.current.tileCount = s.solution.tileCount))
    else if complexity ≥ (s.operation operationId).complexity then
      none
    else some (operationId, true)

/-- The part of `RecordOperation` that appends a new record at
`current.operationIdLast` (the arena is known not to be full). -/
def RecordOperation.append (s : NumbersStruct) (op result complexity : Nat)
    (bestResult : Bool) : NumbersStruct :=
  { s with
    operationIds :=
      if result < s.operationIdSize then s.operationIds.set result s.current.operationIdLast
      else s.operationIds
    current := { s.current with operationIdLast := s.current.operationIdLast + 1 }
    solution :=
      if bestResult then
        { s.solution with
          operationId := s.current.operationIdLast
          targetDiff := targetDiffOf s.final.target result
          tileCount := s.current.tileCount }
      else s.solution
    operations := s.operations.set s.current.operationIdLast
      { operationIdLeft := s.current.operationIdLeft
        operationIdRight := s.current.operationIdRight
        result := result
        op := op
        weight := ComputeResultWeight result
        complexity := complexity } }

/-- The part of `RecordOperation` that updates the existing record
`operationId` in place (result and weight are kept). -/
def RecordOperation.update (s : NumbersStruct) (operationId op complexity : Nat) :
    NumbersStruct :=
  { s with
    operations := s.operations.set operationId
      { s.operation operationId with
        operationIdLeft := s.current.operationIdLeft
        operationIdRight := s.current.operationIdRight
        op := op
        complexity := complexity } }

/-- The part of `RecordOperation` that gives up on a full arena. -/
def RecordOperation.abort (s : NumbersStruct) : NumbersStruct :=
  { s with solution := { s.solution with aborted := true } }

/-- `RecordOperation`. -/
def RecordOperation (s : NumbersStruct) (op result complexity : Nat) : NumbersStruct :=
  if complexity > s.current.complexityMax then s
  else
    match RecordOperation.classify s result complexity with
    | none => s
    | some (operationId, bestResult) =>
      if operationId = s.current.operationIdLast then
        if operationId ≥ s.operationSize then RecordOperation.abort s
        else RecordOperation.append s op result complexity bestResult
      else RecordOperation.update s operationId op complexity

/-! ## Group combiner -/

/-- The calls of the recorder for one pair of results, once ordered
(`resultMax ≥ resultMin`, and `current.operationIdLeft`,
`current.operationIdRight` are set): from "Addition" to the end of the inner
loop body of `CombineOperationGroups`. -/
def CombineOperationGroups.record (s : NumbersStruct)
    (resultMax resultMin complexityAB weightA weightB : Nat) : NumbersStruct :=
  -- Addition
  let s := RecordOperation s ADD ((resultMax + resultMin) % 2 ^ 32)
    ((complexityAB + (if weightA < weightB then weightA else weightB)) % 2 ^ 16)
  -- Subtraction
  let s :=
    if resultMax ≠ resultMin ∧ resultMax - resultMin ≠ resultMin then
      RecordOperation s SUB (resultMax - resultMin)
        ((complexityAB + ((weightA + weightB) >>> 1)) % 2 ^ 16)
    else s
  -- Make sure the smallest number is greater than 1
  if resultMin > 1 then
    -- Multiplication
    let complexity := (weightA * weightB) % 2 ^ 16
    let complexity := (complexityAB + complexity * complexity) % 2 ^ 16
    let s := RecordOperation s MUL ((resultMax * resultMin) % 2 ^ 32) complexity
    -- Division
    if resultMax = resultMin then
      RecordOperation s DIV 1 ((complexityAB + 1) % 2 ^ 16)
    else
      let result := resultMax / resultMin
      if result ≠ resultMin ∧ (result * resultMin) % 2 ^ 32 = resultMax then
        RecordOperation s DIV result complexity
      else s
  else s

/-- Body of the inner loop of `CombineOperationGroups`: one pair (A, B).
`resultA`, `weightA`, `complexityA` were read from `operations[operationIdA]`
before the inner loop started. -/
def CombineOperationGroups.pair (operationIdA resultA weightA complexityA : Nat)
    (s : NumbersStruct) (operationIdB : Nat) : NumbersStruct :=
  let operationB := s.operation operationIdB
  let complexityAB := (complexityA + operationB.complexity) % 2 ^ 16
  if complexityAB > s.current.complexityMax then s
  else
    let resultB := operationB.result
    let weightB := operationB.weight
    -- Order the results
    if resultA ≥ resultB then
      CombineOperationGroups.record
        { s with current := { s.current with
            operationIdLeft := operationIdA, operationIdRight := operationIdB } }
        resultA resultB complexityAB weightA weightB
    else
      CombineOperationGroups.record
        { s with current := { s.current with
            operationIdLeft := operationIdB, operationIdRight := operationIdA } }
        resultB resultA complexityAB weightA weightB

/-- Body of the outer loop of `CombineOperationGroups`: one result of the
group A against all results of the group B. -/
def CombineOperationGroups.row (operationGroupB : OperationGroup)
    (s : NumbersStruct) (operationIdA : Nat) : NumbersStruct :=
  let operationA := s.operation operationIdA
  (List.range' operationGroupB.operationIdFirst
      (operationGroupB.operationIdLast - operationGroupB.operationIdFirst)).foldl
    (CombineOperationGroups.pair operationIdA operationA.result operationA.weight
      operationA.complexity) s

/-- `CombineOperationGroups`. -/
def CombineOperationGroups (s : NumbersStruct)
    (operationGroupA operationGroupB : OperationGroup) : NumbersStruct :=
  (List.range' operationGroupA.operationIdFirst
      (operationGroupA.operationIdLast - operationGroupA.operationIdFirst)).foldl
    (CombineOperationGroups.row operationGroupB) s

/-! ## Solution reconstructor -/

/-- `GenerateSolution`: returns the tile the result is stored in and the bytes
appended to the solution; `none` when the recursion is deeper than `fuel`. -/
def GenerateSolution (s : NumbersStruct) : Nat → Nat → Option (Nat × List Nat)
  | 0, _ => none
  | fuel + 1, operationId =>
    let operation := s.operation operationId
    if operation.op = NOP then some (operationId, [])
    else
      match GenerateSolution s fuel operation.operationIdLeft with
      | none => none
      | some (tileIdLeft, bytesLeft) =>
        match GenerateSolution s fuel operation.operationIdRight with
        | none => none
        | some (tileIdRight, bytesRight) =>
          some (tileIdLeft, bytesLeft ++ bytesRight ++
            [(tileIdLeft ||| (tileIdRight <<< 3) ||| (operation.op <<< 6)) % 2 ^ 8])

/-! ## Solver driver -/

/-- A `while (cond) body` loop with fuel: `none` when the fuel runs out before
the condition turns false, or when the body is undefined. -/
def whileLoop {σ : Type} (cond : σ → Bool) (body : σ → Option σ) : Nat → σ → Option σ
  | 0, _ => none
  | fuel + 1, st => if cond st then (body st).bind (whileLoop cond body fuel) else some st

/-- The local array `operationGroups[]` of `NumbersSolve`; a slot that was never
written is `none`. -/
abbrev OperationGroups := List (Option OperationGroup)

/-- The lowest set bit `x & -x` in 32-bit arithmetic. -/
def lowestBit (x : Nat) : Nat := x &&& ((2 ^ 32 - x) % 2 ^ 32)

/-- One turn of the loop over `tileSubGroupMask` in `NumbersSolve`: add the
lowest remaining tile to every sub-group whose number has the mask bit set. -/
def tileSubGroupsStep (tileSubGroupCount : Nat) (st : List Nat × Nat)
    (tileSubGroupMask : Nat) : List Nat × Nat :=
  let tile := lowestBit st.2
  ((List.range' 1 tileSubGroupCount).foldl
      (fun tileSubGroups tileSubGroupNumber =>
        if tileSubGroupNumber &&& tileSubGroupMask ≠ 0 then
          tileSubGroups.set (tileSubGroupNumber - 1)
            ((tileSubGroups.getD (tileSubGroupNumber - 1) 0 + tile) % 2 ^ 32)
        else tileSubGroups)
      st.1,
    st.2 - tile)

/-- The array `tileSubGroups[]` built in `NumbersSolve` for a group of
`tileCount` tiles. The masks `1, 2, 4, ...` not above
`tileSubGroupCount = 2 ^ (tileCount - 1) - 1` are `1 <<< j` for
`j < tileCount - 1`. -/
def tileSubGroups (tileGroup tileCount : Nat) : List Nat :=
  let tileSubGroupCount := ((1 <<< (tileCount - 1)) % 2 ^ 32) - 1
  ((List.range (tileCount - 1)).foldl
    (fun st j => tileSubGroupsStep tileSubGroupCount st (1 <<< j))
    (List.replicate tileSubGroupCount 0, tileGroup)).1

/-- Next group of tiles with the same number of tiles (32-bit arithmetic). -/
def nextTileGroup (tileGroup : Nat) : Nat :=
  let u := lowestBit tileGroup
  let v := (u + tileGroup) % 2 ^ 32
  (v + (((v ^^^ tileGroup) / u) >>> 2)) % 2 ^ 32

/-- State of the loops of `NumbersSolve`: the object, the local array
`operationGroups[]` and the local `tileGroup`. -/
structure SolveState where
  numbersObject : NumbersStruct
  operationGroups : OperationGroups
  tileGroup : Nat
  deriving DecidableEq, Inhabited

/-- The assignment `current.operationIdFirst = current.operationIdLast` that
opens a new operation group. -/
def NumbersStruct.startGroup (s : NumbersStruct) : NumbersStruct :=
  { s with current := { s.current with operationIdFirst := s.current.operationIdLast } }

/-- Record one tile (body of the first loop of `NumbersSolve`). -/
def NumbersSolve.recordTile (tiles : List Nat) (st : SolveState) (tileId : Nat) :
    SolveState :=
  let s := st.numbersObject.startGroup
  let s := RecordOperation s NOP (tiles.getD tileId 0) 0
  { st with
    numbersObject := s
    operationGroups := st.operationGroups.set ((1 <<< tileId) % 2 ^ 32)
      (some ⟨s.current.operationIdFirst, s.current.operationIdLast⟩) }

/-- Combine one pair of smaller groups (body of the loop over
`tileSubGroupId`); the loop condition `!aborted` is tested here, as the flag is
never cleared inside the loop. Reading a group that was never written is
undefined (`none`). -/
def NumbersSolve.combineSubGroup (operationGroups : OperationGroups) (tileGroup : Nat)
    (s : NumbersStruct) (tileSubGroup : Nat) : Option NumbersStruct :=
  if s.solution.aborted then some s
  else
    match operationGroups.getD tileSubGroup none,
        operationGroups.getD (tileGroup - tileSubGroup) none with
    | some operationGroupA, some operationGroupB =>
      some (CombineOperationGroups s operationGroupA operationGroupB)
    | _, _ => none

/-- Body of the `do ... while` loop of `NumbersSolve`: build the operation
group of `tileGroup`, then step to the next group of tiles. -/
def NumbersSolve.buildGroup (st : SolveState) : Option SolveState :=
  let s := st.numbersObject.startGroup
  match (tileSubGroups st.tileGroup s.current.tileCount).foldlM
      (NumbersSolve.combineSubGroup st.operationGroups st.tileGroup) s with
  | none => none
  | some s =>
    some
      { numbersObject := s
        operationGroups := st.operationGroups.set st.tileGroup
          (some ⟨s.current.operationIdFirst, s.current.operationIdLast⟩)
        tileGroup := nextTileGroup st.tileGroup }

/-- Body of the `while` loop of `NumbersSolve`: all groups with one more
tile. -/
def NumbersSolve.nextTileCount (operationGroupSize : Nat) (st : SolveState) :
    Option SolveState :=
  let s := st.numbersObject
  let s := { s with current := { s.current with tileCount := s.current.tileCount + 1 } }
  let st := { st with
    numbersObject := s
    tileGroup := ((1 <<< s.current.tileCount) % 2 ^ 32) - 1 }
  (NumbersSolve.buildGroup st).bind
    (whileLoop
      (fun st => decide (st.tileGroup < operationGroupSize) && !st.numbersObject.solution.aborted)
      NumbersSolve.buildGroup operationGroupSize)

/-- The assignments of `NumbersSolve` before its first loop: target, number
of tiles, empty solution, first tile count, complexity bound, empty arena. -/
def NumbersSolve.init (s : NumbersStruct) (target : Nat) (tiles : List Nat)
    (complexity : Option Nat) : NumbersStruct :=
  { s with
    final := { target := target, tileCount := tiles.length }
    solution := { s.solution with operationId := s.operationSize, aborted := false }
    current := { s.current with
      tileCount := 1
      complexityMax := complexity.getD UINT16_MAX
      operationIdLast := 0 } }

/-- The search of `NumbersSolve`, from "Take note of the target" to the end of
the `while` loop. -/
def NumbersSolve.search (s : NumbersStruct) (target : Nat) (tiles : List Nat)
    (complexity : Option Nat) : Option NumbersStruct :=
  let s := NumbersSolve.init s target tiles complexity
  let operationGroupSize := (1 <<< s.final.tileCount) % 2 ^ 16
  let st : SolveState :=
    (List.range s.final.tileCount).foldl (NumbersSolve.recordTile tiles)
      { numbersObject := s
        operationGroups := List.replicate operationGroupSize none
        tileGroup := 0 }
  (whileLoop
    (fun st => decide (st.numbersObject.current.tileCount < st.numbersObject.final.tileCount)
      && decide (st.numbersObject.solution.targetDiff ≠ 0)
      && !st.numbersObject.solution.aborted)
    (NumbersSolve.nextTileCount operationGroupSize)
    (s.final.tileCount + 1) st).map (fun st => st.numbersObject)

/-- What a call of `NumbersSolve` returns and writes: the return code, the
object after the call, and the values written through `complexity`,
`solutionOperations` (all bytes, the final zero included) and `result`
(`none` when the pointer is `NULL` or nothing was written). -/
structure SolveResult where
  error : NumbersError
  numbersObject : Option NumbersStruct
  complexity : Option Nat
  solutionOperations : Option (List Nat)
  result : Option Nat
  deriving DecidableEq, Inhabited

/-- The end of `NumbersSolve`, from "Make sure a solution has been found":
write the outputs and return. -/
def NumbersSolve.finish (s : NumbersStruct) (complexity : Option Nat)
    (solutionOperations result : Bool) : Option SolveResult :=
  let error := if s.solution.aborted then NumbersError.AbortedError else NumbersError.Success
  if s.solution.operationId ≥ s.operationSize then
    some
      { error := error
        numbersObject := some s
        complexity := complexity.map (fun _ => 0)
        solutionOperations := if solutionOperations then some [0] else none
        result := if result then some 0 else none }
  else
    match (if solutionOperations then
        (GenerateSolution s (s.solution.operationId + 1) s.solution.operationId).map
          (fun r => some (r.2 ++ [0]))
      else some none) with
    | none => none
    | some bytes =>
      some
        { error := error
          numbersObject := some s
          complexity := complexity.map
            (fun _ => (s.operation s.solution.operationId).complexity)
          solutionOperations := bytes
          result := if result then some (s.operation s.solution.operationId).result else none }

/-- `NumbersSolve`. The tiles are the list `tiles->values[0 .. count - 1]`;
`complexity` is the value pointed to, if any; `solutionOperations` and `result`
tell whether the pointer is non-`NULL`. `none`: the model ran out of fuel or
read an unwritten operation group. -/
def NumbersSolve (numbersObject : Option NumbersStruct) (target : Nat)
    (tiles : Option (List Nat)) (complexity : Option Nat)
    (solutionOperations result : Bool) : Option SolveResult :=
  match numbersObject, tiles with
  | none, _ => some ⟨.NullPointerError, none, none, none, none⟩
  | some s, none => some ⟨.NullPointerError, some s, none, none, none⟩
  | some s, some tiles =>
    if tiles.length > 8 then some ⟨.TooManyTilesError, some s, none, none, none⟩
    else
      (NumbersSolve.search s target tiles complexity).bind
        (fun s => NumbersSolve.finish s complexity solutionOperations result)

/-! ## Validator -/

/-- `NumbersOperation` of NumbersLibrary.h, the record handed to the hook. -/
structure NumbersOperation where
  valueLeft : Nat
  opChar : Char
  valueRight : Nat
  valueResult : Nat
  deriving DecidableEq, Inhabited

/-- Local state of `NumbersValidate`: the array `tileValues[]`, `*bestResult`,
`bestTargetDiff`, and the operations the hook was called with. -/
structure ValidateState where
  tileValues : List Nat
  bestResult : Nat
  bestTargetDiff : Nat
  hookCalls : List NumbersOperation
  deriving DecidableEq, Inhabited

/-- `CheckResult`. -/
def CheckResult (target result : Nat) (st : ValidateState) : ValidateState :=
  let targetDiff := targetDiffOf target result
  if targetDiff < st.bestTargetDiff then
    { st with bestTargetDiff := targetDiff, bestResult := result }
  else st

/-- The `switch (op)` of `NumbersValidate`: the result and the character of
the operation, or the error returned. -/
def NumbersValidate.compute (op valueLeft valueRight : Nat) : Except NumbersError (Nat × Char) :=
  if op = ADD then .ok ((valueLeft + valueRight) % 2 ^ 32, '+')
  else if op = MUL then .ok ((valueLeft * valueRight) % 2 ^ 32, 'x')
  else if op = SUB then
    if valueLeft < valueRight then .error .NegativeResultError
    else .ok (valueLeft - valueRight, '-')
  else
    if valueRight = 0 then .error .DivisionByZeroError
    else if (valueRight * (valueLeft / valueRight)) % 2 ^ 32 ≠ valueLeft then
      .error .RemainderNotNullError
    else .ok (valueLeft / valueRight, '/')

/-- Body of the loop of `NumbersValidate` for one non-zero byte. -/
def NumbersValidate.operation (target count : Nat) (operationHook : Bool)
    (st : ValidateState) (operationEncoded : Nat) : Except NumbersError ValidateState :=
  let tileIdLeft := operationEncoded &&& 7
  let op := operationEncoded >>> 6
  let tileIdRight := (operationEncoded >>> 3) &&& 7
  if tileIdLeft ≥ count ∨ tileIdRight ≥ count ∨ tileIdLeft = tileIdRight then
    .error .IncorrectTileIdError
  else
    let valueLeft := st.tileValues.getD tileIdLeft 0
    let valueRight := st.tileValues.getD tileIdRight 0
    if valueLeft = UINT32_MAX ∨ valueRight = UINT32_MAX then .error .TileUsedTwiceError
    else
      match NumbersValidate.compute op valueLeft valueRight with
      | .error e => .error e
      | .ok (valueResult, opChar) =>
        .ok (CheckResult target valueResult
          { st with
            hookCalls :=
              if operationHook then
                st.hookCalls ++ [⟨valueLeft, opChar, valueRight, valueResult⟩]
              else st.hookCalls
            tileValues := (st.tileValues.set tileIdLeft valueResult).set tileIdRight UINT32_MAX })

/-- The loop `while (*solutionOperations)` of `NumbersValidate`. The stream is
the content of the buffer; a stream without a zero byte is read to its end
(the C code would go on reading past the buffer). -/
def NumbersValidate.loop (target count : Nat) (operationHook : Bool) :
    ValidateState → List Nat → NumbersError × ValidateState
  | st, [] => (.Success, st)
  | st, operationEncoded :: rest =>
    if operationEncoded = 0 then (.Success, st)
    else
      match NumbersValidate.operation target count operationHook st operationEncoded with
      | .error e => (e, st)
      | .ok st => NumbersValidate.loop target count operationHook st rest

/-- The first loop of `NumbersValidate`: copy and check all the tiles. -/
def NumbersValidate.init (target : Nat) (tiles : List Nat) : ValidateState :=
  tiles.foldl (fun st tileValue => CheckResult target tileValue
      { st with tileValues := st.tileValues ++ [tileValue] })
    { tileValues := [], bestResult := 0, bestTargetDiff := UINT32_MAX, hookCalls := [] }

/-- What a call of `NumbersValidate` returns and leaves: the return code, the
value of `*bestResult` (`none` when nothing was written) and the operations
passed to the hook. -/
structure ValidateResult where
  error : NumbersError
  bestResult : Option Nat
  hookCalls : List NumbersOperation
  deriving DecidableEq, Inhabited

/-- `NumbersValidate`. `bestResult` and `operationHook` tell whether the
pointer is non-`NULL`. -/
def NumbersValidate (target : Nat) (tiles : Option (List Nat))
    (solutionOperations : Option (List Nat)) (bestResult : Bool)
    (operationHook : Bool) : ValidateResult :=
  match tiles, bestResult with
  | none, _ => ⟨.NullPointerError, none, []⟩
  | _, false => ⟨.NullPointerError, none, []⟩
  | some tiles, true =>
    let st := NumbersValidate.init target tiles
    match solutionOperations with
    | none => ⟨.Success, some st.bestResult, []⟩
    | some stream =>
      let r := NumbersValidate.loop target tiles.length operationHook st stream
      ⟨r.1, some r.2.bestResult, r.2.hookCalls⟩

/-! ## Expression trees

The solver stores expression trees in its arena; the trees themselves are the
specification-side view of a solution. -/

/-- An operation tree over tile indices. -/
inductive Expr where
  | tile (tileId : Nat)
  | node (op : Nat) (left right : Expr)
  deriving DecidableEq, Inhabited

/-- The tile indices used by a tree, left to right. -/
def Expr.leaves : Expr → List Nat
  | .tile tileId => [tileId]
  | .node _ left right => left.leaves ++ right.leaves

/-- The left-most tile of a tree: the tile the validator stores its result in. -/
def Expr.first : Expr → Nat
  | .tile tileId => tileId
  | .node _ left _ => left.first

/-- The byte stream of a tree: its operations in post-order, each encoded as
left tile, right tile and operator. -/
def Expr.stream : Expr → List Nat
  | .tile _ => []
  | .node op left right =>
    left.stream ++ right.stream ++ [(left.first ||| (right.first <<< 3) ||| (op <<< 6)) % 2 ^ 8]

/-- The value of a tree under the validator's arithmetic (`none` when an
operation is rejected or a tile index is out of range). -/
def Expr.value (tiles : List Nat) : Expr → Option Nat
  | .tile tileId => if tileId < tiles.length then some (tiles.getD tileId 0) else none
  | .node op left right =>
    match left.value tiles, right.value tiles with
    | some valueLeft, some valueRight =>
      match NumbersValidate.compute op valueLeft valueRight with
      | .ok (valueResult, _) => some valueResult
      | .error _ => none
    | _, _ => none

/-- The values of the operations of a tree, in stream order (the root last). -/
def Expr.results (tiles : List Nat) : Expr → List Nat
  | .tile _ => []
  | .node op left right =>
    left.results tiles ++ right.results tiles ++ [((Expr.node op left right).value tiles).getD 0]

/-- No operand anywhere in the tree has the value `UINT32_MAX`, which the
validator uses as the mark of a consumed tile. -/
def Expr.operandsFree (tiles : List Nat) : Expr → Prop
  | .tile _ => True
  | .node _ left right =>
    left.value tiles ≠ some UINT32_MAX ∧ right.value tiles ≠ some UINT32_MAX
      ∧ left.operandsFree tiles ∧ right.operandsFree tiles

/-- Every operator code of the tree is one of `ADD`, `SUB`, `MUL`, `DIV`. -/
def Expr.opsValid : Expr → Prop
  | .tile _ => True
  | .node op left right => op < 4 ∧ left.opsValid ∧ right.opsValid

/-- The closest value so far and its distance after `CheckResult` has seen
`values`, starting from `best = (bestResult, bestTargetDiff)`. -/
def bestOf (target : Nat) (best : Nat × Nat) (values : List Nat) : Nat × Nat :=
  values.foldl
    (fun best value =>
      if targetDiffOf target value < best.2 then (value, targetDiffOf target value) else best)
    best

/-! ## Invariant of the arena

`E` maps every arena index to the tree its record is the root of; `g` is the
tile mask of the operation group under construction. -/

/-- The invariant the recorder keeps on the library object. -/
structure ArenaInv (tiles : List Nat) (g : Nat) (s : NumbersStruct) (E : Nat → Expr) : Prop where
  wf : s.WellFormed
  last_le : s.current.operationIdLast ≤ s.operationSize
  first_le : s.current.operationIdFirst ≤ s.current.operationIdLast
  final_tileCount : s.final.tileCount = tiles.length
  aborted_full : s.solution.aborted = true → s.current.operationIdLast = s.operationSize
  leaf : ∀ i, i < s.current.operationIdLast → (s.operation i).op = NOP →
    E i = .tile i ∧ i < tiles.length ∧ (s.operation i).complexity = 0
  node : ∀ i, i < s.current.operationIdLast → (s.operation i).op ≠ NOP →
    (s.operation i).op < 4
      ∧ (s.operation i).operationIdLeft < i ∧ (s.operation i).operationIdRight < i
      ∧ (s.current.operationIdFirst ≤ i →
          (s.operation i).operationIdLeft < s.current.operationIdFirst
          ∧ (s.operation i).operationIdRight < s.current.operationIdFirst)
      ∧ E i = .node (s.operation i).op (E (s.operation i).operationIdLeft)
          (E (s.operation i).operationIdRight)
  value : ∀ i, i < s.current.operationIdLast →
    (E i).value tiles = some (s.operation i).result
  result_lt : ∀ i, i < s.current.operationIdLast → (s.operation i).result < 2 ^ 32
  nodup : ∀ i, i < s.current.operationIdLast → (E i).leaves.Nodup
  leaves_lt : ∀ i, i < s.current.operationIdLast → ∀ t ∈ (E i).leaves, t < tiles.length
  leaves_le : ∀ i, i < s.current.operationIdLast →
    (E i).leaves.length ≤ s.current.tileCount
  complexity_le : ∀ i, i < s.current.operationIdLast →
    (s.operation i).complexity ≤ s.current.complexityMax
  current_leaves : ∀ i, s.current.operationIdFirst ≤ i → i < s.current.operationIdLast →
    (∀ t ∈ (E i).leaves, g.testBit t = true) ∧ (E i).leaves.length = s.current.tileCount
  solution_none : s.operationSize ≤ s.solution.operationId → s.current.operationIdLast = 0
  solution_lt : s.solution.operationId < s.operationSize →
    s.solution.operationId < s.current.operationIdLast
  solution_diff : s.solution.operationId < s.operationSize →
    s.solution.targetDiff = targetDiffOf s.final.target (s.operation s.solution.operationId).result
  solution_tiles : s.solution.operationId < s.operationSize →
    s.solution.tileCount = (E s.solution.operationId).leaves.length
  best_le : ∀ i, i < s.current.operationIdLast →
    s.solution.targetDiff ≤ targetDiffOf s.final.target (s.operation i).result
  best_lt : ∀ i, i < s.current.operationIdLast →
    (E i).leaves.length < s.solution.tileCount →
    s.solution.targetDiff < targetDiffOf s.final.target (s.operation i).result
  best_first : s.solution.operationId < s.operationSize → s.solution.tileCount = 1 →
    ∀ i, i < s.solution.operationId →
    s.solution.targetDiff < targetDiffOf s.final.target (s.operation i).result

/-- What a call of the recorder or of the combiner leaves alone: the target,
the sizes, the bounds of the search, the start of the current group and every
record and tree below it. -/
structure Extends (s : NumbersStruct) (E : Nat → Expr) (s' : NumbersStruct)
    (E' : Nat → Expr) : Prop where
  final_eq : s'.final = s.final
  operationSize_eq : s'.operationSize = s.operationSize
  operationIdSize_eq : s'.operationIdSize = s.operationIdSize
  tileCount_eq : s'.current.tileCount = s.current.tileCount
  complexityMax_eq : s'.current.complexityMax = s.current.complexityMax
  first_eq : s'.current.operationIdFirst = s.current.operationIdFirst
  last_le : s.current.operationIdLast ≤ s'.current.operationIdLast
  aborted_mono : s.solution.aborted = true → s'.solution.aborted = true
  operation_eq : ∀ i, i < s.current.operationIdFirst → s'.operation i = s.operation i
  tree_eq : ∀ i, i < s.current.operationIdFirst → E' i = E i

/-- What the combiner guarantees when it offers the operation `op` with value
`result` on the records `current.operationIdLeft` and
`current.operationIdRight` to the recorder. -/
structure Candidate (tiles : List Nat) (g : Nat) (s : NumbersStruct) (E : Nat → Expr)
    (op result : Nat) : Prop where
  op_lt : op < 4
  left_lt : s.current.operationIdLeft < s.current.operationIdFirst
  right_lt : s.current.operationIdRight < s.current.operationIdFirst
  value : (Expr.node op (E s.current.operationIdLeft) (E s.current.operationIdRight)).value tiles
    = some result
  result_lt : result < 2 ^ 32
  nodup : (Expr.node op (E s.current.operationIdLeft) (E s.current.operationIdRight)).leaves.Nodup
  length : (Expr.node op (E s.current.operationIdLeft)
    (E s.current.operationIdRight)).leaves.length = s.current.tileCount
  mask : ∀ t ∈ (Expr.node op (E s.current.operationIdLeft)
    (E s.current.operationIdRight)).leaves, g.testBit t = true

/-- A finished operation group: a range of records below `bound`, each the
root of a tree over `k` tiles taken from the mask `m`. -/
structure GroupInv (E : Nat → Expr) (m k : Nat) (grp : OperationGroup) (bound : Nat) :
    Prop where
  first_le : grp.operationIdFirst ≤ grp.operationIdLast
  last_le : grp.operationIdLast ≤ bound
  leaves : ∀ i, grp.operationIdFirst ≤ i → i < grp.operationIdLast →
    (∀ t ∈ (E i).leaves, m.testBit t = true) ∧ (E i).leaves.length = k

/-- The number of tiles of a group: the number of bits set in its 8-bit mask. -/
def popCount (m : Nat) : Nat := (List.range 8).countP (fun t => m.testBit t)

/-- The invariant of the loops of `NumbersSolve`, stated between two operation
groups (as if the next group had just been started): the arena invariant, and
every group written so far is a finished group of its mask; `s0` is the object
at the start of the search, whose target and bounds stay. -/
structure SolveInv (tiles : List Nat) (s0 : NumbersStruct) (st : SolveState)
    (E : Nat → Expr) : Prop where
  arena : ArenaInv tiles 0 st.numbersObject.startGroup E
  final_eq : st.numbersObject.final = s0.final
  complexityMax_eq : st.numbersObject.current.complexityMax = s0.current.complexityMax
  operationSize_eq : st.numbersObject.operationSize = s0.operationSize
  operationIdSize_eq : st.numbersObject.operationIdSize = s0.operationIdSize
  length : st.operationGroups.length = 2 ^ tiles.length
  groups : ∀ m grp, st.operationGroups.getD m none = some grp →
    GroupInv E m (popCount m) grp st.numbersObject.current.operationIdLast

/-- All tiles are recorded: the first records of the arena are the leaves, one
per tile. -/
def TilesRecorded (tiles : List Nat) (s : NumbersStruct) : Prop :=
  tiles.length ≤ s.current.operationIdLast
    ∧ ∀ i, i < tiles.length → (s.operation i).op = NOP

/-- Every group of at most `k` tiles among the first `n` has been written. -/
def GroupsBuilt (n k : Nat) (operationGroups : OperationGroups) : Prop :=
  ∀ m, 0 < m → m < 2 ^ n → popCount m ≤ k → ∃ grp, operationGroups.getD m none = some grp

/-- The invariant of the first loop of `NumbersSolve` before tile `j`: one
record and one group per tile so far, unless the arena got full. -/
structure TilesInv (tiles : List Nat) (s0 : NumbersStruct) (j : Nat) (st : SolveState)
    (E : Nat → Expr) : Prop where
  solve : SolveInv tiles s0 st E
  tileCount : st.numbersObject.current.tileCount = 1
  last_le : st.numbersObject.current.operationIdLast ≤ j
  last_eq : st.numbersObject.solution.aborted = false →
    st.numbersObject.current.operationIdLast = j
  groups : ∀ t, t < j → ∃ grp, st.operationGroups.getD ((1 <<< t) % 2 ^ 32) none = some grp
  leaves : ∀ i, i < st.numbersObject.current.operationIdLast →
    (st.numbersObject.operation i).op = NOP

/-- The invariant of the `while` loop of `NumbersSolve`: unless the search was
aborted, all tiles are recorded and all groups up to the current number of
tiles are written. -/
structure SearchInv (tiles : List Nat) (s0 : NumbersStruct) (st : SolveState)
    (E : Nat → Expr) : Prop where
  solve : SolveInv tiles s0 st E
  tileCount_pos : 1 ≤ st.numbersObject.current.tileCount
  recorded : st.numbersObject.solution.aborted = false →
    TilesRecorded tiles st.numbersObject
  built : st.numbersObject.solution.aborted = false →
    GroupsBuilt tiles.length st.numbersObject.current.tileCount st.operationGroups

/-- The invariant of the `do ... while` loop of `NumbersSolve` for groups of `k`
tiles, before the group `st.tileGroup`. -/
structure GroupLoopInv (tiles : List Nat) (s0 : NumbersStruct) (k : Nat) (st : SolveState)
    (E : Nat → Expr) : Prop where
  solve : SolveInv tiles s0 st E
  tileCount : st.numbersObject.current.tileCount = k
  tileGroup_pos : 0 < st.tileGroup
  recorded : st.numbersObject.solution.aborted = false →
    TilesRecorded tiles st.numbersObject
  built : st.numbersObject.solution.aborted = false →
    GroupsBuilt tiles.length (k - 1) st.operationGroups
  before : st.numbersObject.solution.aborted = false →
    ∀ m, m < st.tileGroup → m < 2 ^ tiles.length → popCount m = k →
      ∃ grp, st.operationGroups.getD m none = some grp
  popCount_eq : st.numbersObject.solution.aborted = false →
    st.tileGroup < 2 ^ tiles.length → popCount st.tileGroup = k

/-- The object after the first `j` tiles went through the first loop of
`NumbersSolve`, for the arena capacity `c`: the first `min j c` tiles are
recorded in order, the search is aborted once a tile found the arena full, and
the best record is the first tile closest to the target among those
recorded. -/
structure TilePhase (tiles : List Nat) (target c j : Nat) (s : NumbersStruct) : Prop where
  operationSize_eq : s.operationSize = c
  length_eq : s.operations.length = c
  target_eq : s.final.target = target
  tileCount_eq : s.final.tileCount = tiles.length
  current_tileCount : s.current.tileCount = 1
  last_eq : s.current.operationIdLast = min j c
  aborted_eq : s.solution.aborted = decide (c < j)
  records : ∀ k, k < min j c →
    (s.operation k).result = tiles.getD k 0 ∧ (s.operation k).op = NOP
      ∧ (s.operation k).complexity = 0
  none_yet : j = 0 → s.solution.operationId = c
  best : 0 < j → s.solution.operationId < min j c
    ∧ s.solution.targetDiff = targetDiffOf target (tiles.getD s.solution.operationId 0)
    ∧ (∀ k, k < s.solution.operationId →
        targetDiffOf target (tiles.getD s.solution.operationId 0)
          < targetDiffOf target (tiles.getD k 0))
    ∧ (∀ k, k < min j c →
        targetDiffOf target (tiles.getD s.solution.operationId 0)
          ≤ targetDiffOf target (tiles.getD k 0))

/-- One turn of the loop over `tileSubGroupMask`, seen from the single entry of
number `tileSubGroupNumber`: the entry and the tiles not yet dealt. -/
def tileSubGroupEntryStep (tileSubGroupNumber : Nat) (st : Nat × Nat)
    (tileSubGroupMask : Nat) : Nat × Nat :=
  let tile := lowestBit st.2
  (if tileSubGroupNumber &&& tileSubGroupMask ≠ 0 then (st.1 + tile) % 2 ^ 32 else st.1,
    st.2 - tile)

/-- The entry of number `tileSubGroupNumber` of `tileSubGroups[]`, computed on
its own. -/
def tileSubGroupEntry (tileGroup tileCount tileSubGroupNumber : Nat) : Nat :=
  ((List.range (tileCount - 1)).foldl
    (fun st j => tileSubGroupEntryStep tileSubGroupNumber st (1 <<< j)) (0, tileGroup)).1

/-! ## Pseudo random number generator (RandomLibrary.c) and shuffle -/

/-- `struct RandomStruct`: the 64-bit field `seed`. -/
structure RandomStruct where
  seed : Nat
  deriving DecidableEq, Inhabited

/-- `RandomSetSeed`: the object after the call; `none` is the `NULL` object,
for which nothing is done. -/
def RandomSetSeed (randomObject : Option RandomStruct) (seed : Nat) : Option RandomStruct :=
  match randomObject with
  | none => none
  | some _ => some { seed := (seed ^^^ 0x5DEECE66D) &&& (((1 <<< 48) % 2 ^ 64) - 1) }

/-- `RandomGetValue`: the value returned and the object after the call. The
product and the sum are those of 64-bit unsigned integers. -/
def RandomGetValue (randomObject : Option RandomStruct) : Nat × Option RandomStruct :=
  match randomObject with
  | none => (0, none)
  | some r =>
    let seed := ((r.seed * 0x5DEECE66D + 0xB) % 2 ^ 64) &&& (((1 <<< 48) % 2 ^ 64) - 1)
    ((seed >>> (48 - 32)) % 2 ^ 32, some { seed := seed })

/-- The loop `while (tileId > 1)` of `NumbersShuffle`; `tileId` goes down by
one at every turn, which is what the recursion follows. -/
def NumbersShuffle.loop :
    Nat → List Nat → Option RandomStruct → List Nat × Option RandomStruct
  | 0, values, randomObject => (values, randomObject)
  | tileId + 1, values, randomObject =>
    if tileId + 1 > 1 then
      let r := RandomGetValue randomObject
      let tileSwapId := r.1 % (tileId + 1)
      let values :=
        if tileId ≠ tileSwapId then
          let tileValue := values.getD tileSwapId 0
          (values.set tileSwapId (values.getD tileId 0)).set tileId tileValue
        else values
      NumbersShuffle.loop tileId values r.2
    else (values, randomObject)

/-- What a call of `NumbersShuffle` returns and leaves: the return code, the
tiles and the generator after the call. -/
structure ShuffleResult where
  error : NumbersError
  tiles : Option (List Nat)
  randomObject : Option RandomStruct
  deriving DecidableEq, Inhabited

/-- `NumbersShuffle`. The tiles are the list `tiles->values[0 .. count - 1]`. -/
def NumbersShuffle (tiles : Option (List Nat)) (randomObject : Option RandomStruct) :
    ShuffleResult :=
  match tiles, randomObject with
  | some values, some r =>
    let out := NumbersShuffle.loop values.length values (some r)
    ⟨.Success, some out.1, out.2⟩
  | _, _ => ⟨.NullPointerError, tiles, randomObject⟩

end Numbers
namespace Numbers

/-! ## The course of a solve

The calls of the recorder and the turns of the inner loop of the combiner, in
the order in which `NumbersSolve` goes through them. -/

/-- A call `RecordOperation (numbersObject, op, result, complexity)`: the object
as the recorder finds it, and the arguments. -/
structure RecordCall where
  numbersObject : NumbersStruct
  op : Nat
  result : Nat
  complexity : Nat
  deriving DecidableEq, Inhabited

/-- The object as the call leaves it. -/
def RecordCall.after (call : RecordCall) : NumbersStruct :=
  RecordOperation call.numbersObject call.op call.result call.complexity

/-- Calls of the recorder made in a row from the object `s`, one for each
`(op, result, complexity)`. -/
def recordCalls (s : NumbersStruct) : List (Nat × Nat × Nat) → List RecordCall
  | [] => []
  | (op, result, complexity) :: rest =>
    ⟨s, op, result, complexity⟩ :: recordCalls (RecordOperation s op result complexity) rest

/-- The arguments `(op, result, complexity)` of the calls of the recorder for
one pair of results, once ordered: from "Addition" to the end of the inner
loop body of `CombineOperationGroups`. -/
def CombineOperationGroups.offers
    (resultMax resultMin complexityAB weightA weightB : Nat) : List (Nat × Nat × Nat) :=
  -- Addition
  [(ADD, (resultMax + resultMin) % 2 ^ 32,
      (complexityAB + (if weightA < weightB then weightA else weightB)) % 2 ^ 16)]
  -- Subtraction
  ++ (if resultMax ≠ resultMin ∧ resultMax - resultMin ≠ resultMin then
        [(SUB, resultMax - resultMin, (complexityAB + ((weightA + weightB) >>> 1)) % 2 ^ 16)]
      else [])
  -- Make sure the smallest number is greater than 1
  ++ (if resultMin > 1 then
        -- Multiplication
        let complexity := (weightA * weightB) % 2 ^ 16
        let complexity := (complexityAB + complexity * complexity) % 2 ^ 16
        [(MUL, (resultMax * resultMin) % 2 ^ 32, complexity)]
        -- Division
        ++ (if resultMax = resultMin then [(DIV, 1, (complexityAB + 1) % 2 ^ 16)]
            else
              let result := resultMax / resultMin
              if result ≠ resultMin ∧ (result * resultMin) % 2 ^ 32 = resultMax then
                [(DIV, result, complexity)]
              else [])
      else [])

/-- One turn of the inner loop of `CombineOperationGroups`: the values read
from `operations[operationIdA]` before the loop, the object at the start of the
turn, and `operationIdB`. -/
structure PairVisit where
  operationIdA : Nat
  resultA : Nat
  weightA : Nat
  complexityA : Nat
  numbersObject : NumbersStruct
  operationIdB : Nat
  deriving DecidableEq, Inhabited

/-- The calls of the recorder in one turn of the inner loop of
`CombineOperationGroups`: none when the complexity of the two operands is
above the bound, else those for the ordered pair. -/
def PairVisit.calls (visit : PairVisit) : List RecordCall :=
  let s := visit.numbersObject
  let operationB := s.operation visit.operationIdB
  let complexityAB := (visit.complexityA + operationB.complexity) % 2 ^ 16
  if complexityAB > s.current.complexityMax then []
  else
    let resultB := operationB.result
    let weightB := operationB.weight
    -- Order the results
    if visit.resultA ≥ resultB then
      recordCalls
        { s with current := { s.current with
            operationIdLeft := visit.operationIdA, operationIdRight := visit.operationIdB } }
        (CombineOperationGroups.offers visit.resultA resultB complexityAB visit.weightA weightB)
    else
      recordCalls
        { s with current := { s.current with
            operationIdLeft := visit.operationIdB, operationIdRight := visit.operationIdA } }
        (CombineOperationGroups.offers resultB visit.resultA complexityAB visit.weightA weightB)

/-- The events of a `for` loop: those of each turn, in order. -/
def foldlEvents {σ α ε : Type} (f : σ → α → σ) (events : σ → α → List ε) :
    List α → σ → List ε
  | [], _ => []
  | x :: xs, s => events s x ++ foldlEvents f events xs (f s x)

/-- The events of a `for` loop whose body may be undefined: the loop stops
there. -/
def foldlMEvents {σ α ε : Type} (f : σ → α → Option σ) (events : σ → α → List ε) :
    List α → σ → List ε
  | [], _ => []
  | x :: xs, s =>
    events s x ++
      (match f s x with
      | none => []
      | some s' => foldlMEvents f events xs s')

/-- The events of a `while` loop, with the fuel of `whileLoop`. -/
def whileEvents {σ ε : Type} (cond : σ → Bool) (body : σ → Option σ) (events : σ → List ε) :
    Nat → σ → List ε
  | 0, _ => []
  | fuel + 1, st =>
    if cond st then
      events st ++
        (match body st with
        | none => []
        | some st' => whileEvents cond body events fuel st')
    else []

/-- The turns of the inner loop for one result of the group A (the outer loop
body of `CombineOperationGroups`). -/
def CombineOperationGroups.rowVisits (operationGroupB : OperationGroup)
    (s : NumbersStruct) (operationIdA : Nat) : List PairVisit :=
  let operationA := s.operation operationIdA
  foldlEvents
    (CombineOperationGroups.pair operationIdA operationA.result operationA.weight
      operationA.complexity)
    (fun s operationIdB =>
      [⟨operationIdA, operationA.result, operationA.weight, operationA.complexity, s,
        operationIdB⟩])
    (List.range' operationGroupB.operationIdFirst
      (operationGroupB.operationIdLast - operationGroupB.operationIdFirst)) s

/-- The turns of the inner loop of one call of `CombineOperationGroups`. -/
def CombineOperationGroups.visits (s : NumbersStruct)
    (operationGroupA operationGroupB : OperationGroup) : List PairVisit :=
  foldlEvents (CombineOperationGroups.row operationGroupB)
    (CombineOperationGroups.rowVisits operationGroupB)
    (List.range' operationGroupA.operationIdFirst
      (operationGroupA.operationIdLast - operationGroupA.operationIdFirst)) s

/-- A turn of the inner loop of the combiner during a solve: the local array
`operationGroups[]`, the group of tiles under construction, the sub-group whose
operation group is the group A, and the turn. -/
structure SolveVisit where
  operationGroups : OperationGroups
  tileGroup : Nat
  tileSubGroup : Nat
  pair : PairVisit
  deriving DecidableEq, Inhabited

/-- A call of the recorder during a solve: the local array `operationGroups[]`,
the group of tiles under construction, and the call. -/
structure SolveCall where
  operationGroups : OperationGroups
  tileGroup : Nat
  call : RecordCall
  deriving DecidableEq, Inhabited

/-- The turns of the combiner for one pair of smaller groups (body of the loop
over `tileSubGroupId`). -/
def NumbersSolve.combineSubGroupVisits (operationGroups : OperationGroups) (tileGroup : Nat)
    (s : NumbersStruct) (tileSubGroup : Nat) : List SolveVisit :=
  if s.solution.aborted then []
  else
    match operationGroups.getD tileSubGroup none,
        operationGroups.getD (tileGroup - tileSubGroup) none with
    | some operationGroupA, some operationGroupB =>
      (CombineOperationGroups.visits s operationGroupA operationGroupB).map
        (fun visit => ⟨operationGroups, tileGroup, tileSubGroup, visit⟩)
    | _, _ => []

/-- The turns of the combiner while the operation group of `tileGroup` is
built (body of the `do ... while` loop). -/
def NumbersSolve.buildGroupVisits (st : SolveState) : List SolveVisit :=
  let s := st.numbersObject.startGroup
  foldlMEvents (NumbersSolve.combineSubGroup st.operationGroups st.tileGroup)
    (NumbersSolve.combineSubGroupVisits st.operationGroups st.tileGroup)
    (tileSubGroups st.tileGroup s.current.tileCount) s

/-- The turns of the combiner for all groups with one more tile (body of the
`while` loop). -/
def NumbersSolve.nextTileCountVisits (operationGroupSize : Nat) (st : SolveState) :
    List SolveVisit :=
  let s := st.numbersObject
  let s := { s with current := { s.current with tileCount := s.current.tileCount + 1 } }
  let st := { st with
    numbersObject := s
    tileGroup := ((1 <<< s.current.tileCount) % 2 ^ 32) - 1 }
  NumbersSolve.buildGroupVisits st ++
    (match NumbersSolve.buildGroup st with
    | none => []
    | some st' =>
      whileEvents
        (fun st => decide (st.tileGroup < operationGroupSize) && !st.numbersObject.solution.aborted)
        NumbersSolve.buildGroup NumbersSolve.buildGroupVisits operationGroupSize st')

/-- The calls of the recorder in the first loop of `NumbersSolve`: one per
tile. -/
def NumbersSolve.tileCalls (s : NumbersStruct) (target : Nat) (tiles : List Nat)
    (complexity : Option Nat) : List SolveCall :=
  let s := NumbersSolve.init s target tiles complexity
  let operationGroupSize := (1 <<< s.final.tileCount) % 2 ^ 16
  foldlEvents (NumbersSolve.recordTile tiles)
    (fun st tileId =>
      [⟨st.operationGroups, (1 <<< tileId) % 2 ^ 32,
        ⟨st.numbersObject.startGroup, NOP, tiles.getD tileId 0, 0⟩⟩])
    (List.range s.final.tileCount)
    { numbersObject := s
      operationGroups := List.replicate operationGroupSize none
      tileGroup := 0 }

/-- The turns of the combiner during a solve, in order. -/
def NumbersSolve.visits (s : NumbersStruct) (target : Nat) (tiles : List Nat)
    (complexity : Option Nat) : List SolveVisit :=
  let s := NumbersSolve.init s target tiles complexity
  let operationGroupSize := (1 <<< s.final.tileCount) % 2 ^ 16
  let st : SolveState :=
    (List.range s.final.tileCount).foldl (NumbersSolve.recordTile tiles)
      { numbersObject := s
        operationGroups := List.replicate operationGroupSize none
        tileGroup := 0 }
  whileEvents
    (fun st => decide (st.numbersObject.current.tileCount < st.numbersObject.final.tileCount)
      && decide (st.numbersObject.solution.targetDiff ≠ 0)
      && !st.numbersObject.solution.aborted)
    (NumbersSolve.nextTileCount operationGroupSize)
    (NumbersSolve.nextTileCountVisits operationGroupSize)
    (s.final.tileCount + 1) st

/-- The calls of the recorder that a turn of the combiner makes. -/
def SolveVisit.calls (visit : SolveVisit) : List SolveCall :=
  visit.pair.calls.map (fun call => ⟨visit.operationGroups, visit.tileGroup, call⟩)

/-- All the calls of the recorder during a solve, in order: those for the
tiles, then those of the combiner. -/
def NumbersSolve.calls (s : NumbersStruct) (target : Nat) (tiles : List Nat)
    (complexity : Option Nat) : List SolveCall :=
  NumbersSolve.tileCalls s target tiles complexity
    ++ (NumbersSolve.visits s target tiles complexity).flatMap SolveVisit.calls

/-! ## Invariant of the records -/

/-- The cost that `CombineOperationGroups` adds to the complexities of the two
operands for the operation `op`, from their weights and results. -/
def operationCost (op weightA weightB resultMax resultMin : Nat) : Nat :=
  if op = ADD then (if weightA < weightB then weightA else weightB)
  else if op = SUB then (weightA + weightB) >>> 1
  else if op = DIV ∧ resultMax = resultMin then 1
  else (weightA * weightB) * (weightA * weightB)

/-- What holds of the records written so far, whatever the trees: operands in
order, weights and complexities as the combiner computes them, a result index
that knows the current group, and no difference that is zero. -/
structure RecordInv (s : NumbersStruct) : Prop where
  canonical : ∀ i, i < s.current.operationIdLast → (s.operation i).op ≠ NOP →
    (s.operation (s.operation i).operationIdRight).result
      ≤ (s.operation (s.operation i).operationIdLeft).result
  weight : ∀ i, i < s.current.operationIdLast →
    (s.operation i).weight = ComputeResultWeight (s.operation i).result
  cost : ∀ i, i < s.current.operationIdLast → (s.operation i).op ≠ NOP →
    (s.operation i).complexity
      = (s.operation (s.operation i).operationIdLeft).complexity
        + (s.operation (s.operation i).operationIdRight).complexity
        + operationCost (s.operation i).op
            (s.operation (s.operation i).operationIdLeft).weight
            (s.operation (s.operation i).operationIdRight).weight
            (s.operation (s.operation i).operationIdLeft).result
            (s.operation (s.operation i).operationIdRight).result
  index : ∀ i, s.current.operationIdFirst ≤ i → i < s.current.operationIdLast →
    (s.operation i).result < s.operationIdSize →
    s.operationIds.getD (s.operation i).result 0 = i
  difference : ∀ i, i < s.current.operationIdLast → (s.operation i).op = SUB →
    (s.operation i).result ≠ 0

/-- What the combiner guarantees of a call of the recorder, on the records
alone: the operands are records of earlier groups, in order, and the arguments
are among those offered for their results, weights and complexities. -/
structure CallOk (call : RecordCall) : Prop where
  left_lt : call.numbersObject.current.operationIdLeft
    < call.numbersObject.current.operationIdFirst
  right_lt : call.numbersObject.current.operationIdRight
    < call.numbersObject.current.operationIdFirst
  ordered :
    (call.numbersObject.operation call.numbersObject.current.operationIdRight).result
      ≤ (call.numbersObject.operation call.numbersObject.current.operationIdLeft).result
  within :
    ((call.numbersObject.operation call.numbersObject.current.operationIdLeft).complexity
      + (call.numbersObject.operation call.numbersObject.current.operationIdRight).complexity)
      % 2 ^ 16 ≤ call.numbersObject.current.complexityMax
  offered : ∃ weightA weightB,
    ((weightA = (call.numbersObject.operation
          call.numbersObject.current.operationIdLeft).weight
        ∧ weightB = (call.numbersObject.operation
          call.numbersObject.current.operationIdRight).weight)
      ∨ (weightA = (call.numbersObject.operation
          call.numbersObject.current.operationIdRight).weight
        ∧ weightB = (call.numbersObject.operation
          call.numbersObject.current.operationIdLeft).weight))
    ∧ (call.op, call.result, call.complexity) ∈ CombineOperationGroups.offers
      (call.numbersObject.operation call.numbersObject.current.operationIdLeft).result
      (call.numbersObject.operation call.numbersObject.current.operationIdRight).result
      (((call.numbersObject.operation call.numbersObject.current.operationIdLeft).complexity
        + (call.numbersObject.operation
            call.numbersObject.current.operationIdRight).complexity) % 2 ^ 16)
      weightA weightB

/-- An inner-loop turn of the combiner in order: the arena and its records are,
`operationIdA` and `operationIdB` are records of earlier groups whose trees use
disjoint tiles of the group under construction `g`, as many as the current
number of tiles, and the values read before the loop are those of
`operations[operationIdA]`. -/
structure PairInv (tiles : List Nat) (g : Nat) (E : Nat → Expr) (visit : PairVisit) :
    Prop where
  arena : ArenaInv tiles g visit.numbersObject E
  records : RecordInv visit.numbersObject
  beforeA : visit.operationIdA < visit.numbersObject.current.operationIdFirst
  beforeB : visit.operationIdB < visit.numbersObject.current.operationIdFirst
  resultA : visit.resultA = (visit.numbersObject.operation visit.operationIdA).result
  weightA : visit.weightA = (visit.numbersObject.operation visit.operationIdA).weight
  complexityA :
    visit.complexityA = (visit.numbersObject.operation visit.operationIdA).complexity
  disjoint : List.Disjoint (E visit.operationIdA).leaves (E visit.operationIdB).leaves
  length : (E visit.operationIdA).leaves.length + (E visit.operationIdB).leaves.length
    = visit.numbersObject.current.tileCount
  maskA : ∀ t ∈ (E visit.operationIdA).leaves, g.testBit t = true
  maskB : ∀ t ∈ (E visit.operationIdB).leaves, g.testBit t = true

/-- The operation groups stored so far, seen from the object `s`: each is a
finished group of its mask, below the current group, and its indexed results
are pairwise distinct. -/
structure GroupsInv (E : Nat → Expr) (operationGroups : OperationGroups)
    (s : NumbersStruct) : Prop where
  groups : ∀ m grp, operationGroups.getD m none = some grp →
    GroupInv E m (popCount m) grp s.current.operationIdFirst
  distinct : ∀ m grp, operationGroups.getD m none = some grp →
    ∀ i j, grp.operationIdFirst ≤ i → i < grp.operationIdLast →
      grp.operationIdFirst ≤ j → j < grp.operationIdLast →
      (s.operation i).result = (s.operation j).result →
      (s.operation i).result < s.operationIdSize → i = j

/-- An inner-loop turn of the combiner during a solve, in order: the turn is, the
stored groups are, the group under construction has as many tiles as the
current number of tiles, and the two records come from the stored groups of a
sub-group and of its complement. -/
structure VisitInv (tiles : List Nat) (E : Nat → Expr) (visit : SolveVisit) : Prop where
  pair : PairInv tiles visit.tileGroup E visit.pair
  groups : GroupsInv E visit.operationGroups visit.pair.numbersObject
  tileGroup_lt : visit.tileGroup < 2 ^ tiles.length
  tileCount : popCount visit.tileGroup = visit.pair.numbersObject.current.tileCount
  subGroup : visit.tileSubGroup ∈ tileSubGroups visit.tileGroup (popCount visit.tileGroup)
  groupA : ∃ grp, visit.operationGroups.getD visit.tileSubGroup none = some grp
    ∧ grp.operationIdFirst ≤ visit.pair.operationIdA
    ∧ visit.pair.operationIdA < grp.operationIdLast
  groupB : ∃ grp,
    visit.operationGroups.getD (visit.tileGroup - visit.tileSubGroup) none = some grp
    ∧ grp.operationIdFirst ≤ visit.pair.operationIdB
    ∧ visit.pair.operationIdB < grp.operationIdLast

/-- What is known of a tile offered to the recorder by the first loop of
`NumbersSolve`: a new group is started for the tile `tileId`, whose record gets
the index `tileId` unless the arena is full. -/
structure TileCall (tiles : List Nat) (call : SolveCall) : Prop where
  op_eq : call.call.op = NOP
  complexity_eq : call.call.complexity = 0
  first_eq : call.call.numbersObject.current.operationIdFirst
    = call.call.numbersObject.current.operationIdLast
  tileCount_eq : call.call.numbersObject.current.tileCount = 1
  tile : ∃ tileId, tileId < tiles.length ∧ call.tileGroup = 2 ^ tileId
    ∧ call.call.result = tiles.getD tileId 0
    ∧ call.call.numbersObject.current.operationIdLast ≤ tileId
    ∧ (call.call.numbersObject.current.operationIdLast
        < call.call.numbersObject.operationSize →
      call.call.numbersObject.current.operationIdLast = tileId)

/-- A call of the recorder during a solve, in order: the arena, its records and
the stored groups are, and the call is either for a tile or for a candidate of
the combiner. -/
structure CallInv (tiles : List Nat) (E : Nat → Expr) (call : SolveCall) : Prop where
  arena : ArenaInv tiles call.tileGroup call.call.numbersObject E
  records : RecordInv call.call.numbersObject
  groups : GroupsInv E call.operationGroups call.call.numbersObject
  kind : TileCall tiles call
    ∨ (Candidate tiles call.tileGroup call.call.numbersObject E call.call.op call.call.result
      ∧ CallOk call.call)

/-- What the loops of `NumbersSolve` keep, besides `SolveInv`, between two
operation groups: the invariant of the records, and stored groups whose
indexed results are pairwise distinct. -/
structure CourseInv (st : SolveState) : Prop where
  records : RecordInv st.numbersObject.startGroup
  distinct : ∀ m grp, st.operationGroups.getD m none = some grp →
    ∀ i j, grp.operationIdFirst ≤ i → i < grp.operationIdLast →
      grp.operationIdFirst ≤ j → j < grp.operationIdLast →
      (st.numbersObject.operation i).result = (st.numbersObject.operation j).result →
      (st.numbersObject.operation i).result < st.numbersObject.operationIdSize → i = j

/-! ## Properties of the arena stated by the specification -/

/-- Canonical order: every operation written so far has a left operand whose
result is not below the result of its right operand. -/
def NumbersStruct.Canonical (s : NumbersStruct) : Prop :=
  ∀ i, i < s.current.operationIdLast → (s.operation i).op ≠ NOP →
    (s.operation (s.operation i).operationIdRight).result
      ≤ (s.operation (s.operation i).operationIdLeft).result

/-- Reference order: every operation written so far refers to records below
its own index. -/
def NumbersStruct.ReferenceOrder (s : NumbersStruct) : Prop :=
  ∀ i, i < s.current.operationIdLast → (s.operation i).op ≠ NOP →
    (s.operation i).operationIdLeft < i ∧ (s.operation i).operationIdRight < i

/-- The results below the capacity of the result index are pairwise distinct
within the operation group `grp`. -/
def GroupDistinct (s : NumbersStruct) (grp : OperationGroup) : Prop :=
  ∀ i j, grp.operationIdFirst ≤ i → i < grp.operationIdLast →
    grp.operationIdFirst ≤ j → j < grp.operationIdLast →
    (s.operation i).result = (s.operation j).result →
    (s.operation i).result < s.operationIdSize → i = j

end Numbers
namespace Numbers

/-! ## Trees of the arena -/

/-- The tree that `GenerateSolution` walks from the record `operationId`: a
record without operation is the tile of its index, any other record is its
operation on the trees of its two operands; `fuel` bounds the depth. -/
def NumbersStruct.tree (s : NumbersStruct) : Nat → Nat → Expr
  | 0, operationId => .tile operationId
  | fuel + 1, operationId =>
    let operation := s.operation operationId
    if operation.op = NOP then .tile operationId
    else
      .node operation.op (s.tree fuel operation.operationIdLeft)
        (s.tree fuel operation.operationIdRight)

/-- The operations of a tree in post-order (left operand, right operand, then
the operation), each as its left tile, its right tile and its operator. -/
def Expr.nodes : Expr → List (Nat × Nat × Nat)
  | .tile _ => []
  | .node op left right => left.nodes ++ right.nodes ++ [(left.first, right.first, op)]

/-- The cost of an operation in the complexity model of the specification,
from the values of its two operands. -/
def specCost (op valueLeft valueRight : Nat) : Nat :=
  let wa := ComputeResultWeight valueLeft
  let wb := ComputeResultWeight valueRight
  if op = ADD then min wa wb
  else if op = SUB then (wa + wb) / 2
  else if op = MUL then (wa * wb) ^ 2
  else if valueLeft = valueRight then 1
  else (wa * wb) ^ 2

/-- The complexity of a tree in the complexity model of the specification: 0
for a tile; for an operation, the complexities of its two operands plus the
cost of the operation. -/
def Expr.complexity (tiles : List Nat) : Expr → Nat
  | .tile _ => 0
  | .node op left right =>
    left.complexity tiles + right.complexity tiles
      + specCost op ((left.value tiles).getD 0) ((right.value tiles).getD 0)

/-! ## More properties of the arena -/

/-- Arithmetic consistency: the result of every operation written so far is
that of its operator on the results of its two operands, in 32-bit arithmetic,
and exactly when the sum or the product does not wrap. -/
def NumbersStruct.Arithmetic (s : NumbersStruct) : Prop :=
  ∀ i, i < s.current.operationIdLast → (s.operation i).op ≠ NOP →
    ((s.operation i).op = ADD ∨ (s.operation i).op = SUB ∨ (s.operation i).op = MUL
      ∨ (s.operation i).op = DIV)
    ∧ ((s.operation i).op = ADD →
        (s.operation i).result
          = ((s.operation (s.operation i).operationIdLeft).result
            + (s.operation (s.operation i).operationIdRight).result) % 2 ^ 32
        ∧ ((s.operation (s.operation i).operationIdLeft).result
            + (s.operation (s.operation i).operationIdRight).result < 2 ^ 32 →
          (s.operation i).result
            = (s.operation (s.operation i).operationIdLeft).result
              + (s.operation (s.operation i).operationIdRight).result))
    ∧ ((s.operation i).op = SUB →
        (s.operation (s.operation i).operationIdRight).result
          ≤ (s.operation (s.operation i).operationIdLeft).result
        ∧ (s.operation i).result
          = (s.operation (s.operation i).operationIdLeft).result
            - (s.operation (s.operation i).operationIdRight).result)
    ∧ ((s.operation i).op = MUL →
        (s.operation i).result
          = ((s.operation (s.operation i).operationIdLeft).result
            * (s.operation (s.operation i).operationIdRight).result) % 2 ^ 32
        ∧ ((s.operation (s.operation i).operationIdLeft).result
            * (s.operation (s.operation i).operationIdRight).result < 2 ^ 32 →
          (s.operation i).result
            = (s.operation (s.operation i).operationIdLeft).result
              * (s.operation (s.operation i).operationIdRight).result))
    ∧ ((s.operation i).op = DIV →
        (s.operation i).result * (s.operation (s.operation i).operationIdRight).result
          = (s.operation (s.operation i).operationIdLeft).result)

/-- The search finds every result of the current group that is below the
capacity of the result index. -/
def NumbersStruct.Indexed (s : NumbersStruct) : Prop :=
  ∀ r i, r < s.operationIdSize → s.current.operationIdFirst ≤ i →
    i < s.current.operationIdLast → (s.operation i).result = r → SearchOperation s r = i

/-- No sum and no product among the operations written so far wraps around
32 bits. -/
def NumbersStruct.NoWrap (s : NumbersStruct) : Prop :=
  ∀ i, i < s.current.operationIdLast →
    ((s.operation i).op = ADD →
      (s.operation (s.operation i).operationIdLeft).result
        + (s.operation (s.operation i).operationIdRight).result < 2 ^ 32)
    ∧ ((s.operation i).op = MUL →
      (s.operation (s.operation i).operationIdLeft).result
        * (s.operation (s.operation i).operationIdRight).result < 2 ^ 32)

instance (s : NumbersStruct) : Decidable s.NoWrap := by
  unfold NumbersStruct.NoWrap; infer_instance

/-- Complexity consistency: every record written so far without operation has
complexity 0, every record has the weight of its result, and every operation
has the complexities of its two operands plus the cost of its operator on
their weights. -/
def NumbersStruct.Costed (s : NumbersStruct) : Prop :=
  ∀ i, i < s.current.operationIdLast →
    ((s.operation i).op = NOP → (s.operation i).complexity = 0)
    ∧ (s.operation i).weight = ComputeResultWeight (s.operation i).result
    ∧ ((s.operation i).op ≠ NOP →
      (s.operation i).complexity
        = (s.operation (s.operation i).operationIdLeft).complexity
          + (s.operation (s.operation i).operationIdRight).complexity
          + operationCost (s.operation i).op
              (s.operation (s.operation i).operationIdLeft).weight
              (s.operation (s.operation i).operationIdRight).weight
              (s.operation (s.operation i).operationIdLeft).result
              (s.operation (s.operation i).operationIdRight).result)

/-- Tile usage in the operation group `grp` of the group of tiles `m`, for `n`
tiles: the tree of every record of the group uses every tile of `m`, each once,
and no other tile. -/
def TilesUsed (s : NumbersStruct) (n m : Nat) (grp : OperationGroup) : Prop :=
  ∀ i, grp.operationIdFirst ≤ i → i < grp.operationIdLast →
    (s.tree n i).leaves.Nodup
    ∧ (∀ t ∈ (s.tree n i).leaves, t < n ∧ m.testBit t = true)
    ∧ (∀ t, t < 8 → m.testBit t = true → t ∈ (s.tree n i).leaves)

/-- Tile usage in the arena, for the tiles `tiles`: a record without operation
has the index and the value of a tile, and the two operands of an operation use
different tiles. -/
def NumbersStruct.TilesApart (s : NumbersStruct) (tiles : List Nat) : Prop :=
  ∀ i, i < s.current.operationIdLast →
    ((s.operation i).op = NOP → i < tiles.length ∧ (s.operation i).result = tiles.getD i 0)
    ∧ ((s.operation i).op ≠ NOP →
      List.Disjoint (s.tree tiles.length (s.operation i).operationIdLeft).leaves
        (s.tree tiles.length (s.operation i).operationIdRight).leaves
      ∧ (s.tree tiles.length i).leaves
        = (s.tree tiles.length (s.operation i).operationIdLeft).leaves
          ++ (s.tree tiles.length (s.operation i).operationIdRight).leaves)

/-! ## Enumeration of the groups of tiles -/

/-- The groups of tiles that the `do ... while` loop of `NumbersSolve` goes
through from `tileGroup` on, as long as the search is not aborted: the group,
then those from the next group on if it is below `operationGroupSize`; `none`
when the fuel runs out. -/
def NumbersSolve.tileGroups (operationGroupSize : Nat) : Nat → Nat → Option (List Nat)
  | 0, _ => none
  | fuel + 1, tileGroup =>
    if nextTileGroup tileGroup < operationGroupSize then
      (NumbersSolve.tileGroups operationGroupSize fuel (nextTileGroup tileGroup)).map
        (fun rest => tileGroup :: rest)
    else some [tileGroup]

/-- The array `tileSubGroups[]`, each entry computed on its own. -/
def tileSubGroupEntries (tileGroup tileCount : Nat) : List Nat :=
  (List.range' 1 (((1 <<< (tileCount - 1)) % 2 ^ 32) - 1)).map
    (tileSubGroupEntry tileGroup tileCount)

/-- The states in which the body of the `do ... while` loop of `NumbersSolve`
starts, for all groups with one more tile (body of the `while` loop). -/
def NumbersSolve.nextTileCountBuilds (operationGroupSize : Nat) (st : SolveState) :
    List SolveState :=
  let s := st.numbersObject
  let s := { s with current := { s.current with tileCount := s.current.tileCount + 1 } }
  let st := { st with
    numbersObject := s
    tileGroup := ((1 <<< s.current.tileCount) % 2 ^ 32) - 1 }
  st ::
    (match NumbersSolve.buildGroup st with
    | none => []
    | some st' =>
      whileEvents
        (fun st => decide (st.tileGroup < operationGroupSize) && !st.numbersObject.solution.aborted)
        NumbersSolve.buildGroup (fun st => [st]) operationGroupSize st')

/-- The states in which `NumbersSolve` starts to build an operation group of
two tiles or more, in order. -/
def NumbersSolve.builds (s : NumbersStruct) (target : Nat) (tiles : List Nat)
    (complexity : Option Nat) : List SolveState :=
  let s := NumbersSolve.init s target tiles complexity
  let operationGroupSize := (1 <<< s.final.tileCount) % 2 ^ 16
  let st : SolveState :=
    (List.range s.final.tileCount).foldl (NumbersSolve.recordTile tiles)
      { numbersObject := s
        operationGroups := List.replicate operationGroupSize none
        tileGroup := 0 }
  whileEvents
    (fun st => decide (st.numbersObject.current.tileCount < st.numbersObject.final.tileCount)
      && decide (st.numbersObject.solution.targetDiff ≠ 0)
      && !st.numbersObject.solution.aborted)
    (NumbersSolve.nextTileCount operationGroupSize)
    (NumbersSolve.nextTileCountBuilds operationGroupSize)
    (s.final.tileCount + 1) st

/-- What holds when `NumbersSolve` starts to build an operation group: the
search is not aborted, the group of tiles is among the tiles, the current
number of tiles is two or more, and the invariant of the loop over the groups
holds. -/
def BuildInv (tiles : List Nat) (s0 : NumbersStruct) (st : SolveState) : Prop :=
  ∃ E, GroupLoopInv tiles s0 st.numbersObject.current.tileCount st E
    ∧ st.tileGroup < 2 ^ tiles.length
    ∧ st.numbersObject.solution.aborted = false
    ∧ 2 ≤ st.numbersObject.current.tileCount
    ∧ st.numbersObject.current.tileCount ≤ tiles.length

end Numbers
namespace Numbers

/-! ## Two solves on objects of the same capacities -/

/-- Two objects agree on what a solve has written so far: the target, the
capacities, the bounds of the search, the end of the arena, the best operation
once there is one, and every record written so far (the operands of a record
without operation apart, which are never read). The content of the arena above
`current.operationIdLast`, of the result index, and of the fields that the solve
has not yet written is left free. -/
structure Alike (s1 s2 : NumbersStruct) : Prop where
  final_eq : s1.final = s2.final
  operationSize_eq : s1.operationSize = s2.operationSize
  operationIdSize_eq : s1.operationIdSize = s2.operationIdSize
  tileCount_eq : s1.current.tileCount = s2.current.tileCount
  complexityMax_eq : s1.current.complexityMax = s2.current.complexityMax
  last_eq : s1.current.operationIdLast = s2.current.operationIdLast
  aborted_eq : s1.solution.aborted = s2.solution.aborted
  solution_eq : s1.solution.operationId = s2.solution.operationId
  best_eq : s1.solution.operationId < s1.operationSize →
    s1.solution.targetDiff = s2.solution.targetDiff
    ∧ s1.solution.tileCount = s2.solution.tileCount
  records : ∀ i, i < s1.current.operationIdLast →
    (s1.operation i).result = (s2.operation i).result
    ∧ (s1.operation i).op = (s2.operation i).op
    ∧ (s1.operation i).weight = (s2.operation i).weight
    ∧ (s1.operation i).complexity = (s2.operation i).complexity
    ∧ ((s1.operation i).op ≠ NOP →
      (s1.operation i).operationIdLeft = (s2.operation i).operationIdLeft
      ∧ (s1.operation i).operationIdRight = (s2.operation i).operationIdRight)

/-- What the recorder relies on when it reads the object: arrays of the
capacities, an arena that is not over-full, a best operation among the records
written, and a result index that knows the current group. -/
structure Live (s : NumbersStruct) : Prop where
  wf : s.WellFormed
  last_le : s.current.operationIdLast ≤ s.operationSize
  solution_lt : s.solution.operationId < s.operationSize →
    s.solution.operationId < s.current.operationIdLast
  index : ∀ i, s.current.operationIdFirst ≤ i → i < s.current.operationIdLast →
    (s.operation i).result < s.operationIdSize →
    s.operationIds.getD (s.operation i).result 0 = i

/-- Two states of the loops of `NumbersSolve` agree: the objects do, and the
local variables are the same. -/
structure SolveState.Alike (st1 st2 : SolveState) : Prop where
  object : Numbers.Alike st1.numbersObject st2.numbersObject
  groups : st1.operationGroups = st2.operationGroups
  tileGroup : st1.tileGroup = st2.tileGroup

end Numbers

namespace Numbers

/-! ## Elementary facts about the recorder -/

theorem operation_set (s : NumbersStruct) (ops : List Operation) (j i : Nat) (x : Operation)
    (hops : ops = s.operations.set j x) (hj : j < s.operations.length)
    (s' : NumbersStruct) (hs' : s'.operations = ops) :
    s'.operation i = if i = j then x else s.operation i := by
  subst hops
  unfold NumbersStruct.operation
  rw [hs']
  by_cases h : i = j
  · subst h
    simp [List.getD_eq_getElem?_getD, List.getElem?_set, hj]
  · have h' : j ≠ i := fun e => h e.symm
    simp [List.getD_eq_getElem?_getD, List.getElem?_set, h, h']

theorem targetDiffOf_lt_two_pow (target result : Nat) (ht : target < 2 ^ 32)
    (hr : result < 2 ^ 32) : targetDiffOf target result ≤ UINT32_MAX := by
  unfold targetDiffOf UINT32_MAX
  split_ifs <;> omega

/-- `SearchOperation` returns the sentinel or a record of the current group
holding the result. -/
theorem SearchOperation_cases (s : NumbersStruct) (result : Nat) :
    SearchOperation s result = s.current.operationIdLast
    ∨ (s.current.operationIdFirst ≤ SearchOperation s result
        ∧ SearchOperation s result < s.current.operationIdLast
        ∧ (s.operation (SearchOperation s result)).result = result) := by
  unfold SearchOperation
  by_cases h1 : result < s.operationIdSize
  · simp only [h1, if_true]
    by_cases h2 : s.operationIds.getD result 0 ≥ s.current.operationIdFirst
        ∧ s.operationIds.getD result 0 < s.current.operationIdLast
        ∧ (s.operation (s.operationIds.getD result 0)).result = result
    · rw [if_pos h2]
      exact Or.inr ⟨h2.1, h2.2.1, h2.2.2⟩
    · rw [if_neg h2]
      exact Or.inl rfl
  · simp only [h1, if_false]
    exact Or.inl trivial

/-- The outcomes of `RecordOperation.classify`. -/
theorem RecordOperation.classify_some (s : NumbersStruct) (result complexity : Nat)
    (operationId : Nat) (bestResult : Bool)
    (h : RecordOperation.classify s result complexity = some (operationId, bestResult)) :
    (operationId = s.current.operationIdLast
      ∧ (bestResult = true →
          targetDiffOf s.final.target result < s.solution.targetDiff
          ∨ s.operationSize ≤ s.solution.operationId
          ∨ (targetDiffOf s.final.target result = s.solution.targetDiff
              ∧ s.current.tileCount ≤ s.solution.tileCount
              ∧ complexity < (s.operation s.solution.operationId).complexity))
      ∧ (bestResult = false →
          s.solution.targetDiff ≤ targetDiffOf s.final.target result
          ∧ s.solution.operationId < s.operationSize))
    ∨ (s.current.operationIdFirst ≤ operationId
      ∧ operationId < s.current.operationIdLast
      ∧ (s.operation operationId).result = result
      ∧ s.solution.targetDiff ≤ targetDiffOf s.final.target result
      ∧ s.solution.operationId < s.operationSize) := by
  unfold RecordOperation.classify at h
  simp only [] at h
  by_cases h1 : targetDiffOf s.final.target result < s.solution.targetDiff
      ∨ s.solution.operationId ≥ s.operationSize
  · simp only [h1, if_true, Option.some.injEq, Prod.mk.injEq] at h
    obtain ⟨rfl, rfl⟩ := h
    refine Or.inl ⟨rfl, fun _ => ?_, fun hb => by cases hb⟩
    rcases h1 with h1 | h1
    · exact Or.inl h1
    · exact Or.inr (Or.inl h1)
  · simp only [h1, if_false] at h
    have h1' : s.solution.targetDiff ≤ targetDiffOf s.final.target result
        ∧ s.solution.operationId < s.operationSize := by
      constructor
      · by_contra hc; exact h1 (Or.inl (by omega))
      · by_contra hc; exact h1 (Or.inr (by omega))
    by_cases h2 : s.current.tileCount = s.final.tileCount
    · simp only [h2, if_true] at h
      by_cases h3 : targetDiffOf s.final.target result > s.solution.targetDiff
          ∨ complexity ≥ (s.operation s.solution.operationId).complexity
          ∨ s.final.tileCount > s.solution.tileCount
      · simp only [h3, if_true] at h
        cases h
      · simp only [h3, if_false, Option.some.injEq, Prod.mk.injEq] at h
        obtain ⟨rfl, rfl⟩ := h
        have h3' : ¬ (targetDiffOf s.final.target result > s.solution.targetDiff)
            ∧ ¬ (complexity ≥ (s.operation s.solution.operationId).complexity)
            ∧ ¬ (s.final.tileCount > s.solution.tileCount) := by
          refine ⟨fun c => h3 (Or.inl c), fun c => h3 (Or.inr (Or.inl c)),
            fun c => h3 (Or.inr (Or.inr c))⟩
        rcases SearchOperation_cases s result with hs | hs
        · refine Or.inl ⟨hs, fun _ => Or.inr (Or.inr ⟨?_, ?_, ?_⟩), fun hb => by cases hb⟩
          · omega
          · omega
          · omega
        · exact Or.inr ⟨hs.1, hs.2.1, hs.2.2, h1'.1, h1'.2⟩
    · simp only [h2, if_false] at h
      by_cases h3 : SearchOperation s result = s.current.operationIdLast
      · simp only [h3, if_true, Option.some.injEq, Prod.mk.injEq] at h
        obtain ⟨rfl, hb⟩ := h
        refine Or.inl ⟨rfl, fun hbt => ?_, fun _ => h1'⟩
        rw [hbt] at hb
        have := of_decide_eq_true hb
        exact Or.inr (Or.inr ⟨this.1, by omega, this.2.1⟩)
      · simp only [h3, if_false] at h
        by_cases h4 : complexity ≥ (s.operation (SearchOperation s result)).complexity
        · simp only [h4, if_true] at h
          cases h
        · simp only [h4, if_false, Option.some.injEq, Prod.mk.injEq] at h
          obtain ⟨rfl, rfl⟩ := h
          rcases SearchOperation_cases s result with hs | hs
          · exact absurd hs h3
          · exact Or.inr ⟨hs.1, hs.2.1, hs.2.2, h1'.1, h1'.2⟩

end Numbers

namespace Numbers

/-! ## The recorder keeps the arena invariant -/

theorem Expr.leaves_length_pos (e : Expr) : 0 < e.leaves.length := by
  induction e with
  | tile t => simp [Expr.leaves]
  | node op l r ihl _ => simp only [Expr.leaves, List.length_append]; omega

theorem Expr.node_leaves_length (op : Nat) (l r : Expr) :
    2 ≤ (Expr.node op l r).leaves.length := by
  have := l.leaves_length_pos
  have := r.leaves_length_pos
  simp only [Expr.leaves, List.length_append]; omega

theorem RecordOperation.append_operation (s : NumbersStruct) (op result complexity : Nat)
    (best : Bool) (hlt : s.current.operationIdLast < s.operations.length) (i : Nat) :
    (RecordOperation.append s op result complexity best).operation i =
      if i = s.current.operationIdLast then
        { operationIdLeft := s.current.operationIdLeft
          operationIdRight := s.current.operationIdRight
          result := result
          op := op
          weight := ComputeResultWeight result
          complexity := complexity }
      else s.operation i :=
  operation_set s _ _ i _ rfl hlt _ rfl

theorem RecordOperation.update_operation (s : NumbersStruct) (j op complexity : Nat)
    (hlt : j < s.operations.length) (i : Nat) :
    (RecordOperation.update s j op complexity).operation i =
      if i = j then
        { s.operation j with
          operationIdLeft := s.current.operationIdLeft
          operationIdRight := s.current.operationIdRight
          op := op
          complexity := complexity }
      else s.operation i :=
  operation_set s _ _ i _ rfl hlt _ rfl

theorem RecordOperation.abort_operation (s : NumbersStruct) (i : Nat) :
    (RecordOperation.abort s).operation i = s.operation i := rfl

/-- Giving up on a full arena keeps the invariant. -/
theorem RecordOperation.abort_inv {tiles : List Nat} {g : Nat} {s : NumbersStruct}
    {E : Nat → Expr} (h : ArenaInv tiles g s E)
    (hfull : s.operationSize ≤ s.current.operationIdLast) :
    ArenaInv tiles g (RecordOperation.abort s) E ∧ Extends s E (RecordOperation.abort s) E := by
  refine ⟨?_, ?_⟩
  · exact
      { wf := h.wf
        last_le := h.last_le
        first_le := h.first_le
        final_tileCount := h.final_tileCount
        aborted_full := fun _ => le_antisymm h.last_le hfull
        leaf := h.leaf
        node := h.node
        value := h.value
        result_lt := h.result_lt
        nodup := h.nodup
        leaves_lt := h.leaves_lt
        leaves_le := h.leaves_le
        complexity_le := h.complexity_le
        current_leaves := h.current_leaves
        solution_none := h.solution_none
        solution_lt := h.solution_lt
        solution_diff := h.solution_diff
        solution_tiles := h.solution_tiles
        best_le := h.best_le
        best_lt := h.best_lt
        best_first := h.best_first }
  · exact
      { final_eq := rfl
        operationSize_eq := rfl
        operationIdSize_eq := rfl
        tileCount_eq := rfl
        complexityMax_eq := rfl
        first_eq := rfl
        last_le := le_refl _
        aborted_mono := fun _ => rfl
        operation_eq := fun _ _ => rfl
        tree_eq := fun _ _ => rfl }

theorem Extends.refl (s : NumbersStruct) (E : Nat → Expr) : Extends s E s E :=
  { final_eq := rfl
    operationSize_eq := rfl
    operationIdSize_eq := rfl
    tileCount_eq := rfl
    complexityMax_eq := rfl
    first_eq := rfl
    last_le := le_refl _
    aborted_mono := fun h => h
    operation_eq := fun _ _ => rfl
    tree_eq := fun _ _ => rfl }

theorem Extends.trans {s1 s2 s3 : NumbersStruct} {E1 E2 E3 : Nat → Expr}
    (h12 : Extends s1 E1 s2 E2) (h23 : Extends s2 E2 s3 E3) : Extends s1 E1 s3 E3 :=
  { final_eq := h23.final_eq.trans h12.final_eq
    operationSize_eq := h23.operationSize_eq.trans h12.operationSize_eq
    operationIdSize_eq := h23.operationIdSize_eq.trans h12.operationIdSize_eq
    tileCount_eq := h23.tileCount_eq.trans h12.tileCount_eq
    complexityMax_eq := h23.complexityMax_eq.trans h12.complexityMax_eq
    first_eq := h23.first_eq.trans h12.first_eq
    last_le := le_trans h12.last_le h23.last_le
    aborted_mono := fun h => h23.aborted_mono (h12.aborted_mono h)
    operation_eq := fun i hi =>
      (h23.operation_eq i (by rw [h12.first_eq]; exact hi)).trans (h12.operation_eq i hi)
    tree_eq := fun i hi =>
      (h23.tree_eq i (by rw [h12.first_eq]; exact hi)).trans (h12.tree_eq i hi) }

end Numbers

namespace Numbers

/-- Appending a record keeps the invariant, when the record is the root of the
tree `e` and the `bestResult` flag was set according to the rules of the
recorder. -/
theorem RecordOperation.append_inv {tiles : List Nat} {g : Nat} {s : NumbersStruct}
    {E : Nat → Expr} (h : ArenaInv tiles g s E)
    (hlt : s.current.operationIdLast < s.operationSize)
    (e : Expr) (op result c : Nat) (best : Bool)
    (hleaf : op = NOP → e = .tile s.current.operationIdLast
      ∧ s.current.operationIdLast < tiles.length ∧ c = 0)
    (hnode : op ≠ NOP → op < 4
      ∧ s.current.operationIdLeft < s.current.operationIdFirst
      ∧ s.current.operationIdRight < s.current.operationIdFirst
      ∧ e = .node op (E s.current.operationIdLeft) (E s.current.operationIdRight))
    (hvalue : e.value tiles = some result)
    (hres : result < 2 ^ 32)
    (hnodup : e.leaves.Nodup)
    (hleaves : ∀ t ∈ e.leaves, t < tiles.length)
    (hlen : e.leaves.length = s.current.tileCount)
    (hmask : ∀ t ∈ e.leaves, g.testBit t = true)
    (hc : c ≤ s.current.complexityMax)
    (hbest : best = true →
      targetDiffOf s.final.target result < s.solution.targetDiff
      ∨ s.operationSize ≤ s.solution.operationId
      ∨ (targetDiffOf s.final.target result = s.solution.targetDiff
          ∧ s.current.tileCount ≤ s.solution.tileCount
          ∧ c < (s.operation s.solution.operationId).complexity))
    (hnot : best = false →
      s.solution.targetDiff ≤ targetDiffOf s.final.target result
      ∧ s.solution.operationId < s.operationSize) :
    ArenaInv tiles g (RecordOperation.append s op result c best)
        (Function.update E s.current.operationIdLast e)
      ∧ Extends s E (RecordOperation.append s op result c best)
        (Function.update E s.current.operationIdLast e) := by
  have hwf := h.wf
  obtain ⟨hw1, hw2, hw3, hw4, hw5, hw6⟩ := hwf
  have hLlen : s.current.operationIdLast < s.operations.length := by rw [hw5]; exact hlt
  have hop := RecordOperation.append_operation s op result c best hLlen
  have hopL : (RecordOperation.append s op result c best).operation s.current.operationIdLast =
      { operationIdLeft := s.current.operationIdLeft
        operationIdRight := s.current.operationIdRight
        result := result
        op := op
        weight := ComputeResultWeight result
        complexity := c } := by rw [hop]; simp
  have hopne : ∀ i, i < s.current.operationIdLast →
      (RecordOperation.append s op result c best).operation i = s.operation i := by
    intro i hi; rw [hop]; simp [Nat.ne_of_lt hi]
  have hEL : Function.update E s.current.operationIdLast e s.current.operationIdLast = e := by simp
  have hEne : ∀ i, i < s.current.operationIdLast →
      Function.update E s.current.operationIdLast e i = E i := by
    intro i hi; simp [Function.update, Nat.ne_of_lt hi]
  have hfirst := h.first_le
  -- the solution fields after the call
  have hsolId : (RecordOperation.append s op result c best).solution.operationId =
      if best then s.current.operationIdLast else s.solution.operationId := by
    cases best <;> rfl
  have hsolDiff : (RecordOperation.append s op result c best).solution.targetDiff =
      if best then targetDiffOf s.final.target result else s.solution.targetDiff := by
    cases best <;> rfl
  have hsolTiles : (RecordOperation.append s op result c best).solution.tileCount =
      if best then s.current.tileCount else s.solution.tileCount := by
    cases best <;> rfl
  have hsolAb : (RecordOperation.append s op result c best).solution.aborted =
      s.solution.aborted := by
    cases best <;> rfl
  -- a solution with one tile is a leaf, of complexity 0
  have hsolLeaf : s.solution.operationId < s.operationSize → s.solution.tileCount = 1 →
      (s.operation s.solution.operationId).complexity = 0 := by
    intro h1 h2
    have hsl := h.solution_lt h1
    by_cases hnop : (s.operation s.solution.operationId).op = NOP
    · exact (h.leaf _ hsl hnop).2.2
    · have := (h.node _ hsl hnop).2.2.2.2
      have hlen2 := Expr.node_leaves_length (s.operation s.solution.operationId).op
        (E (s.operation s.solution.operationId).operationIdLeft)
        (E (s.operation s.solution.operationId).operationIdRight)
      rw [← this, ← h.solution_tiles h1] at hlen2
      omega
  have hsolTilesLe : s.solution.operationId < s.operationSize →
      s.solution.tileCount ≤ s.current.tileCount := by
    intro h1
    rw [h.solution_tiles h1]
    exact h.leaves_le _ (h.solution_lt h1)
  refine ⟨?_, ?_⟩
  · refine
      { wf := ?_, last_le := ?_, first_le := ?_, final_tileCount := h.final_tileCount,
        aborted_full := ?_, leaf := ?_, node := ?_, value := ?_, result_lt := ?_,
        nodup := ?_, leaves_lt := ?_, leaves_le := ?_, complexity_le := ?_,
        current_leaves := ?_, solution_none := ?_, solution_lt := ?_, solution_diff := ?_,
        solution_tiles := ?_, best_le := ?_, best_lt := ?_, best_first := ?_ }
    · refine ⟨hw1, hw2, hw3, hw4, ?_, ?_⟩
      · show (s.operations.set _ _).length = s.operationSize
        rw [List.length_set]; exact hw5
      · show (if result < s.operationIdSize then s.operationIds.set result s.current.operationIdLast
            else s.operationIds).length = s.operationIdSize
        split_ifs
        · rw [List.length_set]; exact hw6
        · exact hw6
    · show s.current.operationIdLast + 1 ≤ s.operationSize
      omega
    · show s.current.operationIdFirst ≤ s.current.operationIdLast + 1
      omega
    · intro hab
      rw [hsolAb] at hab
      have := h.aborted_full hab
      omega
    · -- leaf
      intro i hi hnop
      have hi' : i < s.current.operationIdLast + 1 := hi
      by_cases hiL : i = s.current.operationIdLast
      · subst hiL
        rw [hopL] at hnop ⊢
        simp only [] at hnop ⊢
        rw [hEL]
        exact hleaf hnop
      · have hi2 : i < s.current.operationIdLast := by omega
        rw [hopne i hi2] at hnop ⊢
        rw [hEne i hi2]
        exact h.leaf i hi2 hnop
    · -- node
      intro i hi hnop
      have hi' : i < s.current.operationIdLast + 1 := hi
      by_cases hiL : i = s.current.operationIdLast
      · subst hiL
        rw [hopL] at hnop ⊢
        simp only [] at hnop ⊢
        obtain ⟨h1, h2, h3, h4⟩ := hnode hnop
        have h2' : s.current.operationIdLeft < s.current.operationIdLast := by omega
        have h3' : s.current.operationIdRight < s.current.operationIdLast := by omega
        refine ⟨h1, h2', h3', fun _ => ⟨h2, h3⟩, ?_⟩
        rw [hEL, hEne _ h2', hEne _ h3']
        exact h4
      · have hi2 : i < s.current.operationIdLast := by omega
        rw [hopne i hi2] at hnop ⊢
        obtain ⟨h1, h2, h3, h4, h5⟩ := h.node i hi2 hnop
        refine ⟨h1, h2, h3, h4, ?_⟩
        rw [hEne i hi2, hEne _ (by omega), hEne _ (by omega)]
        exact h5
    · -- value
      intro i hi
      have hi' : i < s.current.operationIdLast + 1 := hi
      by_cases hiL : i = s.current.operationIdLast
      · subst hiL
        rw [hopL, hEL]
        exact hvalue
      · have hi2 : i < s.current.operationIdLast := by omega
        rw [hopne i hi2, hEne i hi2]
        exact h.value i hi2
    · -- result_lt
      intro i hi
      have hi' : i < s.current.operationIdLast + 1 := hi
      by_cases hiL : i = s.current.operationIdLast
      · subst hiL
        rw [hopL]
        exact hres
      · have hi2 : i < s.current.operationIdLast := by omega
        rw [hopne i hi2]
        exact h.result_lt i hi2
    · -- nodup
      intro i hi
      have hi' : i < s.current.operationIdLast + 1 := hi
      by_cases hiL : i = s.current.operationIdLast
      · subst hiL
        rw [hEL]
        exact hnodup
      · have hi2 : i < s.current.operationIdLast := by omega
        rw [hEne i hi2]
        exact h.nodup i hi2
    · -- leaves_lt
      intro i hi
      have hi' : i < s.current.operationIdLast + 1 := hi
      by_cases hiL : i = s.current.operationIdLast
      · subst hiL
        rw [hEL]
        exact hleaves
      · have hi2 : i < s.current.operationIdLast := by omega
        rw [hEne i hi2]
        exact h.leaves_lt i hi2
    · -- leaves_le
      intro i hi
      have hi' : i < s.current.operationIdLast + 1 := hi
      show _ ≤ s.current.tileCount
      by_cases hiL : i = s.current.operationIdLast
      · subst hiL
        rw [hEL, hlen]
      · have hi2 : i < s.current.operationIdLast := by omega
        rw [hEne i hi2]
        exact h.leaves_le i hi2
    · -- complexity_le
      intro i hi
      have hi' : i < s.current.operationIdLast + 1 := hi
      show _ ≤ s.current.complexityMax
      by_cases hiL : i = s.current.operationIdLast
      · subst hiL
        rw [hopL]
        exact hc
      · have hi2 : i < s.current.operationIdLast := by omega
        rw [hopne i hi2]
        exact h.complexity_le i hi2
    · -- current_leaves
      intro i hif hi
      have hi' : i < s.current.operationIdLast + 1 := hi
      have hif' : s.current.operationIdFirst ≤ i := hif
      show _ ∧ _ = s.current.tileCount
      by_cases hiL : i = s.current.operationIdLast
      · subst hiL
        rw [hEL]
        exact ⟨hmask, hlen⟩
      · have hi2 : i < s.current.operationIdLast := by omega
        rw [hEne i hi2]
        exact h.current_leaves i hif' hi2
    · -- solution_none
      intro hsol
      rw [hsolId] at hsol
      have hsz : (RecordOperation.append s op result c best).operationSize = s.operationSize := rfl
      rw [hsz] at hsol
      cases best
      · simp only [Bool.false_eq_true, if_false] at hsol
        have := (hnot rfl).2
        omega
      · simp only [if_true] at hsol
        omega
    · -- solution_lt
      intro hsol
      rw [hsolId] at hsol ⊢
      have hsz : (RecordOperation.append s op result c best).operationSize = s.operationSize := rfl
      rw [hsz] at hsol
      show _ < s.current.operationIdLast + 1
      cases best
      · simp only [Bool.false_eq_true, if_false] at hsol ⊢
        have := h.solution_lt hsol
        omega
      · simp only [if_true]
        omega
    · -- solution_diff
      intro hsol
      rw [hsolId] at hsol ⊢
      have hsz : (RecordOperation.append s op result c best).operationSize = s.operationSize := rfl
      rw [hsz] at hsol
      rw [hsolDiff]
      show _ = targetDiffOf s.final.target _
      cases best
      · simp only [Bool.false_eq_true, if_false] at hsol ⊢
        rw [hopne _ (h.solution_lt hsol)]
        exact h.solution_diff hsol
      · simp only [if_true]
        rw [hopL]
    · -- solution_tiles
      intro hsol
      have hsz : (RecordOperation.append s op result c best).operationSize = s.operationSize := rfl
      rw [hsz] at hsol
      cases best
      · have hsol' : s.solution.operationId < s.operationSize := hsol
        show s.solution.tileCount
          = (Function.update E s.current.operationIdLast e s.solution.operationId).leaves.length
        rw [hEne _ (h.solution_lt hsol')]
        exact h.solution_tiles hsol'
      · show s.current.tileCount
          = (Function.update E s.current.operationIdLast e s.current.operationIdLast).leaves.length
        rw [hEL, hlen]
    · -- best_le
      intro i hi
      have hi' : i < s.current.operationIdLast + 1 := hi
      rw [hsolDiff]
      show _ ≤ targetDiffOf s.final.target _
      by_cases hiL : i = s.current.operationIdLast
      · subst hiL
        rw [hopL]
        cases best
        · simp only [Bool.false_eq_true, if_false]
          exact (hnot rfl).1
        · simp only [if_true]
          exact le_refl _
      · have hi2 : i < s.current.operationIdLast := by omega
        rw [hopne i hi2]
        have hle := h.best_le i hi2
        cases best
        · simp only [Bool.false_eq_true, if_false]
          exact hle
        · simp only [if_true]
          rcases hbest rfl with hb | hb | hb
          · omega
          · have := h.solution_none hb
            omega
          · omega
    · -- best_lt
      intro i hi hlen'
      have hi' : i < s.current.operationIdLast + 1 := hi
      rw [hsolDiff]
      rw [hsolTiles] at hlen'
      show _ < targetDiffOf s.final.target _
      by_cases hiL : i = s.current.operationIdLast
      · subst hiL
        rw [hEL, hlen] at hlen'
        cases best
        · simp only [Bool.false_eq_true, if_false] at hlen'
          have := hsolTilesLe (hnot rfl).2
          omega
        · simp only [if_true] at hlen'
          omega
      · have hi2 : i < s.current.operationIdLast := by omega
        rw [hopne i hi2]
        rw [hEne i hi2] at hlen'
        have hle := h.best_le i hi2
        cases best
        · simp only [Bool.false_eq_true, if_false] at hlen' ⊢
          exact h.best_lt i hi2 hlen'
        · simp only [if_true] at hlen' ⊢
          rcases hbest rfl with hb | hb | hb
          · omega
          · have := h.solution_none hb
            omega
          · have hsol : s.solution.operationId < s.operationSize := by
              by_contra hcon
              have := h.solution_none (by omega)
              omega
            have := hsolTilesLe hsol
            have := h.best_lt i hi2 (by omega)
            omega
    · -- best_first
      intro hsol0 htc i hi
      rw [hsolTiles] at htc
      rw [hsolId] at hi
      rw [hsolDiff]
      show _ < targetDiffOf s.final.target _
      cases best
      · simp only [Bool.false_eq_true, if_false] at htc hi ⊢
        have hsol := (hnot rfl).2
        have := h.solution_lt hsol
        rw [hopne i (by omega)]
        exact h.best_first hsol htc i hi
      · simp only [if_true] at htc hi ⊢
        rw [hopne i hi]
        have hle := h.best_le i hi
        rcases hbest rfl with hb | hb | hb
        · omega
        · have := h.solution_none hb
          omega
        · have hsol : s.solution.operationId < s.operationSize := by
            by_contra hcon
            have := h.solution_none (by omega)
            omega
          have h1 := hsolTilesLe hsol
          have h2 := hsolLeaf hsol (by omega)
          omega
  · exact
      { final_eq := rfl
        operationSize_eq := rfl
        operationIdSize_eq := rfl
        tileCount_eq := rfl
        complexityMax_eq := rfl
        first_eq := rfl
        last_le := Nat.le_succ _
        aborted_mono := fun hab => by rw [hsolAb]; exact hab
        operation_eq := fun i hi => hopne i (by omega)
        tree_eq := fun i hi => hEne i (by omega) }

end Numbers

namespace Numbers

/-- Updating a record of the current group in place keeps the invariant, when
the new operation is the root of the tree `e` with the same value. -/
theorem RecordOperation.update_inv {tiles : List Nat} {g : Nat} {s : NumbersStruct}
    {E : Nat → Expr} (h : ArenaInv tiles g s E) (j : Nat)
    (hj1 : s.current.operationIdFirst ≤ j) (hj2 : j < s.current.operationIdLast)
    (e : Expr) (op c : Nat) (hop : op < 4)
    (hl : s.current.operationIdLeft < s.current.operationIdFirst)
    (hr : s.current.operationIdRight < s.current.operationIdFirst)
    (he : e = .node op (E s.current.operationIdLeft) (E s.current.operationIdRight))
    (hvalue : e.value tiles = some (s.operation j).result)
    (hnodup : e.leaves.Nodup)
    (hleaves : ∀ t ∈ e.leaves, t < tiles.length)
    (hlen : e.leaves.length = s.current.tileCount)
    (hmask : ∀ t ∈ e.leaves, g.testBit t = true)
    (hc : c ≤ s.current.complexityMax) :
    ArenaInv tiles g (RecordOperation.update s j op c) (Function.update E j e)
      ∧ Extends s E (RecordOperation.update s j op c) (Function.update E j e) := by
  obtain ⟨hw1, hw2, hw3, hw4, hw5, hw6⟩ := h.wf
  have hlast := h.last_le
  have hjlen : j < s.operations.length := by rw [hw5]; omega
  have hop' := RecordOperation.update_operation s j op c hjlen
  have hopj : (RecordOperation.update s j op c).operation j =
      { s.operation j with
        operationIdLeft := s.current.operationIdLeft
        operationIdRight := s.current.operationIdRight
        op := op
        complexity := c } := by rw [hop']; simp
  have hopne : ∀ i, i ≠ j → (RecordOperation.update s j op c).operation i = s.operation i := by
    intro i hi; rw [hop']; simp [hi]
  have hEj : Function.update E j e j = e := by simp
  have hEne : ∀ i, i ≠ j → Function.update E j e i = E i := by
    intro i hi; simp [Function.update, hi]
  have hres : ∀ i, ((RecordOperation.update s j op c).operation i).result
      = (s.operation i).result := by
    intro i
    by_cases hij : i = j
    · subst hij; rw [hopj]
    · rw [hopne i hij]
  have hlenj : (E j).leaves.length = s.current.tileCount := (h.current_leaves j hj1 hj2).2
  have hlenE : ∀ i, (Function.update E j e i).leaves.length = (E i).leaves.length := by
    intro i
    by_cases hij : i = j
    · subst hij; rw [hEj, hlen, hlenj]
    · rw [hEne i hij]
  have hopNOP : op ≠ NOP := by unfold NOP; omega
  refine ⟨?_, ?_⟩
  · refine
      { wf := ?_, last_le := h.last_le, first_le := h.first_le,
        final_tileCount := h.final_tileCount,
        aborted_full := h.aborted_full, leaf := ?_, node := ?_, value := ?_, result_lt := ?_,
        nodup := ?_, leaves_lt := ?_, leaves_le := ?_, complexity_le := ?_,
        current_leaves := ?_, solution_none := h.solution_none, solution_lt := h.solution_lt,
        solution_diff := ?_, solution_tiles := ?_, best_le := ?_, best_lt := ?_,
        best_first := ?_ }
    · refine ⟨hw1, hw2, hw3, hw4, ?_, hw6⟩
      show (s.operations.set _ _).length = s.operationSize
      rw [List.length_set]; exact hw5
    · -- leaf
      intro i hi hnop
      have hi' : i < s.current.operationIdLast := hi
      by_cases hij : i = j
      · subst hij
        rw [hopj] at hnop
        exact absurd hnop hopNOP
      · rw [hopne i hij] at hnop ⊢
        rw [hEne i hij]
        exact h.leaf i hi' hnop
    · -- node
      intro i hi hnop
      have hi' : i < s.current.operationIdLast := hi
      show _ ∧ _ ∧ _ ∧ (s.current.operationIdFirst ≤ i → _ < s.current.operationIdFirst
        ∧ _ < s.current.operationIdFirst) ∧ _
      by_cases hij : i = j
      · subst hij
        rw [hopj]
        simp only []
        refine ⟨hop, by omega, by omega, fun _ => ⟨hl, hr⟩, ?_⟩
        rw [hEj, hEne _ (by omega), hEne _ (by omega)]
        exact he
      · rw [hopne i hij] at hnop ⊢
        obtain ⟨h1, h2, h3, h4, h5⟩ := h.node i hi' hnop
        refine ⟨h1, h2, h3, h4, ?_⟩
        have hne : (s.operation i).operationIdLeft ≠ j ∧ (s.operation i).operationIdRight ≠ j := by
          by_cases hif : s.current.operationIdFirst ≤ i
          · have := h4 hif
            omega
          · omega
        rw [hEne i hij, hEne _ hne.1, hEne _ hne.2]
        exact h5
    · -- value
      intro i hi
      have hi' : i < s.current.operationIdLast := hi
      rw [hres]
      by_cases hij : i = j
      · subst hij
        rw [hEj]; exact hvalue
      · rw [hEne i hij]; exact h.value i hi'
    · intro i hi
      rw [hres]; exact h.result_lt i hi
    · -- nodup
      intro i hi
      by_cases hij : i = j
      · subst hij
        rw [hEj]; exact hnodup
      · rw [hEne i hij]; exact h.nodup i hi
    · intro i hi
      by_cases hij : i = j
      · subst hij
        rw [hEj]; exact hleaves
      · rw [hEne i hij]; exact h.leaves_lt i hi
    · intro i hi
      rw [hlenE]; exact h.leaves_le i hi
    · -- complexity_le
      intro i hi
      show _ ≤ s.current.complexityMax
      by_cases hij : i = j
      · subst hij
        rw [hopj]; exact hc
      · rw [hopne i hij]; exact h.complexity_le i hi
    · -- current_leaves
      intro i hif hi
      show _ ∧ _ = s.current.tileCount
      by_cases hij : i = j
      · subst hij
        rw [hEj]; exact ⟨hmask, hlen⟩
      · rw [hEne i hij]; exact h.current_leaves i hif hi
    · intro hsol
      show s.solution.targetDiff = targetDiffOf s.final.target _
      rw [hres]; exact h.solution_diff hsol
    · intro hsol
      show s.solution.tileCount = _
      rw [hlenE]; exact h.solution_tiles hsol
    · intro i hi
      show s.solution.targetDiff ≤ targetDiffOf s.final.target _
      rw [hres]; exact h.best_le i hi
    · intro i hi hlt
      show s.solution.targetDiff < targetDiffOf s.final.target _
      rw [hres]
      rw [hlenE] at hlt
      exact h.best_lt i hi hlt
    · intro hsol htc i hi
      show s.solution.targetDiff < targetDiffOf s.final.target _
      rw [hres]
      exact h.best_first hsol htc i hi
  · exact
      { final_eq := rfl
        operationSize_eq := rfl
        operationIdSize_eq := rfl
        tileCount_eq := rfl
        complexityMax_eq := rfl
        first_eq := rfl
        last_le := le_refl _
        aborted_mono := fun hab => hab
        operation_eq := fun i hi => hopne i (by omega)
        tree_eq := fun i hi => hEne i (by omega) }

end Numbers

namespace Numbers

/-- The recorder keeps the invariant when the combiner offers a candidate. -/
theorem RecordOperation_inv {tiles : List Nat} {g : Nat} {s : NumbersStruct}
    {E : Nat → Expr} (h : ArenaInv tiles g s E) {op result : Nat}
    (hc : Candidate tiles g s E op result) (c : Nat) :
    ∃ E', ArenaInv tiles g (RecordOperation s op result c) E'
      ∧ Extends s E (RecordOperation s op result c) E' := by
  have hNOP : op ≠ NOP := by have := hc.op_lt; unfold NOP; omega
  have hfirst := h.first_le
  have hleaves : ∀ t ∈ (Expr.node op (E s.current.operationIdLeft)
      (E s.current.operationIdRight)).leaves, t < tiles.length := by
    intro t ht
    simp only [Expr.leaves, List.mem_append] at ht
    rcases ht with ht | ht
    · exact h.leaves_lt _ (by have := hc.left_lt; omega) t ht
    · exact h.leaves_lt _ (by have := hc.right_lt; omega) t ht
  unfold RecordOperation
  by_cases h1 : c > s.current.complexityMax
  · rw [if_pos h1]
    exact ⟨E, h, Extends.refl s E⟩
  · rw [if_neg h1]
    cases hcl : RecordOperation.classify s result c with
    | none => exact ⟨E, h, Extends.refl s E⟩
    | some p =>
      obtain ⟨operationId, best⟩ := p
      simp only []
      rcases RecordOperation.classify_some s result c operationId best hcl with hA | hB
      · obtain ⟨hid, hbt, hbf⟩ := hA
        subst hid
        rw [if_pos rfl]
        by_cases hfull : s.current.operationIdLast ≥ s.operationSize
        · rw [if_pos hfull]
          exact ⟨E, RecordOperation.abort_inv h hfull⟩
        · rw [if_neg hfull]
          exact ⟨_, RecordOperation.append_inv h (by omega) _ op result c best
            (fun hn => absurd hn hNOP)
            (fun _ => ⟨hc.op_lt, hc.left_lt, hc.right_lt, rfl⟩)
            hc.value hc.result_lt hc.nodup hleaves hc.length hc.mask (by omega) hbt hbf⟩
      · obtain ⟨hj1, hj2, hres, _, _⟩ := hB
        rw [if_neg (by omega)]
        exact ⟨_, RecordOperation.update_inv h operationId hj1 hj2 _ op c hc.op_lt hc.left_lt
          hc.right_lt rfl (by rw [hres]; exact hc.value) hc.nodup hleaves hc.length hc.mask
          (by omega)⟩

/-- The recorder keeps the invariant when `NumbersSolve` records a tile: the
current group is empty and, unless the arena is full, the next free record has
the index of the tile. -/
theorem RecordOperation_tile_inv {tiles : List Nat} {g : Nat} {s : NumbersStruct}
    {E : Nat → Expr} (h : ArenaInv tiles g s E) (result : Nat)
    (hcf : s.current.operationIdFirst = s.current.operationIdLast)
    (htc : s.current.tileCount = 1)
    (hL : s.current.operationIdLast < s.operationSize →
      s.current.operationIdLast < tiles.length
      ∧ result = tiles.getD s.current.operationIdLast 0
      ∧ g.testBit s.current.operationIdLast = true)
    (hres : result < 2 ^ 32) :
    ∃ E', ArenaInv tiles g (RecordOperation s NOP result 0) E'
      ∧ Extends s E (RecordOperation s NOP result 0) E' := by
  unfold RecordOperation
  rw [if_neg (by omega)]
  cases hcl : RecordOperation.classify s result 0 with
  | none => exact ⟨E, h, Extends.refl s E⟩
  | some p =>
    obtain ⟨operationId, best⟩ := p
    simp only []
    rcases RecordOperation.classify_some s result 0 operationId best hcl with hA | hB
    · obtain ⟨hid, hbt, hbf⟩ := hA
      subst hid
      rw [if_pos rfl]
      by_cases hfull : s.current.operationIdLast ≥ s.operationSize
      · rw [if_pos hfull]
        exact ⟨E, RecordOperation.abort_inv h hfull⟩
      · rw [if_neg hfull]
        obtain ⟨hl1, hl2, hl3⟩ := hL (by omega)
        refine ⟨_, RecordOperation.append_inv h (by omega) (.tile s.current.operationIdLast)
          NOP result 0 best (fun _ => ⟨rfl, hl1, rfl⟩) (fun hn => absurd rfl hn)
          ?_ hres ?_ ?_ ?_ ?_ (Nat.zero_le _) hbt hbf⟩
        · simp [Expr.value, hl1, hl2]
        · simp [Expr.leaves]
        · intro t ht
          simp only [Expr.leaves, List.mem_singleton] at ht
          rw [ht]; exact hl1
        · simp [Expr.leaves, htc]
        · intro t ht
          simp only [Expr.leaves, List.mem_singleton] at ht
          rw [ht]; exact hl3
    · obtain ⟨hj1, hj2, _⟩ := hB
      omega

end Numbers

namespace Numbers

/-! ## The combiner keeps the arena invariant -/

theorem RecordOperation_left_right (s : NumbersStruct) (op result c : Nat) :
    (RecordOperation s op result c).current.operationIdLeft = s.current.operationIdLeft
    ∧ (RecordOperation s op result c).current.operationIdRight
        = s.current.operationIdRight := by
  unfold RecordOperation
  by_cases h1 : c > s.current.complexityMax
  · rw [if_pos h1]; exact ⟨rfl, rfl⟩
  · rw [if_neg h1]
    cases RecordOperation.classify s result c with
    | none => exact ⟨rfl, rfl⟩
    | some p =>
      obtain ⟨operationId, best⟩ := p
      simp only []
      split_ifs <;> exact ⟨rfl, rfl⟩

/-- Setting the operands of the next candidates does not touch what the arena
invariant speaks about. -/
theorem ArenaInv.set_operands {tiles : List Nat} {g : Nat} {s : NumbersStruct}
    {E : Nat → Expr} (h : ArenaInv tiles g s E) (l r : Nat) :
    ArenaInv tiles g
      { s with current := { s.current with operationIdLeft := l, operationIdRight := r } } E :=
  ⟨h.wf, h.last_le, h.first_le, h.final_tileCount, h.aborted_full, h.leaf, h.node, h.value,
    h.result_lt, h.nodup, h.leaves_lt, h.leaves_le, h.complexity_le, h.current_leaves,
    h.solution_none, h.solution_lt, h.solution_diff, h.solution_tiles, h.best_le, h.best_lt,
    h.best_first⟩

theorem Extends.of_set_operands (s : NumbersStruct) (E : Nat → Expr) (l r : Nat) :
    Extends s E
      { s with current := { s.current with operationIdLeft := l, operationIdRight := r } } E :=
  { final_eq := rfl
    operationSize_eq := rfl
    operationIdSize_eq := rfl
    tileCount_eq := rfl
    complexityMax_eq := rfl
    first_eq := rfl
    last_le := le_refl _
    aborted_mono := fun hab => hab
    operation_eq := fun _ _ => rfl
    tree_eq := fun _ _ => rfl }

/-- A candidate stays a candidate in every later state of the same group. -/
theorem Candidate.extend {tiles : List Nat} {g : Nat} {s s' : NumbersStruct}
    {E E' : Nat → Expr} {op result : Nat} (hc : Candidate tiles g s E op result)
    (hx : Extends s E s' E')
    (hl : s'.current.operationIdLeft = s.current.operationIdLeft)
    (hr : s'.current.operationIdRight = s.current.operationIdRight) :
    Candidate tiles g s' E' op result := by
  have h1 := hx.tree_eq _ hc.left_lt
  have h2 := hx.tree_eq _ hc.right_lt
  exact
    { op_lt := hc.op_lt
      left_lt := by rw [hl, hx.first_eq]; exact hc.left_lt
      right_lt := by rw [hr, hx.first_eq]; exact hc.right_lt
      value := by rw [hl, hr, h1, h2]; exact hc.value
      result_lt := hc.result_lt
      nodup := by rw [hl, hr, h1, h2]; exact hc.nodup
      length := by rw [hl, hr, h1, h2, hx.tileCount_eq]; exact hc.length
      mask := by rw [hl, hr, h1, h2]; exact hc.mask }

/-- One more call of the recorder after some calls on the same operands. -/
theorem RecordOperation_inv_next {tiles : List Nat} {g : Nat} {s0 s1 : NumbersStruct}
    {E0 : Nat → Expr}
    (h : ∃ E1, ArenaInv tiles g s1 E1 ∧ Extends s0 E0 s1 E1
      ∧ s1.current.operationIdLeft = s0.current.operationIdLeft
      ∧ s1.current.operationIdRight = s0.current.operationIdRight)
    {op result : Nat} (hc : Candidate tiles g s0 E0 op result) (c : Nat) :
    ∃ E2, ArenaInv tiles g (RecordOperation s1 op result c) E2
      ∧ Extends s0 E0 (RecordOperation s1 op result c) E2
      ∧ (RecordOperation s1 op result c).current.operationIdLeft = s0.current.operationIdLeft
      ∧ (RecordOperation s1 op result c).current.operationIdRight
          = s0.current.operationIdRight := by
  obtain ⟨E1, hinv, hx, hl, hr⟩ := h
  obtain ⟨E2, hinv2, hx2⟩ := RecordOperation_inv hinv (hc.extend hx hl hr) c
  have := RecordOperation_left_right s1 op result c
  exact ⟨E2, hinv2, hx.trans hx2, this.1.trans hl, this.2.trans hr⟩

end Numbers

namespace Numbers

theorem Expr.value_node {tiles : List Nat} {l r : Expr} {op vl vr v : Nat} {ch : Char}
    (hl : l.value tiles = some vl) (hr : r.value tiles = some vr)
    (hc : NumbersValidate.compute op vl vr = .ok (v, ch)) :
    (Expr.node op l r).value tiles = some v := by
  simp [Expr.value, hl, hr, hc]

/-- The candidates offered for an ordered pair of results keep the invariant. -/
theorem CombineOperationGroups.record_inv {tiles : List Nat} {g : Nat} {s : NumbersStruct}
    {E : Nat → Expr} (h : ArenaInv tiles g s E)
    (resultMax resultMin complexityAB weightA weightB : Nat)
    (hl : s.current.operationIdLeft < s.current.operationIdFirst)
    (hr : s.current.operationIdRight < s.current.operationIdFirst)
    (hmax : (s.operation s.current.operationIdLeft).result = resultMax)
    (hmin : (s.operation s.current.operationIdRight).result = resultMin)
    (hle : resultMin ≤ resultMax)
    (hdisj : List.Disjoint (E s.current.operationIdLeft).leaves
      (E s.current.operationIdRight).leaves)
    (hlen : (E s.current.operationIdLeft).leaves.length
      + (E s.current.operationIdRight).leaves.length = s.current.tileCount)
    (hmaskl : ∀ t ∈ (E s.current.operationIdLeft).leaves, g.testBit t = true)
    (hmaskr : ∀ t ∈ (E s.current.operationIdRight).leaves, g.testBit t = true) :
    ∃ E', ArenaInv tiles g
        (CombineOperationGroups.record s resultMax resultMin complexityAB weightA weightB) E'
      ∧ Extends s E
        (CombineOperationGroups.record s resultMax resultMin complexityAB weightA weightB) E' := by
  have hfirst := h.first_le
  have hlL : s.current.operationIdLeft < s.current.operationIdLast := by omega
  have hrL : s.current.operationIdRight < s.current.operationIdLast := by omega
  have hvl := h.value _ hlL
  have hvr := h.value _ hrL
  rw [hmax] at hvl
  rw [hmin] at hvr
  have hmaxlt : resultMax < 2 ^ 32 := by rw [← hmax]; exact h.result_lt _ hlL
  -- every operation on the two records is a candidate, as soon as the validator computes it
  have hcand : ∀ (op result : Nat) (ch : Char), op < 4 →
      NumbersValidate.compute op resultMax resultMin = .ok (result, ch) → result < 2 ^ 32 →
      Candidate tiles g s E op result := by
    intro op result ch hop hcomp hres
    exact
      { op_lt := hop
        left_lt := hl
        right_lt := hr
        value := Expr.value_node hvl hvr hcomp
        result_lt := hres
        nodup := by
          simp only [Expr.leaves]
          exact List.Nodup.append (h.nodup _ hlL) (h.nodup _ hrL) hdisj
        length := by simp only [Expr.leaves, List.length_append]; exact hlen
        mask := by
          intro t ht
          simp only [Expr.leaves, List.mem_append] at ht
          rcases ht with ht | ht
          · exact hmaskl t ht
          · exact hmaskr t ht }
  have hadd : Candidate tiles g s E ADD ((resultMax + resultMin) % 2 ^ 32) :=
    hcand ADD _ '+' (by decide) (by simp [NumbersValidate.compute, ADD])
      (Nat.mod_lt _ (by norm_num))
  have hsub : Candidate tiles g s E SUB (resultMax - resultMin) :=
    hcand SUB _ '-' (by decide)
      (by simp [NumbersValidate.compute, ADD, MUL, SUB, Nat.not_lt.mpr hle]) (by omega)
  have hmul : Candidate tiles g s E MUL ((resultMax * resultMin) % 2 ^ 32) :=
    hcand MUL _ 'x' (by decide) (by simp [NumbersValidate.compute, ADD, MUL])
      (Nat.mod_lt _ (by norm_num))
  have hdiv1 : resultMin > 1 → resultMax = resultMin → Candidate tiles g s E DIV 1 := by
    intro h1 h2
    refine hcand DIV _ '/' (by decide) ?_ (by norm_num)
    subst h2
    have hpos : 0 < resultMax := by omega
    have hne : resultMax ≠ 0 := by omega
    simp [NumbersValidate.compute, ADD, MUL, SUB, DIV, hne, Nat.div_self hpos]
    omega
  have hdiv : resultMin > 1 → (resultMax / resultMin * resultMin) % 2 ^ 32 = resultMax →
      Candidate tiles g s E DIV (resultMax / resultMin) := by
    intro h1 h2
    refine hcand DIV _ '/' (by decide) ?_
      (lt_of_le_of_lt (Nat.div_le_self _ _) hmaxlt)
    have hne : resultMin ≠ 0 := by omega
    rw [Nat.mul_comm] at h2
    have h2' : resultMin * (resultMax / resultMin) % 4294967296 = resultMax := by
      norm_num at h2; exact h2
    simp [NumbersValidate.compute, ADD, MUL, SUB, DIV, hne, h2']
  have h0 : ∃ E1, ArenaInv tiles g s E1 ∧ Extends s E s E1
      ∧ s.current.operationIdLeft = s.current.operationIdLeft
      ∧ s.current.operationIdRight = s.current.operationIdRight :=
    ⟨E, h, Extends.refl s E, rfl, rfl⟩
  unfold CombineOperationGroups.record
  simp only []
  have h1 := RecordOperation_inv_next h0 hadd
    ((complexityAB + (if weightA < weightB then weightA else weightB)) % 2 ^ 16)
  generalize RecordOperation s ADD ((resultMax + resultMin) % 2 ^ 32)
    ((complexityAB + (if weightA < weightB then weightA else weightB)) % 2 ^ 16) = s1 at h1 ⊢
  have h2 : ∃ E2, ArenaInv tiles g
      (if resultMax ≠ resultMin ∧ resultMax - resultMin ≠ resultMin then
        RecordOperation s1 SUB (resultMax - resultMin)
          ((complexityAB + ((weightA + weightB) >>> 1)) % 2 ^ 16)
      else s1) E2
      ∧ Extends s E
        (if resultMax ≠ resultMin ∧ resultMax - resultMin ≠ resultMin then
          RecordOperation s1 SUB (resultMax - resultMin)
            ((complexityAB + ((weightA + weightB) >>> 1)) % 2 ^ 16)
        else s1) E2
      ∧ (if resultMax ≠ resultMin ∧ resultMax - resultMin ≠ resultMin then
          RecordOperation s1 SUB (resultMax - resultMin)
            ((complexityAB + ((weightA + weightB) >>> 1)) % 2 ^ 16)
        else s1).current.operationIdLeft = s.current.operationIdLeft
      ∧ (if resultMax ≠ resultMin ∧ resultMax - resultMin ≠ resultMin then
          RecordOperation s1 SUB (resultMax - resultMin)
            ((complexityAB + ((weightA + weightB) >>> 1)) % 2 ^ 16)
        else s1).current.operationIdRight = s.current.operationIdRight := by
    by_cases hs : resultMax ≠ resultMin ∧ resultMax - resultMin ≠ resultMin
    · rw [if_pos hs]
      exact RecordOperation_inv_next h1 hsub _
    · rw [if_neg hs]
      exact h1
  generalize (if resultMax ≠ resultMin ∧ resultMax - resultMin ≠ resultMin then
      RecordOperation s1 SUB (resultMax - resultMin)
        ((complexityAB + ((weightA + weightB) >>> 1)) % 2 ^ 16)
    else s1) = s2 at h2 ⊢
  have drop : ∀ {s' : NumbersStruct},
      (∃ E2, ArenaInv tiles g s' E2 ∧ Extends s E s' E2
        ∧ s'.current.operationIdLeft = s.current.operationIdLeft
        ∧ s'.current.operationIdRight = s.current.operationIdRight) →
      ∃ E', ArenaInv tiles g s' E' ∧ Extends s E s' E' := by
    rintro s' ⟨E2, a, b, _, _⟩
    exact ⟨E2, a, b⟩
  by_cases hm : resultMin > 1
  · rw [if_pos hm]
    have h3 := RecordOperation_inv_next h2 hmul
      ((complexityAB + (weightA * weightB) % 2 ^ 16 * ((weightA * weightB) % 2 ^ 16)) % 2 ^ 16)
    generalize RecordOperation s2 MUL ((resultMax * resultMin) % 2 ^ 32)
      ((complexityAB + (weightA * weightB) % 2 ^ 16 * ((weightA * weightB) % 2 ^ 16)) % 2 ^ 16)
      = s3 at h3 ⊢
    by_cases he : resultMax = resultMin
    · rw [if_pos he]
      exact drop (RecordOperation_inv_next h3 (hdiv1 hm he) _)
    · rw [if_neg he]
      by_cases hd : resultMax / resultMin ≠ resultMin
          ∧ (resultMax / resultMin * resultMin) % 2 ^ 32 = resultMax
      · rw [if_pos hd]
        exact drop (RecordOperation_inv_next h3 (hdiv hm hd.2) _)
      · rw [if_neg hd]
        exact drop h3
  · rw [if_neg hm]
    exact drop h2

end Numbers

namespace Numbers

/-- A property kept by every step of a loop holds after the loop. -/
theorem foldl_inv {α σ : Type} (P : σ → Prop) (f : σ → α → σ) :
    ∀ (l : List α) (s0 : σ), (∀ s x, x ∈ l → P s → P (f s x)) → P s0 → P (l.foldl f s0) := by
  intro l
  induction l with
  | nil => intro s0 _ h0; exact h0
  | cons a l ih =>
    intro s0 hstep h0
    simp only [List.foldl_cons]
    exact ih (f s0 a) (fun s x hx hs => hstep s x (List.mem_cons_of_mem a hx) hs)
      (hstep s0 a (List.mem_cons_self a l) h0)

/-- One pair of records of two disjoint finished groups keeps the invariant. -/
theorem CombineOperationGroups.pair_inv {tiles : List Nat} {g : Nat} {s : NumbersStruct}
    {E : Nat → Expr} (h : ArenaInv tiles g s E)
    (operationIdA resultA weightA complexityA operationIdB : Nat)
    (hA : operationIdA < s.current.operationIdFirst)
    (hB : operationIdB < s.current.operationIdFirst)
    (hresA : resultA = (s.operation operationIdA).result)
    (hdisj : List.Disjoint (E operationIdA).leaves (E operationIdB).leaves)
    (hlen : (E operationIdA).leaves.length + (E operationIdB).leaves.length
      = s.current.tileCount)
    (hmaskA : ∀ t ∈ (E operationIdA).leaves, g.testBit t = true)
    (hmaskB : ∀ t ∈ (E operationIdB).leaves, g.testBit t = true) :
    ∃ E', ArenaInv tiles g
        (CombineOperationGroups.pair operationIdA resultA weightA complexityA s operationIdB) E'
      ∧ Extends s E
        (CombineOperationGroups.pair operationIdA resultA weightA complexityA s operationIdB)
        E' := by
  unfold CombineOperationGroups.pair
  simp only []
  by_cases h1 : (complexityA + (s.operation operationIdB).complexity) % 2 ^ 16
      > s.current.complexityMax
  · rw [if_pos h1]
    exact ⟨E, h, Extends.refl s E⟩
  · rw [if_neg h1]
    by_cases h2 : resultA ≥ (s.operation operationIdB).result
    · rw [if_pos h2]
      obtain ⟨E', hinv, hx⟩ := CombineOperationGroups.record_inv
        (h.set_operands operationIdA operationIdB) resultA (s.operation operationIdB).result
        ((complexityA + (s.operation operationIdB).complexity) % 2 ^ 16) weightA
        (s.operation operationIdB).weight hA hB hresA.symm rfl h2 hdisj hlen hmaskA hmaskB
      exact ⟨E', hinv, (Extends.of_set_operands s E operationIdA operationIdB).trans hx⟩
    · rw [if_neg h2]
      obtain ⟨E', hinv, hx⟩ := CombineOperationGroups.record_inv
        (h.set_operands operationIdB operationIdA) (s.operation operationIdB).result resultA
        ((complexityA + (s.operation operationIdB).complexity) % 2 ^ 16) weightA
        (s.operation operationIdB).weight hB hA rfl hresA.symm (by omega) hdisj.symm
        (by rw [Nat.add_comm]; exact hlen) hmaskB hmaskA
      exact ⟨E', hinv, (Extends.of_set_operands s E operationIdB operationIdA).trans hx⟩

/-- Combining two finished groups over disjoint tiles keeps the invariant. -/
theorem CombineOperationGroups_inv {tiles : List Nat} {g : Nat} {s : NumbersStruct}
    {E : Nat → Expr} (h : ArenaInv tiles g s E)
    (operationGroupA operationGroupB : OperationGroup) (mA mB kA kB : Nat)
    (hA : GroupInv E mA kA operationGroupA s.current.operationIdFirst)
    (hB : GroupInv E mB kB operationGroupB s.current.operationIdFirst)
    (hdisj : ∀ t, mA.testBit t = true → mB.testBit t = true → False)
    (hsubA : ∀ t, mA.testBit t = true → g.testBit t = true)
    (hsubB : ∀ t, mB.testBit t = true → g.testBit t = true)
    (hk : kA + kB = s.current.tileCount) :
    ∃ E', ArenaInv tiles g (CombineOperationGroups s operationGroupA operationGroupB) E'
      ∧ Extends s E (CombineOperationGroups s operationGroupA operationGroupB) E' := by
  unfold CombineOperationGroups
  refine foldl_inv (fun s' => ∃ E', ArenaInv tiles g s' E' ∧ Extends s E s' E') _ _ s ?_
    ⟨E, h, Extends.refl s E⟩
  rintro s1 operationIdA hmemA ⟨E1, hinv1, hx1⟩
  rw [List.mem_range'_1] at hmemA
  have hAlt : operationIdA < operationGroupA.operationIdLast := by omega
  have hAcf : operationIdA < s.current.operationIdFirst := lt_of_lt_of_le hAlt hA.last_le
  unfold CombineOperationGroups.row
  simp only []
  refine foldl_inv (fun s' => ∃ E', ArenaInv tiles g s' E' ∧ Extends s E s' E') _ _ s1 ?_
    ⟨E1, hinv1, hx1⟩
  rintro s2 operationIdB hmemB ⟨E2, hinv2, hx2⟩
  rw [List.mem_range'_1] at hmemB
  have hBlt : operationIdB < operationGroupB.operationIdLast := by omega
  have hBcf : operationIdB < s.current.operationIdFirst := lt_of_lt_of_le hBlt hB.last_le
  have hEA : E2 operationIdA = E operationIdA := hx2.tree_eq _ hAcf
  have hEB : E2 operationIdB = E operationIdB := hx2.tree_eq _ hBcf
  have hlA := hA.leaves operationIdA hmemA.1 hAlt
  have hlB := hB.leaves operationIdB hmemB.1 hBlt
  obtain ⟨E3, hinv3, hx3⟩ := CombineOperationGroups.pair_inv hinv2 operationIdA
    (s1.operation operationIdA).result (s1.operation operationIdA).weight
    (s1.operation operationIdA).complexity operationIdB
    (by rw [hx2.first_eq]; exact hAcf) (by rw [hx2.first_eq]; exact hBcf)
    (by rw [hx2.operation_eq _ hAcf, hx1.operation_eq _ hAcf])
    (by
      rw [hEA, hEB]
      intro t htA htB
      exact hdisj t (hlA.1 t htA) (hlB.1 t htB))
    (by rw [hEA, hEB, hlA.2, hlB.2, hx2.tileCount_eq]; exact hk)
    (by rw [hEA]; exact fun t ht => hsubA t (hlA.1 t ht))
    (by rw [hEB]; exact fun t ht => hsubB t (hlB.1 t ht))
  exact ⟨E3, hinv3, hx2.trans hx3⟩

end Numbers

namespace Numbers

/-! ## Facts about tile masks

Tile masks have at most 8 bits, so the facts about the enumeration of groups
and of their splits are checked on all of them. -/

theorem popCount_lor (a b : Nat) (h : a &&& b = 0) :
    popCount (a ||| b) = popCount a + popCount b := by
  unfold popCount
  have hdis : ∀ t, ¬ (a.testBit t = true ∧ b.testBit t = true) := by
    rintro t ⟨h1, h2⟩
    have : (a &&& b).testBit t = true := by rw [Nat.testBit_land, h1, h2]; rfl
    rw [h, Nat.zero_testBit] at this
    cases this
  generalize List.range 8 = l
  induction l with
  | nil => rfl
  | cons t l ih =>
    simp only [List.countP_cons, ih, Nat.testBit_lor]
    have := hdis t
    cases ha : a.testBit t <;> cases hb : b.testBit t <;> simp_all <;> omega

theorem testBit_of_lor_left {a b g : Nat} (h : a ||| b = g) (t : Nat)
    (ht : a.testBit t = true) : g.testBit t = true := by
  rw [← h, Nat.testBit_lor, ht]; rfl

theorem testBit_of_lor_right {a b g : Nat} (h : a ||| b = g) (t : Nat)
    (ht : b.testBit t = true) : g.testBit t = true := by
  rw [← h, Nat.testBit_lor, ht]; simp

theorem testBit_disjoint {a b : Nat} (h : a &&& b = 0) (t : Nat)
    (ha : a.testBit t = true) (hb : b.testBit t = true) : False := by
  have : (a &&& b).testBit t = true := by rw [Nat.testBit_land, ha, hb]; rfl
  rw [h, Nat.zero_testBit] at this
  cases this

theorem getD_set_nat (l : List Nat) (i t x : Nat) (hi : i < l.length) :
    (l.set i x).getD t 0 = if t = i then x else l.getD t 0 := by
  by_cases h : t = i
  · subst h
    simp [List.getD_eq_getElem?_getD, List.getElem?_set, hi]
  · have h' : i ≠ t := fun e => h e.symm
    simp [List.getD_eq_getElem?_getD, List.getElem?_set, h, h']

/-- The loop over `tileSubGroupNumber` changes every entry on its own. -/
theorem tileSubGroups_inner (c : Nat → Prop) [DecidablePred c] (f : Nat → Nat) :
    ∀ (m : Nat) (L : List Nat), m ≤ L.length →
      ((List.range' 1 m).foldl
          (fun L n => if c n then L.set (n - 1) (f (L.getD (n - 1) 0)) else L) L).length
        = L.length
      ∧ ∀ i, ((List.range' 1 m).foldl
          (fun L n => if c n then L.set (n - 1) (f (L.getD (n - 1) 0)) else L) L).getD i 0
        = if i < m ∧ c (i + 1) then f (L.getD i 0) else L.getD i 0 := by
  intro m
  induction m with
  | zero => intro L _; simp
  | succ m ih =>
    intro L hm
    obtain ⟨ih1, ih2⟩ := ih L (Nat.le_of_succ_le hm)
    rw [List.range'_1_concat, List.foldl_append]
    simp only [List.foldl_cons, List.foldl_nil, Nat.add_sub_cancel_left]
    by_cases hc : c (1 + m)
    · rw [if_pos hc]
      refine ⟨by rw [List.length_set, ih1], fun i => ?_⟩
      rw [getD_set_nat _ _ _ _ (by rw [ih1]; omega), ih2 m, ih2 i]
      have hc' : c (m + 1) := by rw [Nat.add_comm]; exact hc
      by_cases him : i = m
      · subst him
        simp [hc']
      · by_cases hlt : i < m
        · have : i < m + 1 := by omega
          simp [him, hlt, this]
        · have : ¬ i < m + 1 := by omega
          simp [him, hlt, this]
    · rw [if_neg hc]
      refine ⟨ih1, fun i => ?_⟩
      rw [ih2 i]
      have hc' : ¬ c (m + 1) := by rw [Nat.add_comm]; exact hc
      by_cases him : i = m
      · subst him
        simp [hc']
      · by_cases hlt : i < m
        · have : i < m + 1 := by omega
          simp [hlt, this]
        · have : ¬ i < m + 1 := by omega
          simp [hlt, this]

/-- Every entry of `tileSubGroups[]` is the entry computed on its own. -/
theorem tileSubGroups_entry (g k : Nat) :
    (tileSubGroups g k).length = ((1 <<< (k - 1)) % 2 ^ 32) - 1
    ∧ ∀ i, i < ((1 <<< (k - 1)) % 2 ^ 32) - 1 →
        (tileSubGroups g k).getD i 0 = tileSubGroupEntry g k (i + 1) := by
  unfold tileSubGroups tileSubGroupEntry
  dsimp only
  generalize ((1 <<< (k - 1)) % 2 ^ 32) - 1 = cnt
  generalize k - 1 = n
  induction n with
  | zero =>
    simp only [List.range_zero, List.foldl_nil, List.length_replicate, true_and]
    intro i hi
    simp [List.getD_eq_getElem?_getD, List.getElem?_replicate, hi]
  | succ n ih =>
    obtain ⟨ih1, ih2⟩ := ih
    simp only [List.range_succ, List.foldl_append, List.foldl_cons, List.foldl_nil]
    generalize hst : (List.range n).foldl
      (fun st j => tileSubGroupsStep cnt st (1 <<< j)) (List.replicate cnt 0, g) = st at ih1 ih2
    have hrem : ∀ i, ((List.range n).foldl
        (fun st j => tileSubGroupEntryStep (i + 1) st (1 <<< j)) (0, g)).2 = st.2 := by
      intro i
      rw [← hst]
      clear hst ih1 ih2
      induction n with
      | zero => rfl
      | succ n ihn =>
        rw [List.range_succ, List.foldl_append, List.foldl_append]
        simp only [List.foldl_cons, List.foldl_nil]
        show ((List.range n).foldl (fun st j => tileSubGroupEntryStep (i + 1) st (1 <<< j))
            (0, g)).2 - lowestBit _ = ((List.range n).foldl
            (fun st j => tileSubGroupsStep cnt st (1 <<< j)) (List.replicate cnt 0, g)).2
              - lowestBit _
        rw [ihn]
    obtain ⟨h1, h2⟩ := tileSubGroups_inner (fun x => x &&& (1 <<< n) ≠ 0)
      (fun x => (x + lowestBit st.2) % 2 ^ 32) cnt st.1 (le_of_eq ih1.symm)
    have hlen : (tileSubGroupsStep cnt st (1 <<< n)).1.length = cnt := by
      exact h1.trans ih1
    refine ⟨hlen, fun i hi => ?_⟩
    show List.getD ((List.range' 1 cnt).foldl (fun L x => if x &&& (1 <<< n) ≠ 0 then
        L.set (x - 1) ((L.getD (x - 1) 0 + lowestBit st.2) % 2 ^ 32) else L) st.1) i 0
      = if (i + 1) &&& (1 <<< n) ≠ 0 then
          (((List.range n).foldl (fun st j => tileSubGroupEntryStep (i + 1) st (1 <<< j))
            (0, g)).1 + lowestBit ((List.range n).foldl
              (fun st j => tileSubGroupEntryStep (i + 1) st (1 <<< j)) (0, g)).2) % 2 ^ 32
        else ((List.range n).foldl (fun st j => tileSubGroupEntryStep (i + 1) st (1 <<< j))
            (0, g)).1
    rw [h2 i, hrem i, ih2 i hi]
    by_cases hc : (i + 1) &&& (1 <<< n) ≠ 0
    · rw [if_pos ⟨hi, hc⟩, if_pos hc]
    · rw [if_neg (fun h => hc h.2), if_neg hc]

set_option maxRecDepth 100000 in
theorem tileSubGroupEntry_spec : ∀ g, g < 256 →
    ∀ n ∈ List.range' 1 (((1 <<< (popCount g - 1)) % 2 ^ 32) - 1),
      0 < tileSubGroupEntry g (popCount g) n ∧ tileSubGroupEntry g (popCount g) n < g
      ∧ tileSubGroupEntry g (popCount g) n &&& (g - tileSubGroupEntry g (popCount g) n) = 0
      ∧ tileSubGroupEntry g (popCount g) n ||| (g - tileSubGroupEntry g (popCount g) n) = g := by
  decide!

/-- Every sub-group built for a group is a non-empty proper part of it. -/
theorem tileSubGroups_spec (g : Nat) (hg : g < 256) (sub : Nat)
    (hsub : sub ∈ tileSubGroups g (popCount g)) :
    0 < sub ∧ sub < g ∧ sub &&& (g - sub) = 0 ∧ sub ||| (g - sub) = g := by
  obtain ⟨hlen, hent⟩ := tileSubGroups_entry g (popCount g)
  obtain ⟨i, hi, rfl⟩ := List.mem_iff_getElem.mp hsub
  have hi' : i < ((1 <<< (popCount g - 1)) % 2 ^ 32) - 1 := by rw [← hlen]; exact hi
  have hget : (tileSubGroups g (popCount g))[i] = tileSubGroupEntry g (popCount g) (i + 1) := by
    rw [← hent i hi', List.getD_eq_getElem _ _ hi]
  rw [hget]
  apply tileSubGroupEntry_spec g hg (i + 1)
  rw [List.mem_range'_1]
  omega

set_option maxRecDepth 100000 in
theorem popCount_pos : ∀ m, m < 256 → 0 < m → 0 < popCount m := by
  decide!

set_option maxRecDepth 100000 in
/-- The step to the next group of tiles goes up and keeps the number of tiles. -/
theorem nextTileGroup_spec : ∀ g, g < 256 → 0 < g → g < nextTileGroup g
    ∧ (nextTileGroup g < 256 → popCount (nextTileGroup g) = popCount g) := by
  decide!

set_option maxRecDepth 100000 in
theorem nextTileGroup_between_aux : ∀ g, g < 256 →
    ∀ m ∈ List.range' (g + 1) (nextTileGroup g - g - 1), popCount m ≠ popCount g := by
  decide!

/-- No group with the same number of tiles lies between a group and the next
one. -/
theorem nextTileGroup_between (g m : Nat) (hg : g < 256) (h1 : g < m)
    (h2 : m < nextTileGroup g) : popCount m ≠ popCount g := by
  apply nextTileGroup_between_aux g hg m
  rw [List.mem_range'_1]
  omega

set_option maxRecDepth 100000 in
/-- The first group of `k` tiles is `2 ^ k - 1`. -/
theorem firstTileGroup_spec : ∀ k, k < 9 → 0 < k →
    popCount (((1 <<< k) % 2 ^ 32) - 1) = k
    ∧ 0 < ((1 <<< k) % 2 ^ 32) - 1
    ∧ ((1 <<< k) % 2 ^ 32) - 1 < 2 ^ k
    ∧ ∀ m, m < ((1 <<< k) % 2 ^ 32) - 1 → popCount m < k := by
  decide!

set_option maxRecDepth 100000 in
/-- The groups of one tile are the powers of two. -/
theorem popCount_one : ∀ m, m < 256 → popCount m = 1 →
    ∃ t, t < 8 ∧ m = (1 <<< t) % 2 ^ 32 := by
  decide!

set_option maxRecDepth 100000 in
theorem popCount_shift : ∀ t, t < 8 →
    popCount ((1 <<< t) % 2 ^ 32) = 1 ∧ ((1 <<< t) % 2 ^ 32) = 2 ^ t
    ∧ ((1 <<< t) % 2 ^ 32).testBit t = true := by
  decide!

set_option maxRecDepth 100000 in
theorem popCount_le : ∀ m, m < 256 → popCount m ≤ 8 := by
  decide!

end Numbers

namespace Numbers

/-! ## The loops of `NumbersSolve` keep the invariant -/

/-- Starting a new group keeps the invariant, for any mask of the new group. -/
theorem ArenaInv.start_group {tiles : List Nat} {g : Nat} {s : NumbersStruct}
    {E : Nat → Expr} (h : ArenaInv tiles g s E) (g' : Nat) :
    ArenaInv tiles g' s.startGroup E :=
  { wf := h.wf
    last_le := h.last_le
    first_le := le_refl _
    final_tileCount := h.final_tileCount
    aborted_full := h.aborted_full
    leaf := h.leaf
    node := fun i hi hnop => by
      obtain ⟨h1, h2, h3, _, h5⟩ := h.node i hi hnop
      refine ⟨h1, h2, h3, fun hle => ?_, h5⟩
      have hle' : s.current.operationIdLast ≤ i := hle
      have hi' : i < s.current.operationIdLast := hi
      omega
    value := h.value
    result_lt := h.result_lt
    nodup := h.nodup
    leaves_lt := h.leaves_lt
    leaves_le := h.leaves_le
    complexity_le := h.complexity_le
    current_leaves := fun i hle hi => by
      have hle' : s.current.operationIdLast ≤ i := hle
      have hi' : i < s.current.operationIdLast := hi
      omega
    solution_none := h.solution_none
    solution_lt := h.solution_lt
    solution_diff := h.solution_diff
    solution_tiles := h.solution_tiles
    best_le := h.best_le
    best_lt := h.best_lt
    best_first := h.best_first }

/-- A `while` loop whose body keeps `P` and decreases `μ` ends, within any fuel
above `μ`, in a state where `P` holds and the condition is false. -/
theorem whileLoop_inv {σ : Type} (cond : σ → Bool) (body : σ → Option σ) (P : σ → Prop)
    (μ : σ → Nat)
    (hbody : ∀ st, P st → cond st = true → ∃ st', body st = some st' ∧ P st' ∧ μ st' < μ st) :
    ∀ (fuel : Nat) (st : σ), P st → μ st < fuel →
      ∃ st', whileLoop cond body fuel st = some st' ∧ P st' ∧ cond st' = false := by
  intro fuel
  induction fuel with
  | zero => intro st _ h; omega
  | succ fuel ih =>
    intro st hP hμ
    unfold whileLoop
    by_cases hc : cond st = true
    · rw [if_pos hc]
      obtain ⟨st', hb, hP', hμ'⟩ := hbody st hP hc
      rw [hb]
      simp only [Option.bind]
      exact ih st' hP' (by omega)
    · rw [if_neg hc]
      exact ⟨st, rfl, hP, by simpa using hc⟩

/-- A property indexed by the loop counter holds after a `for` loop over
`0 .. n - 1`. -/
theorem foldl_range_inv {σ : Type} (P : Nat → σ → Prop) (f : σ → Nat → σ) (s0 : σ) :
    ∀ (n : Nat), (∀ j s, j < n → P j s → P (j + 1) (f s j)) → P 0 s0 →
      P n ((List.range n).foldl f s0) := by
  intro n
  induction n with
  | zero => intro _ h0; exact h0
  | succ n ih =>
    intro hstep h0
    rw [List.range_succ, List.foldl_append]
    simp only [List.foldl_cons, List.foldl_nil]
    exact hstep n _ (Nat.lt_succ_self n)
      (ih (fun j s hj hs => hstep j s (Nat.lt_succ_of_lt hj) hs) h0)

/-- Recording a tile either gives up on a full arena or appends a record. -/
theorem RecordOperation_tile_cases {tiles : List Nat} {g : Nat} {s : NumbersStruct}
    {E : Nat → Expr} (h : ArenaInv tiles g s E) (result : Nat)
    (hcf : s.current.operationIdFirst = s.current.operationIdLast)
    (hone : s.current.tileCount = s.final.tileCount → s.current.operationIdLast = 0) :
    (RecordOperation s NOP result 0 = RecordOperation.abort s
        ∧ s.operationSize ≤ s.current.operationIdLast)
    ∨ (∃ best, RecordOperation s NOP result 0 = RecordOperation.append s NOP result 0 best
        ∧ s.current.operationIdLast < s.operationSize) := by
  have hcl : ∃ best, RecordOperation.classify s result 0
      = some (s.current.operationIdLast, best) := by
    unfold RecordOperation.classify
    simp only []
    by_cases h1 : targetDiffOf s.final.target result < s.solution.targetDiff
        ∨ s.solution.operationId ≥ s.operationSize
    · rw [if_pos h1]; exact ⟨true, rfl⟩
    · rw [if_neg h1]
      have hsol : s.solution.operationId < s.operationSize := by
        by_contra hc; exact h1 (Or.inr (by omega))
      have hsl := h.solution_lt hsol
      by_cases h2 : s.current.tileCount = s.final.tileCount
      · have := hone h2
        omega
      · rw [if_neg h2]
        have hs : SearchOperation s result = s.current.operationIdLast := by
          rcases SearchOperation_cases s result with hs | hs
          · exact hs
          · omega
        rw [hs, if_pos rfl]
        exact ⟨_, rfl⟩
  obtain ⟨best, hcl⟩ := hcl
  unfold RecordOperation
  rw [if_neg (by omega), hcl]
  simp only [if_true]
  by_cases hfull : s.current.operationIdLast ≥ s.operationSize
  · rw [if_pos hfull]
    exact Or.inl ⟨rfl, hfull⟩
  · rw [if_neg hfull]
    exact Or.inr ⟨best, rfl, by omega⟩

end Numbers

namespace Numbers

theorem groups_getD_set (l : OperationGroups) (a m : Nat) (x : Option OperationGroup)
    (ha : a < l.length) :
    (l.set a x).getD m none = if m = a then x else l.getD m none := by
  by_cases h : m = a
  · subst h
    simp [List.getD_eq_getElem?_getD, List.getElem?_set, ha]
  · have h' : a ≠ m := fun e => h e.symm
    simp [List.getD_eq_getElem?_getD, List.getElem?_set, h, h']

/-- A finished group stays finished when the arena grows above it. -/
theorem GroupInv.grow {E E' : Nat → Expr} {m k : Nat} {grp : OperationGroup}
    {bound bound' : Nat} (h : GroupInv E m k grp bound) (hb : bound ≤ bound')
    (hE : ∀ i, i < bound → E' i = E i) : GroupInv E' m k grp bound' :=
  { first_le := h.first_le
    last_le := le_trans h.last_le hb
    leaves := fun i h1 h2 => by
      rw [hE i (lt_of_lt_of_le h2 h.last_le)]
      exact h.leaves i h1 h2 }

/-- The group under construction becomes a finished group. -/
theorem ArenaInv.groupInv {tiles : List Nat} {g : Nat} {s : NumbersStruct}
    {E : Nat → Expr} (h : ArenaInv tiles g s E) :
    GroupInv E g s.current.tileCount
      ⟨s.current.operationIdFirst, s.current.operationIdLast⟩ s.current.operationIdLast :=
  { first_le := h.first_le
    last_le := le_refl _
    leaves := fun i h1 h2 => h.current_leaves i h1 h2 }

/-- Recording one tile keeps the invariant of the first loop. -/
theorem NumbersSolve.recordTile_inv (tiles : List Nat) (htiles : ∀ t ∈ tiles, t < 2 ^ 32)
    (hN : tiles.length ≤ 8) (s0 : NumbersStruct) (j : Nat) (st : SolveState)
    (hj : j < tiles.length) (h : ∃ E, TilesInv tiles s0 j st E) :
    ∃ E, TilesInv tiles s0 (j + 1) (NumbersSolve.recordTile tiles st j) E := by
  obtain ⟨E, h⟩ := h
  have hj8 : j < 8 := by omega
  obtain ⟨hpc, hpow, hbit⟩ := popCount_shift j hj8
  have harena : ArenaInv tiles ((1 <<< j) % 2 ^ 32) st.numbersObject.startGroup E :=
    h.solve.arena.start_group _
  have hres : tiles.getD j 0 < 2 ^ 32 := by
    apply htiles
    rw [List.getD_eq_getElem?_getD, List.getElem?_eq_getElem hj]
    exact List.getElem_mem _
  have hLj : st.numbersObject.startGroup.current.operationIdLast
        < st.numbersObject.startGroup.operationSize →
      st.numbersObject.current.operationIdLast = j := by
    intro hlt
    apply h.last_eq
    by_contra hab
    have := harena.aborted_full (by simpa using hab)
    omega
  obtain ⟨E', hinv', hx⟩ := RecordOperation_tile_inv harena (tiles.getD j 0) rfl h.tileCount
    (fun hlt => by
      have := hLj hlt
      show st.numbersObject.current.operationIdLast < tiles.length
        ∧ tiles.getD j 0 = tiles.getD st.numbersObject.current.operationIdLast 0
        ∧ Nat.testBit ((1 <<< j) % 2 ^ 32) st.numbersObject.current.operationIdLast = true
      rw [this]
      exact ⟨hj, rfl, hbit⟩) hres
  have hcases := RecordOperation_tile_cases harena (tiles.getD j 0) rfl (by
    intro htc
    have h1 : st.numbersObject.current.tileCount = st.numbersObject.final.tileCount := htc
    have h2 : st.numbersObject.final.tileCount = tiles.length := harena.final_tileCount
    have h3 := h.tileCount
    have h4 := h.last_le
    show st.numbersObject.current.operationIdLast = 0
    omega)
  have hlen : (1 <<< j) % 2 ^ 32 < st.operationGroups.length := by
    rw [h.solve.length, hpow]
    exact Nat.pow_lt_pow_right (by norm_num) hj
  have hLold : st.numbersObject.current.operationIdLast
      = st.numbersObject.startGroup.current.operationIdFirst := rfl
  refine ⟨E', ?_⟩
  unfold NumbersSolve.recordTile
  simp only []
  generalize hs1 : RecordOperation st.numbersObject.startGroup NOP (tiles.getD j 0) 0 = s1
    at hinv' hx hcases ⊢
  refine
    { solve :=
        { arena := hinv'.start_group 0
          final_eq := hx.final_eq.trans h.solve.final_eq
          complexityMax_eq := hx.complexityMax_eq.trans h.solve.complexityMax_eq
          operationSize_eq := hx.operationSize_eq.trans h.solve.operationSize_eq
          operationIdSize_eq := hx.operationIdSize_eq.trans h.solve.operationIdSize_eq
          length := by simp only [List.length_set]; exact h.solve.length
          groups := ?_ }
      tileCount := by rw [hx.tileCount_eq]; exact h.tileCount
      last_le := ?_
      last_eq := ?_
      groups := ?_
      leaves := ?_ }
  · intro m grp hm
    simp only [] at hm
    rw [groups_getD_set _ _ _ _ hlen] at hm
    by_cases hmj : m = (1 <<< j) % 2 ^ 32
    · rw [if_pos hmj] at hm
      cases hm
      have := hinv'.groupInv
      rw [hx.tileCount_eq] at this
      rw [hmj, hpc]
      exact h.tileCount ▸ this
    · rw [if_neg hmj] at hm
      exact (h.solve.groups m grp hm).grow hx.last_le hx.tree_eq
  · show s1.current.operationIdLast ≤ j + 1
    have := h.last_le
    rcases hcases with ⟨he, _⟩ | ⟨best, he, _⟩
    · rw [he]
      show st.numbersObject.current.operationIdLast ≤ j + 1
      omega
    · rw [he]
      show st.numbersObject.current.operationIdLast + 1 ≤ j + 1
      omega
  · intro hab
    have hab' : s1.solution.aborted = false := hab
    show s1.current.operationIdLast = j + 1
    rcases hcases with ⟨he, _⟩ | ⟨best, he, hlt⟩
    · rw [he] at hab'
      cases hab'
    · have := hLj hlt
      rw [he]
      show st.numbersObject.current.operationIdLast + 1 = j + 1
      omega
  · intro t ht
    simp only []
    rw [groups_getD_set _ _ _ _ hlen]
    by_cases htj : t = j
    · subst htj
      rw [if_pos rfl]
      exact ⟨_, rfl⟩
    · have hne : (1 <<< t) % 2 ^ 32 ≠ (1 <<< j) % 2 ^ 32 := by
        rw [hpow, (popCount_shift t (by omega)).2.1]
        intro he
        exact htj (Nat.pow_right_injective (le_refl 2) he)
      rw [if_neg hne]
      exact h.groups t (by omega)
  · intro i hi
    have hi' : i < s1.current.operationIdLast := hi
    show (s1.operation i).op = NOP
    rcases hcases with ⟨he, _⟩ | ⟨best, he, hlt⟩
    · rw [he] at hi' ⊢
      exact h.leaves i hi'
    · rw [he] at hi' ⊢
      have hi2 : i < st.numbersObject.current.operationIdLast + 1 := hi'
      have hlen' : st.numbersObject.startGroup.current.operationIdLast
          < st.numbersObject.startGroup.operations.length := by
        rw [harena.wf.2.2.2.2.1]; exact hlt
      rw [RecordOperation.append_operation _ _ _ _ _ hlen']
      by_cases hiL : i = st.numbersObject.startGroup.current.operationIdLast
      · rw [if_pos hiL]
      · rw [if_neg hiL]
        have hiL' : i ≠ st.numbersObject.current.operationIdLast := hiL
        exact h.leaves i (by omega)

end Numbers

namespace Numbers

/-- A property kept by every step of a loop whose body may be undefined: the
loop is defined and the property holds after it. -/
theorem foldlM_inv {α σ : Type} (P : σ → Prop) (f : σ → α → Option σ) :
    ∀ (l : List α) (s0 : σ), (∀ s x, x ∈ l → P s → ∃ s', f s x = some s' ∧ P s') → P s0 →
      ∃ s', l.foldlM f s0 = some s' ∧ P s' := by
  intro l
  induction l with
  | nil => intro s0 _ h0; exact ⟨s0, rfl, h0⟩
  | cons a l ih =>
    intro s0 hstep h0
    obtain ⟨s1, hf, h1⟩ := hstep s0 a (List.mem_cons_self a l) h0
    obtain ⟨s2, hf2, h2⟩ := ih s1 (fun s x hx hs => hstep s x (List.mem_cons_of_mem a hx) hs) h1
    refine ⟨s2, ?_, h2⟩
    rw [List.foldlM_cons, hf]
    exact hf2

theorem two_pow_le_256 {n : Nat} (h : n ≤ 8) : 2 ^ n ≤ 256 := by
  have : 2 ^ n ≤ 2 ^ 8 := Nat.pow_le_pow_right (by norm_num) h
  simpa using this

/-- Building one operation group keeps the invariant of the loop over the
groups of `k` tiles, and is defined. -/
theorem NumbersSolve.buildGroup_inv (tiles : List Nat) (hN : tiles.length ≤ 8)
    (s0 : NumbersStruct) (k : Nat) (st : SolveState) (E : Nat → Expr)
    (h : GroupLoopInv tiles s0 k st E) (hg : st.tileGroup < 2 ^ tiles.length)
    (hab : st.numbersObject.solution.aborted = false) :
    ∃ st' E', NumbersSolve.buildGroup st = some st' ∧ GroupLoopInv tiles s0 k st' E'
      ∧ st'.tileGroup = nextTileGroup st.tileGroup := by
  have hg256 : st.tileGroup < 256 := lt_of_lt_of_le hg (two_pow_le_256 hN)
  have hpc : popCount st.tileGroup = k := h.popCount_eq hab hg
  have htc : st.numbersObject.current.tileCount = k := h.tileCount
  have harena : ArenaInv tiles st.tileGroup st.numbersObject.startGroup E :=
    h.solve.arena.start_group _
  have hbuilt := h.built hab
  obtain ⟨hnext1, hnext2⟩ := nextTileGroup_spec st.tileGroup hg256 h.tileGroup_pos
  -- the loop over the sub-groups
  have hfold := foldlM_inv
    (fun s' => ∃ E', ArenaInv tiles st.tileGroup s' E'
      ∧ Extends st.numbersObject.startGroup E s' E')
    (NumbersSolve.combineSubGroup st.operationGroups st.tileGroup)
    (tileSubGroups st.tileGroup st.numbersObject.startGroup.current.tileCount)
    st.numbersObject.startGroup
    (by
      rintro s1 sub hsub ⟨E1, hinv1, hx1⟩
      unfold NumbersSolve.combineSubGroup
      by_cases hab1 : s1.solution.aborted = true
      · rw [if_pos hab1]
        exact ⟨s1, rfl, E1, hinv1, hx1⟩
      · rw [if_neg hab1]
        have hsub' : sub ∈ tileSubGroups st.tileGroup (popCount st.tileGroup) := by
          rw [hpc, ← htc]; exact hsub
        obtain ⟨hs1, hs2, hs3, hs4⟩ := tileSubGroups_spec st.tileGroup hg256 sub hsub'
        have hsum := popCount_lor _ _ hs3
        rw [hs4, hpc] at hsum
        have hposA := popCount_pos sub (by omega) hs1
        have hposB := popCount_pos (st.tileGroup - sub) (by omega) (by omega)
        obtain ⟨grpA, hgA⟩ := hbuilt sub hs1 (by omega) (by omega)
        obtain ⟨grpB, hgB⟩ := hbuilt (st.tileGroup - sub) (by omega) (by omega) (by omega)
        rw [hgA, hgB]
        simp only []
        have hcf : s1.current.operationIdFirst = st.numbersObject.current.operationIdLast :=
          hx1.first_eq
        have hIA : GroupInv E1 sub (popCount sub) grpA s1.current.operationIdFirst := by
          rw [hcf]
          exact (h.solve.groups sub grpA hgA).grow (le_refl _) hx1.tree_eq
        have hIB : GroupInv E1 (st.tileGroup - sub) (popCount (st.tileGroup - sub)) grpB
            s1.current.operationIdFirst := by
          rw [hcf]
          exact (h.solve.groups _ grpB hgB).grow (le_refl _) hx1.tree_eq
        obtain ⟨E2, hinv2, hx2⟩ := CombineOperationGroups_inv hinv1 grpA grpB sub
          (st.tileGroup - sub) (popCount sub) (popCount (st.tileGroup - sub)) hIA hIB
          (fun t => testBit_disjoint hs3 t)
          (fun t => testBit_of_lor_left hs4 t)
          (fun t => testBit_of_lor_right hs4 t)
          (by rw [hx1.tileCount_eq]; show _ = st.numbersObject.current.tileCount; omega)
        exact ⟨_, rfl, E2, hinv2, hx1.trans hx2⟩)
    ⟨E, harena, Extends.refl _ _⟩
  obtain ⟨s', hfold, E', hinv', hx⟩ := hfold
  have hlen : st.tileGroup < st.operationGroups.length := by rw [h.solve.length]; exact hg
  refine ⟨{ numbersObject := s'
            operationGroups := st.operationGroups.set st.tileGroup
              (some ⟨s'.current.operationIdFirst, s'.current.operationIdLast⟩)
            tileGroup := nextTileGroup st.tileGroup }, E', ?_, ?_, rfl⟩
  · unfold NumbersSolve.buildGroup
    simp only []
    rw [hfold]
  · have hsab : s'.solution.aborted = false → st.numbersObject.solution.aborted = false :=
      fun _ => hab
    refine
      { solve :=
          { arena := hinv'.start_group 0
            final_eq := hx.final_eq.trans h.solve.final_eq
            complexityMax_eq := hx.complexityMax_eq.trans h.solve.complexityMax_eq
            operationSize_eq := hx.operationSize_eq.trans h.solve.operationSize_eq
            operationIdSize_eq := hx.operationIdSize_eq.trans h.solve.operationIdSize_eq
            length := by simp only [List.length_set]; exact h.solve.length
            groups := ?_ }
        tileCount := by rw [← htc]; exact hx.tileCount_eq
        tileGroup_pos := by show 0 < nextTileGroup st.tileGroup; omega
        recorded := ?_
        built := ?_
        before := ?_
        popCount_eq := ?_ }
    · intro m grp hm
      simp only [] at hm
      rw [groups_getD_set _ _ _ _ hlen] at hm
      by_cases hmg : m = st.tileGroup
      · rw [if_pos hmg] at hm
        cases hm
        have := hinv'.groupInv
        rw [hx.tileCount_eq] at this
        rw [hmg, hpc, ← htc]
        exact this
      · rw [if_neg hmg] at hm
        exact (h.solve.groups m grp hm).grow hx.last_le hx.tree_eq
    · intro _
      obtain ⟨hr1, hr2⟩ := h.recorded hab
      refine ⟨le_trans hr1 hx.last_le, fun i hi => ?_⟩
      show (s'.operation i).op = NOP
      rw [hx.operation_eq i (lt_of_lt_of_le hi hr1)]
      exact hr2 i hi
    · intro _ m hm1 hm2 hm3
      simp only []
      rw [groups_getD_set _ _ _ _ hlen]
      by_cases hmg : m = st.tileGroup
      · rw [if_pos hmg]; exact ⟨_, rfl⟩
      · rw [if_neg hmg]; exact hbuilt m hm1 hm2 hm3
    · intro _ m hm1 hm2 hm3
      have hm1' : m < nextTileGroup st.tileGroup := hm1
      simp only []
      rw [groups_getD_set _ _ _ _ hlen]
      by_cases hmg : m = st.tileGroup
      · rw [if_pos hmg]; exact ⟨_, rfl⟩
      · rw [if_neg hmg]
        by_cases hlt : m < st.tileGroup
        · exact h.before hab m hlt hm2 hm3
        · exact absurd (hm3.trans hpc.symm)
            (nextTileGroup_between st.tileGroup m hg256 (by omega) hm1')
    · intro _ hlt
      have hlt' : nextTileGroup st.tileGroup < 2 ^ tiles.length := hlt
      show popCount (nextTileGroup st.tileGroup) = k
      rw [hnext2 (lt_of_lt_of_le hlt' (two_pow_le_256 hN))]
      exact hpc

end Numbers

namespace Numbers

/-- Going on to groups with one more tile keeps the invariant between groups. -/
theorem ArenaInv.next_tile_count {tiles : List Nat} {g : Nat} {s : NumbersStruct}
    {E : Nat → Expr} (h : ArenaInv tiles g s.startGroup E) (g' : Nat) :
    ArenaInv tiles g'
      (NumbersStruct.startGroup
        { s with current := { s.current with tileCount := s.current.tileCount + 1 } }) E :=
  { wf := h.wf
    last_le := h.last_le
    first_le := le_refl _
    final_tileCount := h.final_tileCount
    aborted_full := h.aborted_full
    leaf := h.leaf
    node := h.node
    value := h.value
    result_lt := h.result_lt
    nodup := h.nodup
    leaves_lt := h.leaves_lt
    leaves_le := fun i hi => Nat.le_succ_of_le (h.leaves_le i hi)
    complexity_le := h.complexity_le
    current_leaves := fun i hle hi => by
      have hle' : s.current.operationIdLast ≤ i := hle
      have hi' : i < s.current.operationIdLast := hi
      omega
    solution_none := h.solution_none
    solution_lt := h.solution_lt
    solution_diff := h.solution_diff
    solution_tiles := h.solution_tiles
    best_le := h.best_le
    best_lt := h.best_lt
    best_first := h.best_first }

/-- Building all groups with one more tile keeps the invariant of the search,
and is defined. -/
theorem NumbersSolve.nextTileCount_inv (tiles : List Nat) (hN : tiles.length ≤ 8)
    (s0 : NumbersStruct) (st : SolveState) (E : Nat → Expr)
    (h : SearchInv tiles s0 st E)
    (hlt : st.numbersObject.current.tileCount < tiles.length)
    (hab : st.numbersObject.solution.aborted = false) :
    ∃ st' E', NumbersSolve.nextTileCount (2 ^ tiles.length) st = some st'
      ∧ SearchInv tiles s0 st' E'
      ∧ st'.numbersObject.current.tileCount = st.numbersObject.current.tileCount + 1 := by
  have hk8 : st.numbersObject.current.tileCount + 1 < 9 := by omega
  obtain ⟨hf1, hf2, hf3, hf4⟩ := firstTileGroup_spec (st.numbersObject.current.tileCount + 1)
    hk8 (by omega)
  have hpowle : 2 ^ (st.numbersObject.current.tileCount + 1) ≤ 2 ^ tiles.length :=
    Nat.pow_le_pow_right (by norm_num) hlt
  -- the state at the first turn of the loop over the groups
  have h1 : GroupLoopInv tiles s0 (st.numbersObject.current.tileCount + 1)
      { st with
        numbersObject :=
          { st.numbersObject with
            current := { st.numbersObject.current with
              tileCount := st.numbersObject.current.tileCount + 1 } }
        tileGroup := ((1 <<< (st.numbersObject.current.tileCount + 1)) % 2 ^ 32) - 1 } E :=
    { solve :=
        { arena := h.solve.arena.next_tile_count 0
          final_eq := h.solve.final_eq
          complexityMax_eq := h.solve.complexityMax_eq
          operationSize_eq := h.solve.operationSize_eq
          operationIdSize_eq := h.solve.operationIdSize_eq
          length := h.solve.length
          groups := h.solve.groups }
      tileCount := rfl
      tileGroup_pos := hf2
      recorded := fun _ => h.recorded hab
      built := fun _ => h.built hab
      before := fun _ m hm1 _ hm3 => by
        have := hf4 m hm1
        omega
      popCount_eq := fun _ _ => hf1 }
  obtain ⟨st2, E2, hb2, hinv2, _⟩ := NumbersSolve.buildGroup_inv tiles hN s0 _ _ E h1
    (lt_of_lt_of_le hf3 hpowle) hab
  -- the other turns
  have hloop := whileLoop_inv
    (fun st => decide (st.tileGroup < 2 ^ tiles.length) && !st.numbersObject.solution.aborted)
    NumbersSolve.buildGroup
    (fun st' => ∃ E', GroupLoopInv tiles s0 (st.numbersObject.current.tileCount + 1) st' E')
    (fun st' => 2 ^ tiles.length - st'.tileGroup)
    (by
      rintro st3 ⟨E3, hinv3⟩ hcond
      simp only [Bool.and_eq_true, decide_eq_true_eq, Bool.not_eq_true'] at hcond
      obtain ⟨st4, E4, hb4, hinv4, hg4⟩ := NumbersSolve.buildGroup_inv tiles hN s0 _ st3 E3
        hinv3 hcond.1 hcond.2
      refine ⟨st4, hb4, ⟨E4, hinv4⟩, ?_⟩
      have hg256 : st3.tileGroup < 256 := lt_of_lt_of_le hcond.1 (two_pow_le_256 hN)
      have := (nextTileGroup_spec st3.tileGroup hg256 hinv3.tileGroup_pos).1
      show 2 ^ tiles.length - st4.tileGroup < 2 ^ tiles.length - st3.tileGroup
      rw [hg4]
      have := hcond.1
      omega)
    (2 ^ tiles.length) st2 ⟨E2, hinv2⟩
    (by
      have := hinv2.tileGroup_pos
      have : 0 < 2 ^ tiles.length := Nat.pos_pow_of_pos _ (by norm_num)
      show 2 ^ tiles.length - st2.tileGroup < 2 ^ tiles.length
      omega)
  obtain ⟨st5, hw5, ⟨E5, hinv5⟩, hcond5⟩ := hloop
  refine ⟨st5, E5, ?_, ?_, hinv5.tileCount⟩
  · unfold NumbersSolve.nextTileCount
    simp only []
    rw [hb2]
    exact hw5
  · simp only [Bool.and_eq_false_iff, decide_eq_false_iff_not, Bool.not_eq_false'] at hcond5
    refine
      { solve := hinv5.solve
        tileCount_pos := by rw [hinv5.tileCount]; omega
        recorded := hinv5.recorded
        built := ?_ }
    intro hab5
    have hge : 2 ^ tiles.length ≤ st5.tileGroup := by
      rcases hcond5 with hc | hc
      · omega
      · rw [hab5] at hc; cases hc
    intro m hm1 hm2 hm3
    rw [hinv5.tileCount] at hm3
    by_cases hmk : popCount m = st.numbersObject.current.tileCount + 1
    · exact hinv5.before hab5 m (by omega) hm2 hmk
    · exact hinv5.built hab5 m hm1 hm2 (by omega)

end Numbers

namespace Numbers

set_option maxRecDepth 100000 in
theorem operationGroupSize_eq : ∀ n, n < 9 → (1 <<< n) % 2 ^ 16 = 2 ^ n := by
  decide!

/-- The object after the first assignments of `NumbersSolve` satisfies the
invariant of the first loop. -/
theorem NumbersSolve.init_inv (s : NumbersStruct) (hwf : s.WellFormed) (target : Nat)
    (tiles : List Nat) (complexity : Option Nat) (hN : tiles.length ≤ 8) :
    TilesInv tiles (NumbersSolve.init s target tiles complexity) 0
      { numbersObject := NumbersSolve.init s target tiles complexity
        operationGroups := List.replicate ((1 <<< tiles.length) % 2 ^ 16) none
        tileGroup := 0 } (fun _ => .tile 0) := by
  have hnone : ∀ m, (List.replicate ((1 <<< tiles.length) % 2 ^ 16)
      (none : Option OperationGroup)).getD m none = none := by
    intro m
    rw [List.getD_eq_getElem?_getD]
    cases hget : (List.replicate ((1 <<< tiles.length) % 2 ^ 16)
      (none : Option OperationGroup))[m]? with
    | none => rfl
    | some x =>
      obtain ⟨hlt, hx⟩ := List.getElem?_eq_some.mp hget
      rw [List.getElem_replicate] at hx
      rw [← hx]; rfl
  refine
    { solve :=
        { arena :=
            { wf := hwf
              last_le := Nat.zero_le _
              first_le := le_refl _
              final_tileCount := rfl
              aborted_full := fun hab => by cases hab
              leaf := fun i hi => absurd hi (Nat.not_lt_zero i)
              node := fun i hi => absurd hi (Nat.not_lt_zero i)
              value := fun i hi => absurd hi (Nat.not_lt_zero i)
              result_lt := fun i hi => absurd hi (Nat.not_lt_zero i)
              nodup := fun i hi => absurd hi (Nat.not_lt_zero i)
              leaves_lt := fun i hi => absurd hi (Nat.not_lt_zero i)
              leaves_le := fun i hi => absurd hi (Nat.not_lt_zero i)
              complexity_le := fun i hi => absurd hi (Nat.not_lt_zero i)
              current_leaves := fun i _ hi => absurd hi (Nat.not_lt_zero i)
              solution_none := fun _ => rfl
              solution_lt := fun hlt => absurd hlt (Nat.lt_irrefl _)
              solution_diff := fun hlt => absurd hlt (Nat.lt_irrefl _)
              solution_tiles := fun hlt => absurd hlt (Nat.lt_irrefl _)
              best_le := fun i hi => absurd hi (Nat.not_lt_zero i)
              best_lt := fun i hi => absurd hi (Nat.not_lt_zero i)
              best_first := fun hlt => absurd hlt (Nat.lt_irrefl _) }
          final_eq := rfl
          complexityMax_eq := rfl
          operationSize_eq := rfl
          operationIdSize_eq := rfl
          length := by
            rw [List.length_replicate]
            exact operationGroupSize_eq _ (by omega)
          groups := fun m grp hm => by
            simp only [] at hm
            rw [hnone] at hm
            cases hm }
      tileCount := rfl
      last_le := le_refl _
      last_eq := fun _ => rfl
      groups := fun t ht => absurd ht (Nat.not_lt_zero t)
      leaves := fun i hi => absurd hi (Nat.not_lt_zero i) }

/-- The search of `NumbersSolve` is defined for every well-formed object and at
most 8 tiles, and ends in a state that satisfies the arena invariant. -/
theorem NumbersSolve.search_spec (s : NumbersStruct) (hwf : s.WellFormed) (target : Nat)
    (tiles : List Nat) (complexity : Option Nat) (htiles : ∀ t ∈ tiles, t < 2 ^ 32)
    (hN : tiles.length ≤ 8) :
    ∃ s' E, NumbersSolve.search s target tiles complexity = some s'
      ∧ ArenaInv tiles 0 s'.startGroup E
      ∧ s'.final.target = target
      ∧ s'.current.complexityMax = complexity.getD UINT16_MAX
      ∧ s'.operationSize = s.operationSize
      ∧ s'.operationIdSize = s.operationIdSize
      ∧ (s'.solution.aborted = false → TilesRecorded tiles s')
      ∧ (s'.solution.aborted = false → s'.solution.targetDiff ≠ 0 →
          tiles.length ≤ s'.current.tileCount) := by
  have hsize := operationGroupSize_eq tiles.length (by omega)
  -- the first loop
  have h1 := foldl_range_inv
    (fun j st => ∃ E, TilesInv tiles (NumbersSolve.init s target tiles complexity) j st E)
    (NumbersSolve.recordTile tiles)
    { numbersObject := NumbersSolve.init s target tiles complexity
      operationGroups := List.replicate ((1 <<< tiles.length) % 2 ^ 16) none
      tileGroup := 0 }
    tiles.length
    (fun j st hj hP => NumbersSolve.recordTile_inv tiles htiles hN _ j st hj hP)
    ⟨_, NumbersSolve.init_inv s hwf target tiles complexity hN⟩
  obtain ⟨E1, h1⟩ := h1
  generalize hst1 : (List.range tiles.length).foldl (NumbersSolve.recordTile tiles)
    { numbersObject := NumbersSolve.init s target tiles complexity
      operationGroups := List.replicate ((1 <<< tiles.length) % 2 ^ 16) none
      tileGroup := 0 } = st1 at h1
  have h2 : SearchInv tiles (NumbersSolve.init s target tiles complexity) st1 E1 :=
    { solve := h1.solve
      tileCount_pos := by rw [h1.tileCount]
      recorded := fun hab => ⟨by rw [h1.last_eq hab], fun i hi =>
        h1.leaves i (by rw [h1.last_eq hab]; exact hi)⟩
      built := fun _ m hm1 hm2 hm3 => by
        rw [h1.tileCount] at hm3
        have hm256 : m < 256 := lt_of_lt_of_le hm2 (two_pow_le_256 hN)
        have hpos := popCount_pos m hm256 hm1
        obtain ⟨t, ht8, hmt⟩ := popCount_one m hm256 (by omega)
        have hpow := (popCount_shift t ht8).2.1
        have htN : t < tiles.length := by
          rw [hmt, hpow] at hm2
          exact (Nat.pow_lt_pow_iff_right (by norm_num)).mp hm2
        rw [hmt]
        exact h1.groups t htN }
  -- the second loop
  have hloop := whileLoop_inv
    (fun st => decide (st.numbersObject.current.tileCount < st.numbersObject.final.tileCount)
      && decide (st.numbersObject.solution.targetDiff ≠ 0)
      && !st.numbersObject.solution.aborted)
    (NumbersSolve.nextTileCount ((1 <<< tiles.length) % 2 ^ 16))
    (fun st => ∃ E, SearchInv tiles (NumbersSolve.init s target tiles complexity) st E)
    (fun st => tiles.length - st.numbersObject.current.tileCount)
    (by
      rintro st ⟨E, hinv⟩ hcond
      simp only [Bool.and_eq_true, decide_eq_true_eq, Bool.not_eq_true'] at hcond
      have hfin : st.numbersObject.final.tileCount = tiles.length := by
        rw [hinv.solve.final_eq]; rfl
      rw [hfin] at hcond
      rw [hsize]
      obtain ⟨st', E', hb, hinv', htc⟩ := NumbersSolve.nextTileCount_inv tiles hN _ st E hinv
        hcond.1.1 hcond.2
      refine ⟨st', hb, ⟨E', hinv'⟩, ?_⟩
      show tiles.length - st'.numbersObject.current.tileCount
        < tiles.length - st.numbersObject.current.tileCount
      have := hcond.1.1
      omega)
    (tiles.length + 1) st1 ⟨E1, h2⟩
    (by
      show tiles.length - st1.numbersObject.current.tileCount < tiles.length + 1
      omega)
  obtain ⟨st2, hw2, ⟨E2, hinv2⟩, hcond2⟩ := hloop
  refine ⟨st2.numbersObject, E2, ?_, hinv2.solve.arena, ?_, ?_, ?_, ?_, hinv2.recorded, ?_⟩
  · unfold NumbersSolve.search
    simp only []
    have hfin : (NumbersSolve.init s target tiles complexity).final.tileCount
        = tiles.length := rfl
    rw [hfin, hst1, hw2]
    rfl
  · rw [hinv2.solve.final_eq]; rfl
  · rw [hinv2.solve.complexityMax_eq]; rfl
  · rw [hinv2.solve.operationSize_eq]; rfl
  · rw [hinv2.solve.operationIdSize_eq]; rfl
  · intro hab hdiff
    simp only [Bool.and_eq_false_iff, decide_eq_false_iff_not, Bool.not_eq_false'] at hcond2
    have hfin : st2.numbersObject.final.tileCount = tiles.length := by
      rw [hinv2.solve.final_eq]; rfl
    rw [hfin] at hcond2
    rcases hcond2 with (hc | hc) | hc
    · omega
    · exact absurd hdiff hc
    · rw [hab] at hc; cases hc

end Numbers

namespace Numbers

/-! ## The reconstructed solution -/

/-- The reconstructor walks the tree of a record: it returns the left-most
tile and the stream of the tree, whenever the fuel exceeds the index. (`s2` is
any object with the same arena, such as the object before the last group was
started.) -/
theorem GenerateSolution_eq {tiles : List Nat} {g : Nat} {s : NumbersStruct}
    {E : Nat → Expr} (h : ArenaInv tiles g s E) (s2 : NumbersStruct)
    (hs2 : ∀ i, s2.operation i = s.operation i) :
    ∀ i, i < s.current.operationIdLast → ∀ fuel, i < fuel →
      GenerateSolution s2 fuel i = some ((E i).first, (E i).stream) := by
  intro i
  induction i using Nat.strong_induction_on with
  | _ i ih =>
    intro hi fuel hfuel
    cases fuel with
    | zero => omega
    | succ fuel =>
      unfold GenerateSolution
      simp only []
      rw [hs2 i]
      by_cases hnop : (s.operation i).op = NOP
      · rw [if_pos hnop]
        rw [(h.leaf i hi hnop).1]
        rfl
      · rw [if_neg hnop]
        obtain ⟨_, h2, h3, _, h5⟩ := h.node i hi hnop
        rw [ih _ h2 (by omega) fuel (by omega), ih _ h3 (by omega) fuel (by omega)]
        simp only []
        rw [h5]
        rfl

/-- The tree of every record has valid operator codes. -/
theorem ArenaInv.ops_valid {tiles : List Nat} {g : Nat} {s : NumbersStruct}
    {E : Nat → Expr} (h : ArenaInv tiles g s E) :
    ∀ i, i < s.current.operationIdLast → (E i).opsValid := by
  intro i
  induction i using Nat.strong_induction_on with
  | _ i ih =>
    intro hi
    by_cases hnop : (s.operation i).op = NOP
    · rw [(h.leaf i hi hnop).1]
      trivial
    · obtain ⟨h1, h2, h3, _, h5⟩ := h.node i hi hnop
      rw [h5]
      exact ⟨h1, ih _ h2 (by omega), ih _ h3 (by omega)⟩

theorem Expr.first_mem_leaves (e : Expr) : e.first ∈ e.leaves := by
  induction e with
  | tile t => simp [Expr.first, Expr.leaves]
  | node op l r ihl _ =>
    simp only [Expr.first, Expr.leaves, List.mem_append]
    exact Or.inl ihl

/-- A tree over `n` tiles has `n - 1` operations. -/
theorem Expr.stream_length (e : Expr) : e.stream.length + 1 = e.leaves.length := by
  induction e with
  | tile t => simp [Expr.stream, Expr.leaves]
  | node op l r ihl ihr =>
    simp only [Expr.stream, Expr.leaves, List.length_append, List.length_singleton]
    omega

set_option maxRecDepth 100000 in
/-- The byte of an operation on two different tiles is not zero and decodes to
the tiles and the operator. -/
theorem encode_spec : ∀ a, a < 8 → ∀ b, b < 8 → ∀ op, op < 4 →
    ((a ||| (b <<< 3) ||| (op <<< 6)) % 2 ^ 8) &&& 7 = a
    ∧ (((a ||| (b <<< 3) ||| (op <<< 6)) % 2 ^ 8) >>> 3) &&& 7 = b
    ∧ ((a ||| (b <<< 3) ||| (op <<< 6)) % 2 ^ 8) >>> 6 = op
    ∧ (a ≠ b → (a ||| (b <<< 3) ||| (op <<< 6)) % 2 ^ 8 ≠ 0) := by
  decide!

/-- No byte of the stream of a tree over different tiles below 8 is zero. -/
theorem Expr.stream_ne_zero (e : Expr) (hops : e.opsValid) (hnd : e.leaves.Nodup)
    (hlt : ∀ t ∈ e.leaves, t < 8) : ∀ b ∈ e.stream, b ≠ 0 := by
  induction e with
  | tile t => intro b hb; simp [Expr.stream] at hb
  | node op l r ihl ihr =>
    simp only [Expr.leaves] at hnd hlt
    obtain ⟨hop, hol, hor⟩ := hops
    have hdl := (List.nodup_append.mp hnd).1
    have hdr := (List.nodup_append.mp hnd).2.1
    have hdisj := (List.nodup_append.mp hnd).2.2
    intro b hb
    simp only [Expr.stream, List.mem_append, List.mem_singleton] at hb
    rcases hb with (hb | hb) | hb
    · exact ihl hol hdl (fun t ht => hlt t (List.mem_append_left _ ht)) b hb
    · exact ihr hor hdr (fun t ht => hlt t (List.mem_append_right _ ht)) b hb
    · have hl := l.first_mem_leaves
      have hr := r.first_mem_leaves
      have hne : l.first ≠ r.first := fun he => hdisj hl (he ▸ hr)
      rw [hb]
      exact (encode_spec l.first (hlt _ (List.mem_append_left _ hl)) r.first
        (hlt _ (List.mem_append_right _ hr)) op hop).2.2.2 hne

end Numbers

namespace Numbers

/-! ## What `NumbersSolve` returns -/

/-- The outputs of `NumbersSolve` in terms of the final state of the search and
of the tree of the chosen record. -/
theorem NumbersSolve.finish_spec {tiles : List Nat} {g : Nat} {s : NumbersStruct}
    {E : Nat → Expr} (h : ArenaInv tiles g s.startGroup E) (complexity : Option Nat)
    (solutionOperations result : Bool) :
    NumbersSolve.finish s complexity solutionOperations result = some
      { error := if s.solution.aborted then NumbersError.AbortedError else NumbersError.Success
        numbersObject := some s
        complexity := complexity.map (fun _ =>
          if s.solution.operationId < s.operationSize then
            (s.operation s.solution.operationId).complexity
          else 0)
        solutionOperations :=
          if solutionOperations then
            some ((if s.solution.operationId < s.operationSize then
              (E s.solution.operationId).stream else []) ++ [0])
          else none
        result :=
          if result then
            some (if s.solution.operationId < s.operationSize then
              (s.operation s.solution.operationId).result else 0)
          else none } := by
  unfold NumbersSolve.finish
  simp only []
  by_cases hsol : s.solution.operationId ≥ s.operationSize
  · have hnot : ¬ s.solution.operationId < s.operationSize := by omega
    rw [if_pos hsol]
    simp only [hnot, if_false, List.nil_append]
  · have hlt : s.solution.operationId < s.operationSize := by omega
    rw [if_neg hsol]
    simp only [hlt, if_true]
    cases solutionOperations with
    | false => simp
    | true =>
      simp only [if_true]
      have hgen : GenerateSolution s (s.solution.operationId + 1) s.solution.operationId
          = some ((E s.solution.operationId).first, (E s.solution.operationId).stream) :=
        GenerateSolution_eq h s (fun _ => rfl) _ (h.solution_lt hlt) _ (Nat.lt_succ_self _)
      rw [hgen]
      simp

/-- `NumbersSolve` on a well-formed object and at most 8 tiles: it is defined,
and its outputs are read off a final state that satisfies the arena
invariant. -/
theorem NumbersSolve_spec (s : NumbersStruct) (hwf : s.WellFormed) (target : Nat)
    (tiles : List Nat) (complexity : Option Nat) (solutionOperations result : Bool)
    (htiles : ∀ t ∈ tiles, t < 2 ^ 32) (hN : tiles.length ≤ 8) :
    ∃ s' E, ArenaInv tiles 0 s'.startGroup E
      ∧ NumbersSolve (some s) target (some tiles) complexity solutionOperations result = some
        { error := if s'.solution.aborted then NumbersError.AbortedError
            else NumbersError.Success
          numbersObject := some s'
          complexity := complexity.map (fun _ =>
            if s'.solution.operationId < s'.operationSize then
              (s'.operation s'.solution.operationId).complexity
            else 0)
          solutionOperations :=
            if solutionOperations then
              some ((if s'.solution.operationId < s'.operationSize then
                (E s'.solution.operationId).stream else []) ++ [0])
            else none
          result :=
            if result then
              some (if s'.solution.operationId < s'.operationSize then
                (s'.operation s'.solution.operationId).result else 0)
            else none }
      ∧ s'.final.target = target
      ∧ s'.current.complexityMax = complexity.getD UINT16_MAX
      ∧ s'.operationSize = s.operationSize
      ∧ s'.operationIdSize = s.operationIdSize
      ∧ (s'.solution.aborted = false → TilesRecorded tiles s')
      ∧ (s'.solution.aborted = false → s'.solution.targetDiff ≠ 0 →
          tiles.length ≤ s'.current.tileCount)
      ∧ (0 < tiles.length → s'.solution.operationId < s'.operationSize) := by
  obtain ⟨s', E, hsearch, hinv, h1, h2, h3, h4, h5, h6⟩ :=
    NumbersSolve.search_spec s hwf target tiles complexity htiles hN
  refine ⟨s', E, hinv, ?_, h1, h2, h3, h4, h5, h6, ?_⟩
  · have hfin := NumbersSolve.finish_spec hinv complexity solutionOperations result
    unfold NumbersSolve
    simp only [gt_iff_lt]
    rw [if_neg (by omega), hsearch]
    exact hfin
  · intro hpos
    by_contra hsol
    have hsol' : s'.operationSize ≤ s'.solution.operationId := by omega
    have hL : s'.current.operationIdLast = 0 := hinv.solution_none hsol'
    cases hab : s'.solution.aborted with
    | false =>
      have := (h5 hab).1
      omega
    | true =>
      have h7 : s'.current.operationIdLast = s'.operationSize := hinv.aborted_full hab
      have h8 : 0 < s'.operationSize := hinv.wf.1
      omega

end Numbers

namespace Numbers

/-! ## The validator on the stream of a tree -/

theorem bestOf_append (target : Nat) (best : Nat × Nat) (l1 l2 : List Nat) :
    bestOf target best (l1 ++ l2) = bestOf target (bestOf target best l1) l2 := by
  unfold bestOf
  rw [List.foldl_append]

theorem CheckResult_best (target value : Nat) (st : ValidateState) :
    ((CheckResult target value st).bestResult, (CheckResult target value st).bestTargetDiff)
      = bestOf target (st.bestResult, st.bestTargetDiff) [value]
    ∧ (CheckResult target value st).tileValues = st.tileValues := by
  unfold CheckResult bestOf
  simp only [List.foldl_cons, List.foldl_nil]
  by_cases h : targetDiffOf target value < st.bestTargetDiff
  · rw [if_pos h, if_pos h]
    exact ⟨rfl, rfl⟩
  · rw [if_neg h, if_neg h]
    exact ⟨rfl, rfl⟩

/-- One accepted operation of the validator: the byte of an operation on two
different tiles that hold `valueLeft` and `valueRight`. -/
theorem NumbersValidate.operation_ok (target count : Nat) (hook : Bool) (st : ValidateState)
    (a b op valueLeft valueRight v : Nat) (ch : Char)
    (ha : a < 8) (hb : b < 8) (hop : op < 4) (hac : a < count) (hbc : b < count)
    (hab : a ≠ b)
    (hva : st.tileValues.getD a 0 = valueLeft) (hvb : st.tileValues.getD b 0 = valueRight)
    (hfa : valueLeft ≠ UINT32_MAX) (hfb : valueRight ≠ UINT32_MAX)
    (hc : NumbersValidate.compute op valueLeft valueRight = .ok (v, ch)) :
    ∃ st', NumbersValidate.operation target count hook st
        ((a ||| (b <<< 3) ||| (op <<< 6)) % 2 ^ 8) = .ok st'
      ∧ st'.tileValues = (st.tileValues.set a v).set b UINT32_MAX
      ∧ (st'.bestResult, st'.bestTargetDiff)
          = bestOf target (st.bestResult, st.bestTargetDiff) [v] := by
  obtain ⟨h1, h2, h3, _⟩ := encode_spec a ha b hb op hop
  unfold NumbersValidate.operation
  simp only []
  rw [h1, h2, h3]
  rw [if_neg (by
    intro hc'
    rcases hc' with hc' | hc' | hc'
    · omega
    · omega
    · exact hab hc')]
  rw [hva, hvb]
  rw [if_neg (by
    intro hc'
    rcases hc' with hc' | hc'
    · exact hfa hc'
    · exact hfb hc')]
  rw [hc]
  simp only []
  refine ⟨_, rfl, ?_, ?_⟩
  · exact (CheckResult_best target v _).2
  · exact (CheckResult_best target v _).1

/-- The validator accepts the stream of a tree whose leaves still hold their
tiles: the value of the tree ends in its left-most tile, its other tiles are
consumed, and `CheckResult` has seen the values of its operations in order. -/
theorem NumbersValidate.loop_stream (target : Nat) (tiles : List Nat) (hook : Bool) :
    ∀ (e : Expr) (v : Nat) (st : ValidateState),
      e.opsValid → e.leaves.Nodup → (∀ t ∈ e.leaves, t < tiles.length ∧ t < 8) →
      st.tileValues.length = tiles.length →
      (∀ t ∈ e.leaves, st.tileValues.getD t 0 = tiles.getD t 0) →
      e.value tiles = some v → e.operandsFree tiles →
      ∃ st', (∀ rest, NumbersValidate.loop target tiles.length hook st (e.stream ++ rest)
            = NumbersValidate.loop target tiles.length hook st' rest)
        ∧ st'.tileValues.length = tiles.length
        ∧ (∀ t, st'.tileValues.getD t 0 =
            if t = e.first then v
            else if t ∈ e.leaves then UINT32_MAX else st.tileValues.getD t 0)
        ∧ (st'.bestResult, st'.bestTargetDiff)
            = bestOf target (st.bestResult, st.bestTargetDiff) (e.results tiles) := by
  intro e
  induction e with
  | tile t0 =>
    intro v st _ _ hlt hlen hval hv _
    refine ⟨st, fun rest => rfl, hlen, ?_, rfl⟩
    intro t
    simp only [Expr.first, Expr.leaves, List.mem_singleton]
    by_cases ht : t = t0
    · rw [if_pos ht, ht]
      have h1 := hval t0 (by simp [Expr.leaves])
      have h2 := (hlt t0 (by simp [Expr.leaves])).1
      simp only [Expr.value, h2, if_true, Option.some.injEq] at hv
      rw [h1, hv]
    · rw [if_neg ht, if_neg ht]
  | node op l r ihl ihr =>
    intro v st hops hnd hlt hlen hval hv hfree
    obtain ⟨hop, hol, hor⟩ := hops
    simp only [Expr.leaves] at hnd hlt hval
    have hdl := (List.nodup_append.mp hnd).1
    have hdr := (List.nodup_append.mp hnd).2.1
    have hdisj := (List.nodup_append.mp hnd).2.2
    obtain ⟨hfl, hfr, hfl', hfr'⟩ := hfree
    -- the values of the two sub-trees
    cases hvl : l.value tiles with
    | none => simp [Expr.value, hvl] at hv
    | some vl =>
      cases hvr : r.value tiles with
      | none => simp [Expr.value, hvl, hvr] at hv
      | some vr =>
        cases hc : NumbersValidate.compute op vl vr with
        | error err => simp [Expr.value, hvl, hvr, hc] at hv
        | ok p =>
          obtain ⟨v', ch⟩ := p
          have hvv : v' = v := by
            simp only [Expr.value, hvl, hvr, hc, Option.some.injEq] at hv
            exact hv
          subst hvv
          obtain ⟨st1, hl1, hl2, hl3, hl4⟩ := ihl vl st hol hdl
            (fun t ht => hlt t (List.mem_append_left _ ht)) hlen
            (fun t ht => hval t (List.mem_append_left _ ht)) hvl hfl'
          have hlf := l.first_mem_leaves
          have hrf := r.first_mem_leaves
          have hval1 : ∀ t ∈ r.leaves, st1.tileValues.getD t 0 = tiles.getD t 0 := by
            intro t ht
            have hnl : t ∉ l.leaves := fun htl => hdisj htl ht
            have hne : t ≠ l.first := fun he => hnl (he ▸ hlf)
            rw [hl3 t, if_neg hne, if_neg hnl]
            exact hval t (List.mem_append_right _ ht)
          obtain ⟨st2, hr1, hr2, hr3, hr4⟩ := ihr vr st1 hor hdr
            (fun t ht => hlt t (List.mem_append_right _ ht)) hl2 hval1 hvr hfr'
          have hne : l.first ≠ r.first := fun he => hdisj hlf (he ▸ hrf)
          have hlnr : l.first ∉ r.leaves := fun h' => hdisj hlf h'
          have hva : st2.tileValues.getD l.first 0 = vl := by
            rw [hr3, if_neg hne, if_neg hlnr, hl3, if_pos rfl]
          have hvb : st2.tileValues.getD r.first 0 = vr := by
            rw [hr3, if_pos rfl]
          have hla := hlt _ (List.mem_append_left _ hlf)
          have hra := hlt _ (List.mem_append_right _ hrf)
          obtain ⟨st3, ho1, ho2, ho3⟩ := NumbersValidate.operation_ok target tiles.length hook
            st2 l.first r.first op vl vr v' ch hla.2 hra.2 hop hla.1 hra.1 hne hva hvb
            (fun he => hfl (by rw [hvl, he])) (fun he => hfr (by rw [hvr, he])) hc
          have hbyte : (l.first ||| (r.first <<< 3) ||| (op <<< 6)) % 2 ^ 8 ≠ 0 :=
            (encode_spec l.first hla.2 r.first hra.2 op hop).2.2.2 hne
          refine ⟨st3, ?_, ?_, ?_, ?_⟩
          · intro rest
            simp only [Expr.stream, List.append_assoc]
            rw [hl1, hr1]
            simp only [List.singleton_append]
            conv_lhs => unfold NumbersValidate.loop
            rw [if_neg hbyte, ho1]
          · rw [ho2, List.length_set, List.length_set]
            exact hr2
          · intro t
            rw [ho2]
            have hlen1 : l.first < st2.tileValues.length := by rw [hr2]; exact hla.1
            have hlen2 : r.first < (st2.tileValues.set l.first v').length := by
              rw [List.length_set, hr2]; exact hra.1
            rw [getD_set_nat _ _ _ _ hlen2, getD_set_nat _ _ _ _ hlen1, hr3, hl3]
            simp only [Expr.first, Expr.leaves, List.mem_append]
            by_cases h1 : t = l.first
            · have h2 : ¬ t = r.first := by rw [h1]; exact hne
              simp only [h1, h2, hne, if_true, if_false]
            · by_cases h2 : t = r.first
              · have h3 : t ∈ r.leaves := h2 ▸ hrf
                simp only [h1, h2, h3, if_true, if_false, or_true]
                rw [if_neg (fun he => hne he.symm), if_pos (Or.inr hrf)]
              · by_cases h3 : t ∈ r.leaves
                · simp only [h1, h2, h3, if_true, if_false, or_true]
                · by_cases h4 : t ∈ l.leaves
                  · simp only [h1, h2, h3, h4, if_true, if_false, true_or]
                  · simp only [h1, h2, h3, h4, if_false, or_self]
          · rw [ho3, hr4, hl4]
            simp only [Expr.results, Expr.value, hvl, hvr, hc, Option.getD_some]
            rw [bestOf_append, bestOf_append]

end Numbers

namespace Numbers

/-! ## The closest value seen by the validator -/

theorem bestOf_cons (target : Nat) (best : Nat × Nat) (x : Nat) (l : List Nat) :
    bestOf target best (x :: l) =
      bestOf target
        (if targetDiffOf target x < best.2 then (x, targetDiffOf target x) else best) l := rfl

/-- Values that are not closer than the best so far do not change it. -/
theorem bestOf_none (target : Nat) : ∀ (l : List Nat) (b d : Nat),
    (∀ x ∈ l, d ≤ targetDiffOf target x) → bestOf target (b, d) l = (b, d) := by
  intro l
  induction l with
  | nil => intro b d _; rfl
  | cons x l ih =>
    intro b d h
    rw [bestOf_cons]
    have hx := h x (List.mem_cons_self x l)
    rw [if_neg (by simp only []; omega)]
    exact ih b d (fun y hy => h y (List.mem_cons_of_mem x hy))

/-- The distance of the best so far stays above a bound that all values seen
exceed. -/
theorem bestOf_gt (target c : Nat) : ∀ (l : List Nat) (b d : Nat),
    (∀ x ∈ l, c < targetDiffOf target x) → c < d → c < (bestOf target (b, d) l).2 := by
  intro l
  induction l with
  | nil => intro b d _ hd; exact hd
  | cons x l ih =>
    intro b d h hd
    rw [bestOf_cons]
    have hx := h x (List.mem_cons_self x l)
    by_cases hlt : targetDiffOf target x < d
    · rw [if_pos hlt]
      exact ih _ _ (fun y hy => h y (List.mem_cons_of_mem x hy)) hx
    · rw [if_neg hlt]
      exact ih _ _ (fun y hy => h y (List.mem_cons_of_mem x hy)) hd

/-- A value strictly closer than all values before it and at least as close as
all values after it is the best. -/
theorem bestOf_first (target v : Nat) (pre post : List Nat) (b d : Nat)
    (hpre : ∀ x ∈ pre, targetDiffOf target v < targetDiffOf target x)
    (hd : targetDiffOf target v < d)
    (hpost : ∀ x ∈ post, targetDiffOf target v ≤ targetDiffOf target x) :
    bestOf target (b, d) (pre ++ v :: post) = (v, targetDiffOf target v) := by
  rw [bestOf_append, bestOf_cons]
  have h1 := bestOf_gt target (targetDiffOf target v) pre b d hpre hd
  rw [if_pos h1]
  exact bestOf_none target post v _ hpost

/-- After its first loop the validator holds the tiles and has seen their
values. -/
theorem NumbersValidate.init_spec (target : Nat) (tiles : List Nat) :
    (NumbersValidate.init target tiles).tileValues = tiles
    ∧ ((NumbersValidate.init target tiles).bestResult,
        (NumbersValidate.init target tiles).bestTargetDiff)
        = bestOf target (0, UINT32_MAX) tiles := by
  have hgen : ∀ (l : List Nat) (st : ValidateState),
      (l.foldl (fun st tileValue => CheckResult target tileValue
          { st with tileValues := st.tileValues ++ [tileValue] }) st).tileValues
        = st.tileValues ++ l
      ∧ ((l.foldl (fun st tileValue => CheckResult target tileValue
          { st with tileValues := st.tileValues ++ [tileValue] }) st).bestResult,
         (l.foldl (fun st tileValue => CheckResult target tileValue
          { st with tileValues := st.tileValues ++ [tileValue] }) st).bestTargetDiff)
        = bestOf target (st.bestResult, st.bestTargetDiff) l := by
    intro l
    induction l with
    | nil => intro st; simp [bestOf]
    | cons x l ih =>
      intro st
      simp only [List.foldl_cons]
      obtain ⟨h1, h2⟩ := ih (CheckResult target x
        { st with tileValues := st.tileValues ++ [x] })
      obtain ⟨h3, h4⟩ := CheckResult_best target x
        { st with tileValues := st.tileValues ++ [x] }
      refine ⟨?_, ?_⟩
      · rw [h1, h4]
        simp
      · rw [h2, h3]
        have : x :: l = [x] ++ l := rfl
        rw [this, bestOf_append]
  have := hgen tiles
    { tileValues := [], bestResult := 0, bestTargetDiff := UINT32_MAX, hookCalls := [] }
  simpa [NumbersValidate.init] using this

/-- A list splits at any of its positions. -/
theorem list_split_at : ∀ (l : List Nat) (i : Nat), i < l.length →
    ∃ pre post, l = pre ++ l.getD i 0 :: post
      ∧ (∀ x ∈ pre, ∃ j, j < i ∧ x = l.getD j 0)
      ∧ (∀ x ∈ post, ∃ j, j < l.length ∧ x = l.getD j 0) := by
  intro l
  induction l with
  | nil => intro i hi; simp at hi
  | cons a l ih =>
    intro i hi
    cases i with
    | zero =>
      refine ⟨[], l, by simp, by simp, ?_⟩
      intro x hx
      obtain ⟨n, hn, hx'⟩ := List.getElem_of_mem hx
      exact ⟨n + 1, by simp; omega, by simp [← hx', hn]⟩
    | succ i =>
      have hi' : i < l.length := by simpa using hi
      obtain ⟨pre, post, h1, h2, h3⟩ := ih i hi'
      refine ⟨a :: pre, post, ?_, ?_, ?_⟩
      · simp only [List.getD_cons_succ, List.cons_append]
        rw [← h1]
      · intro x hx
        rcases List.mem_cons.mp hx with hx | hx
        · exact ⟨0, by omega, by simp [hx]⟩
        · obtain ⟨j, hj, hxj⟩ := h2 x hx
          exact ⟨j + 1, by omega, by simp [hxj]⟩
      · intro x hx
        obtain ⟨j, hj, hxj⟩ := h3 x hx
        exact ⟨j + 1, by simp; omega, by simp [hxj]⟩

theorem mem_getD (l : List Nat) (x : Nat) (hx : x ∈ l) :
    ∃ j, j < l.length ∧ x = l.getD j 0 := by
  obtain ⟨n, hn, hx'⟩ := List.getElem_of_mem hx
  exact ⟨n, hn, by simp [← hx', hn]⟩

end Numbers

namespace Numbers

/-! ## Soundness of the solver against the validator -/

/-- When no record holds `UINT32_MAX`, no operand of any tree does. -/
theorem ArenaInv.operands_free {tiles : List Nat} {g : Nat} {s : NumbersStruct}
    {E : Nat → Expr} (h : ArenaInv tiles g s E)
    (hfree : ∀ i, i < s.current.operationIdLast → (s.operation i).result ≠ UINT32_MAX) :
    ∀ i, i < s.current.operationIdLast → (E i).operandsFree tiles := by
  intro i
  induction i using Nat.strong_induction_on with
  | _ i ih =>
    intro hi
    by_cases hnop : (s.operation i).op = NOP
    · rw [(h.leaf i hi hnop).1]
      trivial
    · obtain ⟨_, h2, h3, _, h5⟩ := h.node i hi hnop
      rw [h5]
      have hl : (s.operation i).operationIdLeft < s.current.operationIdLast := by omega
      have hr : (s.operation i).operationIdRight < s.current.operationIdLast := by omega
      refine ⟨?_, ?_, ih _ h2 hl, ih _ h3 hr⟩
      · rw [h.value _ hl]
        intro he
        exact hfree _ hl (Option.some.inj he)
      · rw [h.value _ hr]
        intro he
        exact hfree _ hr (Option.some.inj he)

/-- Every value computed inside the tree of a record is the result of a
record whose tree has no more tiles. -/
theorem ArenaInv.results_mem {tiles : List Nat} {g : Nat} {s : NumbersStruct}
    {E : Nat → Expr} (h : ArenaInv tiles g s E) :
    ∀ i, i < s.current.operationIdLast → ∀ x ∈ (E i).results tiles,
      ∃ j, j < s.current.operationIdLast ∧ x = (s.operation j).result
        ∧ (E j).leaves.length ≤ (E i).leaves.length := by
  intro i
  induction i using Nat.strong_induction_on with
  | _ i ih =>
    intro hi x hx
    by_cases hnop : (s.operation i).op = NOP
    · rw [(h.leaf i hi hnop).1] at hx
      simp [Expr.results] at hx
    · obtain ⟨_, h2, h3, _, h5⟩ := h.node i hi hnop
      have hl : (s.operation i).operationIdLeft < s.current.operationIdLast := by omega
      have hr : (s.operation i).operationIdRight < s.current.operationIdLast := by omega
      have hlen : (E i).leaves.length
          = (E (s.operation i).operationIdLeft).leaves.length
            + (E (s.operation i).operationIdRight).leaves.length := by
        rw [h5]; simp [Expr.leaves]
      have hv := h.value i hi
      rw [h5] at hx hv
      simp only [Expr.results, List.mem_append, List.mem_singleton] at hx
      rcases hx with (hx | hx) | hx
      · obtain ⟨j, hj1, hj2, hj3⟩ := ih _ h2 hl x hx
        exact ⟨j, hj1, hj2, by omega⟩
      · obtain ⟨j, hj1, hj2, hj3⟩ := ih _ h3 hr x hx
        exact ⟨j, hj1, hj2, by omega⟩
      · rw [hv] at hx
        exact ⟨i, hi, hx, le_refl _⟩

/-- The values computed strictly inside the tree of a record come from trees
with fewer tiles. -/
theorem ArenaInv.results_inner {tiles : List Nat} {g : Nat} {s : NumbersStruct}
    {E : Nat → Expr} (h : ArenaInv tiles g s E) (i : Nat)
    (hi : i < s.current.operationIdLast) (hnop : (s.operation i).op ≠ NOP) :
    ∃ inner, (E i).results tiles = inner ++ [(s.operation i).result]
      ∧ ∀ x ∈ inner, ∃ j, j < s.current.operationIdLast ∧ x = (s.operation j).result
        ∧ (E j).leaves.length < (E i).leaves.length := by
  obtain ⟨_, h2, h3, _, h5⟩ := h.node i hi hnop
  have hl : (s.operation i).operationIdLeft < s.current.operationIdLast := by omega
  have hr : (s.operation i).operationIdRight < s.current.operationIdLast := by omega
  have hlen : (E i).leaves.length
      = (E (s.operation i).operationIdLeft).leaves.length
        + (E (s.operation i).operationIdRight).leaves.length := by
    rw [h5]; simp [Expr.leaves]
  have hposl := (E (s.operation i).operationIdLeft).leaves_length_pos
  have hposr := (E (s.operation i).operationIdRight).leaves_length_pos
  have hv := h.value i hi
  refine ⟨(E (s.operation i).operationIdLeft).results tiles
    ++ (E (s.operation i).operationIdRight).results tiles, ?_, ?_⟩
  · rw [h5] at hv ⊢
    simp only [Expr.results]
    rw [hv]
    rfl
  · intro x hx
    rcases List.mem_append.mp hx with hx | hx
    · obtain ⟨j, hj1, hj2, hj3⟩ := h.results_mem _ hl x hx
      exact ⟨j, hj1, hj2, by omega⟩
    · obtain ⟨j, hj1, hj2, hj3⟩ := h.results_mem _ hr x hx
      exact ⟨j, hj1, hj2, by omega⟩

/-- Once all tiles are recorded, record `t` is the leaf of tile `t`. -/
theorem ArenaInv.tile_record {tiles : List Nat} {g : Nat} {s : NumbersStruct}
    {E : Nat → Expr} (h : ArenaInv tiles g s E) (hrec : TilesRecorded tiles s)
    (t : Nat) (ht : t < tiles.length) :
    t < s.current.operationIdLast ∧ E t = .tile t
      ∧ (s.operation t).result = tiles.getD t 0 ∧ (E t).leaves.length = 1 := by
  have htL : t < s.current.operationIdLast := lt_of_lt_of_le ht hrec.1
  have hE := (h.leaf t htL (hrec.2 t ht)).1
  have hv := h.value t htL
  rw [hE] at hv
  simp only [Expr.value, ht, if_true, Option.some.injEq] at hv
  exact ⟨htL, hE, hv.symm, by rw [hE]; rfl⟩

theorem targetDiffOf_max {target v : Nat} (ht : target < 2 ^ 32) (hv : v < 2 ^ 32)
    (hne : v ≠ UINT32_MAX) (hd : ¬ targetDiffOf target v < UINT32_MAX) : v = 0 := by
  unfold targetDiffOf UINT32_MAX at *
  split_ifs at hd <;> omega

/-- The validator run on the tiles and the stream of the chosen record: when
the state satisfies the arena invariant, all tiles are recorded and no record
holds `UINT32_MAX`, the stream is accepted and the closest value is the result
of the chosen record. -/
theorem NumbersValidate_solution {tiles : List Nat} {g : Nat} {s : NumbersStruct}
    {E : Nat → Expr} (h : ArenaInv tiles g s E) (hrec : TilesRecorded tiles s)
    (hN : tiles.length ≤ 8) (htarget : s.final.target < 2 ^ 32)
    (hfree : ∀ i, i < s.current.operationIdLast → (s.operation i).result ≠ UINT32_MAX)
    (hsol : s.solution.operationId < s.operationSize) (hook : Bool) :
    (NumbersValidate s.final.target (some tiles)
        (some ((E s.solution.operationId).stream ++ [0])) true hook).error = .Success
    ∧ (NumbersValidate s.final.target (some tiles)
        (some ((E s.solution.operationId).stream ++ [0])) true hook).bestResult
        = some (s.operation s.solution.operationId).result := by
  have hsl := h.solution_lt hsol
  obtain ⟨hi1, hi2⟩ := NumbersValidate.init_spec s.final.target tiles
  have htile := fun t ht => h.tile_record hrec t ht
  obtain ⟨st', hs1, hs2, hs3, hs4⟩ := NumbersValidate.loop_stream s.final.target tiles hook
    (E s.solution.operationId) (s.operation s.solution.operationId).result
    (NumbersValidate.init s.final.target tiles)
    (h.ops_valid _ hsl) (h.nodup _ hsl)
    (fun t ht => ⟨h.leaves_lt _ hsl t ht, lt_of_lt_of_le (h.leaves_lt _ hsl t ht) hN⟩)
    (by rw [hi1]) (fun t _ => by rw [hi1]) (h.value _ hsl) (h.operands_free hfree _ hsl)
  have hloop : NumbersValidate.loop s.final.target tiles.length hook
      (NumbersValidate.init s.final.target tiles) ((E s.solution.operationId).stream ++ [0])
      = (.Success, st') := by
    rw [hs1]
    simp [NumbersValidate.loop]
  have hval : NumbersValidate s.final.target (some tiles)
      (some ((E s.solution.operationId).stream ++ [0])) true hook
      = ⟨.Success, some st'.bestResult, st'.hookCalls⟩ := by
    unfold NumbersValidate
    simp only []
    rw [hloop]
  rw [hval]
  refine ⟨rfl, ?_⟩
  simp only [Option.some.injEq]
  rw [hi2, ← bestOf_append] at hs4
  have hbest : st'.bestResult = (bestOf s.final.target (0, UINT32_MAX)
      (tiles ++ (E s.solution.operationId).results tiles)).1 := by rw [← hs4]
  rw [hbest]
  have hdiff := h.solution_diff hsol
  have hrlt := h.result_lt _ hsl
  -- the values seen: those before the result are strictly farther, those after not closer
  have hsplit : ∃ pre post, tiles ++ (E s.solution.operationId).results tiles
      = pre ++ (s.operation s.solution.operationId).result :: post
      ∧ (∀ x ∈ pre, targetDiffOf s.final.target (s.operation s.solution.operationId).result
          < targetDiffOf s.final.target x)
      ∧ (∀ x ∈ post, targetDiffOf s.final.target (s.operation s.solution.operationId).result
          ≤ targetDiffOf s.final.target x) := by
    by_cases hnop : (s.operation s.solution.operationId).op = NOP
    · obtain ⟨hE, hlt, _⟩ := h.leaf _ hsl hnop
      obtain ⟨pre, post, hp1, hp2, hp3⟩ := list_split_at tiles _ hlt
      have hres := (htile _ hlt).2.2.1
      have htc : s.solution.tileCount = 1 := by
        rw [h.solution_tiles hsol, hE]; rfl
      refine ⟨pre, post, ?_, ?_, ?_⟩
      · rw [hE]
        simp only [Expr.results, List.append_nil]
        rw [hres]
        exact hp1
      · intro x hx
        obtain ⟨j, hj, hxj⟩ := hp2 x hx
        rw [hxj, ← (htile j (by omega)).2.2.1, ← hdiff]
        exact h.best_first hsol htc j hj
      · intro x hx
        obtain ⟨j, hj, hxj⟩ := hp3 x hx
        rw [hxj, ← (htile j hj).2.2.1, ← hdiff]
        exact h.best_le j (htile j hj).1
    · obtain ⟨inner, hin1, hin2⟩ := h.results_inner _ hsl hnop
      have hlen2 : 2 ≤ (E s.solution.operationId).leaves.length := by
        rw [(h.node _ hsl hnop).2.2.2.2]
        exact Expr.node_leaves_length _ _ _
      refine ⟨tiles ++ inner, [], ?_, ?_, ?_⟩
      · rw [hin1, List.append_assoc]
      · intro x hx
        rw [← hdiff]
        rcases List.mem_append.mp hx with hx | hx
        · obtain ⟨j, hj, hxj⟩ := mem_getD tiles x hx
          rw [hxj, ← (htile j hj).2.2.1]
          apply h.best_lt j (htile j hj).1
          rw [(htile j hj).2.2.2, h.solution_tiles hsol]
          omega
        · obtain ⟨j, hj1, hj2, hj3⟩ := hin2 x hx
          rw [hj2]
          apply h.best_lt j hj1
          rw [h.solution_tiles hsol]
          exact hj3
      · intro x hx
        cases hx
  obtain ⟨pre, post, hsp, hpre, hpost⟩ := hsplit
  rw [hsp]
  by_cases hd : targetDiffOf s.final.target (s.operation s.solution.operationId).result
      < UINT32_MAX
  · rw [bestOf_first _ _ pre post 0 UINT32_MAX hpre hd hpost]
  · have hzero := targetDiffOf_max htarget hrlt (hfree _ hsl) hd
    rw [bestOf_none]
    · exact hzero.symm
    · intro x hx
      have hge : UINT32_MAX ≤ targetDiffOf s.final.target
          (s.operation s.solution.operationId).result := by omega
      rcases List.mem_append.mp hx with hx | hx
      · exact le_trans hge (le_of_lt (hpre x hx))
      · rcases List.mem_cons.mp hx with hx | hx
        · rw [hx]; exact hge
        · exact le_trans hge (hpost x hx)

end Numbers

namespace Numbers

/-! ## The shape of the emitted stream -/

/-- Different tile indices below `n` are at most `n`. -/
theorem nodup_length_le (l : List Nat) (n : Nat) (hnd : l.Nodup) (hlt : ∀ t ∈ l, t < n) :
    l.length ≤ n := by
  have hsub : l ⊆ List.range n := fun t ht => List.mem_range.mpr (hlt t ht)
  have := (List.subperm_of_subset hnd hsub).length_le
  simpa using this

/-- Every byte of the stream of a tree over different tiles below 8 is not
zero and names two different tiles of the tree. -/
theorem Expr.stream_spec (e : Expr) (hops : e.opsValid) (hnd : e.leaves.Nodup)
    (hlt : ∀ t ∈ e.leaves, t < 8) : ∀ b ∈ e.stream,
    b ≠ 0 ∧ (b &&& 7) ∈ e.leaves ∧ ((b >>> 3) &&& 7) ∈ e.leaves
      ∧ b &&& 7 ≠ (b >>> 3) &&& 7 := by
  induction e with
  | tile t => intro b hb; simp [Expr.stream] at hb
  | node op l r ihl ihr =>
    simp only [Expr.leaves] at hnd hlt
    obtain ⟨hop, hol, hor⟩ := hops
    have hdl := (List.nodup_append.mp hnd).1
    have hdr := (List.nodup_append.mp hnd).2.1
    have hdisj := (List.nodup_append.mp hnd).2.2
    intro b hb
    simp only [Expr.stream, List.mem_append, List.mem_singleton] at hb
    simp only [Expr.leaves, List.mem_append]
    rcases hb with (hb | hb) | hb
    · obtain ⟨h1, h2, h3, h4⟩ :=
        ihl hol hdl (fun t ht => hlt t (List.mem_append_left _ ht)) b hb
      exact ⟨h1, Or.inl h2, Or.inl h3, h4⟩
    · obtain ⟨h1, h2, h3, h4⟩ :=
        ihr hor hdr (fun t ht => hlt t (List.mem_append_right _ ht)) b hb
      exact ⟨h1, Or.inr h2, Or.inr h3, h4⟩
    · have hl := l.first_mem_leaves
      have hr := r.first_mem_leaves
      have hne : l.first ≠ r.first := fun he => hdisj hl (he ▸ hr)
      obtain ⟨h1, h2, _, h4⟩ := encode_spec l.first (hlt _ (List.mem_append_left _ hl))
        r.first (hlt _ (List.mem_append_right _ hr)) op hop
      rw [hb, h1, h2]
      exact ⟨h4 hne, Or.inl hl, Or.inr hr, hne⟩

/-- With no tile, nothing is recorded and no solution is chosen. -/
theorem ArenaInv.no_tiles {tiles : List Nat} {g : Nat} {s : NumbersStruct}
    {E : Nat → Expr} (h : ArenaInv tiles g s E) (hN : tiles.length = 0) :
    s.operationSize ≤ s.solution.operationId := by
  by_contra hsol
  have hsl := h.solution_lt (by omega)
  have := h.leaves_lt _ hsl _ (E s.solution.operationId).first_mem_leaves
  omega

end Numbers

namespace Numbers

/-! ## The validator loop -/

theorem NumbersValidate.compute_error_ne_success (op l r : Nat) (e : NumbersError)
    (h : NumbersValidate.compute op l r = .error e) : e ≠ .Success := by
  unfold NumbersValidate.compute at h
  split_ifs at h <;> cases h <;> simp

theorem NumbersValidate.operation_error_ne_success (target count : Nat) (hook : Bool)
    (st : ValidateState) (b : Nat) (e : NumbersError)
    (h : NumbersValidate.operation target count hook st b = .error e) : e ≠ .Success := by
  unfold NumbersValidate.operation at h
  simp only [] at h
  split_ifs at h
  all_goals first
    | (cases h; simp)
    | (split at h
       · rename_i e' he
         cases h
         exact NumbersValidate.compute_error_ne_success _ _ _ _ he
       · cases h)

/-- Running the validator loop on `pre ++ rest` when `pre` has no zero byte and
is accepted: the loop goes on with `rest` from the state `pre` leaves. -/
theorem NumbersValidate.loop_append (target count : Nat) (hook : Bool) (rest : List Nat) :
    ∀ (pre : List Nat) (st : ValidateState), (∀ x ∈ pre, x ≠ 0) →
      (NumbersValidate.loop target count hook st pre).1 = .Success →
      NumbersValidate.loop target count hook st (pre ++ rest) =
        NumbersValidate.loop target count hook
          (NumbersValidate.loop target count hook st pre).2 rest := by
  intro pre
  induction pre with
  | nil => intro st _ _; simp [NumbersValidate.loop]
  | cons b pre ih =>
    intro st h0 hacc
    have hb : b ≠ 0 := h0 b (by simp)
    have h0' : ∀ x ∈ pre, x ≠ 0 := fun x hx => h0 x (by simp [hx])
    simp only [List.cons_append, NumbersValidate.loop, hb, if_false] at hacc ⊢
    cases hop : NumbersValidate.operation target count hook st b with
    | error e =>
      rw [hop] at hacc
      exact absurd hacc (NumbersValidate.operation_error_ne_success _ _ _ _ _ _ hop)
    | ok st1 =>
      rw [hop] at hacc
      simp only [] at hacc ⊢
      exact ih st1 h0' hacc

theorem NumbersValidate_some (target : Nat) (tiles stream : List Nat) (hook : Bool) :
    NumbersValidate target (some tiles) (some stream) true hook =
      ⟨(NumbersValidate.loop target tiles.length hook
          (NumbersValidate.init target tiles) stream).1,
       some (NumbersValidate.loop target tiles.length hook
          (NumbersValidate.init target tiles) stream).2.bestResult,
       (NumbersValidate.loop target tiles.length hook
          (NumbersValidate.init target tiles) stream).2.hookCalls⟩ := rfl

theorem NumbersSolve.finish_error (s : NumbersStruct) (complexity : Option Nat) (so r : Bool)
    (out : SolveResult) (h : NumbersSolve.finish s complexity so r = some out) :
    out.error = (if s.solution.aborted then NumbersError.AbortedError else NumbersError.Success)
      ∧ out.numbersObject = some s := by
  unfold NumbersSolve.finish at h
  by_cases h1 : s.solution.operationId ≥ s.operationSize
  · simp only [h1, if_true, Option.some.injEq] at h
    subst h; exact ⟨rfl, rfl⟩
  · simp only [h1, if_false] at h
    split at h
    · cases h
    · simp only [Option.some.injEq] at h
      subst h; exact ⟨rfl, rfl⟩

end Numbers
namespace Numbers

/-! ## The validator, one operation at a time -/

/-- The validator on a stream whose first bytes are accepted: what happens at
the next non-zero byte. -/
theorem NumbersValidate.loop_step (target count : Nat) (hook : Bool) (st : ValidateState)
    (pre rest : List Nat) (b : Nat) (hpre0 : ∀ x ∈ pre, x ≠ 0)
    (hpre : (NumbersValidate.loop target count hook st pre).1 = .Success) (hb : b ≠ 0) :
    NumbersValidate.loop target count hook st (pre ++ b :: rest) =
      match NumbersValidate.operation target count hook
          (NumbersValidate.loop target count hook st pre).2 b with
      | .error e => (e, (NumbersValidate.loop target count hook st pre).2)
      | .ok st' => NumbersValidate.loop target count hook st' rest := by
  rw [NumbersValidate.loop_append _ _ _ _ _ _ hpre0 hpre]
  cases hop : NumbersValidate.operation target count hook
      (NumbersValidate.loop target count hook st pre).2 b with
  | error e => simp only [NumbersValidate.loop, hb, if_false, hop]
  | ok s1 => simp only [NumbersValidate.loop, hb, if_false, hop]

/-- A stream that is refused is refused at one of its bytes, all bytes before
it being accepted. -/
theorem NumbersValidate.loop_error (target count : Nat) (hook : Bool) :
    ∀ (stream : List Nat) (st : ValidateState) (e : NumbersError),
      (NumbersValidate.loop target count hook st stream).1 = e → e ≠ .Success →
      ∃ pre b rest, stream = pre ++ b :: rest ∧ (∀ x ∈ pre, x ≠ 0)
        ∧ (NumbersValidate.loop target count hook st pre).1 = .Success ∧ b ≠ 0
        ∧ NumbersValidate.operation target count hook
            (NumbersValidate.loop target count hook st pre).2 b = .error e := by
  intro stream
  induction stream with
  | nil =>
    intro st e h hne
    exact absurd h.symm hne
  | cons a l ih =>
    intro st e h hne
    by_cases ha : a = 0
    · simp only [NumbersValidate.loop, ha, if_true] at h
      exact absurd h.symm hne
    · simp only [NumbersValidate.loop, ha, if_false] at h
      cases hop : NumbersValidate.operation target count hook st a with
      | error e' =>
        rw [hop] at h
        simp only [] at h
        subst h
        exact ⟨[], a, l, rfl, fun x hx => (by cases hx), rfl, ha, hop⟩
      | ok st1 =>
        rw [hop] at h
        simp only [] at h
        obtain ⟨pre, b, rest, hl, hp0, hp, hb, hbop⟩ := ih st1 e h hne
        refine ⟨a :: pre, b, rest, by rw [hl]; rfl, ?_, ?_, hb, ?_⟩
        · intro x hx
          rcases List.mem_cons.mp hx with rfl | hx
          · exact ha
          · exact hp0 x hx
        · simp only [NumbersValidate.loop, ha, if_false, hop]
          exact hp
        · simp only [NumbersValidate.loop, ha, if_false, hop]
          exact hbop

/-- What an accepted operation does. -/
theorem NumbersValidate.operation_cases (target count : Nat) (hook : Bool)
    (st st' : ValidateState) (b : Nat)
    (h : NumbersValidate.operation target count hook st b = .ok st') :
    b &&& 7 < count ∧ (b >>> 3) &&& 7 < count ∧ b &&& 7 ≠ (b >>> 3) &&& 7
    ∧ st.tileValues.getD (b &&& 7) 0 ≠ UINT32_MAX
    ∧ st.tileValues.getD ((b >>> 3) &&& 7) 0 ≠ UINT32_MAX
    ∧ ∃ v ch, NumbersValidate.compute (b >>> 6) (st.tileValues.getD (b &&& 7) 0)
          (st.tileValues.getD ((b >>> 3) &&& 7) 0) = .ok (v, ch)
      ∧ st'.tileValues = (st.tileValues.set (b &&& 7) v).set ((b >>> 3) &&& 7) UINT32_MAX
      ∧ st'.hookCalls = (if hook then st.hookCalls ++
          [⟨st.tileValues.getD (b &&& 7) 0, ch, st.tileValues.getD ((b >>> 3) &&& 7) 0, v⟩]
          else st.hookCalls)
      ∧ (st'.bestResult, st'.bestTargetDiff)
          = bestOf target (st.bestResult, st.bestTargetDiff) [v] := by
  unfold NumbersValidate.operation at h
  simp only [] at h
  by_cases h1 : b &&& 7 ≥ count ∨ (b >>> 3) &&& 7 ≥ count ∨ b &&& 7 = (b >>> 3) &&& 7
  · rw [if_pos h1] at h
    cases h
  · rw [if_neg h1] at h
    by_cases h2 : st.tileValues.getD (b &&& 7) 0 = UINT32_MAX
        ∨ st.tileValues.getD ((b >>> 3) &&& 7) 0 = UINT32_MAX
    · rw [if_pos h2] at h
      cases h
    · rw [if_neg h2] at h
      push_neg at h1 h2
      refine ⟨h1.1, h1.2.1, h1.2.2, h2.1, h2.2, ?_⟩
      cases hc : NumbersValidate.compute (b >>> 6) (st.tileValues.getD (b &&& 7) 0)
          (st.tileValues.getD ((b >>> 3) &&& 7) 0) with
      | error e =>
        rw [hc] at h
        cases h
      | ok r =>
        obtain ⟨v, ch⟩ := r
        rw [hc] at h
        simp only [Except.ok.injEq] at h
        subst h
        refine ⟨v, ch, rfl, ?_, ?_, ?_⟩
        · exact (CheckResult_best target v _).2
        · unfold CheckResult
          simp only []
          split_ifs <;> rfl
        · exact (CheckResult_best target v _).1

/-- The tile values after an accepted operation. -/
theorem NumbersValidate.operation_getD (target count : Nat) (hook : Bool)
    (st st' : ValidateState) (b : Nat) (hcount : count ≤ st.tileValues.length)
    (h : NumbersValidate.operation target count hook st b = .ok st') :
    st'.tileValues.length = st.tileValues.length
    ∧ ∃ v ch, NumbersValidate.compute (b >>> 6) (st.tileValues.getD (b &&& 7) 0)
          (st.tileValues.getD ((b >>> 3) &&& 7) 0) = .ok (v, ch)
      ∧ (∀ t, st'.tileValues.getD t 0 =
          if t = (b >>> 3) &&& 7 then UINT32_MAX
          else if t = b &&& 7 then v else st.tileValues.getD t 0)
      ∧ st'.hookCalls = (if hook then st.hookCalls ++
          [⟨st.tileValues.getD (b &&& 7) 0, ch, st.tileValues.getD ((b >>> 3) &&& 7) 0, v⟩]
          else st.hookCalls) := by
  obtain ⟨hL, hR, _, _, _, v, ch, hc, htv, hhc, _⟩ :=
    NumbersValidate.operation_cases target count hook st st' b h
  refine ⟨by rw [htv, List.length_set, List.length_set], v, ch, hc, fun t => ?_, hhc⟩
  rw [htv, getD_set_nat _ _ _ _ (by rw [List.length_set]; omega),
    getD_set_nat _ _ _ _ (by omega)]

/-- The hook does not change what one operation computes. -/
theorem NumbersValidate.operation_hook (target count : Nat) (h1 h2 : Bool)
    (st1 st2 : ValidateState) (b : Nat) (htv : st1.tileValues = st2.tileValues)
    (hbr : st1.bestResult = st2.bestResult) (hbd : st1.bestTargetDiff = st2.bestTargetDiff) :
    (∀ e, NumbersValidate.operation target count h1 st1 b = .error e →
        NumbersValidate.operation target count h2 st2 b = .error e)
    ∧ (∀ s1, NumbersValidate.operation target count h1 st1 b = .ok s1 →
        ∃ s2, NumbersValidate.operation target count h2 st2 b = .ok s2
          ∧ s1.tileValues = s2.tileValues ∧ s1.bestResult = s2.bestResult
          ∧ s1.bestTargetDiff = s2.bestTargetDiff) := by
  unfold NumbersValidate.operation
  simp only [htv]
  by_cases hid : b &&& 7 ≥ count ∨ (b >>> 3) &&& 7 ≥ count ∨ b &&& 7 = (b >>> 3) &&& 7
  · simp only [if_pos hid]
    exact ⟨fun e he => he, fun s1 hs => by cases hs⟩
  · simp only [if_neg hid]
    by_cases hused : st2.tileValues.getD (b &&& 7) 0 = UINT32_MAX
        ∨ st2.tileValues.getD ((b >>> 3) &&& 7) 0 = UINT32_MAX
    · simp only [if_pos hused]
      exact ⟨fun e he => he, fun s1 hs => by cases hs⟩
    · simp only [if_neg hused]
      cases hc : NumbersValidate.compute (b >>> 6) (st2.tileValues.getD (b &&& 7) 0)
          (st2.tileValues.getD ((b >>> 3) &&& 7) 0) with
      | error e => exact ⟨fun e he => he, fun s1 hs => by cases hs⟩
      | ok r =>
        obtain ⟨v, ch⟩ := r
        dsimp only
        refine ⟨fun e he => (by cases he), fun s1 hs => ⟨_, rfl, ?_⟩⟩
        simp only [Except.ok.injEq] at hs
        subst hs
        unfold CheckResult
        simp only [hbd]
        split_ifs <;> simp [hbr, hbd]

/-- The hook does not change what the validator computes. -/
theorem NumbersValidate.loop_hook (target count : Nat) (h1 h2 : Bool) :
    ∀ (stream : List Nat) (st1 st2 : ValidateState), st1.tileValues = st2.tileValues →
      st1.bestResult = st2.bestResult → st1.bestTargetDiff = st2.bestTargetDiff →
      (NumbersValidate.loop target count h1 st1 stream).1
          = (NumbersValidate.loop target count h2 st2 stream).1
      ∧ (NumbersValidate.loop target count h1 st1 stream).2.tileValues
          = (NumbersValidate.loop target count h2 st2 stream).2.tileValues
      ∧ (NumbersValidate.loop target count h1 st1 stream).2.bestResult
          = (NumbersValidate.loop target count h2 st2 stream).2.bestResult
      ∧ (NumbersValidate.loop target count h1 st1 stream).2.bestTargetDiff
          = (NumbersValidate.loop target count h2 st2 stream).2.bestTargetDiff := by
  intro stream
  induction stream with
  | nil => intro st1 st2 htv hbr hbd; exact ⟨rfl, htv, hbr, hbd⟩
  | cons a l ih =>
    intro st1 st2 htv hbr hbd
    by_cases ha : a = 0
    · subst ha
      exact ⟨rfl, htv, hbr, hbd⟩
    · simp only [NumbersValidate.loop, ha, if_false]
      obtain ⟨herr, hok⟩ := NumbersValidate.operation_hook target count h1 h2 st1 st2 a
        htv hbr hbd
      cases hop : NumbersValidate.operation target count h1 st1 a with
      | error e =>
        rw [herr e hop]
        exact ⟨rfl, htv, hbr, hbd⟩
      | ok s1 =>
        obtain ⟨s2, hop2, e1, e2, e3⟩ := hok s1 hop
        rw [hop2]
        exact ih s1 s2 e1 e2 e3

/-- The hook is called with the results of the accepted operations, and the
best value is the first closest one among them and the best value before. -/
theorem NumbersValidate.loop_results (target count : Nat) :
    ∀ (stream : List Nat) (st : ValidateState), ∃ calls,
      (NumbersValidate.loop target count true st stream).2.hookCalls = st.hookCalls ++ calls
      ∧ ((NumbersValidate.loop target count true st stream).2.bestResult,
          (NumbersValidate.loop target count true st stream).2.bestTargetDiff)
        = bestOf target (st.bestResult, st.bestTargetDiff)
            (calls.map (fun o => o.valueResult)) := by
  intro stream
  induction stream with
  | nil => intro st; exact ⟨[], by simp [NumbersValidate.loop], rfl⟩
  | cons a l ih =>
    intro st
    by_cases ha : a = 0
    · simp only [NumbersValidate.loop, ha, if_true]
      exact ⟨[], by simp, rfl⟩
    · simp only [NumbersValidate.loop, ha, if_false]
      cases hop : NumbersValidate.operation target count true st a with
      | error e => exact ⟨[], by simp, rfl⟩
      | ok s1 =>
        obtain ⟨_, _, _, _, _, v, ch, _, _, hhc, hbest⟩ :=
          NumbersValidate.operation_cases target count true st s1 a hop
        obtain ⟨calls, hc1, hc2⟩ := ih s1
        simp only [if_true] at hhc
        refine ⟨⟨st.tileValues.getD (a &&& 7) 0, ch,
          st.tileValues.getD ((a >>> 3) &&& 7) 0, v⟩ :: calls, ?_, ?_⟩
        · show (NumbersValidate.loop target count true s1 l).2.hookCalls = _
          rw [hc1, hhc, List.append_assoc]
          rfl
        · show ((NumbersValidate.loop target count true s1 l).2.bestResult,
            (NumbersValidate.loop target count true s1 l).2.bestTargetDiff) = _
          rw [hc2, hbest]
          exact (bestOf_append target _ [v] _).symm

end Numbers
namespace Numbers

/-! ## Invariants of the validator -/

theorem getD_lt_of_all (l : List Nat) (i n : Nat) (hn : 0 < n) (h : ∀ x ∈ l, x < n) :
    l.getD i 0 < n := by
  by_cases hi : i < l.length
  · rw [List.getD_eq_getElem _ _ hi]
    exact h _ (List.getElem_mem hi)
  · rw [List.getD_eq_default _ _ (by omega)]
    exact hn

/-- The result of an operation on 32-bit values is a 32-bit value. -/
theorem NumbersValidate.compute_lt (op l r v : Nat) (ch : Char) (hl : l < 2 ^ 32)
    (h : NumbersValidate.compute op l r = .ok (v, ch)) : v < 2 ^ 32 := by
  unfold NumbersValidate.compute at h
  split_ifs at h <;> simp only [Except.ok.injEq, Prod.mk.injEq] at h <;> obtain ⟨rfl, _⟩ := h
  · exact Nat.mod_lt _ (by norm_num)
  · exact Nat.mod_lt _ (by norm_num)
  · omega
  · exact lt_of_le_of_lt (Nat.div_le_self _ _) hl

/-- All the values the validator holds are 32-bit values. -/
theorem NumbersValidate.loop_lt (target count : Nat) (hook : Bool) :
    ∀ (stream : List Nat) (st : ValidateState), (∀ x ∈ st.tileValues, x < 2 ^ 32) →
      (∀ o ∈ st.hookCalls, o.valueResult < 2 ^ 32) →
      (∀ x ∈ (NumbersValidate.loop target count hook st stream).2.tileValues, x < 2 ^ 32)
      ∧ (∀ o ∈ (NumbersValidate.loop target count hook st stream).2.hookCalls,
          o.valueResult < 2 ^ 32) := by
  intro stream
  induction stream with
  | nil => intro st h1 h2; exact ⟨h1, h2⟩
  | cons a l ih =>
    intro st h1 h2
    by_cases ha : a = 0
    · subst ha
      exact ⟨h1, h2⟩
    · simp only [NumbersValidate.loop, ha, if_false]
      cases hop : NumbersValidate.operation target count hook st a with
      | error e => exact ⟨h1, h2⟩
      | ok s1 =>
        obtain ⟨_, _, _, _, _, v, ch, hc, htv, hhc, _⟩ :=
          NumbersValidate.operation_cases target count hook st s1 a hop
        have hv : v < 2 ^ 32 :=
          NumbersValidate.compute_lt _ _ _ _ _ (getD_lt_of_all _ _ _ (by norm_num) h1) hc
        apply ih s1
        · intro x hx
          rw [htv] at hx
          rcases List.mem_or_eq_of_mem_set hx with hx | rfl
          · rcases List.mem_or_eq_of_mem_set hx with hx | rfl
            · exact h1 x hx
            · exact hv
          · unfold UINT32_MAX; norm_num
        · intro o ho
          rw [hhc] at ho
          cases hook with
          | false => exact h2 o ho
          | true =>
            simp only [if_true, List.mem_append, List.mem_singleton] at ho
            rcases ho with ho | rfl
            · exact h2 o ho
            · exact hv

/-- The marks of the validator along an accepted stream: a tile used as right
operand is marked and stays so; with no result equal to the mark, no other
tile gets marked. -/
theorem NumbersValidate.loop_marks (target count : Nat) :
    ∀ (pre : List Nat) (st : ValidateState), (∀ x ∈ pre, x ≠ 0) →
      (NumbersValidate.loop target count true st pre).1 = .Success →
      count ≤ st.tileValues.length →
      (NumbersValidate.loop target count true st pre).2.tileValues.length
          = st.tileValues.length
      ∧ (∀ o ∈ st.hookCalls, o ∈ (NumbersValidate.loop target count true st pre).2.hookCalls)
      ∧ (∀ t, st.tileValues.getD t 0 = UINT32_MAX →
          (NumbersValidate.loop target count true st pre).2.tileValues.getD t 0 = UINT32_MAX)
      ∧ (∀ a ∈ pre, (NumbersValidate.loop target count true st pre).2.tileValues.getD
          ((a >>> 3) &&& 7) 0 = UINT32_MAX)
      ∧ ((∀ o ∈ (NumbersValidate.loop target count true st pre).2.hookCalls,
            o.valueResult ≠ UINT32_MAX) →
          ∀ t, (NumbersValidate.loop target count true st pre).2.tileValues.getD t 0
              = UINT32_MAX →
            st.tileValues.getD t 0 = UINT32_MAX ∨ ∃ a ∈ pre, (a >>> 3) &&& 7 = t) := by
  intro pre
  induction pre with
  | nil =>
    intro st _ _ _
    exact ⟨rfl, fun o ho => ho, fun t ht => ht, fun a ha => (by cases ha),
      fun _ t ht => Or.inl ht⟩
  | cons b l ih =>
    intro st h0 hok hcount
    have hb : b ≠ 0 := h0 b (List.mem_cons_self b l)
    simp only [NumbersValidate.loop, hb, if_false] at hok ⊢
    cases hop : NumbersValidate.operation target count true st b with
    | error e =>
      rw [hop] at hok
      exact absurd hok (NumbersValidate.operation_error_ne_success _ _ _ _ _ _ hop)
    | ok s1 =>
      rw [hop] at hok
      dsimp only at hok ⊢
      obtain ⟨hL, hR, hLR, hfL, hfR, _⟩ :=
        NumbersValidate.operation_cases target count true st s1 b hop
      obtain ⟨hlen, v, ch, hc, hget, hhc⟩ :=
        NumbersValidate.operation_getD target count true st s1 b hcount hop
      simp only [if_true] at hhc
      obtain ⟨i1, i2, i3, i4, i5⟩ := ih s1 (fun x hx => h0 x (List.mem_cons_of_mem b hx)) hok
        (by rw [hlen]; exact hcount)
      refine ⟨i1.trans hlen, ?_, ?_, ?_, ?_⟩
      · intro o ho
        apply i2
        rw [hhc]
        exact List.mem_append_left _ ho
      · intro t ht
        apply i3
        rw [hget]
        have h1 : t ≠ b &&& 7 := fun e => hfL (e ▸ ht)
        simp only [h1, if_false, ht, ite_self]
      · intro a ha
        rcases List.mem_cons.mp ha with rfl | ha
        · apply i3
          rw [hget, if_pos rfl]
        · exact i4 a ha
      · intro hres t ht
        rcases i5 hres t ht with h | ⟨a, ha, hat⟩
        · rw [hget] at h
          by_cases h1 : t = (b >>> 3) &&& 7
          · exact Or.inr ⟨b, List.mem_cons_self b l, h1.symm⟩
          · rw [if_neg h1] at h
            by_cases h2 : t = b &&& 7
            · rw [if_pos h2] at h
              exfalso
              refine hres ⟨st.tileValues.getD (b &&& 7) 0, ch,
                st.tileValues.getD ((b >>> 3) &&& 7) 0, v⟩ (i2 _ ?_) h
              rw [hhc]
              exact List.mem_append_right _ (List.mem_singleton_self _)
            · rw [if_neg h2] at h
              exact Or.inl h
        · exact Or.inr ⟨a, List.mem_cons_of_mem b ha, hat⟩

end Numbers
namespace Numbers

/-! ## One operation of the validator on valid, unused operands -/

/-- On two valid, different and unused tiles, an operation is refused or
accepted as its computation is. -/
theorem NumbersValidate.operation_eq (target count : Nat) (hook : Bool) (st : ValidateState)
    (b : Nat) (hL : b &&& 7 < count) (hR : (b >>> 3) &&& 7 < count)
    (hne : b &&& 7 ≠ (b >>> 3) &&& 7)
    (hul : st.tileValues.getD (b &&& 7) 0 ≠ UINT32_MAX)
    (hur : st.tileValues.getD ((b >>> 3) &&& 7) 0 ≠ UINT32_MAX) :
    NumbersValidate.operation target count hook st b =
      match NumbersValidate.compute (b >>> 6) (st.tileValues.getD (b &&& 7) 0)
          (st.tileValues.getD ((b >>> 3) &&& 7) 0) with
      | .error e => .error e
      | .ok (valueResult, opChar) =>
        .ok (CheckResult target valueResult
          { st with
            hookCalls :=
              if hook then
                st.hookCalls ++ [⟨st.tileValues.getD (b &&& 7) 0, opChar,
                  st.tileValues.getD ((b >>> 3) &&& 7) 0, valueResult⟩]
              else st.hookCalls
            tileValues := (st.tileValues.set (b &&& 7) valueResult).set
              ((b >>> 3) &&& 7) UINT32_MAX }) := by
  have h1 : ¬ (b &&& 7 ≥ count ∨ (b >>> 3) &&& 7 ≥ count ∨ b &&& 7 = (b >>> 3) &&& 7) := by
    omega
  have h2 : ¬ (st.tileValues.getD (b &&& 7) 0 = UINT32_MAX
      ∨ st.tileValues.getD ((b >>> 3) &&& 7) 0 = UINT32_MAX) := by
    tauto
  unfold NumbersValidate.operation
  cases hc : NumbersValidate.compute (b >>> 6) (st.tileValues.getD (b &&& 7) 0)
      (st.tileValues.getD ((b >>> 3) &&& 7) 0) with
  | error e => simp only [if_neg h1, if_neg h2, hc]
  | ok r => simp only [if_neg h1, if_neg h2, hc]

/-- The validator on an accepted stream followed by one more operation on
valid, different and unused tiles, and then the end of the stream. -/
theorem NumbersValidate_next (target : Nat) (tiles : List Nat) (hook : Bool)
    (pre rest : List Nat) (b : Nat) (hpre0 : ∀ x ∈ pre, x ≠ 0)
    (hpre : (NumbersValidate target (some tiles) (some pre) true hook).error = .Success)
    (hb : b ≠ 0) (hL : b &&& 7 < tiles.length) (hR : (b >>> 3) &&& 7 < tiles.length)
    (hne : b &&& 7 ≠ (b >>> 3) &&& 7) (valueLeft valueRight : Nat)
    (hvl : (NumbersValidate.loop target tiles.length hook
      (NumbersValidate.init target tiles) pre).2.tileValues.getD (b &&& 7) 0 = valueLeft)
    (hvr : (NumbersValidate.loop target tiles.length hook
      (NumbersValidate.init target tiles) pre).2.tileValues.getD ((b >>> 3) &&& 7) 0
        = valueRight)
    (hul : valueLeft ≠ UINT32_MAX) (hur : valueRight ≠ UINT32_MAX) :
    (∀ e, NumbersValidate.compute (b >>> 6) valueLeft valueRight = .error e →
      (NumbersValidate target (some tiles) (some (pre ++ b :: rest)) true hook).error = e)
    ∧ (∀ v ch, NumbersValidate.compute (b >>> 6) valueLeft valueRight = .ok (v, ch) →
      (NumbersValidate target (some tiles) (some (pre ++ [b, 0])) true hook).error = .Success
      ∧ (NumbersValidate target (some tiles) (some (pre ++ [b, 0])) true hook).hookCalls
        = (NumbersValidate target (some tiles) (some pre) true hook).hookCalls
          ++ (if hook then [⟨valueLeft, ch, valueRight, v⟩] else [])
      ∧ (NumbersValidate.loop target tiles.length hook (NumbersValidate.init target tiles)
          (pre ++ [b, 0])).2.tileValues.getD (b &&& 7) 0 = v) := by
  rw [NumbersValidate_some] at hpre
  simp only [] at hpre
  have hcount : tiles.length ≤ (NumbersValidate.loop target tiles.length hook
      (NumbersValidate.init target tiles) pre).2.tileValues.length := by
    have h1 := NumbersValidate.loop_hook target tiles.length hook true pre
      (NumbersValidate.init target tiles) (NumbersValidate.init target tiles) rfl rfl rfl
    have h2 := (NumbersValidate.loop_marks target tiles.length pre
      (NumbersValidate.init target tiles) hpre0 (h1.1 ▸ hpre)
      (by rw [(NumbersValidate.init_spec target tiles).1])).1
    rw [h1.2.1, h2, (NumbersValidate.init_spec target tiles).1]
  have hop := NumbersValidate.operation_eq target tiles.length hook
    (NumbersValidate.loop target tiles.length hook (NumbersValidate.init target tiles) pre).2
    b hL hR hne (by rw [hvl]; exact hul) (by rw [hvr]; exact hur)
  rw [hvl, hvr] at hop
  constructor
  · intro e he
    rw [NumbersValidate_some]
    simp only []
    rw [NumbersValidate.loop_step _ _ _ _ _ _ _ hpre0 hpre hb, hop, he]
  · intro v ch hc
    rw [NumbersValidate_some, NumbersValidate_some]
    simp only []
    rw [NumbersValidate.loop_step _ _ _ _ _ _ _ hpre0 hpre hb, hop, hc]
    simp only [NumbersValidate.loop, if_true]
    refine ⟨trivial, ?_, ?_⟩
    · unfold CheckResult
      cases hook <;> simp only [] <;> split_ifs <;> simp
    · rw [(CheckResult_best target v _).2]
      simp only []
      rw [getD_set_nat _ _ _ _ (by rw [List.length_set]; omega),
        getD_set_nat _ _ _ _ (by omega), if_neg hne, if_pos rfl]

end Numbers
namespace Numbers

/-! ## The mark of a used tile -/

/-- The return code of the validator does not depend on the hook. -/
theorem NumbersValidate_error_hook (target : Nat) (tiles stream : List Nat) (h1 h2 : Bool) :
    (NumbersValidate target (some tiles) (some stream) true h1).error
      = (NumbersValidate target (some tiles) (some stream) true h2).error
    ∧ (NumbersValidate target (some tiles) (some stream) true h1).bestResult
      = (NumbersValidate target (some tiles) (some stream) true h2).bestResult
    ∧ (NumbersValidate.loop target tiles.length h1 (NumbersValidate.init target tiles)
        stream).2.tileValues
      = (NumbersValidate.loop target tiles.length h2 (NumbersValidate.init target tiles)
        stream).2.tileValues := by
  obtain ⟨e1, e2, e3, _⟩ := NumbersValidate.loop_hook target tiles.length h1 h2 stream
    (NumbersValidate.init target tiles) (NumbersValidate.init target tiles) rfl rfl rfl
  rw [NumbersValidate_some, NumbersValidate_some]
  exact ⟨e1, by simp only [e3], e2⟩

theorem NumbersValidate.compute_error_cases (op l r : Nat) (e : NumbersError)
    (h : NumbersValidate.compute op l r = .error e) :
    e = .NegativeResultError ∨ e = .DivisionByZeroError ∨ e = .RemainderNotNullError := by
  unfold NumbersValidate.compute at h
  split_ifs at h <;> simp only [Except.error.injEq, reduceCtorEq] at h <;> subst h <;> simp

/-- An operation is refused with `TileUsedTwiceError` exactly when its two
tiles are valid and different and one of them holds the mark. -/
theorem NumbersValidate.operation_tileUsedTwice (target count : Nat) (hook : Bool)
    (st : ValidateState) (b : Nat) :
    NumbersValidate.operation target count hook st b = .error .TileUsedTwiceError
    ↔ (b &&& 7 < count ∧ (b >>> 3) &&& 7 < count ∧ b &&& 7 ≠ (b >>> 3) &&& 7)
      ∧ (st.tileValues.getD (b &&& 7) 0 = UINT32_MAX
        ∨ st.tileValues.getD ((b >>> 3) &&& 7) 0 = UINT32_MAX) := by
  unfold NumbersValidate.operation
  dsimp only
  by_cases hid : b &&& 7 ≥ count ∨ (b >>> 3) &&& 7 ≥ count ∨ b &&& 7 = (b >>> 3) &&& 7
  · rw [if_pos hid]
    constructor
    · intro h; cases h
    · rintro ⟨⟨h1, h2, h3⟩, _⟩
      rcases hid with h | h | h
      · omega
      · omega
      · exact absurd h h3
  · rw [if_neg hid]
    have hid' : b &&& 7 < count ∧ (b >>> 3) &&& 7 < count ∧ b &&& 7 ≠ (b >>> 3) &&& 7 := by
      push_neg at hid
      exact hid
    by_cases hused : st.tileValues.getD (b &&& 7) 0 = UINT32_MAX
        ∨ st.tileValues.getD ((b >>> 3) &&& 7) 0 = UINT32_MAX
    · rw [if_pos hused]
      exact ⟨fun _ => ⟨hid', hused⟩, fun _ => rfl⟩
    · rw [if_neg hused]
      constructor
      · intro h
        exfalso
        cases hc : NumbersValidate.compute (b >>> 6) (st.tileValues.getD (b &&& 7) 0)
            (st.tileValues.getD ((b >>> 3) &&& 7) 0) with
        | error e =>
          rw [hc] at h
          simp only [Except.error.injEq] at h
          subst h
          rcases NumbersValidate.compute_error_cases _ _ _ _ hc with h | h | h <;> cases h
        | ok r =>
          rw [hc] at h
          cases h
      · rintro ⟨_, h⟩
        exact absurd h hused

/-- With no tile and no result equal to the mark, `NumbersValidate` returns
`TileUsedTwiceError` exactly at an operation on valid, different tiles one of
which was the right operand of an earlier accepted operation. -/
theorem NumbersValidate_marks (target : Nat) (tiles stream : List Nat)
    (htiles : ∀ t ∈ tiles, t ≠ UINT32_MAX)
    (hres : ∀ o ∈ (NumbersValidate target (some tiles) (some stream) true true).hookCalls,
      o.valueResult ≠ UINT32_MAX) :
    (NumbersValidate target (some tiles) (some stream) true true).error = .TileUsedTwiceError
    ↔ ∃ pre b rest, stream = pre ++ b :: rest ∧ (∀ x ∈ pre, x ≠ 0)
        ∧ (NumbersValidate target (some tiles) (some pre) true true).error = .Success
        ∧ b ≠ 0 ∧ b &&& 7 < tiles.length ∧ (b >>> 3) &&& 7 < tiles.length
        ∧ b &&& 7 ≠ (b >>> 3) &&& 7
        ∧ ∃ a ∈ pre, (a >>> 3) &&& 7 = b &&& 7 ∨ (a >>> 3) &&& 7 = (b >>> 3) &&& 7 := by
  have hinit : (NumbersValidate.init target tiles).tileValues = tiles :=
    (NumbersValidate.init_spec target tiles).1
  have hfree : ∀ t, (NumbersValidate.init target tiles).tileValues.getD t 0 ≠ UINT32_MAX := by
    intro t
    rw [hinit]
    by_cases ht : t < tiles.length
    · rw [List.getD_eq_getElem _ _ ht]
      exact htiles _ (List.getElem_mem ht)
    · rw [List.getD_eq_default _ _ (by omega)]
      decide
  rw [NumbersValidate_some] at hres ⊢
  dsimp only at hres ⊢
  constructor
  · intro herr
    obtain ⟨pre, b, rest, hs, hp0, hp, hb, hop⟩ :=
      NumbersValidate.loop_error target tiles.length true stream _ _ herr (by decide)
    obtain ⟨⟨hL, hR, hne⟩, hused⟩ :=
      (NumbersValidate.operation_tileUsedTwice _ _ _ _ _).mp hop
    refine ⟨pre, b, rest, hs, hp0, by rw [NumbersValidate_some]; exact hp, hb, hL, hR,
      hne, ?_⟩
    obtain ⟨_, _, _, _, m5⟩ := NumbersValidate.loop_marks target tiles.length pre
      (NumbersValidate.init target tiles) hp0 hp (by rw [hinit])
    have hres' : ∀ o ∈ (NumbersValidate.loop target tiles.length true
        (NumbersValidate.init target tiles) pre).2.hookCalls, o.valueResult ≠ UINT32_MAX := by
      intro o ho
      apply hres
      rw [hs, NumbersValidate.loop_step _ _ _ _ _ _ _ hp0 hp hb, hop]
      exact ho
    rcases hused with h | h
    · rcases m5 hres' _ h with h' | ⟨a, ha, hat⟩
      · exact absurd h' (hfree _)
      · exact ⟨a, ha, Or.inl hat⟩
    · rcases m5 hres' _ h with h' | ⟨a, ha, hat⟩
      · exact absurd h' (hfree _)
      · exact ⟨a, ha, Or.inr hat⟩
  · rintro ⟨pre, b, rest, hs, hp0, hp, hb, hL, hR, hne, a, ha, hat⟩
    rw [NumbersValidate_some] at hp
    dsimp only at hp
    obtain ⟨_, _, _, m4, _⟩ := NumbersValidate.loop_marks target tiles.length pre
      (NumbersValidate.init target tiles) hp0 hp (by rw [hinit])
    have hop : NumbersValidate.operation target tiles.length true
        (NumbersValidate.loop target tiles.length true
          (NumbersValidate.init target tiles) pre).2 b = .error .TileUsedTwiceError := by
      rw [NumbersValidate.operation_tileUsedTwice]
      refine ⟨⟨hL, hR, hne⟩, ?_⟩
      rcases hat with h | h
      · exact Or.inl (h ▸ m4 a ha)
      · exact Or.inr (h ▸ m4 a ha)
    rw [hs, NumbersValidate.loop_step _ _ _ _ _ _ _ hp0 hp hb, hop]

/-- The left tile of an accepted operation holds the result given to the
hook. -/
theorem NumbersValidate_left (target : Nat) (tiles pre : List Nat) (b : Nat)
    (hp0 : ∀ x ∈ pre, x ≠ 0) (hb : b ≠ 0)
    (hok : (NumbersValidate target (some tiles) (some (pre ++ [b])) true true).error
      = .Success) :
    ∃ o, (NumbersValidate target (some tiles) (some (pre ++ [b])) true true).hookCalls
        = (NumbersValidate target (some tiles) (some pre) true true).hookCalls ++ [o]
      ∧ (NumbersValidate.loop target tiles.length true (NumbersValidate.init target tiles)
          (pre ++ [b])).2.tileValues.getD (b &&& 7) 0 = o.valueResult
      ∧ ∀ rest, o ∈ (NumbersValidate target (some tiles) (some (pre ++ b :: rest)) true
          true).hookCalls := by
  have hinit : (NumbersValidate.init target tiles).tileValues = tiles :=
    (NumbersValidate.init_spec target tiles).1
  rw [NumbersValidate_some] at hok
  dsimp only at hok
  have hp : (NumbersValidate.loop target tiles.length true
      (NumbersValidate.init target tiles) pre).1 = .Success := by
    by_contra hne
    obtain ⟨p, c, r, hs, hq0, hq, hc, hop⟩ :=
      NumbersValidate.loop_error target tiles.length true pre _ _ rfl hne
    rw [hs, List.append_assoc, List.cons_append,
      NumbersValidate.loop_step _ _ _ _ _ _ _ hq0 hq hc, hop] at hok
    exact hne hok
  rw [NumbersValidate.loop_step _ _ _ _ _ _ _ hp0 hp hb] at hok
  cases hop : NumbersValidate.operation target tiles.length true
      (NumbersValidate.loop target tiles.length true
        (NumbersValidate.init target tiles) pre).2 b with
  | error e =>
    rw [hop] at hok
    exact absurd hok (NumbersValidate.operation_error_ne_success _ _ _ _ _ _ hop)
  | ok s1 =>
    have hcount : tiles.length ≤ (NumbersValidate.loop target tiles.length true
        (NumbersValidate.init target tiles) pre).2.tileValues.length := by
      rw [(NumbersValidate.loop_marks target tiles.length pre
        (NumbersValidate.init target tiles) hp0 hp (by rw [hinit])).1, hinit]
    obtain ⟨hL, hR, hne, _⟩ := NumbersValidate.operation_cases _ _ _ _ _ _ hop
    obtain ⟨_, v, ch, _, hget, hhc⟩ := NumbersValidate.operation_getD _ _ _ _ _ _ hcount hop
    simp only [if_true] at hhc
    refine ⟨⟨(NumbersValidate.loop target tiles.length true
        (NumbersValidate.init target tiles) pre).2.tileValues.getD (b &&& 7) 0, ch,
      (NumbersValidate.loop target tiles.length true
        (NumbersValidate.init target tiles) pre).2.tileValues.getD ((b >>> 3) &&& 7) 0, v⟩,
      ?_, ?_, ?_⟩
    · rw [NumbersValidate_some, NumbersValidate_some]
      dsimp only
      rw [NumbersValidate.loop_step _ _ _ _ _ _ _ hp0 hp hb, hop]
      exact hhc
    · rw [NumbersValidate.loop_step _ _ _ _ _ _ _ hp0 hp hb, hop]
      show s1.tileValues.getD (b &&& 7) 0 = v
      rw [hget, if_neg hne, if_pos rfl]
    · intro rest
      rw [NumbersValidate_some]
      dsimp only
      rw [NumbersValidate.loop_step _ _ _ _ _ _ _ hp0 hp hb, hop]
      obtain ⟨calls, hc1, _⟩ := NumbersValidate.loop_results target tiles.length rest s1
      show _ ∈ (NumbersValidate.loop target tiles.length true s1 rest).2.hookCalls
      rw [hc1, hhc]
      exact List.mem_append_left _ (List.mem_append_right _ (List.mem_singleton_self _))

/-! ## The best value of the validator -/

end Numbers
namespace Numbers

/-! ## The first loop of the solver, exactly -/

/-- Recording a tile: the record is appended unless the arena is full, and it
becomes the best one when it is strictly closer to the target or the first. -/
theorem RecordOperation_tile (s : NumbersStruct) (result : Nat)
    (hfirst : s.current.operationIdFirst = s.current.operationIdLast)
    (hsol : s.solution.operationId < s.operationSize →
      (s.operation s.solution.operationId).complexity = 0)
    (hone : s.current.tileCount = s.final.tileCount →
      s.operationSize ≤ s.solution.operationId) :
    RecordOperation s NOP result 0 =
      if s.operationSize ≤ s.current.operationIdLast then RecordOperation.abort s
      else RecordOperation.append s NOP result 0
        (decide (targetDiffOf s.final.target result < s.solution.targetDiff
          ∨ s.operationSize ≤ s.solution.operationId)) := by
  have hsearch : SearchOperation s result = s.current.operationIdLast := by
    unfold SearchOperation
    dsimp only
    split_ifs with h1 h2
    · omega
    · rfl
    · rfl
  have hcl : RecordOperation.classify s result 0 = some (s.current.operationIdLast,
      decide (targetDiffOf s.final.target result < s.solution.targetDiff
        ∨ s.operationSize ≤ s.solution.operationId)) := by
    unfold RecordOperation.classify
    dsimp only
    by_cases h1 : targetDiffOf s.final.target result < s.solution.targetDiff
        ∨ s.solution.operationId ≥ s.operationSize
    · rw [if_pos h1]
      simp only [decide_eq_true h1]
    · rw [if_neg h1]
      have hlt : s.solution.operationId < s.operationSize := by
        push_neg at h1
        exact h1.2
      rw [if_neg (fun h => absurd (hone h) (by omega)), hsearch, if_pos rfl, hsol hlt]
      simp only [decide_eq_false h1, Nat.lt_irrefl, false_and, and_false, decide_False]
  unfold RecordOperation
  rw [if_neg (Nat.not_lt_zero _), hcl]
  simp only [if_true, ge_iff_le]

/-- One turn of the first loop of `NumbersSolve`. -/
theorem TilePhase.step {tiles : List Nat} {target c j : Nat} {s : NumbersStruct}
    (h : TilePhase tiles target c j s) (hc : 0 < c) (hj : j < tiles.length) :
    TilePhase tiles target c (j + 1)
      (RecordOperation s.startGroup NOP (tiles.getD j 0) 0) := by
  have hrec := RecordOperation_tile s.startGroup (tiles.getD j 0) rfl
    (by
      intro hlt
      have hlt' : s.solution.operationId < c := by rw [← h.operationSize_eq]; exact hlt
      have hj0 : 0 < j := by
        by_contra h0
        have := h.none_yet (by omega)
        omega
      exact (h.records _ (h.best hj0).1).2.2)
    (by
      intro h1
      have h1' : s.current.tileCount = s.final.tileCount := h1
      rw [h.current_tileCount, h.tileCount_eq] at h1'
      have hj0 : j = 0 := by omega
      show s.operationSize ≤ s.solution.operationId
      rw [h.none_yet hj0, h.operationSize_eq])
  have hsize : s.startGroup.operationSize = c := h.operationSize_eq
  have hlast : s.startGroup.current.operationIdLast = min j c := h.last_eq
  have htar : s.startGroup.final.target = target := h.target_eq
  rw [hrec, hsize, hlast, htar]
  by_cases hfull : c ≤ min j c
  · rw [if_pos hfull]
    have hcj : c ≤ j := by omega
    exact
      { operationSize_eq := h.operationSize_eq
        length_eq := h.length_eq
        target_eq := h.target_eq
        tileCount_eq := h.tileCount_eq
        current_tileCount := h.current_tileCount
        last_eq := by
          show s.current.operationIdLast = min (j + 1) c
          rw [h.last_eq]; omega
        aborted_eq := by
          show true = decide (c < j + 1)
          rw [decide_eq_true (by omega)]
        records := by
          intro k hk
          exact h.records k (by omega)
        none_yet := by intro h0; omega
        best := by
          intro _
          have hb := h.best (by omega)
          refine ⟨by show s.solution.operationId < _; omega, hb.2.1, hb.2.2.1, ?_⟩
          intro k hk
          exact hb.2.2.2 k (by omega) }
  · rw [if_neg hfull]
    have hjc : j < c := by omega
    have hmin : min j c = j := by omega
    have hop : ∀ i, (RecordOperation.append s.startGroup NOP (tiles.getD j 0) 0
        (decide (targetDiffOf target (tiles.getD j 0) < s.startGroup.solution.targetDiff
          ∨ c ≤ s.startGroup.solution.operationId))).operation i =
        if i = j then
          { operationIdLeft := s.current.operationIdLeft
            operationIdRight := s.current.operationIdRight
            result := tiles.getD j 0
            op := NOP
            weight := ComputeResultWeight (tiles.getD j 0)
            complexity := 0 }
        else s.operation i := by
      intro i
      rw [RecordOperation.append_operation _ _ _ _ _
        (by show s.current.operationIdLast < s.operations.length
            rw [h.last_eq, h.length_eq]; omega)]
      show (if i = s.current.operationIdLast then _ else _) = _
      rw [h.last_eq, hmin]
      rfl
    by_cases hbest : targetDiffOf target (tiles.getD j 0) < s.solution.targetDiff
        ∨ c ≤ s.solution.operationId
    · have hd : decide (targetDiffOf target (tiles.getD j 0)
            < s.startGroup.solution.targetDiff ∨ c ≤ s.startGroup.solution.operationId)
          = true := decide_eq_true hbest
      rw [hd] at hop ⊢
      exact
        { operationSize_eq := h.operationSize_eq
          length_eq := by
            show (s.operations.set _ _).length = c
            rw [List.length_set]; exact h.length_eq
          target_eq := h.target_eq
          tileCount_eq := h.tileCount_eq
          current_tileCount := h.current_tileCount
          last_eq := by
            show s.current.operationIdLast + 1 = min (j + 1) c
            rw [h.last_eq]; omega
          aborted_eq := by
            show s.solution.aborted = decide (c < j + 1)
            rw [h.aborted_eq, decide_eq_false (by omega), decide_eq_false (by omega)]
          records := by
            intro k hk
            rw [hop k]
            by_cases hkj : k = j
            · rw [if_pos hkj, hkj]
              exact ⟨rfl, rfl, rfl⟩
            · rw [if_neg hkj]
              exact h.records k (by omega)
          none_yet := by intro h0; omega
          best := by
            intro _
            have hid : (RecordOperation.append s.startGroup NOP (tiles.getD j 0) 0
                true).solution.operationId = j := by
              show s.current.operationIdLast = j
              rw [h.last_eq, hmin]
            have htd : (RecordOperation.append s.startGroup NOP (tiles.getD j 0) 0
                true).solution.targetDiff = targetDiffOf target (tiles.getD j 0) := by
              show targetDiffOf s.final.target _ = _
              rw [h.target_eq]
            rw [hid, htd]
            have hprev : ∀ k, k < j →
                targetDiffOf target (tiles.getD j 0) < targetDiffOf target (tiles.getD k 0) := by
              intro k hk
              have hb := h.best (by omega)
              rcases hbest with hlt | hge
              · rw [hb.2.1] at hlt
                exact lt_of_lt_of_le hlt (hb.2.2.2 k (by omega))
              · omega
            refine ⟨by omega, rfl, hprev, ?_⟩
            intro k hk
            by_cases hkj : k = j
            · rw [hkj]
            · exact le_of_lt (hprev k (by omega)) }
    · have hd : decide (targetDiffOf target (tiles.getD j 0)
            < s.startGroup.solution.targetDiff ∨ c ≤ s.startGroup.solution.operationId)
          = false := decide_eq_false hbest
      rw [hd] at hop ⊢
      push_neg at hbest
      have hj0 : 0 < j := by
        by_contra h0
        have := h.none_yet (by omega)
        omega
      exact
        { operationSize_eq := h.operationSize_eq
          length_eq := by
            show (s.operations.set _ _).length = c
            rw [List.length_set]; exact h.length_eq
          target_eq := h.target_eq
          tileCount_eq := h.tileCount_eq
          current_tileCount := h.current_tileCount
          last_eq := by
            show s.current.operationIdLast + 1 = min (j + 1) c
            rw [h.last_eq]; omega
          aborted_eq := by
            show s.solution.aborted = decide (c < j + 1)
            rw [h.aborted_eq, decide_eq_false (by omega), decide_eq_false (by omega)]
          records := by
            intro k hk
            rw [hop k]
            by_cases hkj : k = j
            · rw [if_pos hkj, hkj]
              exact ⟨rfl, rfl, rfl⟩
            · rw [if_neg hkj]
              exact h.records k (by omega)
          none_yet := by intro h0; omega
          best := by
            intro _
            have hb := h.best hj0
            refine ⟨by show s.solution.operationId < _; omega, hb.2.1, hb.2.2.1, ?_⟩
            intro k hk
            by_cases hkj : k = j
            · show targetDiffOf target (tiles.getD s.solution.operationId 0) ≤ _
              rw [hkj, ← hb.2.1]
              exact hbest.1
            · exact hb.2.2.2 k (by omega) }

end Numbers
namespace Numbers

/-- The first loop of `NumbersSolve` as a whole. -/
theorem NumbersSolve.tiles_phase (s : NumbersStruct) (hwf : s.WellFormed) (target : Nat)
    (tiles : List Nat) (complexity : Option Nat) (operationGroups : OperationGroups)
    (tileGroup : Nat) :
    TilePhase tiles target s.operationSize tiles.length
      ((List.range tiles.length).foldl (NumbersSolve.recordTile tiles)
        { numbersObject := NumbersSolve.init s target tiles complexity
          operationGroups := operationGroups
          tileGroup := tileGroup }).numbersObject := by
  refine foldl_range_inv
    (fun j st => TilePhase tiles target s.operationSize j st.numbersObject)
    (NumbersSolve.recordTile tiles) _ tiles.length ?_ ?_
  · intro j st hj h
    exact h.step hwf.1 hj
  · exact
      { operationSize_eq := rfl
        length_eq := hwf.2.2.2.2.1
        target_eq := rfl
        tileCount_eq := rfl
        current_tileCount := rfl
        last_eq := by show 0 = min 0 _; omega
        aborted_eq := by show false = decide (_ < 0); rw [decide_eq_false (by omega)]
        records := by intro k hk; omega
        none_yet := fun _ => rfl
        best := by intro h; omega }

/-- When the search stops after the first loop (a single tile, or more tiles
than the arena holds), `NumbersSolve` returns the first tile closest to the
target among those recorded, with an empty solution. -/
theorem NumbersSolve_tiles_only (s : NumbersStruct) (hwf : s.WellFormed) (target : Nat)
    (tiles : List Nat) (complexity : Option Nat) (solutionOperations result : Bool)
    (hN : tiles.length ≤ 8)
    (hstop : tiles.length = 1 ∨ s.operationSize < tiles.length) :
    ∃ s', TilePhase tiles target s.operationSize tiles.length s'
      ∧ NumbersSolve (some s) target (some tiles) complexity solutionOperations result =
        some
          { error := if s.operationSize < tiles.length then .AbortedError else .Success
            numbersObject := some s'
            complexity := complexity.map (fun _ => 0)
            solutionOperations := if solutionOperations then some [0] else none
            result := if result then some (tiles.getD s'.solution.operationId 0) else none } := by
  have hph := NumbersSolve.tiles_phase s hwf target tiles complexity
    (List.replicate ((1 <<< tiles.length) % 2 ^ 16) none) 0
  generalize hst : (List.range tiles.length).foldl (NumbersSolve.recordTile tiles)
      { numbersObject := NumbersSolve.init s target tiles complexity
        operationGroups := List.replicate ((1 <<< tiles.length) % 2 ^ 16) none
        tileGroup := 0 } = st at hph
  have hpos : 0 < tiles.length := by
    rcases hstop with h | h
    · omega
    · have := hwf.1; omega
  have hcond : (decide (st.numbersObject.current.tileCount < st.numbersObject.final.tileCount)
      && decide (st.numbersObject.solution.targetDiff ≠ 0)
      && !st.numbersObject.solution.aborted) = false := by
    rcases hstop with h | h
    · rw [hph.current_tileCount, hph.tileCount_eq, h]
      simp
    · rw [hph.aborted_eq, decide_eq_true h]
      simp
  have hsearch : NumbersSolve.search s target tiles complexity = some st.numbersObject := by
    unfold NumbersSolve.search
    dsimp only
    show Option.map _ (whileLoop _ _ (tiles.length + 1)
      ((List.range tiles.length).foldl (NumbersSolve.recordTile tiles)
        { numbersObject := NumbersSolve.init s target tiles complexity
          operationGroups := List.replicate ((1 <<< tiles.length) % 2 ^ 16) none
          tileGroup := 0 })) = _
    rw [hst]
    unfold whileLoop
    rw [hcond]
    rfl
  have hb := hph.best hpos
  have hlt : st.numbersObject.solution.operationId < st.numbersObject.operationSize := by
    rw [hph.operationSize_eq]
    have := hb.1
    omega
  obtain ⟨hres, hop, hcx⟩ := hph.records _ hb.1
  refine ⟨st.numbersObject, hph, ?_⟩
  unfold NumbersSolve
  dsimp only
  rw [if_neg (by omega), hsearch]
  show NumbersSolve.finish st.numbersObject complexity solutionOperations result = _
  unfold NumbersSolve.finish
  dsimp only
  rw [if_neg (by omega), hres, hcx, hph.aborted_eq]
  have hgen : GenerateSolution st.numbersObject (st.numbersObject.solution.operationId + 1)
      st.numbersObject.solution.operationId = some (st.numbersObject.solution.operationId, []) := by
    unfold GenerateSolution
    dsimp only
    rw [if_pos hop]
  rw [hgen]
  cases solutionOperations <;> simp

end Numbers
namespace Numbers

/-! ## The solver on the tiles 2, 2 with an arena of 4 records -/

/-- The probe of the benchmark, on any content of the object: the first
candidate, 2 + 2, is kept. -/
theorem NumbersSolve_two_twos (final : Final) (solution : Solution) (current : Current)
    (y : Nat) (x0 x1 x2 x3 : Operation) (complexity : Option Nat)
    (hM : 1 ≤ complexity.getD UINT16_MAX) (solutionOperations result : Bool) :
    (NumbersSolve (some ⟨final, solution, current, 1, [y], 4, [x0, x1, x2, x3]⟩) 4
        (some [2, 2]) complexity solutionOperations result).map
        (fun out => (out.error, out.complexity, out.solutionOperations, out.result))
      = some (.Success, complexity.map (fun _ => 1),
          if solutionOperations then some [8, 0] else none,
          if result then some 4 else none) := by
  generalize hMd : complexity.getD UINT16_MAX = M at hM
  have h1 : ¬ (1 > M) := by omega
  have h0 : ¬ (M < 1) := by omega
  have e1 : tileSubGroups 3 2 = [1] := by decide
  have e2 : nextTileGroup 3 = 5 := by decide
  have e3 : (1 <<< 2) % 2 ^ 16 = 4 := by decide
  have e4 : (1 <<< 2) % 2 ^ 32 - 1 = 3 := by decide
  have e5 : (1 <<< 0) % 2 ^ 32 = 1 := by decide
  have e6 : (1 <<< 1) % 2 ^ 32 = 2 := by decide
  cases solutionOperations <;> cases result <;>
  simp [NumbersSolve, NumbersSolve.search, NumbersSolve.init, NumbersSolve.recordTile,
    RecordOperation, RecordOperation.classify, SearchOperation, RecordOperation.append,
    RecordOperation.abort, RecordOperation.update, NumbersStruct.startGroup, whileLoop,
    NumbersSolve.nextTileCount, NumbersSolve.buildGroup, e1, e2, e3, e4, e5, e6,
    NumbersSolve.combineSubGroup, CombineOperationGroups, CombineOperationGroups.row,
    CombineOperationGroups.pair, CombineOperationGroups.record, NumbersStruct.operation,
    targetDiffOf, ComputeResultWeight, List.range, List.range.loop, List.range', ADD, SUB, MUL,
    DIV, NOP, hMd, h1, h0, NumbersSolve.finish, GenerateSolution]

/-! ## The pseudo random number generator and the shuffle -/

theorem RandomGetValue_mask : ((1 <<< 48) % 2 ^ 64) - 1 = 2 ^ 48 - 1 := by decide

/-- The state kept by the generator is the 48 low bits of the exact value. -/
theorem RandomGetValue_seed (x : Nat) :
    ((x * 0x5DEECE66D + 0xB) % 2 ^ 64) &&& (((1 <<< 48) % 2 ^ 64) - 1)
      = (x * 0x5DEECE66D + 0xB) % 2 ^ 48 := by
  rw [RandomGetValue_mask, Nat.and_pow_two_sub_one_eq_mod,
    Nat.mod_mod_of_dvd _ (by norm_num : (2 : Nat) ^ 48 ∣ 2 ^ 64)]

theorem count_set (a : Nat) : ∀ (l : List Nat) (i x : Nat), i < l.length →
    (l.set i x).count a + (if l.getD i 0 = a then 1 else 0)
      = l.count a + (if x = a then 1 else 0) := by
  intro l
  induction l with
  | nil => intro i x hi; simp at hi
  | cons h t ih =>
    intro i x hi
    cases i with
    | zero =>
      simp only [List.set_cons_zero, List.count_cons, List.getD_cons_zero, beq_iff_eq]
      omega
    | succ i =>
      have := ih i x (by simpa using hi)
      simp only [List.set_cons_succ, List.count_cons, List.getD_cons_succ]
      omega

/-- Exchanging two entries gives a permutation. -/
theorem swap_perm (l : List Nat) (i j : Nat) (hi : i < l.length) (hj : j < l.length)
    (hij : i ≠ j) :
    ((l.set i (l.getD j 0)).set j (l.getD i 0)).Perm l := by
  rw [List.perm_iff_count]
  intro a
  have h1 := count_set a (l.set i (l.getD j 0)) j (l.getD i 0)
    (by rw [List.length_set]; exact hj)
  have h2 := count_set a l i (l.getD j 0) hi
  have hji : ¬ j = i := fun h => hij h.symm
  rw [getD_set_nat _ _ _ _ hi, if_neg hji] at h1
  omega

/-- The loop of `NumbersShuffle` permutes the tiles. -/
theorem NumbersShuffle.loop_perm : ∀ (tileId : Nat) (values : List Nat)
    (randomObject : Option RandomStruct), tileId ≤ values.length →
    (NumbersShuffle.loop tileId values randomObject).1.Perm values := by
  intro tileId
  induction tileId with
  | zero => intro values r _; exact List.Perm.refl _
  | succ n ih =>
    intro values r hn
    unfold NumbersShuffle.loop
    by_cases h1 : n + 1 > 1
    · rw [if_pos h1]
      dsimp only
      have hlt : (RandomGetValue r).1 % (n + 1) < n + 1 := Nat.mod_lt _ (by omega)
      by_cases hsw : n ≠ (RandomGetValue r).1 % (n + 1)
      · rw [if_pos hsw]
        have hp := swap_perm values ((RandomGetValue r).1 % (n + 1)) n (by omega) (by omega)
          (fun h => hsw h.symm)
        exact (ih _ _ (by rw [List.length_set, List.length_set]; omega)).trans hp
      · rw [if_neg hsw]
        exact ih _ _ (by omega)
    · rw [if_neg h1]

end Numbers
namespace Numbers

/-! ## Events of the loops -/

/-- A property kept by every turn of a loop holds after the loop, and what
every turn guarantees of its events holds of all the events. -/
theorem foldlEvents_inv {σ α ε : Type} (P : σ → Prop) (Q : ε → Prop) (f : σ → α → σ)
    (events : σ → α → List ε) :
    ∀ (l : List α) (s0 : σ),
      (∀ s x, x ∈ l → P s → P (f s x) ∧ ∀ e ∈ events s x, Q e) → P s0 →
      P (l.foldl f s0) ∧ ∀ e ∈ foldlEvents f events l s0, Q e := by
  intro l
  induction l with
  | nil =>
    intro s0 _ h0
    exact ⟨h0, fun e he => (by cases he)⟩
  | cons a l ih =>
    intro s0 hstep h0
    obtain ⟨h1, hq1⟩ := hstep s0 a (List.mem_cons_self a l) h0
    obtain ⟨h2, hq2⟩ := ih (f s0 a)
      (fun s x hx hs => hstep s x (List.mem_cons_of_mem a hx) hs) h1
    refine ⟨h2, fun e he => ?_⟩
    simp only [foldlEvents, List.mem_append] at he
    rcases he with he | he
    · exact hq1 e he
    · exact hq2 e he

/-- The same for a loop whose body may be undefined, once every turn is known
to be defined. -/
theorem foldlMEvents_inv {σ α ε : Type} (P : σ → Prop) (Q : ε → Prop)
    (f : σ → α → Option σ) (events : σ → α → List ε) :
    ∀ (l : List α) (s0 : σ),
      (∀ s x, x ∈ l → P s → (∃ s', f s x = some s' ∧ P s') ∧ ∀ e ∈ events s x, Q e) →
      P s0 →
      (∃ s', l.foldlM f s0 = some s' ∧ P s') ∧ ∀ e ∈ foldlMEvents f events l s0, Q e := by
  intro l
  induction l with
  | nil =>
    intro s0 _ h0
    exact ⟨⟨s0, rfl, h0⟩, fun e he => (by cases he)⟩
  | cons a l ih =>
    intro s0 hstep h0
    obtain ⟨⟨s1, hf, h1⟩, hq1⟩ := hstep s0 a (List.mem_cons_self a l) h0
    obtain ⟨⟨s2, hf2, h2⟩, hq2⟩ := ih s1
      (fun s x hx hs => hstep s x (List.mem_cons_of_mem a hx) hs) h1
    refine ⟨⟨s2, ?_, h2⟩, fun e he => ?_⟩
    · rw [List.foldlM_cons, hf]
      exact hf2
    · simp only [foldlMEvents, List.mem_append, hf] at he
      rcases he with he | he
      · exact hq1 e he
      · exact hq2 e he

/-- The same for a `while` loop whose body keeps `P` and decreases `μ`. -/
theorem whileEvents_inv {σ ε : Type} (cond : σ → Bool) (body : σ → Option σ)
    (events : σ → List ε) (P : σ → Prop) (Q : ε → Prop) (μ : σ → Nat)
    (hbody : ∀ st, P st → cond st = true →
      (∃ st', body st = some st' ∧ P st' ∧ μ st' < μ st) ∧ ∀ e ∈ events st, Q e) :
    ∀ (fuel : Nat) (st : σ), P st → μ st < fuel →
      (∃ st', whileLoop cond body fuel st = some st' ∧ P st' ∧ cond st' = false)
      ∧ ∀ e ∈ whileEvents cond body events fuel st, Q e := by
  intro fuel
  induction fuel with
  | zero => intro st _ h; omega
  | succ fuel ih =>
    intro st hP hμ
    unfold whileLoop whileEvents
    by_cases hc : cond st = true
    · rw [if_pos hc, if_pos hc]
      obtain ⟨⟨st', hb, hP', hμ'⟩, hq⟩ := hbody st hP hc
      rw [hb]
      simp only [Option.bind]
      obtain ⟨h1, h2⟩ := ih st' hP' (by omega)
      refine ⟨h1, fun e he => ?_⟩
      rw [List.mem_append] at he
      rcases he with he | he
      · exact hq e he
      · exact h2 e he
    · rw [if_neg hc, if_neg hc]
      exact ⟨⟨st, rfl, hP, by simpa using hc⟩, fun e he => (by cases he)⟩

/-- The calls made in a row: a property kept by every call holds after the
last one, and what is known of every call before it is made holds of all the
calls. -/
theorem recordCalls_inv (P : NumbersStruct → Prop) (Q : RecordCall → Prop) :
    ∀ (offers : List (Nat × Nat × Nat)) (s0 : NumbersStruct),
      (∀ s o, o ∈ offers → P s →
        P (RecordOperation s o.1 o.2.1 o.2.2) ∧ Q ⟨s, o.1, o.2.1, o.2.2⟩) → P s0 →
      P (offers.foldl (fun s o => RecordOperation s o.1 o.2.1 o.2.2) s0)
      ∧ ∀ call ∈ recordCalls s0 offers, Q call := by
  intro offers
  induction offers with
  | nil =>
    intro s0 _ h0
    exact ⟨h0, fun e he => (by cases he)⟩
  | cons a l ih =>
    intro s0 hstep h0
    obtain ⟨op, result, complexity⟩ := a
    obtain ⟨h1, hq1⟩ := hstep s0 (op, result, complexity) (List.mem_cons_self _ l) h0
    obtain ⟨h2, hq2⟩ := ih (RecordOperation s0 op result complexity)
      (fun s x hx hs => hstep s x (List.mem_cons_of_mem _ hx) hs) h1
    refine ⟨h2, fun e he => ?_⟩
    simp only [recordCalls, List.mem_cons] at he
    rcases he with he | he
    · rw [he]; exact hq1
    · exact hq2 e he

/-- The calls of the recorder for an ordered pair of results are those for its
offers, in order. -/
theorem CombineOperationGroups.record_eq (s : NumbersStruct)
    (resultMax resultMin complexityAB weightA weightB : Nat) :
    CombineOperationGroups.record s resultMax resultMin complexityAB weightA weightB
      = (CombineOperationGroups.offers resultMax resultMin complexityAB weightA weightB).foldl
          (fun s o => RecordOperation s o.1 o.2.1 o.2.2) s := by
  unfold CombineOperationGroups.record CombineOperationGroups.offers
  dsimp only
  split_ifs <;>
    simp only [List.foldl_append, List.foldl_cons, List.foldl_nil, List.append_nil]

end Numbers
namespace Numbers

/-! ## The recorder keeps the invariant of the records -/

/-- The four outcomes of a call of the recorder: nothing, a give-up on a full
arena, a new record, an existing record of the current group overwritten. -/
theorem RecordOperation_cases (s : NumbersStruct) (op result c : Nat) :
    RecordOperation s op result c = s
    ∨ (RecordOperation s op result c = RecordOperation.abort s
        ∧ s.operationSize ≤ s.current.operationIdLast
        ∧ ∃ best, RecordOperation.classify s result c
            = some (s.current.operationIdLast, best))
    ∨ (∃ best, RecordOperation s op result c = RecordOperation.append s op result c best
        ∧ s.current.operationIdLast < s.operationSize
        ∧ RecordOperation.classify s result c = some (s.current.operationIdLast, best)
        ∧ c ≤ s.current.complexityMax)
    ∨ (∃ j best, RecordOperation s op result c = RecordOperation.update s j op c
        ∧ s.current.operationIdFirst ≤ j ∧ j < s.current.operationIdLast
        ∧ (s.operation j).result = result
        ∧ RecordOperation.classify s result c = some (j, best)
        ∧ c ≤ s.current.complexityMax) := by
  unfold RecordOperation
  by_cases h1 : c > s.current.complexityMax
  · rw [if_pos h1]; exact Or.inl rfl
  · rw [if_neg h1]
    cases hcl : RecordOperation.classify s result c with
    | none => exact Or.inl rfl
    | some p =>
      obtain ⟨operationId, best⟩ := p
      dsimp only
      rcases RecordOperation.classify_some s result c operationId best hcl with hA | hB
      · obtain ⟨hid, _, _⟩ := hA
        subst hid
        rw [if_pos rfl]
        by_cases hfull : s.current.operationIdLast ≥ s.operationSize
        · rw [if_pos hfull]
          exact Or.inr (Or.inl ⟨rfl, hfull, best, rfl⟩)
        · rw [if_neg hfull]
          exact Or.inr (Or.inr (Or.inl ⟨best, rfl, by omega, rfl, by omega⟩))
      · obtain ⟨hj1, hj2, hres, _, _⟩ := hB
        rw [if_neg (by omega)]
        exact Or.inr (Or.inr (Or.inr ⟨operationId, best, rfl, hj1, hj2, hres, rfl, by omega⟩))

theorem ComputeResultWeight_le (result : Nat) : ComputeResultWeight result ≤ 7 := by
  unfold ComputeResultWeight
  split_ifs <;> omega

theorem operationCost_comm (op weightA weightB resultMax resultMin : Nat) :
    operationCost op weightA weightB resultMax resultMin
      = operationCost op weightB weightA resultMax resultMin := by
  unfold operationCost
  have hmin : (if weightA < weightB then weightA else weightB)
      = (if weightB < weightA then weightB else weightA) := by
    split_ifs <;> omega
  rw [hmin, Nat.add_comm weightA weightB, Nat.mul_comm weightA weightB]

theorem operationCost_le (op weightA weightB resultMax resultMin : Nat)
    (hA : weightA ≤ 7) (hB : weightB ≤ 7) :
    operationCost op weightA weightB resultMax resultMin ≤ 2401 := by
  unfold operationCost
  have h1 : weightA * weightB ≤ 49 := by
    calc weightA * weightB ≤ 7 * 7 := Nat.mul_le_mul hA hB
      _ = 49 := by norm_num
  have h2 : (weightA * weightB) * (weightA * weightB) ≤ 2401 := by
    calc (weightA * weightB) * (weightA * weightB) ≤ 49 * 49 := Nat.mul_le_mul h1 h1
      _ = 2401 := by norm_num
  have h3 : (weightA + weightB) >>> 1 ≤ 7 := by
    rw [Nat.shiftRight_eq_div_pow]
    omega
  split_ifs <;> omega

/-- Every offer of the combiner is an operation that the validator computes on
the ordered results, and its complexity is that of the two operands plus the
cost of the operation, in 16-bit arithmetic. -/
theorem CombineOperationGroups.offers_spec
    (resultMax resultMin complexityAB weightA weightB : Nat)
    (hle : resultMin ≤ resultMax) (hmax : resultMax < 2 ^ 32)
    (hA : weightA ≤ 7) (hB : weightB ≤ 7) :
    ∀ o ∈ CombineOperationGroups.offers resultMax resultMin complexityAB weightA weightB,
      o.1 < 4
      ∧ (∃ ch, NumbersValidate.compute o.1 resultMax resultMin = .ok (o.2.1, ch))
      ∧ o.2.1 < 2 ^ 32
      ∧ o.2.2 = (complexityAB + operationCost o.1 weightA weightB resultMax resultMin)
          % 2 ^ 16 := by
  have hw : (weightA * weightB) % 2 ^ 16 = weightA * weightB := by
    apply Nat.mod_eq_of_lt
    have : weightA * weightB ≤ 7 * 7 := Nat.mul_le_mul hA hB
    omega
  intro o ho
  unfold CombineOperationGroups.offers at ho
  simp only [List.mem_append, List.mem_singleton] at ho
  rcases ho with (ho | ho) | ho
  · rw [ho]
    refine ⟨by simp [ADD], ⟨'+', by simp [NumbersValidate.compute, ADD]⟩,
      Nat.mod_lt _ (by norm_num), ?_⟩
    simp [operationCost, ADD]
  · split_ifs at ho with h1
    · rw [List.mem_singleton] at ho
      rw [ho]
      refine ⟨by simp [SUB], ⟨'-', by
        simp [NumbersValidate.compute, ADD, MUL, SUB, Nat.not_lt.mpr hle]⟩, by
        show resultMax - resultMin < 2 ^ 32
        omega, ?_⟩
      simp [operationCost, ADD, SUB]
    · cases ho
  · split_ifs at ho with h1 h2 h3
    · simp only [List.mem_append, List.mem_singleton] at ho
      rcases ho with ho | ho
      · rw [ho]
        refine ⟨by simp [MUL], ⟨'x', by simp [NumbersValidate.compute, ADD, MUL]⟩,
          Nat.mod_lt _ (by norm_num), ?_⟩
        simp only [hw]
        simp [operationCost, ADD, SUB, MUL, DIV]
      · rw [ho]
        refine ⟨by simp [DIV], ⟨'/', ?_⟩, by norm_num, ?_⟩
        · subst h2
          have hpos : 0 < resultMax := by omega
          have hne : resultMax ≠ 0 := by omega
          simp [NumbersValidate.compute, ADD, MUL, SUB, DIV, hne, Nat.div_self hpos]
          omega
        · simp [operationCost, ADD, SUB, DIV, h2]
    · simp only [List.mem_append, List.mem_singleton] at ho
      rcases ho with ho | ho
      · rw [ho]
        refine ⟨by simp [MUL], ⟨'x', by simp [NumbersValidate.compute, ADD, MUL]⟩,
          Nat.mod_lt _ (by norm_num), ?_⟩
        simp only [hw]
        simp [operationCost, ADD, SUB, MUL, DIV]
      · rw [ho]
        have hne : resultMin ≠ 0 := by omega
        have h3' := h3.2
        rw [Nat.mul_comm] at h3'
        have h3'' : resultMin * (resultMax / resultMin) % 4294967296 = resultMax := by
          norm_num at h3'; exact h3'
        refine ⟨by simp [DIV], ⟨'/', by
          simp [NumbersValidate.compute, ADD, MUL, SUB, DIV, hne, h3'']⟩,
          lt_of_le_of_lt (Nat.div_le_self _ _) hmax, ?_⟩
        simp only [hw]
        simp [operationCost, ADD, SUB, DIV, h2]
    · simp only [List.mem_append, List.mem_singleton, List.append_nil] at ho
      rw [ho]
      refine ⟨by simp [MUL], ⟨'x', by simp [NumbersValidate.compute, ADD, MUL]⟩,
        Nat.mod_lt _ (by norm_num), ?_⟩
      simp only [hw]
      simp [operationCost, ADD, SUB, MUL, DIV]
    · cases ho

/-- The combiner never offers a difference that is zero. -/
theorem CombineOperationGroups.offers_difference
    (resultMax resultMin complexityAB weightA weightB : Nat) (hle : resultMin ≤ resultMax) :
    ∀ o ∈ CombineOperationGroups.offers resultMax resultMin complexityAB weightA weightB,
      o.1 = SUB → o.2.1 ≠ 0 := by
  intro o ho hsub
  unfold CombineOperationGroups.offers at ho
  simp only [List.mem_append, List.mem_singleton] at ho
  rcases ho with (ho | ho) | ho
  · rw [ho] at hsub
    simp [ADD, SUB] at hsub
  · split_ifs at ho with h1
    · rw [List.mem_singleton] at ho
      rw [ho]
      show resultMax - resultMin ≠ 0
      omega
    · cases ho
  · split_ifs at ho with h1 h2 h3
    · simp only [List.mem_append, List.mem_singleton, List.mem_cons, List.not_mem_nil,
        or_false] at ho
      rcases ho with ho | ho <;> rw [ho] at hsub <;> simp [MUL, DIV, SUB] at hsub
    · simp only [List.mem_append, List.mem_singleton, List.mem_cons, List.not_mem_nil,
        or_false] at ho
      rcases ho with ho | ho <;> rw [ho] at hsub <;> simp [MUL, DIV, SUB] at hsub
    · simp only [List.mem_append, List.mem_singleton, List.mem_cons, List.not_mem_nil,
        or_false] at ho
      rw [ho] at hsub
      simp [MUL, SUB] at hsub
    · cases ho

end Numbers
namespace Numbers

/-- The weights are at most 7, and the complexity of a record is at most 2401
for each operation of its tree. -/
theorem ArenaInv.cost_bound {tiles : List Nat} {g : Nat} {s : NumbersStruct}
    {E : Nat → Expr} (h : ArenaInv tiles g s E) (hr : RecordInv s) :
    ∀ i, i < s.current.operationIdLast →
      (s.operation i).weight ≤ 7
      ∧ (s.operation i).complexity + 2401 ≤ 2401 * (E i).leaves.length := by
  intro i
  induction i using Nat.strong_induction_on with
  | _ i ih =>
    intro hi
    have hw : (s.operation i).weight ≤ 7 := by
      rw [hr.weight i hi]
      exact ComputeResultWeight_le _
    refine ⟨hw, ?_⟩
    by_cases hnop : (s.operation i).op = NOP
    · obtain ⟨hE, _, hc⟩ := h.leaf i hi hnop
      rw [hE, hc]
      simp [Expr.leaves]
    · obtain ⟨_, hl, hrr, _, hE⟩ := h.node i hi hnop
      obtain ⟨hwl, hcl⟩ := ih _ hl (by omega)
      obtain ⟨hwr, hcr⟩ := ih _ hrr (by omega)
      have hcost := operationCost_le (s.operation i).op _ _
        (s.operation (s.operation i).operationIdLeft).result
        (s.operation (s.operation i).operationIdRight).result hwl hwr
      rw [hE, hr.cost i hi hnop]
      simp only [Expr.leaves, List.length_append]
      omega

/-- The search finds every indexed record of the current group. -/
theorem SearchOperation_indexed (s : NumbersStruct)
    (hidx : ∀ i, s.current.operationIdFirst ≤ i → i < s.current.operationIdLast →
      (s.operation i).result < s.operationIdSize →
      s.operationIds.getD (s.operation i).result 0 = i) (i : Nat)
    (hi1 : s.current.operationIdFirst ≤ i) (hi2 : i < s.current.operationIdLast)
    (hres : (s.operation i).result < s.operationIdSize) :
    SearchOperation s (s.operation i).result = i := by
  unfold SearchOperation
  rw [if_pos hres]
  dsimp only
  rw [hidx i hi1 hi2 hres, if_pos ⟨hi1, hi2, rfl⟩]

/-- An indexed value that the recorder is about to append is not yet in the
current group. -/
theorem RecordOperation.classify_absent {tiles : List Nat} {g : Nat} {s : NumbersStruct}
    {E : Nat → Expr} (h : ArenaInv tiles g s E)
    (hidx : ∀ i, s.current.operationIdFirst ≤ i → i < s.current.operationIdLast →
      (s.operation i).result < s.operationIdSize →
      s.operationIds.getD (s.operation i).result 0 = i)
    (result c : Nat) (hres : result < s.operationIdSize) (best : Bool)
    (hcl : RecordOperation.classify s result c = some (s.current.operationIdLast, best)) :
    ∀ i, s.current.operationIdFirst ≤ i → i < s.current.operationIdLast →
      (s.operation i).result ≠ result := by
  intro i hi1 hi2 heq
  have hfound : SearchOperation s result = i := by
    rw [← heq]
    exact SearchOperation_indexed s hidx i hi1 hi2 (by rw [heq]; exact hres)
  unfold RecordOperation.classify at hcl
  dsimp only at hcl
  by_cases h1 : targetDiffOf s.final.target result < s.solution.targetDiff
      ∨ s.solution.operationId ≥ s.operationSize
  · rcases h1 with h1 | h1
    · have := h.best_le i hi2
      rw [heq] at this
      omega
    · have := h.solution_none h1
      omega
  · rw [if_neg h1] at hcl
    by_cases h2 : s.current.tileCount = s.final.tileCount
    · rw [if_pos h2] at hcl
      split_ifs at hcl
      simp only [Option.some.injEq, Prod.mk.injEq] at hcl
      omega
    · rw [if_neg h2] at hcl
      split_ifs at hcl with h3 h4
      · omega
      · simp only [Option.some.injEq, Prod.mk.injEq] at hcl
        omega

/-- Writing one record of the current group, new or not, keeps what is known
of the operands, weights and complexities of all records, when the record
written is in order. -/
theorem RecordInv.write {tiles : List Nat} {g : Nat} {s : NumbersStruct}
    {E : Nat → Expr} (h : ArenaInv tiles g s E) (hr : RecordInv s) (s' : NumbersStruct)
    (j : Nat) (record : Operation) (hj1 : s.current.operationIdFirst ≤ j)
    (hlast : ∀ i, i < s'.current.operationIdLast → i < s.current.operationIdLast ∨ i = j)
    (hop : ∀ i, s'.operation i = if i = j then record else s.operation i)
    (hw : record.weight = ComputeResultWeight record.result)
    (hrec : record.op ≠ NOP →
      record.operationIdLeft < s.current.operationIdFirst
      ∧ record.operationIdRight < s.current.operationIdFirst
      ∧ (s.operation record.operationIdRight).result
          ≤ (s.operation record.operationIdLeft).result
      ∧ record.complexity
          = (s.operation record.operationIdLeft).complexity
            + (s.operation record.operationIdRight).complexity
            + operationCost record.op (s.operation record.operationIdLeft).weight
                (s.operation record.operationIdRight).weight
                (s.operation record.operationIdLeft).result
                (s.operation record.operationIdRight).result)
    (hidx : ∀ i, s'.current.operationIdFirst ≤ i → i < s'.current.operationIdLast →
      (s'.operation i).result < s'.operationIdSize →
      s'.operationIds.getD (s'.operation i).result 0 = i)
    (hsub : record.op = SUB → record.result ≠ 0) :
    RecordInv s' := by
  -- the operands of a record are never the record written
  have hother : ∀ i, i < s.current.operationIdLast → i ≠ j → (s.operation i).op ≠ NOP →
      (s.operation i).operationIdLeft ≠ j ∧ (s.operation i).operationIdRight ≠ j := by
    intro i hi hij hnop
    obtain ⟨_, hl, hrr, hcur, _⟩ := h.node i hi hnop
    by_cases hlt : i < j
    · constructor <;> omega
    · have := hcur (by omega)
      constructor <;> omega
  have hkey : ∀ i, i < s'.current.operationIdLast → (s'.operation i).op ≠ NOP →
      (s'.operation (s'.operation i).operationIdRight).result
        ≤ (s'.operation (s'.operation i).operationIdLeft).result
      ∧ (s'.operation i).complexity
        = (s'.operation (s'.operation i).operationIdLeft).complexity
          + (s'.operation (s'.operation i).operationIdRight).complexity
          + operationCost (s'.operation i).op
              (s'.operation (s'.operation i).operationIdLeft).weight
              (s'.operation (s'.operation i).operationIdRight).weight
              (s'.operation (s'.operation i).operationIdLeft).result
              (s'.operation (s'.operation i).operationIdRight).result := by
    intro i hi hnop
    by_cases hij : i = j
    · have e : s'.operation i = record := by rw [hop, if_pos hij]
      rw [e] at hnop ⊢
      obtain ⟨h1, h2, h3, h4⟩ := hrec hnop
      rw [hop record.operationIdLeft, if_neg (by omega), hop record.operationIdRight,
        if_neg (by omega)]
      exact ⟨h3, h4⟩
    · have e : s'.operation i = s.operation i := by rw [hop, if_neg hij]
      rw [e] at hnop ⊢
      have hi' : i < s.current.operationIdLast := by
        rcases hlast i hi with h1 | h1
        · exact h1
        · exact absurd h1 hij
      obtain ⟨h1, h2⟩ := hother i hi' hij hnop
      rw [hop (s.operation i).operationIdLeft, if_neg h1,
        hop (s.operation i).operationIdRight, if_neg h2]
      exact ⟨hr.canonical i hi' hnop, hr.cost i hi' hnop⟩
  refine ⟨fun i hi hnop => (hkey i hi hnop).1, ?_, fun i hi hnop => (hkey i hi hnop).2, hidx,
    ?_⟩
  · intro i hi
    by_cases hij : i = j
    · rw [hop, if_pos hij]
      exact hw
    · rw [hop, if_neg hij]
      rcases hlast i hi with h1 | h1
      · exact hr.weight i h1
      · exact absurd h1 hij
  · intro i hi
    by_cases hij : i = j
    · rw [hop, if_pos hij]
      exact hsub
    · rw [hop, if_neg hij]
      rcases hlast i hi with h1 | h1
      · exact hr.difference i h1
      · exact absurd h1 hij

/-- The recorder keeps the invariant of the records, when the operation offered
has its operands in order in earlier groups and its complexity is that of the
operands plus the cost of the operation, and also when a tile is offered. -/
theorem RecordOperation_records {tiles : List Nat} {g : Nat} {s : NumbersStruct}
    {E : Nat → Expr} (h : ArenaInv tiles g s E) (hr : RecordInv s) (op result c : Nat)
    (hnew : op ≠ NOP →
      s.current.operationIdLeft < s.current.operationIdFirst
      ∧ s.current.operationIdRight < s.current.operationIdFirst
      ∧ (s.operation s.current.operationIdRight).result
          ≤ (s.operation s.current.operationIdLeft).result
      ∧ c = (s.operation s.current.operationIdLeft).complexity
            + (s.operation s.current.operationIdRight).complexity
            + operationCost op (s.operation s.current.operationIdLeft).weight
                (s.operation s.current.operationIdRight).weight
                (s.operation s.current.operationIdLeft).result
                (s.operation s.current.operationIdRight).result)
    (hsub : op = SUB → result ≠ 0) :
    RecordInv (RecordOperation s op result c) := by
  have hwf := h.wf
  have hfirst := h.first_le
  rcases RecordOperation_cases s op result c with he | ⟨he, _, _⟩ | ⟨best, he, hlt, hcl, _⟩
      | ⟨j, best, he, hj1, hj2, hres, _, _⟩
  · rw [he]; exact hr
  · rw [he]
    exact ⟨hr.canonical, hr.weight, hr.cost, hr.index, hr.difference⟩
  · rw [he]
    have hop := RecordOperation.append_operation s op result c best
      (by rw [hwf.2.2.2.2.1]; exact hlt)
    refine RecordInv.write h hr _ s.current.operationIdLast _ hfirst ?_ hop rfl hnew ?_ hsub
    · intro i hi
      have hi' : i < s.current.operationIdLast + 1 := hi
      omega
    · intro i hi1 hi2 hri
      have hi1' : s.current.operationIdFirst ≤ i := hi1
      have hi2' : i < s.current.operationIdLast + 1 := hi2
      have hri' : ((RecordOperation.append s op result c best).operation i).result
          < s.operationIdSize := hri
      show (if result < s.operationIdSize then
        s.operationIds.set result s.current.operationIdLast else s.operationIds).getD _ 0 = i
      rw [hop i] at hri' ⊢
      by_cases hil : i = s.current.operationIdLast
      · rw [if_pos hil] at hri' ⊢
        have hri'' : result < s.operationIdSize := hri'
        dsimp only
        rw [if_pos hri'', getD_set_nat _ _ _ _ (by rw [hwf.2.2.2.2.2]; exact hri''),
          if_pos rfl, hil]
      · rw [if_neg hil] at hri' ⊢
        by_cases hres : result < s.operationIdSize
        · rw [if_pos hres]
          have hne := RecordOperation.classify_absent h hr.index result c hres best hcl i hi1'
            (by omega)
          rw [getD_set_nat _ _ _ _ (by rw [hwf.2.2.2.2.2]; exact hres), if_neg hne]
          exact hr.index i hi1' (by omega) hri'
        · rw [if_neg hres]
          exact hr.index i hi1' (by omega) hri'
  · rw [he]
    have hop := RecordOperation.update_operation s j op c
      (by rw [hwf.2.2.2.2.1]; have := h.last_le; omega)
    have hsame : ∀ i, ((RecordOperation.update s j op c).operation i).result
        = (s.operation i).result := by
      intro i
      rw [hop]
      split_ifs with hi
      · rw [hi]
      · rfl
    refine RecordInv.write h hr _ j _ hj1 (fun i hi => Or.inl hi) hop ?_ hnew ?_
      (fun hs => by
        show (s.operation j).result ≠ 0
        rw [hres]; exact hsub hs)
    · exact hr.weight j hj2
    · intro i hi1 hi2 hri
      rw [hsame] at hri ⊢
      exact hr.index i hi1 hi2 hri

end Numbers
namespace Numbers

/-! ## The course of the combiner -/

theorem RecordInv.operands_set {s : NumbersStruct} (h : RecordInv s) (l r : Nat) :
    RecordInv
      { s with current := { s.current with operationIdLeft := l, operationIdRight := r } } :=
  ⟨h.canonical, h.weight, h.cost, h.index, h.difference⟩

theorem RecordInv.group_started {s : NumbersStruct} (h : RecordInv s) :
    RecordInv s.startGroup :=
  ⟨h.canonical, h.weight, h.cost, fun i hi1 hi2 _ => by
    have hi1' : s.current.operationIdLast ≤ i := hi1
    have hi2' : i < s.current.operationIdLast := hi2
    omega, h.difference⟩

/-- Two records of earlier groups over disjoint tiles of the current group:
every operation that the validator computes on their results is a candidate. -/
theorem Candidate.of_compute {tiles : List Nat} {g : Nat} {s : NumbersStruct}
    {E : Nat → Expr} (h : ArenaInv tiles g s E)
    (hl : s.current.operationIdLeft < s.current.operationIdFirst)
    (hr : s.current.operationIdRight < s.current.operationIdFirst)
    (hdisj : List.Disjoint (E s.current.operationIdLeft).leaves
      (E s.current.operationIdRight).leaves)
    (hlen : (E s.current.operationIdLeft).leaves.length
      + (E s.current.operationIdRight).leaves.length = s.current.tileCount)
    (hmaskl : ∀ t ∈ (E s.current.operationIdLeft).leaves, g.testBit t = true)
    (hmaskr : ∀ t ∈ (E s.current.operationIdRight).leaves, g.testBit t = true)
    {op result : Nat} {ch : Char} (hop : op < 4)
    (hcomp : NumbersValidate.compute op (s.operation s.current.operationIdLeft).result
      (s.operation s.current.operationIdRight).result = .ok (result, ch))
    (hres : result < 2 ^ 32) : Candidate tiles g s E op result := by
  have hfirst := h.first_le
  have hlL : s.current.operationIdLeft < s.current.operationIdLast := by omega
  have hrL : s.current.operationIdRight < s.current.operationIdLast := by omega
  exact
    { op_lt := hop
      left_lt := hl
      right_lt := hr
      value := Expr.value_node (h.value _ hlL) (h.value _ hrL) hcomp
      result_lt := hres
      nodup := by
        simp only [Expr.leaves]
        exact List.Nodup.append (h.nodup _ hlL) (h.nodup _ hrL) hdisj
      length := by simp only [Expr.leaves, List.length_append]; exact hlen
      mask := by
        intro t ht
        simp only [Expr.leaves, List.mem_append] at ht
        rcases ht with ht | ht
        · exact hmaskl t ht
        · exact hmaskr t ht }

/-- The number of tiles of a candidate is at most the number of tiles. -/
theorem Candidate.length_le {tiles : List Nat} {g : Nat} {s : NumbersStruct}
    {E : Nat → Expr} {op result : Nat} (h : ArenaInv tiles g s E)
    (hc : Candidate tiles g s E op result) :
    (E s.current.operationIdLeft).leaves.length
      + (E s.current.operationIdRight).leaves.length ≤ tiles.length := by
  have hfirst := h.first_le
  have hnd := hc.nodup
  have : ∀ t ∈ (Expr.node op (E s.current.operationIdLeft)
      (E s.current.operationIdRight)).leaves, t < tiles.length := by
    intro t ht
    simp only [Expr.leaves, List.mem_append] at ht
    rcases ht with ht | ht
    · exact h.leaves_lt _ (by have := hc.left_lt; omega) t ht
    · exact h.leaves_lt _ (by have := hc.right_lt; omega) t ht
  have := nodup_length_le _ _ hnd this
  simpa [Expr.leaves] using this

/-- The complexity that the combiner offers is exact: the 16-bit sums do not
wrap, and it is at most 2401 for each operation of the tree offered. -/
theorem CallOk.complexity_eq {tiles : List Nat} {g : Nat} {s : NumbersStruct}
    {E : Nat → Expr} {op result c : Nat} (h : ArenaInv tiles g s E) (hr : RecordInv s)
    (hN : tiles.length ≤ 8) (hc : Candidate tiles g s E op result)
    (hok : CallOk ⟨s, op, result, c⟩) :
    ((s.operation s.current.operationIdLeft).complexity
        + (s.operation s.current.operationIdRight).complexity) % 2 ^ 16
      = (s.operation s.current.operationIdLeft).complexity
        + (s.operation s.current.operationIdRight).complexity
    ∧ c = (s.operation s.current.operationIdLeft).complexity
        + (s.operation s.current.operationIdRight).complexity
        + operationCost op (s.operation s.current.operationIdLeft).weight
            (s.operation s.current.operationIdRight).weight
            (s.operation s.current.operationIdLeft).result
            (s.operation s.current.operationIdRight).result
    ∧ c + 2401 ≤ 2401 * s.current.tileCount
    ∧ s.current.tileCount ≤ tiles.length := by
  have hfirst := h.first_le
  have hlL : s.current.operationIdLeft < s.current.operationIdLast := by
    have := hc.left_lt; omega
  have hrL : s.current.operationIdRight < s.current.operationIdLast := by
    have := hc.right_lt; omega
  obtain ⟨hwl, hcl⟩ := h.cost_bound hr _ hlL
  obtain ⟨hwr, hcr⟩ := h.cost_bound hr _ hrL
  have hlen := hc.length
  simp only [Expr.leaves, List.length_append] at hlen
  have hle := hc.length_le h
  have hnowrap : ((s.operation s.current.operationIdLeft).complexity
        + (s.operation s.current.operationIdRight).complexity) % 2 ^ 16
      = (s.operation s.current.operationIdLeft).complexity
        + (s.operation s.current.operationIdRight).complexity := by
    apply Nat.mod_eq_of_lt
    have : 2401 * ((E s.current.operationIdLeft).leaves.length
        + (E s.current.operationIdRight).leaves.length) ≤ 2401 * 8 :=
      Nat.mul_le_mul_left _ (by omega)
    omega
  obtain ⟨wA, wB, hw, hmem⟩ := hok.offered
  have hwA : wA ≤ 7 := by rcases hw with ⟨h1, _⟩ | ⟨h1, _⟩ <;> rw [h1] <;> assumption
  have hwB : wB ≤ 7 := by rcases hw with ⟨_, h1⟩ | ⟨_, h1⟩ <;> rw [h1] <;> assumption
  have hspec := CombineOperationGroups.offers_spec _ _ _ wA wB hok.ordered
    (h.result_lt _ hlL) hwA hwB _ hmem
  have hcost : operationCost op wA wB (s.operation s.current.operationIdLeft).result
        (s.operation s.current.operationIdRight).result
      = operationCost op (s.operation s.current.operationIdLeft).weight
          (s.operation s.current.operationIdRight).weight
          (s.operation s.current.operationIdLeft).result
          (s.operation s.current.operationIdRight).result := by
    rcases hw with ⟨h1, h2⟩ | ⟨h1, h2⟩
    · rw [h1, h2]
    · rw [h1, h2, operationCost_comm]
  have hcle := operationCost_le op wA wB (s.operation s.current.operationIdLeft).result
    (s.operation s.current.operationIdRight).result hwA hwB
  have hceq := hspec.2.2.2
  simp only [] at hceq
  rw [hnowrap, hcost] at hceq
  rw [hcost] at hcle
  have hmul : 2401 * ((E s.current.operationIdLeft).leaves.length
      + (E s.current.operationIdRight).leaves.length) ≤ 2401 * 8 :=
    Nat.mul_le_mul_left _ (by omega)
  have hceq' : c = (s.operation s.current.operationIdLeft).complexity
        + (s.operation s.current.operationIdRight).complexity
        + operationCost op (s.operation s.current.operationIdLeft).weight
            (s.operation s.current.operationIdRight).weight
            (s.operation s.current.operationIdLeft).result
            (s.operation s.current.operationIdRight).result := by
    rw [hceq]
    apply Nat.mod_eq_of_lt
    omega
  refine ⟨hnowrap, hceq', ?_, by omega⟩
  rw [← hlen]
  omega

end Numbers
namespace Numbers

/-- The calls of the recorder for an ordered pair of records of earlier groups:
each call finds the arena and its records in order and offers a candidate, and
so does the object stay after the last call. -/
theorem CombineOperationGroups.offers_course {tiles : List Nat} {g : Nat}
    {s : NumbersStruct} {E : Nat → Expr} (h : ArenaInv tiles g s E) (hrec : RecordInv s)
    (hN : tiles.length ≤ 8)
    (resultMax resultMin complexityAB weightA weightB : Nat)
    (hl : s.current.operationIdLeft < s.current.operationIdFirst)
    (hr : s.current.operationIdRight < s.current.operationIdFirst)
    (hmax : (s.operation s.current.operationIdLeft).result = resultMax)
    (hmin : (s.operation s.current.operationIdRight).result = resultMin)
    (hle : resultMin ≤ resultMax)
    (hcAB : complexityAB = ((s.operation s.current.operationIdLeft).complexity
      + (s.operation s.current.operationIdRight).complexity) % 2 ^ 16)
    (hwithin : complexityAB ≤ s.current.complexityMax)
    (hw : (weightA = (s.operation s.current.operationIdLeft).weight
        ∧ weightB = (s.operation s.current.operationIdRight).weight)
      ∨ (weightA = (s.operation s.current.operationIdRight).weight
        ∧ weightB = (s.operation s.current.operationIdLeft).weight))
    (hdisj : List.Disjoint (E s.current.operationIdLeft).leaves
      (E s.current.operationIdRight).leaves)
    (hlen : (E s.current.operationIdLeft).leaves.length
      + (E s.current.operationIdRight).leaves.length = s.current.tileCount)
    (hmaskl : ∀ t ∈ (E s.current.operationIdLeft).leaves, g.testBit t = true)
    (hmaskr : ∀ t ∈ (E s.current.operationIdRight).leaves, g.testBit t = true) :
    (∃ E', ArenaInv tiles g
        (CombineOperationGroups.record s resultMax resultMin complexityAB weightA weightB) E'
      ∧ Extends s E
        (CombineOperationGroups.record s resultMax resultMin complexityAB weightA weightB) E'
      ∧ RecordInv
        (CombineOperationGroups.record s resultMax resultMin complexityAB weightA weightB))
    ∧ ∀ call ∈ recordCalls s
        (CombineOperationGroups.offers resultMax resultMin complexityAB weightA weightB),
      ∃ E', ArenaInv tiles g call.numbersObject E' ∧ Extends s E call.numbersObject E'
        ∧ RecordInv call.numbersObject
        ∧ Candidate tiles g call.numbersObject E' call.op call.result ∧ CallOk call := by
  have hfirst := h.first_le
  have hlL : s.current.operationIdLeft < s.current.operationIdLast := by omega
  have hrL : s.current.operationIdRight < s.current.operationIdLast := by omega
  obtain ⟨hwl, _⟩ := h.cost_bound hrec _ hlL
  obtain ⟨hwr, _⟩ := h.cost_bound hrec _ hrL
  have hwA : weightA ≤ 7 := by rcases hw with ⟨h1, _⟩ | ⟨h1, _⟩ <;> rw [h1] <;> assumption
  have hwB : weightB ≤ 7 := by rcases hw with ⟨_, h1⟩ | ⟨_, h1⟩ <;> rw [h1] <;> assumption
  have hmaxlt : resultMax < 2 ^ 32 := by rw [← hmax]; exact h.result_lt _ hlL
  rw [CombineOperationGroups.record_eq]
  have key := recordCalls_inv
    (fun s' => ∃ E', ArenaInv tiles g s' E' ∧ Extends s E s' E' ∧ RecordInv s'
      ∧ s'.current.operationIdLeft = s.current.operationIdLeft
      ∧ s'.current.operationIdRight = s.current.operationIdRight)
    (fun call => ∃ E', ArenaInv tiles g call.numbersObject E'
      ∧ Extends s E call.numbersObject E' ∧ RecordInv call.numbersObject
      ∧ Candidate tiles g call.numbersObject E' call.op call.result ∧ CallOk call)
    (CombineOperationGroups.offers resultMax resultMin complexityAB weightA weightB) s
    (by
      rintro s' o ho ⟨E', hinv, hx, hrec', hl', hr'⟩
      obtain ⟨hop, ⟨ch, hcomp⟩, hres, _⟩ := CombineOperationGroups.offers_spec resultMax
        resultMin complexityAB weightA weightB hle hmaxlt hwA hwB o ho
      have hc : Candidate tiles g s E o.1 o.2.1 :=
        Candidate.of_compute h hl hr hdisj hlen hmaskl hmaskr hop
          (by rw [hmax, hmin]; exact hcomp) hres
      have hc' : Candidate tiles g s' E' o.1 o.2.1 := hc.extend hx hl' hr'
      have hoL : s'.operation s'.current.operationIdLeft
          = s.operation s.current.operationIdLeft := by
        rw [hl']; exact hx.operation_eq _ hl
      have hoR : s'.operation s'.current.operationIdRight
          = s.operation s.current.operationIdRight := by
        rw [hr']; exact hx.operation_eq _ hr
      have hok : CallOk ⟨s', o.1, o.2.1, o.2.2⟩ :=
        { left_lt := hc'.left_lt
          right_lt := hc'.right_lt
          ordered := by
            show (s'.operation s'.current.operationIdRight).result
              ≤ (s'.operation s'.current.operationIdLeft).result
            rw [hoL, hoR, hmax, hmin]; exact hle
          within := by
            show ((s'.operation s'.current.operationIdLeft).complexity
              + (s'.operation s'.current.operationIdRight).complexity) % 2 ^ 16
              ≤ s'.current.complexityMax
            rw [hoL, hoR, hx.complexityMax_eq, ← hcAB]; exact hwithin
          offered := by
            refine ⟨weightA, weightB, ?_, ?_⟩
            · show (weightA = (s'.operation s'.current.operationIdLeft).weight
                  ∧ weightB = (s'.operation s'.current.operationIdRight).weight)
                ∨ (weightA = (s'.operation s'.current.operationIdRight).weight
                  ∧ weightB = (s'.operation s'.current.operationIdLeft).weight)
              rw [hoL, hoR]; exact hw
            · show (o.1, o.2.1, o.2.2) ∈ CombineOperationGroups.offers
                (s'.operation s'.current.operationIdLeft).result
                (s'.operation s'.current.operationIdRight).result
                (((s'.operation s'.current.operationIdLeft).complexity
                  + (s'.operation s'.current.operationIdRight).complexity) % 2 ^ 16)
                weightA weightB
              rw [hoL, hoR, hmax, hmin, ← hcAB]; exact ho }
      refine ⟨?_, E', hinv, hx, hrec', hc', hok⟩
      obtain ⟨E'', hinv'', hx''⟩ := RecordOperation_inv hinv hc' o.2.2
      have hlr := RecordOperation_left_right s' o.1 o.2.1 o.2.2
      have hceq := (CallOk.complexity_eq hinv hrec' hN hc' hok).2.1
      exact ⟨E'', hinv'', hx.trans hx'', RecordOperation_records hinv hrec' o.1 o.2.1 o.2.2
        (fun _ => ⟨hc'.left_lt, hc'.right_lt, hok.ordered, hceq⟩)
        (CombineOperationGroups.offers_difference resultMax resultMin complexityAB weightA
          weightB hle o ho),
        hlr.1.trans hl', hlr.2.trans hr'⟩)
    ⟨E, h, Extends.refl s E, hrec, rfl, rfl⟩
  obtain ⟨⟨E', a, b, c, _, _⟩, hq⟩ := key
  exact ⟨⟨E', a, b, c⟩, hq⟩

/-- One turn of the inner loop of the combiner, in order: so are the object it
leaves and all its calls of the recorder. -/
theorem PairVisit.calls_course {tiles : List Nat} {g : Nat} {E : Nat → Expr} (visit : PairVisit)
    (hN : tiles.length ≤ 8) (h : PairInv tiles g E visit) :
    (∃ E', ArenaInv tiles g
        (CombineOperationGroups.pair visit.operationIdA visit.resultA visit.weightA
          visit.complexityA visit.numbersObject visit.operationIdB) E'
      ∧ Extends visit.numbersObject E
        (CombineOperationGroups.pair visit.operationIdA visit.resultA visit.weightA
          visit.complexityA visit.numbersObject visit.operationIdB) E'
      ∧ RecordInv
        (CombineOperationGroups.pair visit.operationIdA visit.resultA visit.weightA
          visit.complexityA visit.numbersObject visit.operationIdB))
    ∧ ∀ call ∈ visit.calls,
      ∃ E', ArenaInv tiles g call.numbersObject E'
        ∧ Extends visit.numbersObject E call.numbersObject E'
        ∧ RecordInv call.numbersObject
        ∧ Candidate tiles g call.numbersObject E' call.op call.result ∧ CallOk call := by
  obtain ⟨operationIdA, resultA, weightA, complexityA, s, operationIdB⟩ := visit
  obtain ⟨harena, hrec, hA, hB, hresA, hwA, hcA, hdisj, hlen, hmaskA, hmaskB⟩ := h
  simp only [] at harena hrec hA hB hresA hwA hcA hdisj hlen hmaskA hmaskB
  unfold CombineOperationGroups.pair PairVisit.calls
  simp only []
  by_cases h1 : (complexityA + (s.operation operationIdB).complexity) % 2 ^ 16
      > s.current.complexityMax
  · rw [if_pos h1, if_pos h1]
    exact ⟨⟨E, harena, Extends.refl s E, hrec⟩, fun call hcall => (by cases hcall)⟩
  · rw [if_neg h1, if_neg h1]
    by_cases h2 : resultA ≥ (s.operation operationIdB).result
    · rw [if_pos h2, if_pos h2]
      obtain ⟨⟨E', a, b, c⟩, hq⟩ := CombineOperationGroups.offers_course
        (harena.set_operands operationIdA operationIdB)
        (hrec.operands_set operationIdA operationIdB) hN resultA
        (s.operation operationIdB).result
        ((complexityA + (s.operation operationIdB).complexity) % 2 ^ 16) weightA
        (s.operation operationIdB).weight hA hB hresA.symm rfl h2
        (by rw [hcA]; rfl) (Nat.le_of_not_lt h1) (Or.inl ⟨hwA, rfl⟩) hdisj hlen hmaskA hmaskB
      refine ⟨⟨E', a, (Extends.of_set_operands s E operationIdA operationIdB).trans b, c⟩, ?_⟩
      intro call hcall
      obtain ⟨E'', a', b', c'⟩ := hq call hcall
      exact ⟨E'', a', (Extends.of_set_operands s E operationIdA operationIdB).trans b', c'⟩
    · rw [if_neg h2, if_neg h2]
      obtain ⟨⟨E', a, b, c⟩, hq⟩ := CombineOperationGroups.offers_course
        (harena.set_operands operationIdB operationIdA)
        (hrec.operands_set operationIdB operationIdA) hN (s.operation operationIdB).result
        resultA ((complexityA + (s.operation operationIdB).complexity) % 2 ^ 16) weightA
        (s.operation operationIdB).weight hB hA rfl hresA.symm (by omega)
        (by rw [hcA, Nat.add_comm]; rfl) (Nat.le_of_not_lt h1) (Or.inr ⟨hwA, rfl⟩) hdisj.symm
        (by rw [Nat.add_comm]; exact hlen) hmaskB hmaskA
      refine ⟨⟨E', a, (Extends.of_set_operands s E operationIdB operationIdA).trans b, c⟩, ?_⟩
      intro call hcall
      obtain ⟨E'', a', b', c'⟩ := hq call hcall
      exact ⟨E'', a', (Extends.of_set_operands s E operationIdB operationIdA).trans b', c'⟩

end Numbers
namespace Numbers

/-- Combining two finished groups over disjoint tiles: every turn of the inner
loop is in order, with its two records in the two groups, and so is the object
after the call. -/
theorem CombineOperationGroups.visits_course {tiles : List Nat} {g : Nat} {s : NumbersStruct}
    {E : Nat → Expr} (h : ArenaInv tiles g s E) (hrec : RecordInv s) (hN : tiles.length ≤ 8)
    (operationGroupA operationGroupB : OperationGroup) (mA mB kA kB : Nat)
    (hA : GroupInv E mA kA operationGroupA s.current.operationIdFirst)
    (hB : GroupInv E mB kB operationGroupB s.current.operationIdFirst)
    (hdisj : ∀ t, mA.testBit t = true → mB.testBit t = true → False)
    (hsubA : ∀ t, mA.testBit t = true → g.testBit t = true)
    (hsubB : ∀ t, mB.testBit t = true → g.testBit t = true)
    (hk : kA + kB = s.current.tileCount) :
    (∃ E', ArenaInv tiles g (CombineOperationGroups s operationGroupA operationGroupB) E'
      ∧ Extends s E (CombineOperationGroups s operationGroupA operationGroupB) E'
      ∧ RecordInv (CombineOperationGroups s operationGroupA operationGroupB))
    ∧ ∀ visit ∈ CombineOperationGroups.visits s operationGroupA operationGroupB,
      ∃ E', PairInv tiles g E' visit ∧ Extends s E visit.numbersObject E'
        ∧ operationGroupA.operationIdFirst ≤ visit.operationIdA
        ∧ visit.operationIdA < operationGroupA.operationIdLast
        ∧ operationGroupB.operationIdFirst ≤ visit.operationIdB
        ∧ visit.operationIdB < operationGroupB.operationIdLast := by
  unfold CombineOperationGroups CombineOperationGroups.visits
  refine foldlEvents_inv
    (fun s' => ∃ E', ArenaInv tiles g s' E' ∧ Extends s E s' E' ∧ RecordInv s')
    (fun visit => ∃ E', PairInv tiles g E' visit ∧ Extends s E visit.numbersObject E'
        ∧ operationGroupA.operationIdFirst ≤ visit.operationIdA
        ∧ visit.operationIdA < operationGroupA.operationIdLast
        ∧ operationGroupB.operationIdFirst ≤ visit.operationIdB
        ∧ visit.operationIdB < operationGroupB.operationIdLast) _ _ _ s ?_
    ⟨E, h, Extends.refl s E, hrec⟩
  rintro s1 operationIdA hmemA ⟨E1, hinv1, hx1, hrec1⟩
  rw [List.mem_range'_1] at hmemA
  have hAlt : operationIdA < operationGroupA.operationIdLast := by omega
  have hAcf : operationIdA < s.current.operationIdFirst := lt_of_lt_of_le hAlt hA.last_le
  unfold CombineOperationGroups.row CombineOperationGroups.rowVisits
  simp only []
  refine foldlEvents_inv
    (fun s' => ∃ E', ArenaInv tiles g s' E' ∧ Extends s E s' E' ∧ RecordInv s')
    (fun visit => ∃ E', PairInv tiles g E' visit ∧ Extends s E visit.numbersObject E'
        ∧ operationGroupA.operationIdFirst ≤ visit.operationIdA
        ∧ visit.operationIdA < operationGroupA.operationIdLast
        ∧ operationGroupB.operationIdFirst ≤ visit.operationIdB
        ∧ visit.operationIdB < operationGroupB.operationIdLast) _ _ _ s1 ?_
    ⟨E1, hinv1, hx1, hrec1⟩
  rintro s2 operationIdB hmemB ⟨E2, hinv2, hx2, hrec2⟩
  rw [List.mem_range'_1] at hmemB
  have hBlt : operationIdB < operationGroupB.operationIdLast := by omega
  have hBcf : operationIdB < s.current.operationIdFirst := lt_of_lt_of_le hBlt hB.last_le
  have hEA : E2 operationIdA = E operationIdA := hx2.tree_eq _ hAcf
  have hEB : E2 operationIdB = E operationIdB := hx2.tree_eq _ hBcf
  have hlA := hA.leaves operationIdA hmemA.1 hAlt
  have hlB := hB.leaves operationIdB hmemB.1 hBlt
  have hoA : s1.operation operationIdA = s2.operation operationIdA := by
    rw [hx2.operation_eq _ hAcf, hx1.operation_eq _ hAcf]
  have hpair : PairInv tiles g E2
      ⟨operationIdA, (s1.operation operationIdA).result, (s1.operation operationIdA).weight,
        (s1.operation operationIdA).complexity, s2, operationIdB⟩ :=
    { arena := hinv2
      records := hrec2
      beforeA := by show operationIdA < s2.current.operationIdFirst; rw [hx2.first_eq]; exact hAcf
      beforeB := by show operationIdB < s2.current.operationIdFirst; rw [hx2.first_eq]; exact hBcf
      resultA := by rw [hoA]
      weightA := by rw [hoA]
      complexityA := by rw [hoA]
      disjoint := by
        show List.Disjoint (E2 operationIdA).leaves (E2 operationIdB).leaves
        rw [hEA, hEB]
        intro t htA htB
        exact hdisj t (hlA.1 t htA) (hlB.1 t htB)
      length := by
        show (E2 operationIdA).leaves.length + (E2 operationIdB).leaves.length
          = s2.current.tileCount
        rw [hEA, hEB, hlA.2, hlB.2, hx2.tileCount_eq]; exact hk
      maskA := by
        show ∀ t ∈ (E2 operationIdA).leaves, g.testBit t = true
        rw [hEA]; exact fun t ht => hsubA t (hlA.1 t ht)
      maskB := by
        show ∀ t ∈ (E2 operationIdB).leaves, g.testBit t = true
        rw [hEB]; exact fun t ht => hsubB t (hlB.1 t ht) }
  obtain ⟨⟨E3, hinv3, hx3, hrec3⟩, _⟩ := PairVisit.calls_course _ hN hpair
  refine ⟨⟨E3, hinv3, hx2.trans hx3, hrec3⟩, ?_⟩
  intro visit hvisit
  rw [List.mem_singleton] at hvisit
  rw [hvisit]
  exact ⟨E2, hpair, hx2, hmemA.1, hAlt, hmemB.1, hBlt⟩

end Numbers
namespace Numbers

/-! ## The course of the solver -/

theorem foldlEvents_append {σ α ε : Type} (f : σ → α → σ) (events : σ → α → List ε) :
    ∀ (l1 l2 : List α) (s : σ),
      foldlEvents f events (l1 ++ l2) s
        = foldlEvents f events l1 s ++ foldlEvents f events l2 (l1.foldl f s) := by
  intro l1
  induction l1 with
  | nil => intro l2 s; rfl
  | cons a l ih =>
    intro l2 s
    show events s a ++ foldlEvents f events (l ++ l2) (f s a) = _
    rw [ih]
    simp only [foldlEvents, List.foldl_cons, List.append_assoc]

/-- A property indexed by the loop counter holds after a `for` loop over
`0 .. n - 1`, and what every turn guarantees of its events holds of all the
events. -/
theorem foldlEvents_range_inv {σ ε : Type} (P : Nat → σ → Prop) (Q : ε → Prop)
    (f : σ → Nat → σ) (events : σ → Nat → List ε) (s0 : σ) :
    ∀ (n : Nat), (∀ j s, j < n → P j s → P (j + 1) (f s j) ∧ ∀ e ∈ events s j, Q e) →
      P 0 s0 →
      P n ((List.range n).foldl f s0) ∧ ∀ e ∈ foldlEvents f events (List.range n) s0, Q e := by
  intro n
  induction n with
  | zero =>
    intro _ h0
    exact ⟨h0, fun e he => (by cases he)⟩
  | succ n ih =>
    intro hstep h0
    obtain ⟨h1, hq1⟩ := ih (fun j s hj hs => hstep j s (Nat.lt_succ_of_lt hj) hs) h0
    obtain ⟨h2, hq2⟩ := hstep n _ (Nat.lt_succ_self n) h1
    rw [List.range_succ, List.foldl_append, foldlEvents_append]
    simp only [List.foldl_cons, List.foldl_nil]
    refine ⟨h2, fun e he => ?_⟩
    simp only [List.mem_append, foldlEvents, List.append_nil] at he
    rcases he with he | he
    · exact hq1 e he
    · exact hq2 e he

/-- Storing the group just built keeps what is known of the stored groups. -/
theorem CourseInv.store {E E' : Nat → Expr} {st : SolveState} {s' : NumbersStruct}
    (hc : CourseInv st)
    (hg : ∀ m grp, st.operationGroups.getD m none = some grp →
      grp.operationIdLast ≤ st.numbersObject.current.operationIdLast)
    (hx : Extends st.numbersObject.startGroup E s' E') (hrec : RecordInv s')
    (tileGroup next : Nat) (hlen : tileGroup < st.operationGroups.length) :
    CourseInv
      { numbersObject := s'
        operationGroups := st.operationGroups.set tileGroup
          (some ⟨s'.current.operationIdFirst, s'.current.operationIdLast⟩)
        tileGroup := next } := by
  refine ⟨hrec.group_started, ?_⟩
  intro m grp hm i j hi1 hi2 hj1 hj2 hres hlt
  simp only [] at hm hres hlt
  rw [groups_getD_set _ _ _ _ hlen] at hm
  by_cases hmg : m = tileGroup
  · rw [if_pos hmg] at hm
    cases hm
    have e1 := hrec.index i hi1 hi2 hlt
    have e2 := hrec.index j hj1 hj2 (by rw [← hres]; exact hlt)
    rw [hres] at e1
    omega
  · rw [if_neg hmg] at hm
    have hb := hg m grp hm
    have hi3 : i < st.numbersObject.startGroup.current.operationIdFirst :=
      lt_of_lt_of_le hi2 hb
    have hj3 : j < st.numbersObject.startGroup.current.operationIdFirst :=
      lt_of_lt_of_le hj2 hb
    rw [hx.operation_eq i hi3, hx.operation_eq j hj3] at hres
    rw [hx.operation_eq i hi3, hx.operationIdSize_eq] at hlt
    exact hc.distinct m grp hm i j hi1 hi2 hj1 hj2 hres hlt

/-- The stored groups, seen from an object of the group under construction. -/
theorem GroupsInv.of_extends {tiles : List Nat} {s0 : NumbersStruct} {E E' : Nat → Expr}
    {st : SolveState} {s' : NumbersStruct} (h : SolveInv tiles s0 st E) (hc : CourseInv st)
    (hx : Extends st.numbersObject.startGroup E s' E') :
    GroupsInv E' st.operationGroups s' := by
  refine ⟨fun m grp hm => ?_, fun m grp hm i j hi1 hi2 hj1 hj2 hres hlt => ?_⟩
  · rw [hx.first_eq]
    exact (h.groups m grp hm).grow (le_refl _) hx.tree_eq
  · have hb := (h.groups m grp hm).last_le
    have hi3 : i < st.numbersObject.startGroup.current.operationIdFirst :=
      lt_of_lt_of_le hi2 hb
    have hj3 : j < st.numbersObject.startGroup.current.operationIdFirst :=
      lt_of_lt_of_le hj2 hb
    rw [hx.operation_eq i hi3, hx.operation_eq j hj3] at hres
    rw [hx.operation_eq i hi3, hx.operationIdSize_eq] at hlt
    exact hc.distinct m grp hm i j hi1 hi2 hj1 hj2 hres hlt

/-- Recording one tile: the call is in order, and what is known of the stored
groups stays. -/
theorem NumbersSolve.recordTile_course (tiles : List Nat) (htiles : ∀ t ∈ tiles, t < 2 ^ 32)
    (hN : tiles.length ≤ 8) (s0 : NumbersStruct) (j : Nat) (st : SolveState)
    (hj : j < tiles.length) (E : Nat → Expr) (h : TilesInv tiles s0 j st E)
    (hc : CourseInv st) :
    CourseInv (NumbersSolve.recordTile tiles st j)
    ∧ CallInv tiles E ⟨st.operationGroups, (1 <<< j) % 2 ^ 32,
        ⟨st.numbersObject.startGroup, NOP, tiles.getD j 0, 0⟩⟩ := by
  have hj8 : j < 8 := by omega
  obtain ⟨hpc, hpow, hbit⟩ := popCount_shift j hj8
  have harena : ArenaInv tiles ((1 <<< j) % 2 ^ 32) st.numbersObject.startGroup E :=
    h.solve.arena.start_group _
  have hres : tiles.getD j 0 < 2 ^ 32 := by
    apply htiles
    rw [List.getD_eq_getElem?_getD, List.getElem?_eq_getElem hj]
    exact List.getElem_mem _
  have hLj : st.numbersObject.startGroup.current.operationIdLast
        < st.numbersObject.startGroup.operationSize →
      st.numbersObject.current.operationIdLast = j := by
    intro hlt
    apply h.last_eq
    by_contra hab
    have := harena.aborted_full (by simpa using hab)
    omega
  obtain ⟨E', hinv', hx⟩ := RecordOperation_tile_inv harena (tiles.getD j 0) rfl h.tileCount
    (fun hlt => by
      have := hLj hlt
      show st.numbersObject.current.operationIdLast < tiles.length
        ∧ tiles.getD j 0 = tiles.getD st.numbersObject.current.operationIdLast 0
        ∧ Nat.testBit ((1 <<< j) % 2 ^ 32) st.numbersObject.current.operationIdLast = true
      rw [this]
      exact ⟨hj, rfl, hbit⟩) hres
  have hrec' := RecordOperation_records harena hc.records NOP (tiles.getD j 0) 0
    (fun hn => absurd rfl hn) (fun hn => by simp [NOP, SUB] at hn)
  have hlen : (1 <<< j) % 2 ^ 32 < st.operationGroups.length := by
    rw [h.solve.length, hpow]
    exact Nat.pow_lt_pow_right (by norm_num) hj
  refine ⟨?_, ?_⟩
  · unfold NumbersSolve.recordTile
    exact hc.store (fun m grp hm => (h.solve.groups m grp hm).last_le) hx hrec' _ _ hlen
  · exact
      { arena := harena
        records := hc.records
        groups := GroupsInv.of_extends h.solve hc (Extends.refl _ E)
        kind := Or.inl
          { op_eq := rfl
            complexity_eq := rfl
            first_eq := rfl
            tileCount_eq := h.tileCount
            tile := ⟨j, hj, hpow, rfl, h.last_le, hLj⟩ } }

end Numbers
namespace Numbers

/-- What is known of the stored groups stays while the group under construction
grows. -/
theorem GroupsInv.carry {E E' : Nat → Expr} {operationGroups : OperationGroups}
    {s s' : NumbersStruct} (h : GroupsInv E operationGroups s) (hx : Extends s E s' E') :
    GroupsInv E' operationGroups s' := by
  refine ⟨fun m grp hm => ?_, fun m grp hm i j hi1 hi2 hj1 hj2 hres hlt => ?_⟩
  · rw [hx.first_eq]
    exact (h.groups m grp hm).grow (le_refl _) hx.tree_eq
  · have hb := (h.groups m grp hm).last_le
    have hi3 : i < s.current.operationIdFirst := lt_of_lt_of_le hi2 hb
    have hj3 : j < s.current.operationIdFirst := lt_of_lt_of_le hj2 hb
    rw [hx.operation_eq i hi3, hx.operation_eq j hj3] at hres
    rw [hx.operation_eq i hi3, hx.operationIdSize_eq] at hlt
    exact h.distinct m grp hm i j hi1 hi2 hj1 hj2 hres hlt

/-- Building one operation group: every turn of the combiner is in order, and
what is known of the stored groups stays. -/
theorem NumbersSolve.buildGroup_course (tiles : List Nat) (hN : tiles.length ≤ 8)
    (s0 : NumbersStruct) (k : Nat) (st : SolveState) (E : Nat → Expr)
    (h : GroupLoopInv tiles s0 k st E) (hc : CourseInv st)
    (hg : st.tileGroup < 2 ^ tiles.length)
    (hab : st.numbersObject.solution.aborted = false) :
    ∃ st', NumbersSolve.buildGroup st = some st' ∧ CourseInv st'
      ∧ ∀ visit ∈ NumbersSolve.buildGroupVisits st, ∃ E', VisitInv tiles E' visit := by
  have hg256 : st.tileGroup < 256 := lt_of_lt_of_le hg (two_pow_le_256 hN)
  have hpc : popCount st.tileGroup = k := h.popCount_eq hab hg
  have htc : st.numbersObject.current.tileCount = k := h.tileCount
  have harena : ArenaInv tiles st.tileGroup st.numbersObject.startGroup E :=
    h.solve.arena.start_group _
  have hbuilt := h.built hab
  have hfold := foldlMEvents_inv
    (fun s' => ∃ E', ArenaInv tiles st.tileGroup s' E'
      ∧ Extends st.numbersObject.startGroup E s' E' ∧ RecordInv s')
    (fun visit => ∃ E', VisitInv tiles E' visit)
    (NumbersSolve.combineSubGroup st.operationGroups st.tileGroup)
    (NumbersSolve.combineSubGroupVisits st.operationGroups st.tileGroup)
    (tileSubGroups st.tileGroup st.numbersObject.startGroup.current.tileCount)
    st.numbersObject.startGroup
    (by
      rintro s1 sub hsub ⟨E1, hinv1, hx1, hrec1⟩
      unfold NumbersSolve.combineSubGroup NumbersSolve.combineSubGroupVisits
      by_cases hab1 : s1.solution.aborted = true
      · rw [if_pos hab1, if_pos hab1]
        exact ⟨⟨s1, rfl, E1, hinv1, hx1, hrec1⟩, fun e he => (by cases he)⟩
      · rw [if_neg hab1, if_neg hab1]
        have hsub' : sub ∈ tileSubGroups st.tileGroup (popCount st.tileGroup) := by
          rw [hpc, ← htc]; exact hsub
        obtain ⟨hs1, hs2, hs3, hs4⟩ := tileSubGroups_spec st.tileGroup hg256 sub hsub'
        have hsum := popCount_lor _ _ hs3
        rw [hs4, hpc] at hsum
        have hposA := popCount_pos sub (by omega) hs1
        have hposB := popCount_pos (st.tileGroup - sub) (by omega) (by omega)
        obtain ⟨grpA, hgA⟩ := hbuilt sub hs1 (by omega) (by omega)
        obtain ⟨grpB, hgB⟩ := hbuilt (st.tileGroup - sub) (by omega) (by omega) (by omega)
        rw [hgA, hgB]
        simp only []
        have hcf : s1.current.operationIdFirst = st.numbersObject.current.operationIdLast :=
          hx1.first_eq
        have hIA : GroupInv E1 sub (popCount sub) grpA s1.current.operationIdFirst := by
          rw [hcf]
          exact (h.solve.groups sub grpA hgA).grow (le_refl _) hx1.tree_eq
        have hIB : GroupInv E1 (st.tileGroup - sub) (popCount (st.tileGroup - sub)) grpB
            s1.current.operationIdFirst := by
          rw [hcf]
          exact (h.solve.groups _ grpB hgB).grow (le_refl _) hx1.tree_eq
        obtain ⟨⟨E2, hinv2, hx2, hrec2⟩, hq⟩ := CombineOperationGroups.visits_course hinv1 hrec1 hN
          grpA grpB sub (st.tileGroup - sub) (popCount sub) (popCount (st.tileGroup - sub))
          hIA hIB (fun t => testBit_disjoint hs3 t)
          (fun t => testBit_of_lor_left hs4 t)
          (fun t => testBit_of_lor_right hs4 t)
          (by rw [hx1.tileCount_eq]; show _ = st.numbersObject.current.tileCount; omega)
        refine ⟨⟨_, rfl, E2, hinv2, hx1.trans hx2, hrec2⟩, ?_⟩
        intro visit hvisit
        rw [List.mem_map] at hvisit
        obtain ⟨pv, hpv, rfl⟩ := hvisit
        obtain ⟨E3, hpair, hx3, hA1, hA2, hB1, hB2⟩ := hq pv hpv
        exact ⟨E3,
          { pair := hpair
            groups := GroupsInv.of_extends h.solve hc (hx1.trans hx3)
            tileGroup_lt := hg
            tileCount := by
              show popCount st.tileGroup = pv.numbersObject.current.tileCount
              rw [hx3.tileCount_eq, hx1.tileCount_eq, hpc]
              exact htc.symm
            subGroup := hsub'
            groupA := ⟨grpA, hgA, hA1, hA2⟩
            groupB := ⟨grpB, hgB, hB1, hB2⟩ }⟩)
    ⟨E, harena, Extends.refl _ _, hc.records⟩
  obtain ⟨⟨s', hfold, E', hinv', hx, hrec'⟩, hq⟩ := hfold
  have hlen : st.tileGroup < st.operationGroups.length := by rw [h.solve.length]; exact hg
  refine ⟨{ numbersObject := s'
            operationGroups := st.operationGroups.set st.tileGroup
              (some ⟨s'.current.operationIdFirst, s'.current.operationIdLast⟩)
            tileGroup := nextTileGroup st.tileGroup }, ?_, ?_, ?_⟩
  · unfold NumbersSolve.buildGroup
    simp only []
    rw [hfold]
  · exact hc.store (fun m grp hm => (h.solve.groups m grp hm).last_le) hx hrec' _ _ hlen
  · exact hq

/-- Building all groups with one more tile: every turn of the combiner is in
order, and what is known of the stored groups stays. -/
theorem NumbersSolve.nextTileCount_course (tiles : List Nat) (hN : tiles.length ≤ 8)
    (s0 : NumbersStruct) (st : SolveState) (E : Nat → Expr)
    (h : SearchInv tiles s0 st E) (hc : CourseInv st)
    (hlt : st.numbersObject.current.tileCount < tiles.length)
    (hab : st.numbersObject.solution.aborted = false) :
    ∃ st', NumbersSolve.nextTileCount (2 ^ tiles.length) st = some st' ∧ CourseInv st'
      ∧ ∀ visit ∈ NumbersSolve.nextTileCountVisits (2 ^ tiles.length) st,
        ∃ E', VisitInv tiles E' visit := by
  have hk8 : st.numbersObject.current.tileCount + 1 < 9 := by omega
  obtain ⟨hf1, hf2, hf3, hf4⟩ := firstTileGroup_spec (st.numbersObject.current.tileCount + 1)
    hk8 (by omega)
  have hpowle : 2 ^ (st.numbersObject.current.tileCount + 1) ≤ 2 ^ tiles.length :=
    Nat.pow_le_pow_right (by norm_num) hlt
  -- the state at the first turn of the loop over the groups
  have h1 : GroupLoopInv tiles s0 (st.numbersObject.current.tileCount + 1)
      { st with
        numbersObject :=
          { st.numbersObject with
            current := { st.numbersObject.current with
              tileCount := st.numbersObject.current.tileCount + 1 } }
        tileGroup := ((1 <<< (st.numbersObject.current.tileCount + 1)) % 2 ^ 32) - 1 } E :=
    { solve :=
        { arena := h.solve.arena.next_tile_count 0
          final_eq := h.solve.final_eq
          complexityMax_eq := h.solve.complexityMax_eq
          operationSize_eq := h.solve.operationSize_eq
          operationIdSize_eq := h.solve.operationIdSize_eq
          length := h.solve.length
          groups := h.solve.groups }
      tileCount := rfl
      tileGroup_pos := hf2
      recorded := fun _ => h.recorded hab
      built := fun _ => h.built hab
      before := fun _ m hm1 _ hm3 => by
        have := hf4 m hm1
        omega
      popCount_eq := fun _ _ => hf1 }
  have hc1 : CourseInv
      { st with
        numbersObject :=
          { st.numbersObject with
            current := { st.numbersObject.current with
              tileCount := st.numbersObject.current.tileCount + 1 } }
        tileGroup := ((1 <<< (st.numbersObject.current.tileCount + 1)) % 2 ^ 32) - 1 } :=
    ⟨⟨hc.records.canonical, hc.records.weight, hc.records.cost, hc.records.index,
        hc.records.difference⟩,
      hc.distinct⟩
  obtain ⟨st2, E2, hb2, hinv2, _⟩ := NumbersSolve.buildGroup_inv tiles hN s0 _ _ E h1
    (lt_of_lt_of_le hf3 hpowle) hab
  obtain ⟨st2', hb2', hc2, hq2⟩ := NumbersSolve.buildGroup_course tiles hN s0 _ _ E h1 hc1
    (lt_of_lt_of_le hf3 hpowle) hab
  have he2 : st2' = st2 := Option.some.inj (hb2'.symm.trans hb2)
  rw [he2] at hc2
  -- the other turns
  have hloop := whileEvents_inv
    (fun st => decide (st.tileGroup < 2 ^ tiles.length) && !st.numbersObject.solution.aborted)
    NumbersSolve.buildGroup NumbersSolve.buildGroupVisits
    (fun st' => (∃ E', GroupLoopInv tiles s0 (st.numbersObject.current.tileCount + 1) st' E')
      ∧ CourseInv st')
    (fun visit => ∃ E', VisitInv tiles E' visit)
    (fun st' => 2 ^ tiles.length - st'.tileGroup)
    (by
      rintro st3 ⟨⟨E3, hinv3⟩, hc3⟩ hcond
      simp only [Bool.and_eq_true, decide_eq_true_eq, Bool.not_eq_true'] at hcond
      obtain ⟨st4, E4, hb4, hinv4, hg4⟩ := NumbersSolve.buildGroup_inv tiles hN s0 _ st3 E3
        hinv3 hcond.1 hcond.2
      obtain ⟨st4', hb4', hc4, hq4⟩ := NumbersSolve.buildGroup_course tiles hN s0 _ st3 E3
        hinv3 hc3 hcond.1 hcond.2
      have he4 : st4' = st4 := Option.some.inj (hb4'.symm.trans hb4)
      rw [he4] at hc4
      refine ⟨⟨st4, hb4, ⟨⟨E4, hinv4⟩, hc4⟩, ?_⟩, hq4⟩
      have hg256 : st3.tileGroup < 256 := lt_of_lt_of_le hcond.1 (two_pow_le_256 hN)
      have := (nextTileGroup_spec st3.tileGroup hg256 hinv3.tileGroup_pos).1
      show 2 ^ tiles.length - st4.tileGroup < 2 ^ tiles.length - st3.tileGroup
      rw [hg4]
      have := hcond.1
      omega)
    (2 ^ tiles.length) st2 ⟨⟨E2, hinv2⟩, hc2⟩
    (by
      have := hinv2.tileGroup_pos
      have : 0 < 2 ^ tiles.length := Nat.pos_pow_of_pos _ (by norm_num)
      show 2 ^ tiles.length - st2.tileGroup < 2 ^ tiles.length
      omega)
  obtain ⟨⟨st5, hw5, ⟨_, hc5⟩, _⟩, hq5⟩ := hloop
  refine ⟨st5, ?_, hc5, ?_⟩
  · unfold NumbersSolve.nextTileCount
    simp only []
    rw [hb2]
    exact hw5
  · intro visit hvisit
    unfold NumbersSolve.nextTileCountVisits at hvisit
    simp only [] at hvisit
    rw [hb2] at hvisit
    simp only [List.mem_append] at hvisit
    rcases hvisit with hv | hv
    · exact hq2 visit hv
    · exact hq5 visit hv

end Numbers
namespace Numbers

theorem CourseInv.init (s : NumbersStruct) (target : Nat) (tiles : List Nat)
    (complexity : Option Nat) :
    CourseInv
      { numbersObject := NumbersSolve.init s target tiles complexity
        operationGroups := List.replicate ((1 <<< tiles.length) % 2 ^ 16) none
        tileGroup := 0 } := by
  have hnone : ∀ m, (List.replicate ((1 <<< tiles.length) % 2 ^ 16)
      (none : Option OperationGroup)).getD m none = none := by
    intro m
    rw [List.getD_eq_getElem?_getD]
    cases hget : (List.replicate ((1 <<< tiles.length) % 2 ^ 16)
      (none : Option OperationGroup))[m]? with
    | none => rfl
    | some x =>
      obtain ⟨hlt, hx⟩ := List.getElem?_eq_some.mp hget
      rw [List.getElem_replicate] at hx
      rw [← hx]; rfl
  refine ⟨⟨fun i hi => absurd hi (Nat.not_lt_zero i), fun i hi => absurd hi (Nat.not_lt_zero i),
    fun i hi => absurd hi (Nat.not_lt_zero i), fun i _ hi => absurd hi (Nat.not_lt_zero i),
    fun i hi => absurd hi (Nat.not_lt_zero i)⟩,
    ?_⟩
  intro m grp hm
  simp only [] at hm
  rw [hnone] at hm
  cases hm

/-- The course of the search of `NumbersSolve` on a well-formed object and at
most 8 tiles: every call of the recorder for a tile and every turn of the
combiner is in order, and the search ends in a state that is. -/
theorem NumbersSolve.search_course (s : NumbersStruct) (hwf : s.WellFormed) (target : Nat)
    (tiles : List Nat) (complexity : Option Nat) (htiles : ∀ t ∈ tiles, t < 2 ^ 32)
    (hN : tiles.length ≤ 8) :
    (∀ call ∈ NumbersSolve.tileCalls s target tiles complexity, ∃ E, CallInv tiles E call)
    ∧ (∀ visit ∈ NumbersSolve.visits s target tiles complexity, ∃ E, VisitInv tiles E visit)
    ∧ ∃ st E, NumbersSolve.search s target tiles complexity = some st.numbersObject
      ∧ SearchInv tiles (NumbersSolve.init s target tiles complexity) st E
      ∧ CourseInv st := by
  have hsize := operationGroupSize_eq tiles.length (by omega)
  -- the first loop
  have h1 := foldlEvents_range_inv
    (fun j st => (∃ E, TilesInv tiles (NumbersSolve.init s target tiles complexity) j st E)
      ∧ CourseInv st)
    (fun call => ∃ E, CallInv tiles E call)
    (NumbersSolve.recordTile tiles)
    (fun st tileId =>
      [⟨st.operationGroups, (1 <<< tileId) % 2 ^ 32,
        ⟨st.numbersObject.startGroup, NOP, tiles.getD tileId 0, 0⟩⟩])
    { numbersObject := NumbersSolve.init s target tiles complexity
      operationGroups := List.replicate ((1 <<< tiles.length) % 2 ^ 16) none
      tileGroup := 0 }
    tiles.length
    (by
      rintro j st hj ⟨⟨E, hT⟩, hc⟩
      obtain ⟨hc', hcall⟩ := NumbersSolve.recordTile_course tiles htiles hN _ j st hj E hT hc
      refine ⟨⟨NumbersSolve.recordTile_inv tiles htiles hN _ j st hj ⟨E, hT⟩, hc'⟩, ?_⟩
      intro e he
      rw [List.mem_singleton] at he
      rw [he]
      exact ⟨E, hcall⟩)
    ⟨⟨_, NumbersSolve.init_inv s hwf target tiles complexity hN⟩,
      CourseInv.init s target tiles complexity⟩
  obtain ⟨⟨⟨E1, h1⟩, hc1⟩, hq1⟩ := h1
  have hfin : (NumbersSolve.init s target tiles complexity).final.tileCount
      = tiles.length := rfl
  generalize hst1 : (List.range tiles.length).foldl (NumbersSolve.recordTile tiles)
    { numbersObject := NumbersSolve.init s target tiles complexity
      operationGroups := List.replicate ((1 <<< tiles.length) % 2 ^ 16) none
      tileGroup := 0 } = st1 at h1 hc1
  have h2 : SearchInv tiles (NumbersSolve.init s target tiles complexity) st1 E1 :=
    { solve := h1.solve
      tileCount_pos := by rw [h1.tileCount]
      recorded := fun hab => ⟨by rw [h1.last_eq hab], fun i hi =>
        h1.leaves i (by rw [h1.last_eq hab]; exact hi)⟩
      built := fun _ m hm1 hm2 hm3 => by
        rw [h1.tileCount] at hm3
        have hm256 : m < 256 := lt_of_lt_of_le hm2 (two_pow_le_256 hN)
        have hpos := popCount_pos m hm256 hm1
        obtain ⟨t, ht8, hmt⟩ := popCount_one m hm256 (by omega)
        have hpow := (popCount_shift t ht8).2.1
        have htN : t < tiles.length := by
          rw [hmt, hpow] at hm2
          exact (Nat.pow_lt_pow_iff_right (by norm_num)).mp hm2
        rw [hmt]
        exact h1.groups t htN }
  -- the second loop
  have hloop := whileEvents_inv
    (fun st => decide (st.numbersObject.current.tileCount < st.numbersObject.final.tileCount)
      && decide (st.numbersObject.solution.targetDiff ≠ 0)
      && !st.numbersObject.solution.aborted)
    (NumbersSolve.nextTileCount ((1 <<< tiles.length) % 2 ^ 16))
    (NumbersSolve.nextTileCountVisits ((1 <<< tiles.length) % 2 ^ 16))
    (fun st => (∃ E, SearchInv tiles (NumbersSolve.init s target tiles complexity) st E)
      ∧ CourseInv st)
    (fun visit => ∃ E, VisitInv tiles E visit)
    (fun st => tiles.length - st.numbersObject.current.tileCount)
    (by
      rintro st ⟨⟨E, hinv⟩, hc⟩ hcond
      simp only [Bool.and_eq_true, decide_eq_true_eq, Bool.not_eq_true'] at hcond
      have hfin : st.numbersObject.final.tileCount = tiles.length := by
        rw [hinv.solve.final_eq]; rfl
      rw [hfin] at hcond
      rw [hsize]
      obtain ⟨st', E', hb, hinv', htc⟩ := NumbersSolve.nextTileCount_inv tiles hN _ st E hinv
        hcond.1.1 hcond.2
      obtain ⟨st'', hb', hc', hq⟩ := NumbersSolve.nextTileCount_course tiles hN _ st E hinv hc
        hcond.1.1 hcond.2
      have he : st'' = st' := Option.some.inj (hb'.symm.trans hb)
      rw [he] at hc'
      refine ⟨⟨st', hb, ⟨⟨E', hinv'⟩, hc'⟩, ?_⟩, hq⟩
      show tiles.length - st'.numbersObject.current.tileCount
        < tiles.length - st.numbersObject.current.tileCount
      have := hcond.1.1
      omega)
    (tiles.length + 1) st1 ⟨⟨E1, h2⟩, hc1⟩
    (by
      show tiles.length - st1.numbersObject.current.tileCount < tiles.length + 1
      omega)
  obtain ⟨⟨st2, hw2, ⟨⟨E2, hinv2⟩, hc2⟩, _⟩, hq2⟩ := hloop
  refine ⟨?_, ?_, st2, E2, ?_, hinv2, hc2⟩
  · intro call hcall
    unfold NumbersSolve.tileCalls at hcall
    simp only [] at hcall
    rw [hfin] at hcall
    exact hq1 call hcall
  · intro visit hvisit
    unfold NumbersSolve.visits at hvisit
    simp only [] at hvisit
    rw [hfin, hst1] at hvisit
    exact hq2 visit hvisit
  · unfold NumbersSolve.search
    simp only []
    rw [hfin, hst1, hw2]
    rfl

/-- The object that `NumbersSolve` returns is the one the search ends in. -/
theorem NumbersSolve_object (s : NumbersStruct) (target : Nat) (tiles : List Nat)
    (complexity : Option Nat) (solutionOperations result : Bool) (hN : tiles.length ≤ 8)
    (out : SolveResult)
    (hout : NumbersSolve (some s) target (some tiles) complexity solutionOperations result
      = some out) :
    ∃ s', NumbersSolve.search s target tiles complexity = some s'
      ∧ out.numbersObject = some s' := by
  unfold NumbersSolve at hout
  simp only [gt_iff_lt] at hout
  rw [if_neg (by omega)] at hout
  cases hs : NumbersSolve.search s target tiles complexity with
  | none => rw [hs] at hout; cases hout
  | some s' =>
    rw [hs] at hout
    refine ⟨s', rfl, ?_⟩
    simp only [Option.bind] at hout
    unfold NumbersSolve.finish at hout
    simp only [] at hout
    by_cases h1 : s'.solution.operationId ≥ s'.operationSize
    · rw [if_pos h1] at hout
      cases hout
      rfl
    · rw [if_neg h1] at hout
      generalize (if solutionOperations = true then
          (GenerateSolution s' (s'.solution.operationId + 1) s'.solution.operationId).map
            (fun r => some (r.2 ++ [0]))
        else some none) = bytes at hout
      cases bytes with
      | none => cases hout
      | some b =>
        simp only [] at hout
        cases hout
        rfl

/-- A call in order leaves the arena, its records and the stored groups in
order. -/
theorem CallInv.after {tiles : List Nat} {E : Nat → Expr} {call : SolveCall}
    (h : CallInv tiles E call) (htiles : ∀ t ∈ tiles, t < 2 ^ 32) (hN : tiles.length ≤ 8) :
    ∃ E', ArenaInv tiles call.tileGroup call.call.after E'
      ∧ Extends call.call.numbersObject E call.call.after E'
      ∧ RecordInv call.call.after
      ∧ GroupsInv E' call.operationGroups call.call.after := by
  obtain ⟨operationGroups, tileGroup, ⟨s, op, result, c⟩⟩ := call
  obtain ⟨harena, hrec, hgroups, hkind⟩ := h
  simp only [] at harena hrec hgroups hkind
  unfold RecordCall.after
  simp only []
  rcases hkind with ht | ⟨hc, hok⟩
  · obtain ⟨hop, hcx, hfirst, htc, ⟨tileId, hid, hg, hres, _, hlast⟩⟩ := ht
    simp only [] at hop hcx hfirst htc hg hres hlast
    subst hop hcx
    have hres32 : result < 2 ^ 32 := by
      rw [hres]
      apply htiles
      rw [List.getD_eq_getElem?_getD, List.getElem?_eq_getElem hid]
      exact List.getElem_mem _
    obtain ⟨E', hinv', hx⟩ := RecordOperation_tile_inv harena result hfirst htc
      (fun hlt => by
        rw [hlast hlt, hg]
        exact ⟨hid, hres, Nat.testBit_two_pow_self⟩) hres32
    exact ⟨E', hinv', hx,
      RecordOperation_records harena hrec NOP result 0 (fun hn => absurd rfl hn)
        (fun hn => by simp [NOP, SUB] at hn),
      hgroups.carry hx⟩
  · obtain ⟨E', hinv', hx⟩ := RecordOperation_inv harena hc c
    have hceq := (CallOk.complexity_eq harena hrec hN hc hok).2.1
    exact ⟨E', hinv', hx,
      RecordOperation_records harena hrec op result c
        (fun _ => ⟨hc.left_lt, hc.right_lt, hok.ordered, hceq⟩)
        (by
          obtain ⟨weightA, weightB, _, hmem⟩ := hok.offered
          exact CombineOperationGroups.offers_difference _ _ _ _ _ hok.ordered _ hmem),
      hgroups.carry hx⟩

/-- Every call of the recorder during a solve, on a well-formed object and at
most 8 tiles, is in order. -/
theorem NumbersSolve.calls_inv (s : NumbersStruct) (hwf : s.WellFormed) (target : Nat)
    (tiles : List Nat) (complexity : Option Nat) (htiles : ∀ t ∈ tiles, t < 2 ^ 32)
    (hN : tiles.length ≤ 8) :
    ∀ call ∈ NumbersSolve.calls s target tiles complexity, ∃ E, CallInv tiles E call := by
  obtain ⟨h1, h2, _⟩ := NumbersSolve.search_course s hwf target tiles complexity htiles hN
  intro call hcall
  unfold NumbersSolve.calls at hcall
  rw [List.mem_append, List.mem_flatMap] at hcall
  rcases hcall with hcall | ⟨visit, hvisit, hcall⟩
  · exact h1 call hcall
  · obtain ⟨E, hv⟩ := h2 visit hvisit
    unfold SolveVisit.calls at hcall
    rw [List.mem_map] at hcall
    obtain ⟨rc, hrc, rfl⟩ := hcall
    obtain ⟨E', a, b, c, d, e⟩ := (PairVisit.calls_course visit.pair hN hv.pair).2 rc hrc
    exact ⟨E', ⟨a, c, hv.groups.carry b, Or.inr ⟨d, e⟩⟩⟩

end Numbers
namespace Numbers

/-! ## What the course of a solve tells of the pairs and of the calls -/

theorem recordCalls_map (offers : List (Nat × Nat × Nat)) :
    ∀ s : NumbersStruct,
      (recordCalls s offers).map (fun call => (call.op, call.result, call.complexity))
        = offers := by
  induction offers with
  | nil => intro s; rfl
  | cons a l ih =>
    intro s
    obtain ⟨op, result, complexity⟩ := a
    simp only [recordCalls, List.map_cons, ih]

/-- The arguments of the calls of one turn of the inner loop of the combiner. -/
theorem PairVisit.calls_map (visit : PairVisit) :
    visit.calls.map (fun call => (call.op, call.result, call.complexity))
      = if (visit.complexityA
            + (visit.numbersObject.operation visit.operationIdB).complexity) % 2 ^ 16
          > visit.numbersObject.current.complexityMax then []
        else if visit.resultA ≥ (visit.numbersObject.operation visit.operationIdB).result then
          CombineOperationGroups.offers visit.resultA
            (visit.numbersObject.operation visit.operationIdB).result
            ((visit.complexityA
              + (visit.numbersObject.operation visit.operationIdB).complexity) % 2 ^ 16)
            visit.weightA (visit.numbersObject.operation visit.operationIdB).weight
        else
          CombineOperationGroups.offers
            (visit.numbersObject.operation visit.operationIdB).result visit.resultA
            ((visit.complexityA
              + (visit.numbersObject.operation visit.operationIdB).complexity) % 2 ^ 16)
            visit.weightA (visit.numbersObject.operation visit.operationIdB).weight := by
  unfold PairVisit.calls
  simp only []
  split_ifs <;> simp only [recordCalls_map, List.map_nil]

/-- The weights and complexities that a turn of the inner loop reads are small:
the weights are at most 7, and the two complexities together are at most 2401
for each operation of the two trees. -/
theorem PairInv.bounds {tiles : List Nat} {g : Nat} {E : Nat → Expr} {visit : PairVisit}
    (h : PairInv tiles g E visit) :
    visit.weightA ≤ 7
    ∧ (visit.numbersObject.operation visit.operationIdB).weight ≤ 7
    ∧ visit.complexityA + (visit.numbersObject.operation visit.operationIdB).complexity
        + 2 * 2401 ≤ 2401 * visit.numbersObject.current.tileCount
    ∧ visit.numbersObject.current.tileCount ≤ tiles.length
    ∧ visit.resultA < 2 ^ 32
    ∧ (visit.numbersObject.operation visit.operationIdB).result < 2 ^ 32 := by
  have hfirst := h.arena.first_le
  have hA : visit.operationIdA < visit.numbersObject.current.operationIdLast := by
    have := h.beforeA; omega
  have hB : visit.operationIdB < visit.numbersObject.current.operationIdLast := by
    have := h.beforeB; omega
  obtain ⟨hwA, hcA⟩ := h.arena.cost_bound h.records _ hA
  obtain ⟨hwB, hcB⟩ := h.arena.cost_bound h.records _ hB
  have hnd : ((E visit.operationIdA).leaves ++ (E visit.operationIdB).leaves).Nodup :=
    List.Nodup.append (h.arena.nodup _ hA) (h.arena.nodup _ hB) h.disjoint
  have hlt : ∀ t ∈ (E visit.operationIdA).leaves ++ (E visit.operationIdB).leaves,
      t < tiles.length := by
    intro t ht
    rw [List.mem_append] at ht
    rcases ht with ht | ht
    · exact h.arena.leaves_lt _ hA t ht
    · exact h.arena.leaves_lt _ hB t ht
  have hle := nodup_length_le _ _ hnd hlt
  rw [List.length_append, h.length] at hle
  have hlen := h.length
  refine ⟨by rw [h.weightA]; exact hwA, hwB, ?_, hle, by
    rw [h.resultA]; exact h.arena.result_lt _ hA, h.arena.result_lt _ hB⟩
  rw [h.complexityA, ← hlen]
  omega

/-- The reconstructor returns on every record, within as many nested calls as
the tree of the record has tiles. (`s2` is any object with the same arena.) -/
theorem GenerateSolution_depth {tiles : List Nat} {g : Nat} {s : NumbersStruct}
    {E : Nat → Expr} (h : ArenaInv tiles g s E) (s2 : NumbersStruct)
    (hs2 : ∀ i, s2.operation i = s.operation i) :
    ∀ i, i < s.current.operationIdLast → ∀ fuel, (E i).leaves.length ≤ fuel →
      GenerateSolution s2 fuel i = some ((E i).first, (E i).stream) := by
  intro i
  induction i using Nat.strong_induction_on with
  | _ i ih =>
    intro hi fuel hfuel
    have hpos := (E i).leaves_length_pos
    cases fuel with
    | zero => omega
    | succ fuel =>
      unfold GenerateSolution
      simp only []
      rw [hs2 i]
      by_cases hnop : (s.operation i).op = NOP
      · rw [if_pos hnop]
        rw [(h.leaf i hi hnop).1]
        rfl
      · rw [if_neg hnop]
        obtain ⟨_, h2, h3, _, h5⟩ := h.node i hi hnop
        rw [h5] at hfuel
        simp only [Expr.leaves, List.length_append] at hfuel
        have hl := (E (s.operation i).operationIdLeft).leaves_length_pos
        have hr := (E (s.operation i).operationIdRight).leaves_length_pos
        rw [ih _ h2 (by omega) fuel (by omega), ih _ h3 (by omega) fuel (by omega)]
        simp only []
        rw [h5]
        rfl

/-- Reference order and the depth of the reconstruction, from the invariant of
the arena. -/
theorem ArenaInv.reference_order {tiles : List Nat} {g : Nat} {s : NumbersStruct}
    {E : Nat → Expr} (h : ArenaInv tiles g s E) (s2 : NumbersStruct)
    (hs2 : ∀ i, s2.operation i = s.operation i)
    (hlast : s2.current.operationIdLast = s.current.operationIdLast) :
    s2.ReferenceOrder
    ∧ ∀ i, i < s2.current.operationIdLast →
      ∃ out, GenerateSolution s2 tiles.length i = some out := by
  refine ⟨fun i hi hnop => ?_, fun i hi => ?_⟩
  · rw [hlast] at hi
    rw [hs2] at hnop ⊢
    obtain ⟨_, h2, h3, _, _⟩ := h.node i hi hnop
    exact ⟨h2, h3⟩
  · rw [hlast] at hi
    exact ⟨_, GenerateSolution_depth h s2 hs2 i hi _
      (nodup_length_le _ _ (h.nodup i hi) (h.leaves_lt i hi))⟩

/-- The tree of a record has at most as many tiles as there are. -/
theorem ArenaInv.leaves_length_le {tiles : List Nat} {g : Nat} {s : NumbersStruct}
    {E : Nat → Expr} (h : ArenaInv tiles g s E) (i : Nat)
    (hi : i < s.current.operationIdLast) : (E i).leaves.length ≤ tiles.length :=
  nodup_length_le _ _ (h.nodup i hi) (h.leaves_lt i hi)

end Numbers
namespace Numbers

/-- The 32-bit test of the combiner for an exact division is divisibility. -/
theorem div_mul_mod_eq_iff (resultMax resultMin : Nat) (hmax : resultMax < 2 ^ 32) :
    (resultMax / resultMin * resultMin) % 2 ^ 32 = resultMax ↔ resultMin ∣ resultMax := by
  have hle : resultMax / resultMin * resultMin ≤ resultMax := Nat.div_mul_le_self _ _
  rw [Nat.mod_eq_of_lt (lt_of_le_of_lt hle hmax)]
  constructor
  · intro h
    exact Dvd.intro_left _ h
  · intro h
    exact Nat.div_mul_cancel h

/-- The operations and results offered for an ordered pair of results, as the
specification lists them. -/
theorem CombineOperationGroups.offers_map (resultMax resultMin complexityAB weightA weightB : Nat)
    (hmax : resultMax < 2 ^ 32) :
    (CombineOperationGroups.offers resultMax resultMin complexityAB weightA weightB).map
        (fun o => (o.1, o.2.1))
      = [(ADD, (resultMax + resultMin) % 2 ^ 32)]
        ++ (if resultMax ≠ resultMin ∧ resultMax - resultMin ≠ resultMin then
              [(SUB, resultMax - resultMin)] else [])
        ++ (if resultMin > 1 then [(MUL, (resultMax * resultMin) % 2 ^ 32)] else [])
        ++ (if resultMin > 1 ∧ resultMax = resultMin then [(DIV, 1)] else [])
        ++ (if resultMin > 1 ∧ resultMax ≠ resultMin ∧ resultMin ∣ resultMax
              ∧ resultMax / resultMin ≠ resultMin then
              [(DIV, resultMax / resultMin)] else []) := by
  have hdiv := div_mul_mod_eq_iff resultMax resultMin hmax
  unfold CombineOperationGroups.offers
  dsimp only
  by_cases h1 : resultMax ≠ resultMin ∧ resultMax - resultMin ≠ resultMin
  · by_cases h2 : resultMin > 1
    · have h3 : ¬ resultMax = resultMin := h1.1
      have c4 : ¬ (resultMin > 1 ∧ resultMax = resultMin) := fun h => h3 h.2
      by_cases h4 : resultMax / resultMin ≠ resultMin
          ∧ (resultMax / resultMin * resultMin) % 2 ^ 32 = resultMax
      · have c5 : resultMin > 1 ∧ resultMax ≠ resultMin ∧ resultMin ∣ resultMax
            ∧ resultMax / resultMin ≠ resultMin := ⟨h2, h3, hdiv.mp h4.2, h4.1⟩
        simp only [if_pos h1, if_pos h2, if_neg h3, if_neg c4, if_pos h4, if_pos c5,
          List.map_append, List.map_cons, List.map_nil, List.append_nil, List.append_assoc]
      · have c5 : ¬ (resultMin > 1 ∧ resultMax ≠ resultMin ∧ resultMin ∣ resultMax
            ∧ resultMax / resultMin ≠ resultMin) :=
          fun h => h4 ⟨h.2.2.2, hdiv.mpr h.2.2.1⟩
        simp only [if_pos h1, if_pos h2, if_neg h3, if_neg c4, if_neg h4, if_neg c5,
          List.map_append, List.map_cons, List.map_nil, List.append_nil, List.append_assoc]
    · have c4 : ¬ (resultMin > 1 ∧ resultMax = resultMin) := fun h => h2 h.1
      have c5 : ¬ (resultMin > 1 ∧ resultMax ≠ resultMin ∧ resultMin ∣ resultMax
          ∧ resultMax / resultMin ≠ resultMin) := fun h => h2 h.1
      simp only [if_pos h1, if_neg h2, if_neg c4, if_neg c5,
        List.map_append, List.map_cons, List.map_nil, List.append_nil, List.append_assoc]
  · by_cases h2 : resultMin > 1
    · by_cases h3 : resultMax = resultMin
      · have c4 : resultMin > 1 ∧ resultMax = resultMin := ⟨h2, h3⟩
        have c5 : ¬ (resultMin > 1 ∧ resultMax ≠ resultMin ∧ resultMin ∣ resultMax
            ∧ resultMax / resultMin ≠ resultMin) := fun h => h.2.1 h3
        simp only [if_neg h1, if_pos h2, if_pos h3, if_pos c4, if_neg c5,
          List.map_append, List.map_cons, List.map_nil, List.append_nil, List.append_assoc]
      · have c4 : ¬ (resultMin > 1 ∧ resultMax = resultMin) := fun h => h3 h.2
        by_cases h4 : resultMax / resultMin ≠ resultMin
            ∧ (resultMax / resultMin * resultMin) % 2 ^ 32 = resultMax
        · have c5 : resultMin > 1 ∧ resultMax ≠ resultMin ∧ resultMin ∣ resultMax
              ∧ resultMax / resultMin ≠ resultMin := ⟨h2, h3, hdiv.mp h4.2, h4.1⟩
          simp only [if_neg h1, if_pos h2, if_neg h3, if_neg c4, if_pos h4, if_pos c5,
            List.map_append, List.map_cons, List.map_nil, List.append_nil, List.append_assoc]
        · have c5 : ¬ (resultMin > 1 ∧ resultMax ≠ resultMin ∧ resultMin ∣ resultMax
              ∧ resultMax / resultMin ≠ resultMin) :=
            fun h => h4 ⟨h.2.2.2, hdiv.mpr h.2.2.1⟩
          simp only [if_neg h1, if_pos h2, if_neg h3, if_neg c4, if_neg h4, if_neg c5,
            List.map_append, List.map_cons, List.map_nil, List.append_nil, List.append_assoc]
    · have c4 : ¬ (resultMin > 1 ∧ resultMax = resultMin) := fun h => h2 h.1
      have c5 : ¬ (resultMin > 1 ∧ resultMax ≠ resultMin ∧ resultMin ∣ resultMax
          ∧ resultMax / resultMin ≠ resultMin) := fun h => h2 h.1
      simp only [if_neg h1, if_neg h2, if_neg c4, if_neg c5,
        List.map_append, List.map_cons, List.map_nil, List.append_nil, List.append_assoc]

end Numbers
namespace Numbers

/-- The complexity of every call of a turn of the inner loop, in exact
arithmetic: that of the two operands plus the cost of the operation. -/
theorem PairVisit.call_complexity {tiles : List Nat} {g : Nat} {E : Nat → Expr}
    {visit : PairVisit} (h : PairInv tiles g E visit) (hN : tiles.length ≤ 8) :
    ∀ call ∈ visit.calls,
      call.op < 4
      ∧ call.complexity
        = visit.complexityA + (visit.numbersObject.operation visit.operationIdB).complexity
          + operationCost call.op visit.weightA
              (visit.numbersObject.operation visit.operationIdB).weight
              (max visit.resultA (visit.numbersObject.operation visit.operationIdB).result)
              (min visit.resultA (visit.numbersObject.operation visit.operationIdB).result) := by
  intro call hcall
  obtain ⟨hwA, hwB, hc, htc, hrA, hrB⟩ := h.bounds
  have hmem : (call.op, call.result, call.complexity)
      ∈ visit.calls.map (fun call => (call.op, call.result, call.complexity)) :=
    List.mem_map_of_mem _ hcall
  rw [PairVisit.calls_map] at hmem
  have h8 : 2401 * visit.numbersObject.current.tileCount ≤ 2401 * 8 :=
    Nat.mul_le_mul_left _ (by omega)
  have hnowrap : (visit.complexityA
      + (visit.numbersObject.operation visit.operationIdB).complexity) % 2 ^ 16
      = visit.complexityA + (visit.numbersObject.operation visit.operationIdB).complexity := by
    apply Nat.mod_eq_of_lt
    omega
  have hcost := operationCost_le call.op visit.weightA
    (visit.numbersObject.operation visit.operationIdB).weight
    (max visit.resultA (visit.numbersObject.operation visit.operationIdB).result)
    (min visit.resultA (visit.numbersObject.operation visit.operationIdB).result) hwA hwB
  split_ifs at hmem with h1 h2
  · cases hmem
  · obtain ⟨hop, _, _, hceq⟩ := CombineOperationGroups.offers_spec _ _ _ _ _ h2 hrA hwA hwB _
      hmem
    simp only [] at hop hceq
    rw [max_eq_left h2, min_eq_right h2] at hcost ⊢
    refine ⟨hop, ?_⟩
    rw [hceq, hnowrap]
    apply Nat.mod_eq_of_lt
    omega
  · have h2' : visit.resultA ≤ (visit.numbersObject.operation visit.operationIdB).result := by
      omega
    obtain ⟨hop, _, _, hceq⟩ := CombineOperationGroups.offers_spec _ _ _ _ _ h2' hrB hwA hwB _
      hmem
    simp only [] at hop hceq
    rw [max_eq_right h2', min_eq_left h2'] at hcost ⊢
    refine ⟨hop, ?_⟩
    rw [hceq, hnowrap]
    apply Nat.mod_eq_of_lt
    omega

/-- The operations and results of the calls of a turn of the inner loop, as the
specification lists them. -/
theorem PairVisit.call_candidates {tiles : List Nat} {g : Nat} {E : Nat → Expr}
    {visit : PairVisit} (h : PairInv tiles g E visit) (hN : tiles.length ≤ 8)
    (hi lo : Nat)
    (hhi : hi = max visit.resultA (visit.numbersObject.operation visit.operationIdB).result)
    (hlo : lo = min visit.resultA (visit.numbersObject.operation visit.operationIdB).result) :
    visit.calls.map (fun call => (call.op, call.result))
      = if visit.complexityA + (visit.numbersObject.operation visit.operationIdB).complexity
            > visit.numbersObject.current.complexityMax then []
        else
          [(ADD, (hi + lo) % 2 ^ 32)]
          ++ (if hi ≠ lo ∧ hi - lo ≠ lo then [(SUB, hi - lo)] else [])
          ++ (if lo > 1 then [(MUL, (hi * lo) % 2 ^ 32)] else [])
          ++ (if lo > 1 ∧ hi = lo then [(DIV, 1)] else [])
          ++ (if lo > 1 ∧ hi ≠ lo ∧ lo ∣ hi ∧ hi / lo ≠ lo then [(DIV, hi / lo)] else []) := by
  obtain ⟨hwA, hwB, hc, htc, hrA, hrB⟩ := h.bounds
  have h8 : 2401 * visit.numbersObject.current.tileCount ≤ 2401 * 8 :=
    Nat.mul_le_mul_left _ (by omega)
  have hnowrap : (visit.complexityA
      + (visit.numbersObject.operation visit.operationIdB).complexity) % 2 ^ 16
      = visit.complexityA + (visit.numbersObject.operation visit.operationIdB).complexity := by
    apply Nat.mod_eq_of_lt
    omega
  have hmap : visit.calls.map (fun call => (call.op, call.result))
      = (visit.calls.map (fun call => (call.op, call.result, call.complexity))).map
          (fun o => (o.1, o.2.1)) := by
    rw [List.map_map]
    rfl
  rw [hmap, PairVisit.calls_map, hnowrap]
  by_cases h1 : visit.complexityA
      + (visit.numbersObject.operation visit.operationIdB).complexity
      > visit.numbersObject.current.complexityMax
  · rw [if_pos h1, if_pos h1]
    rfl
  · rw [if_neg h1, if_neg h1]
    by_cases h2 : visit.resultA ≥ (visit.numbersObject.operation visit.operationIdB).result
    · rw [if_pos h2, CombineOperationGroups.offers_map _ _ _ _ _ hrA, hhi, hlo,
        max_eq_left h2, min_eq_right h2]
    · have h2' : visit.resultA ≤ (visit.numbersObject.operation visit.operationIdB).result := by
        omega
      rw [if_neg h2, CombineOperationGroups.offers_map _ _ _ _ _ hrB, hhi, hlo,
        max_eq_right h2', min_eq_left h2']

end Numbers
namespace Numbers

/-- `NumbersSolve` on a well-formed object and at most 8 tiles returns, and the
object it returns is the one of a state in order. -/
theorem NumbersSolve_final (s : NumbersStruct) (hwf : s.WellFormed) (target : Nat)
    (tiles : List Nat) (complexity : Option Nat) (solutionOperations result : Bool)
    (htiles : ∀ t ∈ tiles, t < 2 ^ 32) (hN : tiles.length ≤ 8) :
    ∃ out st E,
      NumbersSolve (some s) target (some tiles) complexity solutionOperations result = some out
      ∧ out.numbersObject = some st.numbersObject
      ∧ SearchInv tiles (NumbersSolve.init s target tiles complexity) st E
      ∧ CourseInv st
      ∧ (0 < tiles.length →
          st.numbersObject.solution.operationId < st.numbersObject.operationSize) := by
  obtain ⟨s', E', _, hsolve, _, _, _, _, _, _, hpos⟩ :=
    NumbersSolve_spec s hwf target tiles complexity solutionOperations result htiles hN
  obtain ⟨_, _, st, E, hsearch, hinv, hc⟩ :=
    NumbersSolve.search_course s hwf target tiles complexity htiles hN
  obtain ⟨s'', hsearch', hobj⟩ := NumbersSolve_object s target tiles complexity
    solutionOperations result hN _ hsolve
  have he : s'' = st.numbersObject := Option.some.inj (hsearch'.symm.trans hsearch)
  have he' : s' = st.numbersObject := by
    have : some s' = some s'' := hobj
    rw [← he]
    exact Option.some.inj this
  refine ⟨_, st, E, hsolve, ?_, hinv, hc, ?_⟩
  · rw [hobj, he]
  · intro h0
    rw [← he']
    exact hpos h0

end Numbers
namespace Numbers

/-! ## The trees of the arena and what the records say of them -/

/-- The tree that the reconstructor walks from a record is the tree of the
record, within as many nested calls as the tree has tiles. (`s2` is any object
with the same arena.) -/
theorem NumbersStruct.tree_depth {tiles : List Nat} {g : Nat} {s : NumbersStruct}
    {E : Nat → Expr} (h : ArenaInv tiles g s E) (s2 : NumbersStruct)
    (hs2 : ∀ i, s2.operation i = s.operation i) :
    ∀ i, i < s.current.operationIdLast → ∀ fuel, (E i).leaves.length ≤ fuel →
      s2.tree fuel i = E i := by
  intro i
  induction i using Nat.strong_induction_on with
  | _ i ih =>
    intro hi fuel hfuel
    have hpos := (E i).leaves_length_pos
    cases fuel with
    | zero => omega
    | succ fuel =>
      unfold NumbersStruct.tree
      simp only []
      rw [hs2 i]
      by_cases hnop : (s.operation i).op = NOP
      · rw [if_pos hnop, (h.leaf i hi hnop).1]
      · rw [if_neg hnop]
        obtain ⟨_, h2, h3, _, h5⟩ := h.node i hi hnop
        rw [h5] at hfuel
        simp only [Expr.leaves, List.length_append] at hfuel
        have hl := (E (s.operation i).operationIdLeft).leaves_length_pos
        have hr := (E (s.operation i).operationIdRight).leaves_length_pos
        rw [ih _ h2 (by omega) fuel (by omega), ih _ h3 (by omega) fuel (by omega)]
        exact h5.symm

/-- With as many nested calls as there are tiles, the reconstructor walks the
tree of every record. -/
theorem ArenaInv.tree_eq {tiles : List Nat} {g : Nat} {s : NumbersStruct}
    {E : Nat → Expr} (h : ArenaInv tiles g s E) (s2 : NumbersStruct)
    (hs2 : ∀ i, s2.operation i = s.operation i) (i : Nat)
    (hi : i < s.current.operationIdLast) : s2.tree tiles.length i = E i :=
  NumbersStruct.tree_depth h s2 hs2 i hi _ (h.leaves_length_le i hi)

/-- What the validator computes, operator by operator. -/
theorem NumbersValidate.compute_ok {op l r v : Nat} {ch : Char} (hop : op < 4)
    (h : NumbersValidate.compute op l r = .ok (v, ch)) :
    (op = ADD → v = (l + r) % 2 ^ 32)
    ∧ (op = SUB → r ≤ l ∧ v = l - r)
    ∧ (op = MUL → v = (l * r) % 2 ^ 32)
    ∧ (op = DIV → v * r = l) := by
  unfold NumbersValidate.compute at h
  have h4 : op = 0 ∨ op = 1 ∨ op = 2 ∨ op = 3 := by omega
  rcases h4 with rfl | rfl | rfl | rfl
  · simp [ADD, SUB, MUL, DIV] at h ⊢
    exact h.1.symm
  · simp only [ADD, SUB, MUL, DIV] at h ⊢
    simp only [show ¬ (1 = 0) by decide, show ¬ (1 = 2) by decide, if_false, if_true] at h
    split_ifs at h with h1
    simp only [Except.ok.injEq, Prod.mk.injEq] at h
    refine ⟨fun e => by omega, fun _ => ⟨by omega, h.1.symm⟩, fun e => by omega,
      fun e => by omega⟩
  · simp [ADD, SUB, MUL, DIV] at h ⊢
    exact h.1.symm
  · simp only [ADD, SUB, MUL, DIV] at h ⊢
    simp only [show ¬ (3 = 0) by decide, show ¬ (3 = 2) by decide, show ¬ (3 = 1) by decide,
      if_false] at h
    split_ifs at h with h1 h2
    simp only [Except.ok.injEq, Prod.mk.injEq] at h
    refine ⟨fun e => by omega, fun e => by omega, fun e => by omega, fun _ => ?_⟩
    have h3 : (r * (l / r)) % 2 ^ 32 = l := by
      by_contra hne; exact h2 hne
    have hle : r * (l / r) ≤ l := Nat.mul_div_le l r
    rw [← h.1, Nat.mul_comm]
    by_cases hl : l < 2 ^ 32
    · rw [Nat.mod_eq_of_lt (by omega)] at h3
      exact h3
    · have := Nat.mod_lt (r * (l / r)) (show 0 < 2 ^ 32 by norm_num)
      omega

end Numbers
namespace Numbers

/-- Arithmetic consistency follows from the invariant of the arena. (`s2` is
any object with the same arena.) -/
theorem ArenaInv.arithmetic {tiles : List Nat} {g : Nat} {s : NumbersStruct}
    {E : Nat → Expr} (h : ArenaInv tiles g s E) (s2 : NumbersStruct)
    (hs2 : ∀ i, s2.operation i = s.operation i)
    (hlast : s2.current.operationIdLast = s.current.operationIdLast) :
    s2.Arithmetic := by
  intro i hi hnop
  rw [hlast] at hi
  simp only [hs2] at hnop ⊢
  obtain ⟨hop4, h2, h3, _, h5⟩ := h.node i hi hnop
  have hv := h.value i hi
  have hvl := h.value _ (h2.trans hi)
  have hvr := h.value _ (h3.trans hi)
  rw [h5] at hv
  simp only [Expr.value, hvl, hvr] at hv
  cases hc : NumbersValidate.compute (s.operation i).op
      (s.operation (s.operation i).operationIdLeft).result
      (s.operation (s.operation i).operationIdRight).result with
  | error e => rw [hc] at hv; cases hv
  | ok r =>
    obtain ⟨v, ch⟩ := r
    rw [hc] at hv
    simp only [Option.some.injEq] at hv
    subst hv
    obtain ⟨a1, a2, a3, a4⟩ := NumbersValidate.compute_ok hop4 hc
    refine ⟨?_, fun e => ⟨a1 e, fun hlt => ?_⟩, a2, fun e => ⟨a3 e, fun hlt => ?_⟩, a4⟩
    · have : (s.operation i).op = 0 ∨ (s.operation i).op = 1 ∨ (s.operation i).op = 2
          ∨ (s.operation i).op = 3 := by omega
      exact this
    · rw [a1 e, Nat.mod_eq_of_lt hlt]
    · rw [a3 e, Nat.mod_eq_of_lt hlt]

/-- Complexity consistency follows from the invariants of the arena and of its
records. (`s2` is any object with the same arena.) -/
theorem ArenaInv.costed {tiles : List Nat} {g : Nat} {s : NumbersStruct}
    {E : Nat → Expr} (h : ArenaInv tiles g s E) (hr : RecordInv s) (s2 : NumbersStruct)
    (hs2 : ∀ i, s2.operation i = s.operation i)
    (hlast : s2.current.operationIdLast = s.current.operationIdLast) :
    s2.Costed := by
  intro i hi
  rw [hlast] at hi
  simp only [hs2]
  exact ⟨fun hnop => (h.leaf i hi hnop).2.2, hr.weight i hi, hr.cost i hi⟩

/-- The cost that the combiner adds is the cost of the complexity model, for
one of the four operations. -/
theorem operationCost_spec {op l r : Nat} (hop : op < 4) :
    operationCost op (ComputeResultWeight l) (ComputeResultWeight r) l r = specCost op l r := by
  unfold operationCost specCost
  have h4 : op = 0 ∨ op = 1 ∨ op = 2 ∨ op = 3 := by omega
  rcases h4 with rfl | rfl | rfl | rfl
  · simp only [ADD, if_true]
    split_ifs with h1
    · exact (Nat.min_eq_left (Nat.le_of_lt h1)).symm
    · exact (Nat.min_eq_right (Nat.le_of_not_lt h1)).symm
  · simp [ADD, SUB, Nat.shiftRight_eq_div_pow]
  · simp [ADD, SUB, MUL, DIV, Nat.pow_two]
  · simp only [ADD, SUB, MUL, DIV, show ¬ (3 = 0) by decide, show ¬ (3 = 1) by decide,
      show ¬ (3 = 2) by decide, if_false, true_and]
    split_ifs with h1
    · rfl
    · rw [Nat.pow_two]

/-- The stored complexity of every record is the value of the complexity model
on its tree. -/
theorem ArenaInv.complexity_model {tiles : List Nat} {g : Nat} {s : NumbersStruct}
    {E : Nat → Expr} (h : ArenaInv tiles g s E) (hr : RecordInv s) :
    ∀ i, i < s.current.operationIdLast →
      (s.operation i).complexity = (E i).complexity tiles := by
  intro i
  induction i using Nat.strong_induction_on with
  | _ i ih =>
    intro hi
    by_cases hnop : (s.operation i).op = NOP
    · obtain ⟨h1, _, h3⟩ := h.leaf i hi hnop
      rw [h1, h3]
      rfl
    · obtain ⟨hop4, h2, h3, _, h5⟩ := h.node i hi hnop
      have hvl := h.value _ (h2.trans hi)
      have hvr := h.value _ (h3.trans hi)
      rw [h5]
      simp only [Expr.complexity, hvl, hvr, Option.getD_some]
      rw [← ih _ h2 (h2.trans hi), ← ih _ h3 (h3.trans hi), hr.cost i hi hnop,
        hr.weight _ (h2.trans hi), hr.weight _ (h3.trans hi),
        operationCost_spec hop4]

/-- The stream of a tree is its operations in post-order, each encoded in one
byte. -/
theorem Expr.stream_nodes (e : Expr) :
    e.stream = e.nodes.map (fun n => (n.1 ||| (n.2.1 <<< 3) ||| (n.2.2 <<< 6)) % 2 ^ 8) := by
  induction e with
  | tile t => rfl
  | node op l r ihl ihr =>
    simp only [Expr.stream, Expr.nodes, List.map_append, List.map_cons, List.map_nil, ihl, ihr]

/-- The byte of an operation on tiles below 8 is the plain encoding. -/
theorem encode_lt : ∀ a, a < 8 → ∀ b, b < 8 → ∀ op, op < 4 →
    (a ||| (b <<< 3) ||| (op <<< 6)) % 2 ^ 8 = a ||| (b <<< 3) ||| (op <<< 6) := by
  decide

/-- The left and right tiles of the operations of a tree are tiles of the
tree, and their operators are operators of the tree. -/
theorem Expr.nodes_spec (e : Expr) (hops : e.opsValid) :
    ∀ n ∈ e.nodes, n.1 ∈ e.leaves ∧ n.2.1 ∈ e.leaves ∧ n.2.2 < 4 := by
  induction e with
  | tile t => intro n hn; cases hn
  | node op l r ihl ihr =>
    obtain ⟨h1, h2, h3⟩ := hops
    intro n hn
    simp only [Expr.nodes, List.mem_append, List.mem_singleton] at hn
    simp only [Expr.leaves, List.mem_append]
    rcases hn with (hn | hn) | hn
    · obtain ⟨a, b, c⟩ := ihl h2 n hn
      exact ⟨Or.inl a, Or.inl b, c⟩
    · obtain ⟨a, b, c⟩ := ihr h3 n hn
      exact ⟨Or.inr a, Or.inr b, c⟩
    · rw [hn]
      exact ⟨Or.inl l.first_mem_leaves, Or.inr r.first_mem_leaves, h1⟩

theorem Expr.nodes_length (e : Expr) : e.nodes.length + 1 = e.leaves.length := by
  induction e with
  | tile t => rfl
  | node op l r ihl ihr =>
    simp only [Expr.nodes, Expr.leaves, List.length_append, List.length_singleton]
    omega

end Numbers
namespace Numbers

/-! ## Tiles of the trees -/

/-- Different tiles of a group, as many as the group has, are all its tiles. -/
theorem leaves_cover (l : List Nat) (m : Nat) (hnd : l.Nodup)
    (hl : ∀ t ∈ l, t < 8 ∧ m.testBit t = true) (hlen : l.length = popCount m) :
    ∀ t, t < 8 → m.testBit t = true → t ∈ l := by
  have hsub : l ⊆ (List.range 8).filter (fun t => m.testBit t) := by
    intro t ht
    obtain ⟨h1, h2⟩ := hl t ht
    rw [List.mem_filter, List.mem_range]
    exact ⟨h1, h2⟩
  have hperm := (List.subperm_of_subset hnd hsub).perm_of_length_le
    (by
      rw [hlen]
      unfold popCount
      rw [List.countP_eq_length_filter])
  intro t ht hbit
  rw [hperm.mem_iff, List.mem_filter, List.mem_range]
  exact ⟨ht, hbit⟩

/-- The trees of a finished group of at most 8 tiles use every tile of the
group, each once, and no other tile. (`s2` is any object with the same
arena.) -/
theorem ArenaInv.tiles_used {tiles : List Nat} {g : Nat} {s : NumbersStruct}
    {E : Nat → Expr} (h : ArenaInv tiles g s E) (hN : tiles.length ≤ 8) (s2 : NumbersStruct)
    (hs2 : ∀ i, s2.operation i = s.operation i) (m : Nat) (grp : OperationGroup)
    (hgrp : GroupInv E m (popCount m) grp s.current.operationIdLast) :
    TilesUsed s2 tiles.length m grp := by
  intro i hi1 hi2
  have hi : i < s.current.operationIdLast := lt_of_lt_of_le hi2 hgrp.last_le
  rw [h.tree_eq s2 hs2 i hi]
  obtain ⟨hmask, hlen⟩ := hgrp.leaves i hi1 hi2
  have hlt := h.leaves_lt i hi
  refine ⟨h.nodup i hi, fun t ht => ⟨hlt t ht, hmask t ht⟩, ?_⟩
  exact leaves_cover _ m (h.nodup i hi)
    (fun t ht => ⟨lt_of_lt_of_le (hlt t ht) hN, hmask t ht⟩) hlen

/-- A record without operation is a tile, and the two operands of an
operation use different tiles. (`s2` is any object with the same arena.) -/
theorem ArenaInv.tiles_apart {tiles : List Nat} {g : Nat} {s : NumbersStruct}
    {E : Nat → Expr} (h : ArenaInv tiles g s E) (s2 : NumbersStruct)
    (hs2 : ∀ i, s2.operation i = s.operation i)
    (hlast : s2.current.operationIdLast = s.current.operationIdLast) :
    s2.TilesApart tiles := by
  intro i hi
  rw [hlast] at hi
  simp only [hs2]
  refine ⟨fun hnop => ?_, fun hnop => ?_⟩
  · obtain ⟨h1, h2, _⟩ := h.leaf i hi hnop
    have hv := h.value i hi
    rw [h1] at hv
    simp only [Expr.value, if_pos h2, Option.some.injEq] at hv
    exact ⟨h2, hv.symm⟩
  · obtain ⟨_, h2, h3, _, h5⟩ := h.node i hi hnop
    rw [h.tree_eq s2 hs2 i hi, h.tree_eq s2 hs2 _ (h2.trans hi),
      h.tree_eq s2 hs2 _ (h3.trans hi)]
    have hnd := h.nodup i hi
    rw [h5] at hnd ⊢
    simp only [Expr.leaves] at hnd ⊢
    exact ⟨(List.nodup_append.mp hnd).2.2, trivial⟩

/-- When all tiles are positive and no sum or product wraps around 32 bits,
all results are positive. (`s2` is any object with the same arena.) -/
theorem ArenaInv.results_pos {tiles : List Nat} {g : Nat} {s : NumbersStruct}
    {E : Nat → Expr} (h : ArenaInv tiles g s E) (hr : RecordInv s) (s2 : NumbersStruct)
    (hs2 : ∀ i, s2.operation i = s.operation i)
    (hlast : s2.current.operationIdLast = s.current.operationIdLast)
    (htiles : ∀ t ∈ tiles, 1 ≤ t) (hnw : s2.NoWrap) :
    ∀ i, i < s2.current.operationIdLast → 1 ≤ (s2.operation i).result := by
  intro i
  induction i using Nat.strong_induction_on with
  | _ i ih =>
    intro hi2
    have hi : i < s.current.operationIdLast := by rw [← hlast]; exact hi2
    by_cases hnop : (s.operation i).op = NOP
    · obtain ⟨h1, h2⟩ := (h.tiles_apart s2 hs2 hlast i hi2).1 (by rw [hs2]; exact hnop)
      rw [h2, List.getD_eq_getElem?_getD, List.getElem?_eq_getElem h1]
      exact htiles _ (List.getElem_mem _)
    · obtain ⟨_, h2, h3, _, _⟩ := h.node i hi hnop
      have hnop2 : (s2.operation i).op ≠ NOP := by rw [hs2]; exact hnop
      obtain ⟨hop, a1, a2, a3, a4⟩ := h.arithmetic s2 hs2 hlast i hi2 hnop2
      have h2' : (s2.operation i).operationIdLeft < i := by rw [hs2]; exact h2
      have h3' : (s2.operation i).operationIdRight < i := by rw [hs2]; exact h3
      have hl := ih _ h2' (h2'.trans hi2)
      have hrr := ih _ h3' (h3'.trans hi2)
      obtain ⟨w1, w2⟩ := hnw i hi2
      rcases hop with e | e | e | e
      · rw [(a1 e).2 (w1 e)]; omega
      · have hd := hr.difference i hi (by rw [← hs2]; exact e)
        rw [← hs2] at hd
        omega
      · rw [(a3 e).2 (w2 e)]
        exact Nat.mul_pos hl hrr
      · have := a4 e
        by_contra hzero
        have hz : (s2.operation i).result = 0 := by omega
        rw [hz, Nat.zero_mul] at this
        omega

theorem foldlEvents_mem {σ α ε : Type} (f : σ → α → σ) (events : σ → α → List ε) :
    ∀ (l : List α) (s : σ) (e : ε), e ∈ foldlEvents f events l s →
      ∃ s' x, x ∈ l ∧ e ∈ events s' x := by
  intro l
  induction l with
  | nil => intro s e he; cases he
  | cons x xs ih =>
    intro s e he
    simp only [foldlEvents, List.mem_append] at he
    rcases he with he | he
    · exact ⟨s, x, List.mem_cons_self _ _, he⟩
    · obtain ⟨s', y, hy, hey⟩ := ih _ e he
      exact ⟨s', y, List.mem_cons_of_mem _ hy, hey⟩

/-- The calls of the first loop of `NumbersSolve` offer tiles. -/
theorem NumbersSolve.tileCalls_op (s : NumbersStruct) (target : Nat) (tiles : List Nat)
    (complexity : Option Nat) :
    ∀ call ∈ NumbersSolve.tileCalls s target tiles complexity, call.call.op = NOP := by
  intro call hcall
  unfold NumbersSolve.tileCalls at hcall
  obtain ⟨st, x, _, he⟩ := foldlEvents_mem _ _ _ _ _ hcall
  rw [List.mem_singleton] at he
  rw [he]

/-- At every call of the recorder during a solve, the group of tiles under
construction has as many tiles as the current number of tiles. -/
theorem NumbersSolve.calls_tileGroup (s : NumbersStruct) (hwf : s.WellFormed) (target : Nat)
    (tiles : List Nat) (complexity : Option Nat) (htiles : ∀ t ∈ tiles, t < 2 ^ 32)
    (hN : tiles.length ≤ 8) :
    ∀ call ∈ NumbersSolve.calls s target tiles complexity,
      call.tileGroup < 2 ^ tiles.length
      ∧ popCount call.tileGroup = call.call.numbersObject.current.tileCount := by
  obtain ⟨h1, h2, _⟩ := NumbersSolve.search_course s hwf target tiles complexity htiles hN
  intro call hcall
  unfold NumbersSolve.calls at hcall
  rw [List.mem_append, List.mem_flatMap] at hcall
  rcases hcall with hcall | ⟨visit, hvisit, hcall⟩
  · obtain ⟨E, hinv⟩ := h1 call hcall
    have hop := NumbersSolve.tileCalls_op s target tiles complexity call hcall
    rcases hinv.kind with ht | ⟨hc, _⟩
    · obtain ⟨tileId, hid, hg, _⟩ := ht.tile
      have hid8 : tileId < 8 := by omega
      obtain ⟨p1, p2, _⟩ := popCount_shift tileId hid8
      rw [hg, ht.tileCount_eq, ← p2]
      refine ⟨?_, p1⟩
      rw [p2]
      exact Nat.pow_lt_pow_right (by norm_num) hid
    · have := hc.op_lt
      rw [hop] at this
      simp [NOP] at this
  · obtain ⟨E, hv⟩ := h2 visit hvisit
    unfold SolveVisit.calls at hcall
    rw [List.mem_map] at hcall
    obtain ⟨rc, hrc, rfl⟩ := hcall
    obtain ⟨E', _, hx, _⟩ := (PairVisit.calls_course visit.pair hN hv.pair).2 rc hrc
    exact ⟨hv.tileGroup_lt, by rw [hv.tileCount]; exact hx.tileCount_eq.symm⟩

end Numbers
namespace Numbers

/-- `NumbersSolve` on a well-formed object and at most 8 tiles returns, and its
outputs are read off the state in which the search ends, which is in order. -/
theorem NumbersSolve_outputs (s : NumbersStruct) (hwf : s.WellFormed) (target : Nat)
    (tiles : List Nat) (complexity : Option Nat) (solutionOperations result : Bool)
    (htiles : ∀ t ∈ tiles, t < 2 ^ 32) (hN : tiles.length ≤ 8) :
    ∃ st E, SearchInv tiles (NumbersSolve.init s target tiles complexity) st E
      ∧ CourseInv st
      ∧ NumbersSolve (some s) target (some tiles) complexity solutionOperations result = some
        { error := if st.numbersObject.solution.aborted then NumbersError.AbortedError
            else NumbersError.Success
          numbersObject := some st.numbersObject
          complexity := complexity.map (fun _ =>
            if st.numbersObject.solution.operationId < st.numbersObject.operationSize then
              (st.numbersObject.operation st.numbersObject.solution.operationId).complexity
            else 0)
          solutionOperations :=
            if solutionOperations then
              some ((if st.numbersObject.solution.operationId
                  < st.numbersObject.operationSize then
                (E st.numbersObject.solution.operationId).stream else []) ++ [0])
            else none
          result :=
            if result then
              some (if st.numbersObject.solution.operationId
                  < st.numbersObject.operationSize then
                (st.numbersObject.operation st.numbersObject.solution.operationId).result
              else 0)
            else none }
      ∧ (0 < tiles.length →
          st.numbersObject.solution.operationId < st.numbersObject.operationSize
          ∧ st.numbersObject.solution.operationId
            < st.numbersObject.current.operationIdLast) := by
  obtain ⟨_, _, st, E, hsearch, hinv, hc⟩ :=
    NumbersSolve.search_course s hwf target tiles complexity htiles hN
  refine ⟨st, E, hinv, hc, ?_, ?_⟩
  · have hfin := NumbersSolve.finish_spec hinv.solve.arena complexity solutionOperations result
    unfold NumbersSolve
    simp only [gt_iff_lt]
    rw [if_neg (by omega), hsearch]
    exact hfin
  · intro hpos
    have harena := hinv.solve.arena
    have hsol : st.numbersObject.solution.operationId < st.numbersObject.operationSize := by
      by_contra hsol
      have hsol' : st.numbersObject.operationSize ≤ st.numbersObject.solution.operationId := by
        omega
      have hL : st.numbersObject.current.operationIdLast = 0 := harena.solution_none hsol'
      cases hab : st.numbersObject.solution.aborted with
      | false =>
        have := (hinv.recorded hab).1
        omega
      | true =>
        have h7 : st.numbersObject.current.operationIdLast = st.numbersObject.operationSize :=
          harena.aborted_full hab
        have h8 : 0 < st.numbersObject.operationSize := harena.wf.1
        omega
    exact ⟨hsol, harena.solution_lt hsol⟩

/-- The invariant of the records says that the search finds every indexed
result of the current group. -/
theorem RecordInv.indexed {s : NumbersStruct} (hr : RecordInv s) : s.Indexed := by
  intro r i hr1 hi1 hi2 hres
  have := SearchOperation_indexed s hr.index i hi1 hi2 (by rw [hres]; exact hr1)
  rw [hres] at this
  exact this

end Numbers
namespace Numbers

/-- What a call of the recorder during a solve finds and leaves: the arena, its
records and the stored groups in order, before and after, for the group of
tiles under construction, which has as many tiles as the current number of
tiles. -/
theorem NumbersSolve.calls_both (s : NumbersStruct) (hwf : s.WellFormed) (target : Nat)
    (tiles : List Nat) (complexity : Option Nat) (htiles : ∀ t ∈ tiles, t < 2 ^ 32)
    (hN : tiles.length ≤ 8) :
    ∀ call ∈ NumbersSolve.calls s target tiles complexity,
      ∃ E E', CallInv tiles E call
        ∧ ArenaInv tiles call.tileGroup call.call.after E'
        ∧ Extends call.call.numbersObject E call.call.after E'
        ∧ RecordInv call.call.after
        ∧ GroupsInv E' call.operationGroups call.call.after
        ∧ call.tileGroup < 2 ^ tiles.length
        ∧ popCount call.tileGroup = call.call.numbersObject.current.tileCount
        ∧ popCount call.tileGroup = call.call.after.current.tileCount := by
  intro call hcall
  obtain ⟨E, hinv⟩ := NumbersSolve.calls_inv s hwf target tiles complexity htiles hN call hcall
  obtain ⟨E', h1, h2, h3, h4⟩ := hinv.after htiles hN
  obtain ⟨h5, h6⟩ := NumbersSolve.calls_tileGroup s hwf target tiles complexity htiles hN
    call hcall
  exact ⟨E, E', hinv, h1, h2, h3, h4, h5, h6, by rw [h6]; exact h2.tileCount_eq.symm⟩

/-- The trees of the current group and of the stored groups use the tiles of
their groups, each once. (`s2` is any object with the same arena and the same
current group.) -/
theorem ArenaInv.groups_used {tiles : List Nat} {g : Nat} {s : NumbersStruct}
    {E : Nat → Expr} (h : ArenaInv tiles g s E) (hN : tiles.length ≤ 8)
    (hg : popCount g = s.current.tileCount) (operationGroups : OperationGroups)
    (hgroups : GroupsInv E operationGroups s) :
    TilesUsed s tiles.length g ⟨s.current.operationIdFirst, s.current.operationIdLast⟩
    ∧ ∀ m grp, operationGroups.getD m none = some grp → TilesUsed s tiles.length m grp := by
  refine ⟨?_, fun m grp hm => ?_⟩
  · have hgrp := h.groupInv
    rw [← hg] at hgrp
    exact h.tiles_used hN s (fun _ => rfl) g _ hgrp
  · exact h.tiles_used hN s (fun _ => rfl) m grp
      ((hgroups.groups m grp hm).grow h.first_le (fun _ _ => rfl))

/-- What the combiner offers as a difference is positive, and what it offers
as a quotient is exact. -/
theorem CallInv.offered {tiles : List Nat} {E : Nat → Expr} {call : SolveCall}
    (h : CallInv tiles E call) :
    (call.call.op = SUB →
      (call.call.numbersObject.operation
          call.call.numbersObject.current.operationIdRight).result
        < (call.call.numbersObject.operation
          call.call.numbersObject.current.operationIdLeft).result
      ∧ call.call.result
        = (call.call.numbersObject.operation
            call.call.numbersObject.current.operationIdLeft).result
          - (call.call.numbersObject.operation
            call.call.numbersObject.current.operationIdRight).result)
    ∧ (call.call.op = DIV →
      call.call.result
          * (call.call.numbersObject.operation
            call.call.numbersObject.current.operationIdRight).result
        = (call.call.numbersObject.operation
          call.call.numbersObject.current.operationIdLeft).result) := by
  rcases h.kind with ht | ⟨hc, hok⟩
  · have hop := ht.op_eq
    refine ⟨fun e => ?_, fun e => ?_⟩ <;> rw [hop] at e <;> simp [NOP, SUB, DIV] at e
  · have hl := h.arena.value _ (lt_of_lt_of_le hc.left_lt h.arena.first_le)
    have hr := h.arena.value _ (lt_of_lt_of_le hc.right_lt h.arena.first_le)
    have hv := hc.value
    simp only [Expr.value, hl, hr] at hv
    cases hcomp : NumbersValidate.compute call.call.op
        (call.call.numbersObject.operation
          call.call.numbersObject.current.operationIdLeft).result
        (call.call.numbersObject.operation
          call.call.numbersObject.current.operationIdRight).result with
    | error e => rw [hcomp] at hv; cases hv
    | ok r =>
      obtain ⟨v, ch⟩ := r
      rw [hcomp] at hv
      simp only [Option.some.injEq] at hv
      subst hv
      obtain ⟨_, a2, _, a4⟩ := NumbersValidate.compute_ok hc.op_lt hcomp
      refine ⟨fun e => ?_, a4⟩
      obtain ⟨b1, b2⟩ := a2 e
      obtain ⟨weightA, weightB, _, hmem⟩ := hok.offered
      have hd := CombineOperationGroups.offers_difference _ _ _ _ _ hok.ordered _ hmem e
      have hd' : call.call.result ≠ 0 := hd
      exact ⟨by omega, b2⟩

end Numbers
namespace Numbers

/-! ## Enumeration of the sub-groups and of the groups of tiles -/

/-- The array `tileSubGroups[]` is the list of its entries computed on their
own. -/
theorem tileSubGroups_eq_entries (g k : Nat) :
    tileSubGroups g k = tileSubGroupEntries g k := by
  obtain ⟨hlen, hget⟩ := tileSubGroups_entry g k
  have hlen2 : (tileSubGroupEntries g k).length = ((1 <<< (k - 1)) % 2 ^ 32) - 1 := by
    unfold tileSubGroupEntries
    rw [List.length_map, List.length_range']
  apply List.ext_getElem (by rw [hlen, hlen2])
  intro i h1 h2
  have h3 : i < ((1 <<< (k - 1)) % 2 ^ 32) - 1 := by rw [← hlen]; exact h1
  have := hget i h3
  rw [List.getD_eq_getElem _ _ h1] at this
  rw [this]
  unfold tileSubGroupEntries
  rw [List.getElem_map, List.getElem_range']
  congr 1
  omega

set_option maxRecDepth 1000000 in
set_option maxHeartbeats 4000000 in
/-- Every entry of `tileSubGroups[]` is a part of the group that is below its
complement, and the entries go up. -/
theorem tileSubGroupEntry_small : ∀ g, g < 256 →
    ∀ n ∈ List.range' 1 (((1 <<< (popCount g - 1)) % 2 ^ 32) - 1),
      tileSubGroupEntry g (popCount g) n &&& g = tileSubGroupEntry g (popCount g) n
      ∧ tileSubGroupEntry g (popCount g) n < g - tileSubGroupEntry g (popCount g) n
      ∧ (n + 1 ≤ ((1 <<< (popCount g - 1)) % 2 ^ 32) - 1 →
        tileSubGroupEntry g (popCount g) n < tileSubGroupEntry g (popCount g) (n + 1)) := by
  decide!

set_option maxRecDepth 1000000 in
set_option maxHeartbeats 4000000 in
/-- The number of non-empty parts of a group that are below their complement. -/
theorem smallParts_length : ∀ g, g < 256 → 2 ≤ popCount g →
    ((List.range ((g + 1) / 2)).filter (fun A => decide (0 < A ∧ A &&& g = A))).length
      = ((1 <<< (popCount g - 1)) % 2 ^ 32) - 1 := by
  decide!

theorem tileSubGroupCount_eq : ∀ k, k < 9 →
    ((1 <<< (k - 1)) % 2 ^ 32) - 1 = 2 ^ (k - 1) - 1 := by
  decide

/-- The entries of `tileSubGroups[]` go up. -/
theorem tileSubGroupEntry_lt (g : Nat) (hg : g < 256) (a b : Nat) (ha : 1 ≤ a) (hab : a < b)
    (hb : b ≤ ((1 <<< (popCount g - 1)) % 2 ^ 32) - 1) :
    tileSubGroupEntry g (popCount g) a < tileSubGroupEntry g (popCount g) b := by
  induction b with
  | zero => omega
  | succ b ih =>
    have hstep := (tileSubGroupEntry_small g hg b
      (by rw [List.mem_range']; exact ⟨b - 1, by omega, by omega⟩)).2.2 hb
    by_cases hlt : a < b
    · exact lt_trans (ih hlt (by omega)) hstep
    · have : a = b := by omega
      rw [this]
      exact hstep

/-- The sub-groups built for a group of at most 8 tiles, two or more, are the
non-empty parts of the group that are below their complement, each once. -/
theorem tileSubGroups_mem (g : Nat) (hg : g < 256) (hk : 2 ≤ popCount g) :
    (tileSubGroups g (popCount g)).length = 2 ^ (popCount g - 1) - 1
    ∧ (tileSubGroups g (popCount g)).Nodup
    ∧ ∀ A, A ∈ tileSubGroups g (popCount g) ↔ (0 < A ∧ A &&& g = A ∧ A < g - A) := by
  have hcount := tileSubGroupCount_eq (popCount g) (by have := popCount_le g hg; omega)
  have hlen : (tileSubGroups g (popCount g)).length = 2 ^ (popCount g - 1) - 1 := by
    rw [(tileSubGroups_entry g (popCount g)).1, hcount]
  have hsorted : (tileSubGroups g (popCount g)).Pairwise (fun a b => a < b) := by
    rw [tileSubGroups_eq_entries]
    unfold tileSubGroupEntries
    rw [List.pairwise_map]
    refine List.Pairwise.imp_of_mem ?_ (List.pairwise_lt_range' 1 _)
    intro a b ha hb hab
    rw [List.mem_range'] at ha hb
    obtain ⟨i, hi, rfl⟩ := ha
    obtain ⟨j, hj, rfl⟩ := hb
    exact tileSubGroupEntry_lt g hg _ _ (by omega) hab (by omega)
  have hnodup : (tileSubGroups g (popCount g)).Nodup :=
    hsorted.imp (fun h => Nat.ne_of_lt h)
  have hfwd : ∀ A, A ∈ tileSubGroups g (popCount g) → 0 < A ∧ A &&& g = A ∧ A < g - A := by
    intro A hA
    have h0 := (tileSubGroups_spec g hg A hA).1
    rw [tileSubGroups_eq_entries] at hA
    unfold tileSubGroupEntries at hA
    rw [List.mem_map] at hA
    obtain ⟨n, hn, rfl⟩ := hA
    obtain ⟨h1, h2, _⟩ := tileSubGroupEntry_small g hg n hn
    exact ⟨h0, h1, h2⟩
  refine ⟨hlen, hnodup, fun A => ⟨hfwd A, fun hA => ?_⟩⟩
  have hsub : tileSubGroups g (popCount g)
      ⊆ (List.range ((g + 1) / 2)).filter (fun A => decide (0 < A ∧ A &&& g = A)) := by
    intro B hB
    obtain ⟨h1, h2, h3⟩ := hfwd B hB
    rw [List.mem_filter, List.mem_range]
    exact ⟨by omega, by simp [h1, h2]⟩
  have hperm := (List.subperm_of_subset hnodup hsub).perm_of_length_le
    (by rw [smallParts_length g hg hk, hlen, hcount])
  rw [hperm.mem_iff, List.mem_filter, List.mem_range]
  obtain ⟨h1, h2, h3⟩ := hA
  exact ⟨by omega, by simp [h1, h2]⟩

set_option maxRecDepth 1000000 in
/-- The complement of a part of a group is a part of the group, away from the
part. -/
theorem complement_part : ∀ g, g < 256 → ∀ A, A < g → A &&& g = A →
    (g - A) &&& g = g - A ∧ (0 < A → A ≠ g - A) := by
  decide!

set_option maxRecDepth 1000000 in
/-- The groups of `k` tiles among `n ≤ 8` that the `do ... while` loop of
`NumbersSolve` goes through. -/
theorem NumbersSolve.tileGroups_eq (n k : Nat) (hn : n ≤ 8) (h2 : 2 ≤ k) (hkn : k ≤ n) :
    NumbersSolve.tileGroups ((1 <<< n) % 2 ^ 16) (2 ^ n) (((1 <<< k) % 2 ^ 32) - 1)
      = some ((List.range (2 ^ n)).filter (fun m => popCount m = k))
    ∧ ((List.range (2 ^ n)).filter (fun m => popCount m = k)).length = n.choose k := by
  interval_cases n <;> interval_cases k <;> decide!

end Numbers
namespace Numbers

/-! ## The groups that `NumbersSolve` builds -/

/-- Building all groups with one more tile: every group is started in
order. -/
theorem NumbersSolve.nextTileCount_builds (tiles : List Nat) (hN : tiles.length ≤ 8)
    (s0 : NumbersStruct) (st : SolveState) (E : Nat → Expr)
    (h : SearchInv tiles s0 st E)
    (hlt : st.numbersObject.current.tileCount < tiles.length)
    (hab : st.numbersObject.solution.aborted = false) :
    ∀ st' ∈ NumbersSolve.nextTileCountBuilds (2 ^ tiles.length) st, BuildInv tiles s0 st' := by
  have hk8 : st.numbersObject.current.tileCount + 1 < 9 := by omega
  obtain ⟨hf1, hf2, hf3, hf4⟩ := firstTileGroup_spec (st.numbersObject.current.tileCount + 1)
    hk8 (by omega)
  have hpowle : 2 ^ (st.numbersObject.current.tileCount + 1) ≤ 2 ^ tiles.length :=
    Nat.pow_le_pow_right (by norm_num) hlt
  have hpos := h.tileCount_pos
  -- the state at the first turn of the loop over the groups
  have h1 : GroupLoopInv tiles s0 (st.numbersObject.current.tileCount + 1)
      { st with
        numbersObject :=
          { st.numbersObject with
            current := { st.numbersObject.current with
              tileCount := st.numbersObject.current.tileCount + 1 } }
        tileGroup := ((1 <<< (st.numbersObject.current.tileCount + 1)) % 2 ^ 32) - 1 } E :=
    { solve :=
        { arena := h.solve.arena.next_tile_count 0
          final_eq := h.solve.final_eq
          complexityMax_eq := h.solve.complexityMax_eq
          operationSize_eq := h.solve.operationSize_eq
          operationIdSize_eq := h.solve.operationIdSize_eq
          length := h.solve.length
          groups := h.solve.groups }
      tileCount := rfl
      tileGroup_pos := hf2
      recorded := fun _ => h.recorded hab
      built := fun _ => h.built hab
      before := fun _ m hm1 _ hm3 => by
        have := hf4 m hm1
        omega
      popCount_eq := fun _ _ => hf1 }
  obtain ⟨st2, E2, hb2, hinv2, _⟩ := NumbersSolve.buildGroup_inv tiles hN s0 _ _ E h1
    (lt_of_lt_of_le hf3 hpowle) hab
  -- the other turns
  have hloop := whileEvents_inv
    (fun st => decide (st.tileGroup < 2 ^ tiles.length) && !st.numbersObject.solution.aborted)
    NumbersSolve.buildGroup (fun st => [st])
    (fun st' => ∃ E', GroupLoopInv tiles s0 (st.numbersObject.current.tileCount + 1) st' E')
    (fun st' => BuildInv tiles s0 st')
    (fun st' => 2 ^ tiles.length - st'.tileGroup)
    (by
      rintro st3 ⟨E3, hinv3⟩ hcond
      simp only [Bool.and_eq_true, decide_eq_true_eq, Bool.not_eq_true'] at hcond
      obtain ⟨st4, E4, hb4, hinv4, hg4⟩ := NumbersSolve.buildGroup_inv tiles hN s0 _ st3 E3
        hinv3 hcond.1 hcond.2
      refine ⟨⟨st4, hb4, ⟨E4, hinv4⟩, ?_⟩, ?_⟩
      · have hg256 : st3.tileGroup < 256 := lt_of_lt_of_le hcond.1 (two_pow_le_256 hN)
        have := (nextTileGroup_spec st3.tileGroup hg256 hinv3.tileGroup_pos).1
        show 2 ^ tiles.length - st4.tileGroup < 2 ^ tiles.length - st3.tileGroup
        rw [hg4]
        have := hcond.1
        omega
      · intro e he
        rw [List.mem_singleton] at he
        rw [he]
        have htc := hinv3.tileCount
        refine ⟨E3, ?_, hcond.1, hcond.2, by omega, by omega⟩
        rw [htc]
        exact hinv3)
    (2 ^ tiles.length) st2 ⟨E2, hinv2⟩
    (by
      have := hinv2.tileGroup_pos
      have : 0 < 2 ^ tiles.length := Nat.pos_pow_of_pos _ (by norm_num)
      show 2 ^ tiles.length - st2.tileGroup < 2 ^ tiles.length
      omega)
  obtain ⟨_, hq5⟩ := hloop
  intro st' hst'
  unfold NumbersSolve.nextTileCountBuilds at hst'
  simp only [] at hst'
  rw [hb2] at hst'
  simp only [List.mem_cons] at hst'
  rcases hst' with hv | hv
  · rw [hv]
    exact ⟨E, h1, lt_of_lt_of_le hf3 hpowle, hab, by
      show 2 ≤ st.numbersObject.current.tileCount + 1
      omega, hlt⟩
  · exact hq5 st' hv

/-- During a solve on a well-formed object and at most 8 tiles, every operation
group of two tiles or more is started in order. -/
theorem NumbersSolve.search_builds (s : NumbersStruct) (hwf : s.WellFormed) (target : Nat)
    (tiles : List Nat) (complexity : Option Nat) (htiles : ∀ t ∈ tiles, t < 2 ^ 32)
    (hN : tiles.length ≤ 8) :
    ∀ st ∈ NumbersSolve.builds s target tiles complexity,
      BuildInv tiles (NumbersSolve.init s target tiles complexity) st := by
  have hsize := operationGroupSize_eq tiles.length (by omega)
  -- the first loop
  have h1 := foldl_range_inv
    (fun j st => ∃ E, TilesInv tiles (NumbersSolve.init s target tiles complexity) j st E)
    (NumbersSolve.recordTile tiles)
    { numbersObject := NumbersSolve.init s target tiles complexity
      operationGroups := List.replicate ((1 <<< tiles.length) % 2 ^ 16) none
      tileGroup := 0 }
    tiles.length
    (fun j st hj hT => NumbersSolve.recordTile_inv tiles htiles hN _ j st hj hT)
    ⟨_, NumbersSolve.init_inv s hwf target tiles complexity hN⟩
  obtain ⟨E1, h1⟩ := h1
  have hfin : (NumbersSolve.init s target tiles complexity).final.tileCount
      = tiles.length := rfl
  generalize hst1 : (List.range tiles.length).foldl (NumbersSolve.recordTile tiles)
    { numbersObject := NumbersSolve.init s target tiles complexity
      operationGroups := List.replicate ((1 <<< tiles.length) % 2 ^ 16) none
      tileGroup := 0 } = st1 at h1
  have h2 : SearchInv tiles (NumbersSolve.init s target tiles complexity) st1 E1 :=
    { solve := h1.solve
      tileCount_pos := by rw [h1.tileCount]
      recorded := fun hab => ⟨by rw [h1.last_eq hab], fun i hi =>
        h1.leaves i (by rw [h1.last_eq hab]; exact hi)⟩
      built := fun _ m hm1 hm2 hm3 => by
        rw [h1.tileCount] at hm3
        have hm256 : m < 256 := lt_of_lt_of_le hm2 (two_pow_le_256 hN)
        have hpos := popCount_pos m hm256 hm1
        obtain ⟨t, ht8, hmt⟩ := popCount_one m hm256 (by omega)
        have hpow := (popCount_shift t ht8).2.1
        have htN : t < tiles.length := by
          rw [hmt, hpow] at hm2
          exact (Nat.pow_lt_pow_iff_right (by norm_num)).mp hm2
        rw [hmt]
        exact h1.groups t htN }
  -- the second loop
  have hloop := whileEvents_inv
    (fun st => decide (st.numbersObject.current.tileCount < st.numbersObject.final.tileCount)
      && decide (st.numbersObject.solution.targetDiff ≠ 0)
      && !st.numbersObject.solution.aborted)
    (NumbersSolve.nextTileCount ((1 <<< tiles.length) % 2 ^ 16))
    (NumbersSolve.nextTileCountBuilds ((1 <<< tiles.length) % 2 ^ 16))
    (fun st => ∃ E, SearchInv tiles (NumbersSolve.init s target tiles complexity) st E)
    (fun st => BuildInv tiles (NumbersSolve.init s target tiles complexity) st)
    (fun st => tiles.length - st.numbersObject.current.tileCount)
    (by
      rintro st ⟨E, hinv⟩ hcond
      simp only [Bool.and_eq_true, decide_eq_true_eq, Bool.not_eq_true'] at hcond
      have hfin : st.numbersObject.final.tileCount = tiles.length := by
        rw [hinv.solve.final_eq]; rfl
      rw [hfin] at hcond
      rw [hsize]
      obtain ⟨st', E', hb, hinv', htc⟩ := NumbersSolve.nextTileCount_inv tiles hN _ st E hinv
        hcond.1.1 hcond.2
      refine ⟨⟨st', hb, ⟨E', hinv'⟩, ?_⟩,
        NumbersSolve.nextTileCount_builds tiles hN _ st E hinv hcond.1.1 hcond.2⟩
      show tiles.length - st'.numbersObject.current.tileCount
        < tiles.length - st.numbersObject.current.tileCount
      have := hcond.1.1
      omega)
    (tiles.length + 1) st1 ⟨E1, h2⟩
    (by
      show tiles.length - st1.numbersObject.current.tileCount < tiles.length + 1
      omega)
  obtain ⟨_, hq2⟩ := hloop
  intro st hst
  unfold NumbersSolve.builds at hst
  simp only [] at hst
  rw [hfin, hst1] at hst
  exact hq2 st hst

/-- When a group is started in order, the operation groups it reads are
stored: those of all groups with fewer tiles, and so those of every sub-group
and of its complement. -/
theorem BuildInv.stored {tiles : List Nat} {s0 : NumbersStruct} {st : SolveState}
    (h : BuildInv tiles s0 st) (hN : tiles.length ≤ 8) :
    popCount st.tileGroup = st.numbersObject.current.tileCount
    ∧ (∀ m, 0 < m → m < 2 ^ tiles.length →
        popCount m < st.numbersObject.current.tileCount →
        ∃ grp, st.operationGroups.getD m none = some grp)
    ∧ (∀ m, 0 < m → m < st.tileGroup →
        popCount m = st.numbersObject.current.tileCount →
        ∃ grp, st.operationGroups.getD m none = some grp)
    ∧ ∀ tileSubGroup ∈ tileSubGroups st.tileGroup st.numbersObject.current.tileCount,
        ∃ operationGroupA operationGroupB,
          st.operationGroups.getD tileSubGroup none = some operationGroupA
          ∧ st.operationGroups.getD (st.tileGroup - tileSubGroup) none
            = some operationGroupB := by
  obtain ⟨E, hinv, hg, hab, hk2, hkN⟩ := h
  have hpc := hinv.popCount_eq hab hg
  have hbuilt : ∀ m, 0 < m → m < 2 ^ tiles.length →
      popCount m < st.numbersObject.current.tileCount →
      ∃ grp, st.operationGroups.getD m none = some grp :=
    fun m hm1 hm2 hm3 => hinv.built hab m hm1 hm2 (by omega)
  refine ⟨hpc, hbuilt, fun m _ hm2 hm3 => hinv.before hab m hm2 (by omega) hm3, ?_⟩
  intro sub hsub
  rw [← hpc] at hsub
  have hg256 : st.tileGroup < 256 := lt_of_lt_of_le hg (two_pow_le_256 hN)
  obtain ⟨h1, h2, h3, h4⟩ := tileSubGroups_spec st.tileGroup hg256 sub hsub
  have hsum := popCount_lor _ _ h3
  rw [h4] at hsum
  have hpa := popCount_pos sub (by omega) h1
  have hpb := popCount_pos (st.tileGroup - sub) (by omega) (by omega)
  obtain ⟨grpA, hA⟩ := hbuilt sub h1 (by omega) (by omega)
  obtain ⟨grpB, hB⟩ := hbuilt (st.tileGroup - sub) (by omega) (by omega) (by omega)
  exact ⟨grpA, grpB, hA, hB⟩

end Numbers
namespace Numbers

/-! ## The recorder on two objects that agree -/

theorem Live.of_inv {tiles : List Nat} {g : Nat} {s : NumbersStruct} {E : Nat → Expr}
    (h : ArenaInv tiles g s E) (hr : RecordInv s) : Live s :=
  ⟨h.wf, h.last_le, h.solution_lt, hr.index⟩

theorem Alike.symm {s1 s2 : NumbersStruct} (h : Alike s1 s2) : Alike s2 s1 :=
  { final_eq := h.final_eq.symm
    operationSize_eq := h.operationSize_eq.symm
    operationIdSize_eq := h.operationIdSize_eq.symm
    tileCount_eq := h.tileCount_eq.symm
    complexityMax_eq := h.complexityMax_eq.symm
    last_eq := h.last_eq.symm
    aborted_eq := h.aborted_eq.symm
    solution_eq := h.solution_eq.symm
    best_eq := fun hlt => by
      have := h.best_eq (by rw [h.solution_eq, h.operationSize_eq]; exact hlt)
      exact ⟨this.1.symm, this.2.symm⟩
    records := fun i hi => by
      obtain ⟨a, b, c, d, e⟩ := h.records i (by rw [h.last_eq]; exact hi)
      refine ⟨a.symm, b.symm, c.symm, d.symm, fun hn => ?_⟩
      obtain ⟨e1, e2⟩ := e (by rw [b]; exact hn)
      exact ⟨e1.symm, e2.symm⟩ }

/-- The search of a result gives the same on two objects that agree. -/
theorem SearchOperation_alike {s1 s2 : NumbersStruct} (h : Alike s1 s2)
    (hfirst : s1.current.operationIdFirst = s2.current.operationIdFirst)
    (h1 : Live s1) (h2 : Live s2) (result : Nat) :
    SearchOperation s1 result = SearchOperation s2 result := by
  have key : ∀ (a b : NumbersStruct), Alike a b →
      a.current.operationIdFirst = b.current.operationIdFirst → Live b →
      SearchOperation a result ≠ a.current.operationIdLast →
      SearchOperation b result = SearchOperation a result := by
    intro a b hab hf hb hne
    have hlt : result < a.operationIdSize := by
      by_contra hge
      apply hne
      unfold SearchOperation
      rw [if_neg hge]
    rcases SearchOperation_cases a result with hs | ⟨c1, c2, c3⟩
    · exact absurd hs hne
    · have hres := (hab.records _ c2).1
      rw [c3] at hres
      have := SearchOperation_indexed b hb.index (SearchOperation a result)
        (by rw [← hf]; exact c1) (by rw [← hab.last_eq]; exact c2)
        (by rw [← hres, ← hab.operationIdSize_eq]; exact hlt)
      rw [← hres] at this
      exact this
  by_cases hne1 : SearchOperation s1 result = s1.current.operationIdLast
  · by_cases hne2 : SearchOperation s2 result = s2.current.operationIdLast
    · rw [hne1, hne2, h.last_eq]
    · have := key s2 s1 h.symm hfirst.symm h1 hne2
      rw [this]
  · exact (key s1 s2 h hfirst h2 hne1).symm

/-- The recorder classifies a candidate in the same way on two objects that
agree. -/
theorem RecordOperation.classify_alike {s1 s2 : NumbersStruct} (h : Alike s1 s2)
    (hfirst : s1.current.operationIdFirst = s2.current.operationIdFirst)
    (h1 : Live s1) (h2 : Live s2) (result complexity : Nat) :
    RecordOperation.classify s1 result complexity
      = RecordOperation.classify s2 result complexity := by
  have hsearch := SearchOperation_alike h hfirst h1 h2 result
  unfold RecordOperation.classify
  dsimp only
  rw [← hsearch, ← h.final_eq, ← h.solution_eq, ← h.operationSize_eq, ← h.tileCount_eq,
    ← h.last_eq]
  by_cases hsol : s1.solution.operationId ≥ s1.operationSize
  · rw [if_pos (Or.inr hsol), if_pos (Or.inr hsol)]
  · have hlt : s1.solution.operationId < s1.operationSize := by omega
    obtain ⟨hd, ht⟩ := h.best_eq hlt
    have hbest := (h.records _ (h1.solution_lt hlt)).2.2.2.1
    rw [← hd, ← ht, ← hbest]
    have hfound : SearchOperation s1 result ≠ s1.current.operationIdLast →
        (s1.operation (SearchOperation s1 result)).complexity
          = (s2.operation (SearchOperation s1 result)).complexity := by
      intro hne
      rcases SearchOperation_cases s1 result with hs | ⟨_, c2, _⟩
      · exact absurd hs hne
      · exact (h.records _ c2).2.2.2.1
    by_cases hs : SearchOperation s1 result = s1.current.operationIdLast
    · simp only [hs, if_true]
    · rw [← hfound hs]

end Numbers
namespace Numbers

theorem Alike.abort {s1 s2 : NumbersStruct} (h : Alike s1 s2) :
    Alike (RecordOperation.abort s1) (RecordOperation.abort s2) :=
  { final_eq := h.final_eq
    operationSize_eq := h.operationSize_eq
    operationIdSize_eq := h.operationIdSize_eq
    tileCount_eq := h.tileCount_eq
    complexityMax_eq := h.complexityMax_eq
    last_eq := h.last_eq
    aborted_eq := rfl
    solution_eq := h.solution_eq
    best_eq := h.best_eq
    records := fun i hi => by
      rw [RecordOperation.abort_operation, RecordOperation.abort_operation]
      exact h.records i hi }

theorem Alike.append {s1 s2 : NumbersStruct} (h : Alike s1 s2) (h1 : Live s1) (h2 : Live s2)
    (hlt : s1.current.operationIdLast < s1.operationSize) (op result c : Nat) (best : Bool)
    (hbest : best = false → s1.solution.operationId < s1.operationSize)
    (hlr : op ≠ NOP → s1.current.operationIdLeft = s2.current.operationIdLeft
      ∧ s1.current.operationIdRight = s2.current.operationIdRight) :
    Alike (RecordOperation.append s1 op result c best)
      (RecordOperation.append s2 op result c best) := by
  have hop1 := RecordOperation.append_operation s1 op result c best
    (by rw [h1.wf.2.2.2.2.1]; exact hlt)
  have hop2 := RecordOperation.append_operation s2 op result c best
    (by rw [h2.wf.2.2.2.2.1, ← h.operationSize_eq, ← h.last_eq]; exact hlt)
  refine
    { final_eq := h.final_eq
      operationSize_eq := h.operationSize_eq
      operationIdSize_eq := h.operationIdSize_eq
      tileCount_eq := h.tileCount_eq
      complexityMax_eq := h.complexityMax_eq
      last_eq := ?_
      aborted_eq := ?_
      solution_eq := ?_
      best_eq := ?_
      records := ?_ }
  · show s1.current.operationIdLast + 1 = s2.current.operationIdLast + 1
    rw [h.last_eq]
  · cases best with
    | true => exact h.aborted_eq
    | false => exact h.aborted_eq
  · cases best with
    | true => exact h.last_eq
    | false => exact h.solution_eq
  · cases best with
    | true =>
      intro _
      show targetDiffOf s1.final.target result = targetDiffOf s2.final.target result
        ∧ s1.current.tileCount = s2.current.tileCount
      rw [h.final_eq, h.tileCount_eq]
      exact ⟨rfl, rfl⟩
    | false =>
      intro _
      exact h.best_eq (hbest rfl)
  · intro i hi
    have hi' : i < s1.current.operationIdLast + 1 := hi
    rw [hop1 i, hop2 i, ← h.last_eq]
    by_cases hil : i = s1.current.operationIdLast
    · rw [if_pos hil, if_pos hil]
      exact ⟨rfl, rfl, rfl, rfl, hlr⟩
    · rw [if_neg hil, if_neg hil]
      exact h.records i (by omega)

theorem Alike.update {s1 s2 : NumbersStruct} (h : Alike s1 s2) (h1 : Live s1) (h2 : Live s2)
    (j : Nat) (hj : j < s1.current.operationIdLast) (op c : Nat)
    (hlr : op ≠ NOP → s1.current.operationIdLeft = s2.current.operationIdLeft
      ∧ s1.current.operationIdRight = s2.current.operationIdRight) :
    Alike (RecordOperation.update s1 j op c) (RecordOperation.update s2 j op c) := by
  have hop1 := RecordOperation.update_operation s1 j op c
    (by rw [h1.wf.2.2.2.2.1]; have := h1.last_le; omega)
  have hop2 := RecordOperation.update_operation s2 j op c
    (by
      rw [h2.wf.2.2.2.2.1]
      have := h2.last_le
      have := h.last_eq
      omega)
  refine
    { final_eq := h.final_eq
      operationSize_eq := h.operationSize_eq
      operationIdSize_eq := h.operationIdSize_eq
      tileCount_eq := h.tileCount_eq
      complexityMax_eq := h.complexityMax_eq
      last_eq := h.last_eq
      aborted_eq := h.aborted_eq
      solution_eq := h.solution_eq
      best_eq := h.best_eq
      records := ?_ }
  intro i hi
  have hi' : i < s1.current.operationIdLast := hi
  rw [hop1 i, hop2 i]
  by_cases hij : i = j
  · rw [if_pos hij, if_pos hij]
    obtain ⟨a, _, b, _, _⟩ := h.records j hj
    exact ⟨a, rfl, b, rfl, hlr⟩
  · rw [if_neg hij, if_neg hij]
    exact h.records i hi'

/-- A call of the recorder leaves the start of the current group alone. -/
theorem RecordOperation_first (s : NumbersStruct) (op result c : Nat) :
    (RecordOperation s op result c).current.operationIdFirst = s.current.operationIdFirst := by
  rcases RecordOperation_cases s op result c with he | ⟨he, _⟩ | ⟨best, he, _⟩ | ⟨j, best, he, _⟩
  all_goals rw [he]
  all_goals rfl

/-- The same call of the recorder on two objects that agree leaves two objects
that agree. -/
theorem RecordOperation_alike {s1 s2 : NumbersStruct} (h : Alike s1 s2)
    (hfirst : s1.current.operationIdFirst = s2.current.operationIdFirst)
    (h1 : Live s1) (h2 : Live s2) (op result c : Nat)
    (hlr : op ≠ NOP → s1.current.operationIdLeft = s2.current.operationIdLeft
      ∧ s1.current.operationIdRight = s2.current.operationIdRight) :
    Alike (RecordOperation s1 op result c) (RecordOperation s2 op result c) := by
  have hcl := RecordOperation.classify_alike h hfirst h1 h2 result c
  unfold RecordOperation
  rw [← hcl, ← h.complexityMax_eq, ← h.last_eq, ← h.operationSize_eq]
  by_cases hmax : c > s1.current.complexityMax
  · rw [if_pos hmax, if_pos hmax]
    exact h
  · rw [if_neg hmax, if_neg hmax]
    cases hc : RecordOperation.classify s1 result c with
    | none => exact h
    | some p =>
      obtain ⟨operationId, best⟩ := p
      dsimp only
      rcases RecordOperation.classify_some s1 result c operationId best hc with hA | hB
      · obtain ⟨hid, _, hnot⟩ := hA
        subst hid
        rw [if_pos rfl, if_pos rfl]
        by_cases hfull : s1.current.operationIdLast ≥ s1.operationSize
        · rw [if_pos hfull, if_pos hfull]
          exact h.abort
        · rw [if_neg hfull, if_neg hfull]
          exact h.append h1 h2 (by omega) op result c best (fun hb => (hnot hb).2) hlr
      · obtain ⟨_, hj2, _⟩ := hB
        rw [if_neg (by omega), if_neg (by omega)]
        exact h.update h1 h2 operationId hj2 op c hlr

/-- The same calls of the recorder made in a row on two objects that agree, on
the same operands: the objects agree after the last call, when every call finds
its object in order. -/
theorem recordCalls_alike : ∀ (offers : List (Nat × Nat × Nat)) (s1 s2 : NumbersStruct),
    (∀ call ∈ recordCalls s1 offers, Live call.numbersObject) →
    (∀ call ∈ recordCalls s2 offers, Live call.numbersObject) →
    Alike s1 s2 →
    s1.current.operationIdFirst = s2.current.operationIdFirst →
    s1.current.operationIdLeft = s2.current.operationIdLeft →
    s1.current.operationIdRight = s2.current.operationIdRight →
    Alike (offers.foldl (fun s o => RecordOperation s o.1 o.2.1 o.2.2) s1)
      (offers.foldl (fun s o => RecordOperation s o.1 o.2.1 o.2.2) s2) := by
  intro offers
  induction offers with
  | nil => intro s1 s2 _ _ h _ _ _; exact h
  | cons o rest ih =>
    intro s1 s2 h1 h2 h hf hl hr
    obtain ⟨op, result, c⟩ := o
    simp only [recordCalls, List.mem_cons, forall_eq_or_imp] at h1 h2
    simp only [List.foldl_cons]
    have hl1 := RecordOperation_left_right s1 op result c
    have hl2 := RecordOperation_left_right s2 op result c
    refine ih _ _ h1.2 h2.2
      (RecordOperation_alike h hf h1.1 h2.1 op result c (fun _ => ⟨hl, hr⟩)) ?_ ?_ ?_
    · rw [RecordOperation_first, RecordOperation_first, hf]
    · rw [hl1.1, hl2.1, hl]
    · rw [hl1.2, hl2.2, hr]

end Numbers
namespace Numbers

/-! ## The combiner on two objects that agree -/

/-- Two loops over the same list whose turns keep a relation between their
states, when the events of every turn are in order, end in related states. -/
theorem foldlEvents_rel {σ α ε : Type} (f1 f2 : σ → α → σ)
    (events1 events2 : σ → α → List ε) (I : ε → Prop) (R : σ → σ → Prop)
    (step : ∀ a b x, (∀ e ∈ events1 a x, I e) → (∀ e ∈ events2 b x, I e) → R a b →
      R (f1 a x) (f2 b x)) :
    ∀ (l : List α) (a b : σ), (∀ e ∈ foldlEvents f1 events1 l a, I e) →
      (∀ e ∈ foldlEvents f2 events2 l b, I e) → R a b → R (l.foldl f1 a) (l.foldl f2 b) := by
  intro l
  induction l with
  | nil => intro a b _ _ h; exact h
  | cons x xs ih =>
    intro a b h1 h2 h
    simp only [foldlEvents, List.mem_append] at h1 h2
    simp only [List.foldl_cons]
    exact ih _ _ (fun e he => h1 e (Or.inr he)) (fun e he => h2 e (Or.inr he))
      (step a b x (fun e he => h1 e (Or.inl he)) (fun e he => h2 e (Or.inl he)) h)

theorem Alike.with_operands {s1 s2 : NumbersStruct} (h : Alike s1 s2) (l r : Nat) :
    Alike { s1 with current := { s1.current with operationIdLeft := l, operationIdRight := r } }
      { s2 with current := { s2.current with operationIdLeft := l, operationIdRight := r } } :=
  ⟨h.final_eq, h.operationSize_eq, h.operationIdSize_eq, h.tileCount_eq, h.complexityMax_eq,
    h.last_eq, h.aborted_eq, h.solution_eq, h.best_eq, h.records⟩

/-- The same turn of the inner loop of the combiner on two objects that agree
leaves two objects that agree. -/
theorem CombineOperationGroups.pair_alike {tiles : List Nat} {g : Nat} (hN : tiles.length ≤ 8)
    (operationIdA operationIdB : Nat) (r1 w1 c1 r2 w2 c2 : Nat) (s1 s2 : NumbersStruct)
    (h1 : ∃ E, PairInv tiles g E ⟨operationIdA, r1, w1, c1, s1, operationIdB⟩)
    (h2 : ∃ E, PairInv tiles g E ⟨operationIdA, r2, w2, c2, s2, operationIdB⟩)
    (h : Alike s1 s2)
    (hfirst : s1.current.operationIdFirst = s2.current.operationIdFirst) :
    Alike (CombineOperationGroups.pair operationIdA r1 w1 c1 s1 operationIdB)
      (CombineOperationGroups.pair operationIdA r2 w2 c2 s2 operationIdB)
    ∧ (CombineOperationGroups.pair operationIdA r1 w1 c1 s1 operationIdB).current.operationIdFirst
      = (CombineOperationGroups.pair operationIdA r2 w2 c2 s2
          operationIdB).current.operationIdFirst := by
  obtain ⟨E1, p1⟩ := h1
  obtain ⟨E2, p2⟩ := h2
  have hcourse1 := PairVisit.calls_course _ hN p1
  have hcourse2 := PairVisit.calls_course _ hN p2
  -- the start of the current group stays
  have hf1 := hcourse1.1
  have hf2 := hcourse2.1
  obtain ⟨_, _, hx1, _⟩ := hf1
  obtain ⟨_, _, hx2, _⟩ := hf2
  refine ⟨?_, by
    have e1 := hx1.first_eq
    have e2 := hx2.first_eq
    simp only [] at e1 e2
    rw [e1, e2]
    exact hfirst⟩
  -- what is read of the two records
  have hA : operationIdA < s1.current.operationIdLast :=
    lt_of_lt_of_le p1.beforeA p1.arena.first_le
  have hB : operationIdB < s1.current.operationIdLast :=
    lt_of_lt_of_le p1.beforeB p1.arena.first_le
  obtain ⟨a1, _, a3, a4, _⟩ := h.records _ hA
  obtain ⟨b1, _, b3, b4, _⟩ := h.records _ hB
  have er : r1 = r2 := by
    have e1 := p1.resultA
    have e2 := p2.resultA
    simp only [] at e1 e2
    rw [e1, e2, a1]
  have ew : w1 = w2 := by
    have e1 := p1.weightA
    have e2 := p2.weightA
    simp only [] at e1 e2
    rw [e1, e2, a3]
  have ec : c1 = c2 := by
    have e1 := p1.complexityA
    have e2 := p2.complexityA
    simp only [] at e1 e2
    rw [e1, e2, a4]
  subst er ew ec
  have hc1 := hcourse1.2
  have hc2 := hcourse2.2
  unfold PairVisit.calls at hc1 hc2
  unfold CombineOperationGroups.pair
  dsimp only at hc1 hc2 ⊢
  rw [← b1, ← b3, ← b4] at hc2 ⊢
  have hmeq := h.complexityMax_eq
  by_cases hmax : (c1 + (s1.operation operationIdB).complexity) % 2 ^ 16
      > s1.current.complexityMax
  · rw [if_pos hmax, if_pos (by rw [← hmeq]; exact hmax)]
    exact h
  · have hmax2 : ¬ (c1 + (s1.operation operationIdB).complexity) % 2 ^ 16
        > s2.current.complexityMax := by rw [← hmeq]; exact hmax
    rw [if_neg hmax] at hc1 ⊢
    rw [if_neg hmax2] at hc2 ⊢
    by_cases hord : r1 ≥ (s1.operation operationIdB).result
    · rw [if_pos hord] at hc1 hc2 ⊢
      rw [if_pos hord, CombineOperationGroups.record_eq, CombineOperationGroups.record_eq]
      exact recordCalls_alike _ _ _
        (fun call hcall => by
          obtain ⟨E', x1, _, x2, _⟩ := hc1 call hcall
          exact Live.of_inv x1 x2)
        (fun call hcall => by
          obtain ⟨E', x1, _, x2, _⟩ := hc2 call hcall
          exact Live.of_inv x1 x2)
        (h.with_operands _ _) hfirst rfl rfl
    · rw [if_neg hord] at hc1 hc2 ⊢
      rw [if_neg hord, CombineOperationGroups.record_eq, CombineOperationGroups.record_eq]
      exact recordCalls_alike _ _ _
        (fun call hcall => by
          obtain ⟨E', x1, _, x2, _⟩ := hc1 call hcall
          exact Live.of_inv x1 x2)
        (fun call hcall => by
          obtain ⟨E', x1, _, x2, _⟩ := hc2 call hcall
          exact Live.of_inv x1 x2)
        (h.with_operands _ _) hfirst rfl rfl

/-- The same turn of the outer loop of the combiner on two objects that
agree. -/
theorem CombineOperationGroups.row_alike {tiles : List Nat} {g : Nat} (hN : tiles.length ≤ 8)
    (operationGroupB : OperationGroup) (operationIdA : Nat) (s1 s2 : NumbersStruct)
    (h1 : ∀ visit ∈ CombineOperationGroups.rowVisits operationGroupB s1 operationIdA,
      ∃ E, PairInv tiles g E visit)
    (h2 : ∀ visit ∈ CombineOperationGroups.rowVisits operationGroupB s2 operationIdA,
      ∃ E, PairInv tiles g E visit)
    (h : Alike s1 s2)
    (hfirst : s1.current.operationIdFirst = s2.current.operationIdFirst) :
    Alike (CombineOperationGroups.row operationGroupB s1 operationIdA)
      (CombineOperationGroups.row operationGroupB s2 operationIdA)
    ∧ (CombineOperationGroups.row operationGroupB s1 operationIdA).current.operationIdFirst
      = (CombineOperationGroups.row operationGroupB s2 operationIdA).current.operationIdFirst := by
  unfold CombineOperationGroups.rowVisits at h1 h2
  unfold CombineOperationGroups.row
  dsimp only at h1 h2 ⊢
  exact foldlEvents_rel _ _ _ _ (fun visit => ∃ E, PairInv tiles g E visit)
    (fun a b => Alike a b ∧ a.current.operationIdFirst = b.current.operationIdFirst)
    (fun a b x ha hb hab =>
      CombineOperationGroups.pair_alike hN operationIdA x _ _ _ _ _ _ a b
        (ha _ (List.mem_singleton.mpr rfl)) (hb _ (List.mem_singleton.mpr rfl)) hab.1 hab.2)
    _ s1 s2 h1 h2 ⟨h, hfirst⟩

/-- The same call of the combiner on two objects that agree leaves two objects
that agree. -/
theorem CombineOperationGroups_alike {tiles : List Nat} {g : Nat} (hN : tiles.length ≤ 8)
    (operationGroupA operationGroupB : OperationGroup) (s1 s2 : NumbersStruct)
    (h1 : ∀ visit ∈ CombineOperationGroups.visits s1 operationGroupA operationGroupB,
      ∃ E, PairInv tiles g E visit)
    (h2 : ∀ visit ∈ CombineOperationGroups.visits s2 operationGroupA operationGroupB,
      ∃ E, PairInv tiles g E visit)
    (h : Alike s1 s2)
    (hfirst : s1.current.operationIdFirst = s2.current.operationIdFirst) :
    Alike (CombineOperationGroups s1 operationGroupA operationGroupB)
      (CombineOperationGroups s2 operationGroupA operationGroupB)
    ∧ (CombineOperationGroups s1 operationGroupA operationGroupB).current.operationIdFirst
      = (CombineOperationGroups s2 operationGroupA operationGroupB).current.operationIdFirst := by
  unfold CombineOperationGroups.visits at h1 h2
  unfold CombineOperationGroups
  exact foldlEvents_rel _ _ _ _ (fun visit => ∃ E, PairInv tiles g E visit)
    (fun a b => Alike a b ∧ a.current.operationIdFirst = b.current.operationIdFirst)
    (fun a b x ha hb hab =>
      CombineOperationGroups.row_alike hN operationGroupB x a b ha hb hab.1 hab.2)
    _ s1 s2 h1 h2 ⟨h, hfirst⟩

end Numbers
namespace Numbers

/-! ## The loops of `NumbersSolve` on two states that agree -/

/-- Two loops with the same body, which may be undefined, over the same list:
when both are defined and every turn keeps a relation between their states,
they end in related states. -/
theorem foldlMEvents_rel {σ α ε : Type} (f : σ → α → Option σ) (events : σ → α → List ε)
    (I : ε → Prop) (R : σ → σ → Prop)
    (step : ∀ a b x a' b', (∀ e ∈ events a x, I e) → (∀ e ∈ events b x, I e) → R a b →
      f a x = some a' → f b x = some b' → R a' b') :
    ∀ (l : List α) (a b a' b' : σ), (∀ e ∈ foldlMEvents f events l a, I e) →
      (∀ e ∈ foldlMEvents f events l b, I e) → R a b →
      l.foldlM f a = some a' → l.foldlM f b = some b' → R a' b' := by
  intro l
  induction l with
  | nil =>
    intro a b a' b' _ _ h e1 e2
    simp only [List.foldlM_nil, pure, Option.some.injEq] at e1 e2
    rw [← e1, ← e2]
    exact h
  | cons x xs ih =>
    intro a b a' b' h1 h2 h e1 e2
    simp only [List.foldlM_cons, bind] at e1 e2
    simp only [foldlMEvents, List.mem_append] at h1 h2
    cases ha : f a x with
    | none => rw [ha] at e1; cases e1
    | some a1 =>
      cases hb : f b x with
      | none => rw [hb] at e2; cases e2
      | some b1 =>
        rw [ha] at e1 h1
        rw [hb] at e2 h2
        exact ih a1 b1 a' b' (fun e he => h1 e (Or.inr he)) (fun e he => h2 e (Or.inr he))
          (step a b x a1 b1 (fun e he => h1 e (Or.inl he)) (fun e he => h2 e (Or.inl he)) h
            ha hb)
          e1 e2

/-- Two runs of the same `while` loop from related states: when both end, and
the condition and every turn respect the relation, they end in related
states. -/
theorem whileEvents_rel {σ ε : Type} (cond : σ → Bool) (body : σ → Option σ)
    (events : σ → List ε) (I : ε → Prop) (R : σ → σ → Prop)
    (hcond : ∀ a b, R a b → cond a = cond b)
    (hbody : ∀ a b a' b', R a b → cond a = true → (∀ e ∈ events a, I e) →
      (∀ e ∈ events b, I e) → body a = some a' → body b = some b' → R a' b') :
    ∀ (fuel : Nat) (a b a' b' : σ), R a b →
      (∀ e ∈ whileEvents cond body events fuel a, I e) →
      (∀ e ∈ whileEvents cond body events fuel b, I e) →
      whileLoop cond body fuel a = some a' → whileLoop cond body fuel b = some b' →
      R a' b' := by
  intro fuel
  induction fuel with
  | zero =>
    intro a b a' b' _ _ _ e1 _
    simp only [whileLoop] at e1
    cases e1
  | succ fuel ih =>
    intro a b a' b' h h1 h2 e1 e2
    have hc := hcond a b h
    unfold whileLoop at e1 e2
    unfold whileEvents at h1 h2
    by_cases hca : cond a = true
    · have hcb : cond b = true := by rw [← hc]; exact hca
      rw [if_pos hca] at e1 h1
      rw [if_pos hcb] at e2 h2
      simp only [List.mem_append] at h1 h2
      cases ha : body a with
      | none => rw [ha] at e1; cases e1
      | some a1 =>
        cases hb : body b with
        | none => rw [hb] at e2; cases e2
        | some b1 =>
          rw [ha] at e1 h1
          rw [hb] at e2 h2
          exact ih a1 b1 a' b'
            (hbody a b a1 b1 h hca (fun e he => h1 e (Or.inl he))
              (fun e he => h2 e (Or.inl he)) ha hb)
            (fun e he => h1 e (Or.inr he)) (fun e he => h2 e (Or.inr he)) e1 e2
    · have hcb : ¬ cond b = true := by rw [← hc]; exact hca
      rw [if_neg hca] at e1
      rw [if_neg hcb] at e2
      simp only [Option.some.injEq] at e1 e2
      rw [← e1, ← e2]
      exact h

/-- The same pair of smaller groups combined on two objects that agree. -/
theorem NumbersSolve.combineSubGroup_alike {tiles : List Nat} (hN : tiles.length ≤ 8)
    (operationGroups : OperationGroups) (tileGroup : Nat) (s1 s2 : NumbersStruct)
    (tileSubGroup : Nat) (s1' s2' : NumbersStruct)
    (h1 : ∀ visit ∈ NumbersSolve.combineSubGroupVisits operationGroups tileGroup s1
      tileSubGroup, ∃ E, VisitInv tiles E visit)
    (h2 : ∀ visit ∈ NumbersSolve.combineSubGroupVisits operationGroups tileGroup s2
      tileSubGroup, ∃ E, VisitInv tiles E visit)
    (h : Alike s1 s2 ∧ s1.current.operationIdFirst = s2.current.operationIdFirst)
    (e1 : NumbersSolve.combineSubGroup operationGroups tileGroup s1 tileSubGroup = some s1')
    (e2 : NumbersSolve.combineSubGroup operationGroups tileGroup s2 tileSubGroup = some s2') :
    Alike s1' s2' ∧ s1'.current.operationIdFirst = s2'.current.operationIdFirst := by
  unfold NumbersSolve.combineSubGroup at e1 e2
  unfold NumbersSolve.combineSubGroupVisits at h1 h2
  have hab := h.1.aborted_eq
  cases hab1 : s1.solution.aborted with
  | true =>
    have hab2 : s2.solution.aborted = true := by rw [← hab]; exact hab1
    simp only [hab1, if_true, Option.some.injEq] at e1
    simp only [hab2, if_true, Option.some.injEq] at e2
    rw [← e1, ← e2]
    exact h
  | false =>
    have hab2 : s2.solution.aborted = false := by rw [← hab]; exact hab1
    simp only [hab1, Bool.false_eq_true, if_false] at e1 h1
    simp only [hab2, Bool.false_eq_true, if_false] at e2 h2
    cases hA : operationGroups.getD tileSubGroup none with
    | none => rw [hA] at e1; cases e1
    | some operationGroupA =>
      cases hB : operationGroups.getD (tileGroup - tileSubGroup) none with
      | none => rw [hA, hB] at e1; cases e1
      | some operationGroupB =>
        rw [hA, hB] at e1 e2 h1 h2
        simp only [Option.some.injEq] at e1 e2
        rw [← e1, ← e2]
        exact CombineOperationGroups_alike hN operationGroupA operationGroupB s1 s2
          (fun visit hv => by
            obtain ⟨E, hE⟩ := h1 ⟨operationGroups, tileGroup, tileSubGroup, visit⟩
              (List.mem_map.mpr ⟨visit, hv, rfl⟩)
            exact ⟨E, hE.pair⟩)
          (fun visit hv => by
            obtain ⟨E, hE⟩ := h2 ⟨operationGroups, tileGroup, tileSubGroup, visit⟩
              (List.mem_map.mpr ⟨visit, hv, rfl⟩)
            exact ⟨E, hE.pair⟩)
          h.1 h.2

theorem Alike.started {s1 s2 : NumbersStruct} (h : Alike s1 s2) :
    Alike s1.startGroup s2.startGroup
    ∧ s1.startGroup.current.operationIdFirst = s2.startGroup.current.operationIdFirst :=
  ⟨⟨h.final_eq, h.operationSize_eq, h.operationIdSize_eq, h.tileCount_eq, h.complexityMax_eq,
    h.last_eq, h.aborted_eq, h.solution_eq, h.best_eq, h.records⟩, h.last_eq⟩

/-- The same operation group built from two states that agree. -/
theorem NumbersSolve.buildGroup_alike {tiles : List Nat} (hN : tiles.length ≤ 8)
    (st1 st2 st1' st2' : SolveState)
    (h1 : ∀ visit ∈ NumbersSolve.buildGroupVisits st1, ∃ E, VisitInv tiles E visit)
    (h2 : ∀ visit ∈ NumbersSolve.buildGroupVisits st2, ∃ E, VisitInv tiles E visit)
    (h : SolveState.Alike st1 st2)
    (e1 : NumbersSolve.buildGroup st1 = some st1')
    (e2 : NumbersSolve.buildGroup st2 = some st2') : SolveState.Alike st1' st2' := by
  obtain ⟨o1, G1, g1⟩ := st1
  obtain ⟨o2, G2, g2⟩ := st2
  obtain ⟨hobj, hG, hg⟩ := h
  simp only [] at hobj hG hg
  subst hG hg
  unfold NumbersSolve.buildGroup at e1 e2
  unfold NumbersSolve.buildGroupVisits at h1 h2
  simp only [] at e1 e2 h1 h2
  have htc : o2.startGroup.current.tileCount = o1.startGroup.current.tileCount :=
    hobj.tileCount_eq.symm
  rw [htc] at e2 h2
  cases hf1 : (tileSubGroups g1 o1.startGroup.current.tileCount).foldlM
      (NumbersSolve.combineSubGroup G1 g1) o1.startGroup with
  | none => rw [hf1] at e1; cases e1
  | some x1 =>
    cases hf2 : (tileSubGroups g1 o1.startGroup.current.tileCount).foldlM
        (NumbersSolve.combineSubGroup G1 g1) o2.startGroup with
    | none => rw [hf2] at e2; cases e2
    | some x2 =>
      rw [hf1] at e1
      rw [hf2] at e2
      simp only [Option.some.injEq] at e1 e2
      have key := foldlMEvents_rel (NumbersSolve.combineSubGroup G1 g1)
        (NumbersSolve.combineSubGroupVisits G1 g1)
        (fun visit => ∃ E, VisitInv tiles E visit)
        (fun a b => Alike a b ∧ a.current.operationIdFirst = b.current.operationIdFirst)
        (fun a b x a' b' ha hb hab ea eb =>
          NumbersSolve.combineSubGroup_alike hN G1 g1 a b x a' b' ha hb hab ea eb)
        _ _ _ x1 x2 h1 h2 hobj.started hf1 hf2
      rw [← e1, ← e2]
      refine ⟨key.1, ?_, rfl⟩
      show G1.set g1 (some ⟨x1.current.operationIdFirst, x1.current.operationIdLast⟩)
        = G1.set g1 (some ⟨x2.current.operationIdFirst, x2.current.operationIdLast⟩)
      rw [key.2, key.1.last_eq]

/-- All groups with one more tile built from two states that agree. -/
theorem NumbersSolve.nextTileCount_alike {tiles : List Nat} (hN : tiles.length ≤ 8)
    (operationGroupSize : Nat) (st1 st2 st1' st2' : SolveState)
    (h1 : ∀ visit ∈ NumbersSolve.nextTileCountVisits operationGroupSize st1,
      ∃ E, VisitInv tiles E visit)
    (h2 : ∀ visit ∈ NumbersSolve.nextTileCountVisits operationGroupSize st2,
      ∃ E, VisitInv tiles E visit)
    (h : SolveState.Alike st1 st2)
    (e1 : NumbersSolve.nextTileCount operationGroupSize st1 = some st1')
    (e2 : NumbersSolve.nextTileCount operationGroupSize st2 = some st2') :
    SolveState.Alike st1' st2' := by
  obtain ⟨o1, G1, g1⟩ := st1
  obtain ⟨o2, G2, g2⟩ := st2
  obtain ⟨hobj, hG, hg⟩ := h
  simp only [] at hobj hG hg
  subst hG hg
  unfold NumbersSolve.nextTileCount at e1 e2
  unfold NumbersSolve.nextTileCountVisits at h1 h2
  simp only [] at e1 e2 h1 h2
  have h0 : SolveState.Alike
      { numbersObject :=
          { o1 with current := { o1.current with tileCount := o1.current.tileCount + 1 } }
        operationGroups := G1
        tileGroup := ((1 <<< (o1.current.tileCount + 1)) % 2 ^ 32) - 1 }
      { numbersObject :=
          { o2 with current := { o2.current with tileCount := o2.current.tileCount + 1 } }
        operationGroups := G1
        tileGroup := ((1 <<< (o2.current.tileCount + 1)) % 2 ^ 32) - 1 } :=
    ⟨⟨hobj.final_eq, hobj.operationSize_eq, hobj.operationIdSize_eq, by
        show o1.current.tileCount + 1 = o2.current.tileCount + 1
        rw [hobj.tileCount_eq], hobj.complexityMax_eq, hobj.last_eq, hobj.aborted_eq,
        hobj.solution_eq, hobj.best_eq, hobj.records⟩, rfl, by
        show ((1 <<< (o1.current.tileCount + 1)) % 2 ^ 32) - 1
          = ((1 <<< (o2.current.tileCount + 1)) % 2 ^ 32) - 1
        rw [hobj.tileCount_eq]⟩
  simp only [List.mem_append] at h1 h2
  cases hb1 : NumbersSolve.buildGroup
      { numbersObject :=
          { o1 with current := { o1.current with tileCount := o1.current.tileCount + 1 } }
        operationGroups := G1
        tileGroup := ((1 <<< (o1.current.tileCount + 1)) % 2 ^ 32) - 1 } with
  | none => rw [hb1] at e1; cases e1
  | some m1 =>
    cases hb2 : NumbersSolve.buildGroup
        { numbersObject :=
            { o2 with current := { o2.current with tileCount := o2.current.tileCount + 1 } }
          operationGroups := G1
          tileGroup := ((1 <<< (o2.current.tileCount + 1)) % 2 ^ 32) - 1 } with
    | none => rw [hb2] at e2; cases e2
    | some m2 =>
      rw [hb1] at e1 h1
      rw [hb2] at e2 h2
      have hm := NumbersSolve.buildGroup_alike hN _ _ m1 m2 (fun e he => h1 e (Or.inl he))
        (fun e he => h2 e (Or.inl he)) h0 hb1 hb2
      exact whileEvents_rel _ NumbersSolve.buildGroup NumbersSolve.buildGroupVisits
        (fun visit => ∃ E, VisitInv tiles E visit) SolveState.Alike
        (fun a b hab => by
          show (decide (a.tileGroup < operationGroupSize) && !a.numbersObject.solution.aborted)
            = (decide (b.tileGroup < operationGroupSize) && !b.numbersObject.solution.aborted)
          rw [hab.tileGroup, hab.object.aborted_eq])
        (fun a b a' b' hab _ ha hb ea eb =>
          NumbersSolve.buildGroup_alike hN a b a' b' ha hb hab ea eb)
        operationGroupSize m1 m2 st1' st2' hm (fun e he => h1 e (Or.inr he))
        (fun e he => h2 e (Or.inr he)) e1 e2

end Numbers
namespace Numbers

/-! ## The search of `NumbersSolve` on two objects of the same capacities -/

/-- After the first loop of `NumbersSolve` the state satisfies the invariant of
the search. -/
theorem NumbersSolve.tiles_inv (s : NumbersStruct) (hwf : s.WellFormed) (target : Nat)
    (tiles : List Nat) (complexity : Option Nat) (htiles : ∀ t ∈ tiles, t < 2 ^ 32)
    (hN : tiles.length ≤ 8) :
    ∃ E, SearchInv tiles (NumbersSolve.init s target tiles complexity)
      ((List.range tiles.length).foldl (NumbersSolve.recordTile tiles)
        { numbersObject := NumbersSolve.init s target tiles complexity
          operationGroups := List.replicate ((1 <<< tiles.length) % 2 ^ 16) none
          tileGroup := 0 }) E := by
  have h1 := foldl_range_inv
    (fun j st => ∃ E, TilesInv tiles (NumbersSolve.init s target tiles complexity) j st E)
    (NumbersSolve.recordTile tiles)
    { numbersObject := NumbersSolve.init s target tiles complexity
      operationGroups := List.replicate ((1 <<< tiles.length) % 2 ^ 16) none
      tileGroup := 0 }
    tiles.length
    (fun j st hj hT => NumbersSolve.recordTile_inv tiles htiles hN _ j st hj hT)
    ⟨_, NumbersSolve.init_inv s hwf target tiles complexity hN⟩
  obtain ⟨E1, h1⟩ := h1
  generalize (List.range tiles.length).foldl (NumbersSolve.recordTile tiles)
    { numbersObject := NumbersSolve.init s target tiles complexity
      operationGroups := List.replicate ((1 <<< tiles.length) % 2 ^ 16) none
      tileGroup := 0 } = st1 at h1 ⊢
  exact ⟨E1,
    { solve := h1.solve
      tileCount_pos := by rw [h1.tileCount]
      recorded := fun hab => ⟨by rw [h1.last_eq hab], fun i hi =>
        h1.leaves i (by rw [h1.last_eq hab]; exact hi)⟩
      built := fun _ m hm1 hm2 hm3 => by
        rw [h1.tileCount] at hm3
        have hm256 : m < 256 := lt_of_lt_of_le hm2 (two_pow_le_256 hN)
        have hpos := popCount_pos m hm256 hm1
        obtain ⟨t, ht8, hmt⟩ := popCount_one m hm256 (by omega)
        have hpow := (popCount_shift t ht8).2.1
        have htN : t < tiles.length := by
          rw [hmt, hpow] at hm2
          exact (Nat.pow_lt_pow_iff_right (by norm_num)).mp hm2
        rw [hmt]
        exact h1.groups t htN }⟩

/-- The same tile recorded from two states that agree. -/
theorem NumbersSolve.recordTile_alike {tiles : List Nat} (st1 st2 : SolveState) (tileId : Nat)
    (h1 : ∃ E, CallInv tiles E ⟨st1.operationGroups, (1 <<< tileId) % 2 ^ 32,
      ⟨st1.numbersObject.startGroup, NOP, tiles.getD tileId 0, 0⟩⟩)
    (h2 : ∃ E, CallInv tiles E ⟨st2.operationGroups, (1 <<< tileId) % 2 ^ 32,
      ⟨st2.numbersObject.startGroup, NOP, tiles.getD tileId 0, 0⟩⟩)
    (h : SolveState.Alike st1 st2) :
    SolveState.Alike (NumbersSolve.recordTile tiles st1 tileId)
      (NumbersSolve.recordTile tiles st2 tileId) := by
  obtain ⟨E1, c1⟩ := h1
  obtain ⟨E2, c2⟩ := h2
  obtain ⟨hobj, hG, hg⟩ := h
  obtain ⟨hs, hf⟩ := hobj.started
  have key := RecordOperation_alike hs hf (Live.of_inv c1.arena c1.records)
    (Live.of_inv c2.arena c2.records) NOP (tiles.getD tileId 0) 0 (fun hn => absurd rfl hn)
  have hfirst : (RecordOperation st1.numbersObject.startGroup NOP (tiles.getD tileId 0)
      0).current.operationIdFirst
      = (RecordOperation st2.numbersObject.startGroup NOP (tiles.getD tileId 0)
        0).current.operationIdFirst := by
    rw [RecordOperation_first, RecordOperation_first]
    exact hf
  unfold NumbersSolve.recordTile
  refine ⟨key, ?_, hg⟩
  show st1.operationGroups.set _ _ = st2.operationGroups.set _ _
  rw [hG, hfirst, key.last_eq]

theorem Alike.at_init (s1 s2 : NumbersStruct) (hsize : s1.operationSize = s2.operationSize)
    (hid : s1.operationIdSize = s2.operationIdSize) (target : Nat) (tiles : List Nat)
    (complexity : Option Nat) :
    Alike (NumbersSolve.init s1 target tiles complexity)
      (NumbersSolve.init s2 target tiles complexity) :=
  { final_eq := rfl
    operationSize_eq := hsize
    operationIdSize_eq := hid
    tileCount_eq := rfl
    complexityMax_eq := rfl
    last_eq := rfl
    aborted_eq := rfl
    solution_eq := hsize
    best_eq := fun hlt => by
      have hlt' : s1.operationSize < s1.operationSize := hlt
      omega
    records := fun i hi => by
      have hi' : i < 0 := hi
      omega }

/-- The searches of `NumbersSolve` on two well-formed objects of the same
capacities, whatever they hold, end in objects that agree. -/
theorem NumbersSolve.search_alike (s1 s2 : NumbersStruct) (hwf1 : s1.WellFormed)
    (hwf2 : s2.WellFormed) (hsize : s1.operationSize = s2.operationSize)
    (hid : s1.operationIdSize = s2.operationIdSize) (target : Nat) (tiles : List Nat)
    (complexity : Option Nat) (htiles : ∀ t ∈ tiles, t < 2 ^ 32) (hN : tiles.length ≤ 8)
    (o1 o2 : NumbersStruct)
    (e1 : NumbersSolve.search s1 target tiles complexity = some o1)
    (e2 : NumbersSolve.search s2 target tiles complexity = some o2) : Alike o1 o2 := by
  have hsz := operationGroupSize_eq tiles.length (by omega)
  obtain ⟨t1, v1, _⟩ := NumbersSolve.search_course s1 hwf1 target tiles complexity htiles hN
  obtain ⟨t2, v2, _⟩ := NumbersSolve.search_course s2 hwf2 target tiles complexity htiles hN
  obtain ⟨F1, i1⟩ := NumbersSolve.tiles_inv s1 hwf1 target tiles complexity htiles hN
  obtain ⟨F2, i2⟩ := NumbersSolve.tiles_inv s2 hwf2 target tiles complexity htiles hN
  have hfin1 : (NumbersSolve.init s1 target tiles complexity).final.tileCount
      = tiles.length := rfl
  have hfin2 : (NumbersSolve.init s2 target tiles complexity).final.tileCount
      = tiles.length := rfl
  unfold NumbersSolve.tileCalls at t1 t2
  unfold NumbersSolve.visits at v1 v2
  unfold NumbersSolve.search at e1 e2
  simp only [] at t1 t2 v1 v2 e1 e2
  rw [hfin1] at t1 v1 e1
  rw [hfin2] at t2 v2 e2
  -- the first loop
  have hloop1 := foldlEvents_rel (NumbersSolve.recordTile tiles) (NumbersSolve.recordTile tiles)
    (fun st tileId =>
      [(⟨st.operationGroups, (1 <<< tileId) % 2 ^ 32,
        ⟨st.numbersObject.startGroup, NOP, tiles.getD tileId 0, 0⟩⟩ : SolveCall)])
    (fun st tileId =>
      [(⟨st.operationGroups, (1 <<< tileId) % 2 ^ 32,
        ⟨st.numbersObject.startGroup, NOP, tiles.getD tileId 0, 0⟩⟩ : SolveCall)])
    (fun call => ∃ E, CallInv tiles E call) SolveState.Alike
    (fun a b x ha hb hab =>
      NumbersSolve.recordTile_alike a b x (ha _ (List.mem_singleton.mpr rfl))
        (hb _ (List.mem_singleton.mpr rfl)) hab)
    (List.range tiles.length) _ _ t1 t2
    ⟨Alike.at_init s1 s2 hsize hid target tiles complexity, rfl, rfl⟩
  generalize (List.range tiles.length).foldl (NumbersSolve.recordTile tiles)
    { numbersObject := NumbersSolve.init s1 target tiles complexity
      operationGroups := List.replicate ((1 <<< tiles.length) % 2 ^ 16) none
      tileGroup := 0 } = a0 at hloop1 i1 v1 e1
  generalize (List.range tiles.length).foldl (NumbersSolve.recordTile tiles)
    { numbersObject := NumbersSolve.init s2 target tiles complexity
      operationGroups := List.replicate ((1 <<< tiles.length) % 2 ^ 16) none
      tileGroup := 0 } = b0 at hloop1 i2 v2 e2
  -- the second loop
  rw [Option.map_eq_some'] at e1 e2
  obtain ⟨a1, ea, rfl⟩ := e1
  obtain ⟨b1, eb, rfl⟩ := e2
  have key := whileEvents_rel
    (fun st => decide (st.numbersObject.current.tileCount < st.numbersObject.final.tileCount)
      && decide (st.numbersObject.solution.targetDiff ≠ 0)
      && !st.numbersObject.solution.aborted)
    (NumbersSolve.nextTileCount ((1 <<< tiles.length) % 2 ^ 16))
    (NumbersSolve.nextTileCountVisits ((1 <<< tiles.length) % 2 ^ 16))
    (fun visit => ∃ E, VisitInv tiles E visit)
    (fun a b => SolveState.Alike a b
      ∧ (∃ E, SearchInv tiles (NumbersSolve.init s1 target tiles complexity) a E)
      ∧ (∃ E, SearchInv tiles (NumbersSolve.init s2 target tiles complexity) b E))
    (by
      rintro a b ⟨hab, ⟨Ea, ia⟩, _⟩
      have hobj := hab.object
      show (decide (a.numbersObject.current.tileCount < a.numbersObject.final.tileCount)
          && decide (a.numbersObject.solution.targetDiff ≠ 0)
          && !a.numbersObject.solution.aborted)
        = (decide (b.numbersObject.current.tileCount < b.numbersObject.final.tileCount)
          && decide (b.numbersObject.solution.targetDiff ≠ 0)
          && !b.numbersObject.solution.aborted)
      rw [← hobj.tileCount_eq, ← hobj.final_eq, ← hobj.aborted_eq]
      cases hA : a.numbersObject.solution.aborted with
      | true => simp
      | false =>
        by_cases hlt : a.numbersObject.current.tileCount < a.numbersObject.final.tileCount
        · have harena := ia.solve.arena
          have hrec := (ia.recorded hA).1
          have hft : a.numbersObject.final.tileCount = tiles.length := harena.final_tileCount
          have hpos := ia.tileCount_pos
          have hsol : a.numbersObject.solution.operationId < a.numbersObject.operationSize := by
            by_contra hc
            have hL : a.numbersObject.current.operationIdLast = 0 :=
              harena.solution_none (by
                show a.numbersObject.operationSize ≤ a.numbersObject.solution.operationId
                omega)
            omega
          rw [(hobj.best_eq hsol).1]
        · simp [hlt])
    (by
      rintro a b a' b' ⟨hab, ⟨Ea, ia⟩, ⟨Eb, ib⟩⟩ hcond ha hb ea' eb'
      simp only [Bool.and_eq_true, decide_eq_true_eq, Bool.not_eq_true'] at hcond
      have hobj := hab.object
      have hfa : a.numbersObject.final.tileCount = tiles.length := ia.solve.arena.final_tileCount
      have hlta : a.numbersObject.current.tileCount < tiles.length := by
        rw [← hfa]; exact hcond.1.1
      have hltb : b.numbersObject.current.tileCount < tiles.length := by
        rw [← hobj.tileCount_eq]; exact hlta
      have haba := hcond.2
      have habb : b.numbersObject.solution.aborted = false := by
        rw [← hobj.aborted_eq]; exact haba
      rw [hsz] at ea' eb'
      obtain ⟨a2, Ea2, hba, ia2, _⟩ := NumbersSolve.nextTileCount_inv tiles hN _ a Ea ia
        hlta haba
      obtain ⟨b2, Eb2, hbb, ib2, _⟩ := NumbersSolve.nextTileCount_inv tiles hN _ b Eb ib
        hltb habb
      have ha2 : a2 = a' := Option.some.inj (hba.symm.trans ea')
      have hb2 : b2 = b' := Option.some.inj (hbb.symm.trans eb')
      rw [ha2] at ia2
      rw [hb2] at ib2
      rw [hsz] at ha hb
      exact ⟨NumbersSolve.nextTileCount_alike hN _ a b a' b' ha hb hab ea' eb',
        ⟨Ea2, ia2⟩, ⟨Eb2, ib2⟩⟩)
    (tiles.length + 1) a0 b0 a1 b1 ⟨hloop1, ⟨F1, i1⟩, ⟨F2, i2⟩⟩ v1 v2 ea eb
  exact key.1.object

end Numbers
namespace Numbers

/-- Two arenas that agree hold the same trees. -/
theorem Alike.trees {tiles : List Nat} {g1 g2 : Nat} {s1 s2 : NumbersStruct}
    {E1 E2 : Nat → Expr} (h : Alike s1 s2) (a1 : ArenaInv tiles g1 s1 E1)
    (a2 : ArenaInv tiles g2 s2 E2) :
    ∀ i, i < s1.current.operationIdLast → E1 i = E2 i := by
  intro i
  induction i using Nat.strong_induction_on with
  | _ i ih =>
    intro hi
    have hi2 : i < s2.current.operationIdLast := by rw [← h.last_eq]; exact hi
    obtain ⟨_, hop, _, _, hlr⟩ := h.records i hi
    by_cases hnop : (s1.operation i).op = NOP
    · rw [(a1.leaf i hi hnop).1, (a2.leaf i hi2 (by rw [← hop]; exact hnop)).1]
    · obtain ⟨_, l1, r1, _, e1⟩ := a1.node i hi hnop
      obtain ⟨_, _, _, _, e2⟩ := a2.node i hi2 (by rw [← hop]; exact hnop)
      obtain ⟨el, er⟩ := hlr hnop
      rw [e1, e2, ← hop, ← el, ← er, ih _ l1 (l1.trans hi), ih _ r1 (r1.trans hi)]

end Numbers

namespace Numbers

/-! ## The claims -/

/-- C1, as stated, fails: for target 0 and the single tile 4294967295
(`UINT32_MAX`) the solver returns `Success` with the empty stream and the
result 4294967295, and the validator, on the same target, tiles and stream,
returns `Success` with `bestResult = 0`. -/
theorem NumbersSolve_sound_counterexample :
    (NumbersSolve (some (NumbersStruct.zeroed 1 1)) 0 (some [4294967295]) none true true).map
        (fun out => (out.error, out.solutionOperations, out.result))
      = some (.Success, some [0], some 4294967295)
    ∧ NumbersValidate 0 (some [4294967295]) (some [0]) true false
      = ⟨.Success, some 0, []⟩ := by
  decide!

/-- C1 (amended) Soundness: for every well-formed object (any capacities),
every 32-bit target, every sequence of at most 8 32-bit tiles and every
complexity bound, `NumbersSolve` returns; and when it returns `Success` and no
record of the arena holds the value `UINT32_MAX` (the validator's mark of a
consumed tile), `NumbersValidate` on the same target, the same tiles and the
emitted stream returns `Success` with `bestResult` equal to the result of the
solver. -/
theorem NumbersSolve_sound (s : NumbersStruct) (hwf : s.WellFormed) (target : Nat)
    (htarget : target < 2 ^ 32) (tiles : List Nat) (htiles : ∀ t ∈ tiles, t < 2 ^ 32)
    (hN : tiles.length ≤ 8) (complexity : Option Nat) (operationHook : Bool) :
    ∃ out s' outOps outResult,
      NumbersSolve (some s) target (some tiles) complexity true true = some out
      ∧ out.numbersObject = some s'
      ∧ out.solutionOperations = some outOps
      ∧ out.result = some outResult
      ∧ (out.error = .Success →
          (∀ i, i < s'.current.operationIdLast → (s'.operation i).result ≠ UINT32_MAX) →
          (NumbersValidate target (some tiles) (some outOps) true operationHook).error
              = .Success
          ∧ (NumbersValidate target (some tiles) (some outOps) true operationHook).bestResult
              = some outResult) := by
  obtain ⟨s', E, hinv, hsolve, htar, _, _, _, hrec, _, hpos⟩ :=
    NumbersSolve_spec s hwf target tiles complexity true true htiles hN
  refine ⟨_, s', _, _, hsolve, rfl, rfl, rfl, ?_⟩
  intro herr hfree
  have hab : s'.solution.aborted = false := by
    cases hab : s'.solution.aborted with
    | false => rfl
    | true => simp [hab] at herr
  by_cases hsol : s'.solution.operationId < s'.operationSize
  · simp only [hsol, if_true]
    have := NumbersValidate_solution hinv (hrec hab) hN
      (show s'.final.target < 2 ^ 32 by rw [htar]; exact htarget) hfree hsol operationHook
    rw [← htar]
    exact this
  · have hN0 : tiles.length = 0 := by
      by_contra hne
      exact hsol (hpos (by omega))
    have ht : tiles = [] := List.length_eq_zero.mp hN0
    subst ht
    simp only [hsol, if_false, List.nil_append]
    constructor <;> rfl

/-- C1 (amended), at a concrete input: capacities 4 and 1, target 4, tiles
2, 2. -/
theorem NumbersSolve_sound_witness :
    ∃ out s' outOps outResult,
      NumbersSolve (some (NumbersStruct.zeroed 4 1)) 4 (some [2, 2]) none true true = some out
      ∧ out.numbersObject = some s'
      ∧ out.solutionOperations = some outOps
      ∧ out.result = some outResult
      ∧ (out.error = .Success →
          (∀ i, i < s'.current.operationIdLast → (s'.operation i).result ≠ UINT32_MAX) →
          (NumbersValidate 4 (some [2, 2]) (some outOps) true false).error = .Success
          ∧ (NumbersValidate 4 (some [2, 2]) (some outOps) true false).bestResult
              = some outResult) :=
  NumbersSolve_sound (NumbersStruct.zeroed 4 1) (by decide) 4 (by decide) [2, 2] (by decide)
    (by decide) none false

/-- C6 Output length: for every call of `NumbersSolve` on a well-formed object
with `N ≤ 8` tiles and an output buffer, the bytes written are at most `N - 1`
non-zero operation bytes followed by one zero byte; so at most `N` bytes are
written when `N ≥ 1`. -/
theorem NumbersSolve_output_length (s : NumbersStruct) (hwf : s.WellFormed) (target : Nat)
    (tiles : List Nat) (htiles : ∀ t ∈ tiles, t < 2 ^ 32) (hN : tiles.length ≤ 8)
    (complexity : Option Nat) (result : Bool) :
    ∃ out bytes,
      NumbersSolve (some s) target (some tiles) complexity true result = some out
      ∧ out.solutionOperations = some (bytes ++ [0])
      ∧ (∀ b ∈ bytes, b ≠ 0)
      ∧ bytes.length ≤ tiles.length - 1
      ∧ (1 ≤ tiles.length → (bytes ++ [0]).length ≤ tiles.length) := by
  obtain ⟨s', E, hinv, hsolve, _, _, _, _, _, _, _⟩ :=
    NumbersSolve_spec s hwf target tiles complexity true result htiles hN
  have hkey : ∀ bytes, bytes = (if s'.solution.operationId < s'.operationSize then
      (E s'.solution.operationId).stream else []) →
      (∀ b ∈ bytes, b ≠ 0) ∧ bytes.length ≤ tiles.length - 1 := by
    intro bytes hb
    by_cases hsol : s'.solution.operationId < s'.operationSize
    · rw [if_pos hsol] at hb
      have hsl := hinv.solution_lt hsol
      have hlt : ∀ t ∈ (E s'.solution.operationId).leaves, t < tiles.length :=
        hinv.leaves_lt _ hsl
      have hnd : (E s'.solution.operationId).leaves.Nodup := hinv.nodup _ hsl
      have hops : (E s'.solution.operationId).opsValid := hinv.ops_valid _ hsl
      refine ⟨fun b hb' => ?_, ?_⟩
      · rw [hb] at hb'
        exact (Expr.stream_spec _ hops hnd
          (fun t ht => lt_of_lt_of_le (hlt t ht) hN) b hb').1
      · have h1 := (E s'.solution.operationId).stream_length
        have h2 := nodup_length_le _ _ hnd hlt
        rw [hb]
        omega
    · rw [if_neg hsol] at hb
      rw [hb]
      exact ⟨fun b hb' => (by cases hb'), Nat.zero_le _⟩
  refine ⟨_, _, hsolve, rfl, (hkey _ rfl).1, (hkey _ rfl).2, ?_⟩
  intro h1
  have := (hkey _ rfl).2
  rw [List.length_append, List.length_singleton]
  omega

/-- C6 at a concrete input: capacities 4 and 1, target 4, tiles 2, 2. -/
theorem NumbersSolve_output_length_witness :
    ∃ out bytes,
      NumbersSolve (some (NumbersStruct.zeroed 4 1)) 4 (some [2, 2]) none true true = some out
      ∧ out.solutionOperations = some (bytes ++ [0])
      ∧ (∀ b ∈ bytes, b ≠ 0)
      ∧ bytes.length ≤ [2, 2].length - 1
      ∧ (1 ≤ [2, 2].length → (bytes ++ [0]).length ≤ [2, 2].length) :=
  NumbersSolve_output_length (NumbersStruct.zeroed 4 1) (by decide) 4 [2, 2] (by decide)
    (by decide) none true

/-- C7 Sentinel unambiguity: the bytes that `GenerateSolution` emits for the
record chosen by `NumbersSolve` are all non-zero: each one names a left and a
right tile index below `N` that differ; hence the first zero byte of the
output is the terminator. -/
theorem GenerateSolution_bytes_nonzero (s : NumbersStruct) (hwf : s.WellFormed)
    (target : Nat) (tiles : List Nat) (htiles : ∀ t ∈ tiles, t < 2 ^ 32)
    (hN : tiles.length ≤ 8) (complexity : Option Nat) (result : Bool) :
    ∃ out s' bytes,
      NumbersSolve (some s) target (some tiles) complexity true result = some out
      ∧ out.numbersObject = some s'
      ∧ out.solutionOperations = some (bytes ++ [0])
      ∧ (s'.solution.operationId < s'.operationSize →
          ∃ tileId, GenerateSolution s' (s'.solution.operationId + 1)
            s'.solution.operationId = some (tileId, bytes))
      ∧ (∀ b ∈ bytes, b ≠ 0 ∧ b &&& 7 < tiles.length ∧ (b >>> 3) &&& 7 < tiles.length
          ∧ b &&& 7 ≠ (b >>> 3) &&& 7)
      ∧ List.indexOf 0 (bytes ++ [0]) = bytes.length := by
  obtain ⟨s', E, hinv, hsolve, _, _, _, _, _, _, _⟩ :=
    NumbersSolve_spec s hwf target tiles complexity true result htiles hN
  have hkey : ∀ b ∈ (if s'.solution.operationId < s'.operationSize then
      (E s'.solution.operationId).stream else []),
      b ≠ 0 ∧ b &&& 7 < tiles.length ∧ (b >>> 3) &&& 7 < tiles.length
        ∧ b &&& 7 ≠ (b >>> 3) &&& 7 := by
    intro b hb
    by_cases hsol : s'.solution.operationId < s'.operationSize
    · rw [if_pos hsol] at hb
      have hsl := hinv.solution_lt hsol
      have hlt : ∀ t ∈ (E s'.solution.operationId).leaves, t < tiles.length :=
        hinv.leaves_lt _ hsl
      have hnd : (E s'.solution.operationId).leaves.Nodup := hinv.nodup _ hsl
      have hops : (E s'.solution.operationId).opsValid := hinv.ops_valid _ hsl
      obtain ⟨h1, h2, h3, h4⟩ := Expr.stream_spec _ hops hnd
        (fun t ht => lt_of_lt_of_le (hlt t ht) hN) b hb
      exact ⟨h1, hlt _ h2, hlt _ h3, h4⟩
    · rw [if_neg hsol] at hb
      cases hb
  refine ⟨_, s', _, hsolve, rfl, rfl, ?_, hkey, ?_⟩
  · intro hsol
    rw [if_pos hsol]
    exact ⟨_, GenerateSolution_eq hinv s' (fun _ => rfl) _ (hinv.solution_lt hsol) _
      (Nat.lt_succ_self _)⟩
  · rw [List.indexOf_append_of_not_mem (fun hmem => (hkey 0 hmem).1 rfl)]
    simp

/-- C7 at a concrete input: capacities 4 and 1, target 4, tiles 2, 2. -/
theorem GenerateSolution_bytes_nonzero_witness :
    ∃ out s' bytes,
      NumbersSolve (some (NumbersStruct.zeroed 4 1)) 4 (some [2, 2]) none true true = some out
      ∧ out.numbersObject = some s'
      ∧ out.solutionOperations = some (bytes ++ [0])
      ∧ (s'.solution.operationId < s'.operationSize →
          ∃ tileId, GenerateSolution s' (s'.solution.operationId + 1)
            s'.solution.operationId = some (tileId, bytes))
      ∧ (∀ b ∈ bytes, b ≠ 0 ∧ b &&& 7 < [2, 2].length ∧ (b >>> 3) &&& 7 < [2, 2].length
          ∧ b &&& 7 ≠ (b >>> 3) &&& 7)
      ∧ List.indexOf 0 (bytes ++ [0]) = bytes.length :=
  GenerateSolution_bytes_nonzero (NumbersStruct.zeroed 4 1) (by decide) 4 [2, 2] (by decide)
    (by decide) none true

/-- C8 Complexity in/out: when `NumbersSolve` is given a complexity bound `m`
and has chosen a record, the complexity it writes back is the stored
complexity of that record and is at most `m`; a record is chosen exactly when
there is at least one tile; with no tiles it writes complexity 0, result 0 and
a stream holding only the terminator. -/
theorem NumbersSolve_complexity (s : NumbersStruct) (hwf : s.WellFormed) (target : Nat)
    (tiles : List Nat) (htiles : ∀ t ∈ tiles, t < 2 ^ 32) (hN : tiles.length ≤ 8)
    (m : Nat) (solutionOperations result : Bool) :
    ∃ out s',
      NumbersSolve (some s) target (some tiles) (some m) solutionOperations result = some out
      ∧ out.numbersObject = some s'
      ∧ (s'.solution.operationId < s'.operationSize ↔ tiles ≠ [])
      ∧ (s'.solution.operationId < s'.operationSize →
          out.complexity = some (s'.operation s'.solution.operationId).complexity
          ∧ (s'.operation s'.solution.operationId).complexity ≤ m)
      ∧ (tiles = [] →
          out.complexity = some 0
          ∧ out.result = (if result then some 0 else none)
          ∧ out.solutionOperations = (if solutionOperations then some [0] else none)) := by
  obtain ⟨s', E, hinv, hsolve, _, hmax, _, _, _, _, hpos⟩ :=
    NumbersSolve_spec s hwf target tiles (some m) solutionOperations result htiles hN
  have hiff : s'.solution.operationId < s'.operationSize ↔ tiles ≠ [] := by
    constructor
    · intro hsol ht
      have h1 : s'.operationSize ≤ s'.solution.operationId :=
        hinv.no_tiles (by rw [ht]; rfl)
      omega
    · intro ht
      apply hpos
      cases tiles with
      | nil => exact absurd rfl ht
      | cons a l => simp
  refine ⟨_, s', hsolve, rfl, hiff, ?_, ?_⟩
  · intro hsol
    simp only [Option.map_some', hsol, if_true, true_and]
    have h1 : (s'.operation s'.solution.operationId).complexity
        ≤ s'.current.complexityMax := hinv.complexity_le _ (hinv.solution_lt hsol)
    have hmax' : s'.current.complexityMax = m := hmax
    rw [hmax'] at h1
    exact h1
  · intro ht
    have hsol : ¬ s'.solution.operationId < s'.operationSize := fun h' => hiff.mp h' ht
    simp only [Option.map_some', hsol, if_false, List.nil_append, true_and]

/-- C8 at a concrete input: capacities 4 and 1, target 4, tiles 2, 2 and the
bound 65535. -/
theorem NumbersSolve_complexity_witness :
    ∃ out s',
      NumbersSolve (some (NumbersStruct.zeroed 4 1)) 4 (some [2, 2]) (some 65535) false false
        = some out
      ∧ out.numbersObject = some s'
      ∧ (s'.solution.operationId < s'.operationSize ↔ [2, 2] ≠ ([] : List Nat))
      ∧ (s'.solution.operationId < s'.operationSize →
          out.complexity = some (s'.operation s'.solution.operationId).complexity
          ∧ (s'.operation s'.solution.operationId).complexity ≤ 65535)
      ∧ ([2, 2] = ([] : List Nat) →
          out.complexity = some 0
          ∧ out.result = (if false then some 0 else none)
          ∧ out.solutionOperations = (if false then some [0] else none)) :=
  NumbersSolve_complexity (NumbersStruct.zeroed 4 1) (by decide) 4 [2, 2] (by decide)
    (by decide) 65535 false false

/-- C9: `NumbersSolve`, given an object and a tile sequence (both non-null),
returns `TooManyTilesError` if and only if there are more than 8 tiles, and in
that case the object is unchanged and nothing is written to any output. -/
theorem NumbersSolve_tooManyTiles (s : NumbersStruct) (target : Nat) (tiles : List Nat)
    (complexity : Option Nat) (solutionOperations result : Bool) :
    ((∃ out, NumbersSolve (some s) target (some tiles) complexity solutionOperations result
          = some out ∧ out.error = .TooManyTilesError) ↔ 8 < tiles.length)
    ∧ (8 < tiles.length →
        NumbersSolve (some s) target (some tiles) complexity solutionOperations result
          = some ⟨.TooManyTilesError, some s, none, none, none⟩) := by
  have hyes : 8 < tiles.length →
      NumbersSolve (some s) target (some tiles) complexity solutionOperations result
        = some ⟨.TooManyTilesError, some s, none, none, none⟩ := by
    intro h
    simp [NumbersSolve, h]
  refine ⟨⟨?_, fun h => ⟨_, hyes h, rfl⟩⟩, hyes⟩
  rintro ⟨out, hout, herr⟩
  by_contra hlen
  simp only [NumbersSolve, gt_iff_lt, hlen, if_false] at hout
  cases hs : NumbersSolve.search s target tiles complexity with
  | none => rw [hs] at hout; cases hout
  | some s1 =>
    rw [hs] at hout
    have := (NumbersSolve.finish_error s1 complexity solutionOperations result out hout).1
    rw [herr] at this
    split_ifs at this

/-- C9 at a concrete input: nine tiles on an object of capacities 4 and 1. -/
theorem NumbersSolve_tooManyTiles_witness :
    NumbersSolve (some (NumbersStruct.zeroed 4 1)) 100 (some [1, 2, 3, 4, 5, 6, 7, 8, 9])
        (some 65535) true true
      = some ⟨.TooManyTilesError, some (NumbersStruct.zeroed 4 1), none, none, none⟩ :=
  (NumbersSolve_tooManyTiles (NumbersStruct.zeroed 4 1) 100 [1, 2, 3, 4, 5, 6, 7, 8, 9]
    (some 65535) true true).2 (by decide)

/-- C10: `NumbersValidate` returns `IncorrectTileIdError` at the first non-zero
operation byte whose left index (bits 0-2) is not below the number of tiles,
or whose right index (bits 3-5) is not below it, or whose two indices are
equal, provided all earlier bytes were accepted (none is zero and the
validator succeeds on them). -/
theorem NumbersValidate_incorrectTileId (target : Nat) (tiles : List Nat)
    (operationHook : Bool) (pre rest : List Nat) (operationEncoded : Nat)
    (hpre0 : ∀ x ∈ pre, x ≠ 0)
    (hpre : (NumbersValidate target (some tiles) (some pre) true operationHook).error
      = .Success)
    (hb : operationEncoded ≠ 0)
    (hbad : operationEncoded &&& 7 ≥ tiles.length
      ∨ (operationEncoded >>> 3) &&& 7 ≥ tiles.length
      ∨ operationEncoded &&& 7 = (operationEncoded >>> 3) &&& 7) :
    (NumbersValidate target (some tiles) (some (pre ++ operationEncoded :: rest)) true
      operationHook).error = .IncorrectTileIdError := by
  rw [NumbersValidate_some] at hpre ⊢
  simp only [] at hpre ⊢
  rw [NumbersValidate.loop_append _ _ _ _ _ _ hpre0 hpre]
  simp [NumbersValidate.loop, hb, NumbersValidate.operation, hbad]

/-- C10 at the input of the specification: target 10, tiles 3, 3 and the
stream 64, 0 (`SUB` with left = right = 0) is rejected with
`IncorrectTileIdError`. -/
theorem NumbersValidate_incorrectTileId_witness :
    (NumbersValidate 10 (some [3, 3]) (some [64, 0]) true false).error
      = .IncorrectTileIdError :=
  NumbersValidate_incorrectTileId 10 [3, 3] false [] [0] 64 (by decide) (by decide)
    (by decide) (by decide)

end Numbers
namespace Numbers

/-- C11: in `NumbersValidate`, after an accepted stream, a `SUB` byte on two
valid, different tiles that are not marked as used is refused with
`NegativeResultError` exactly when the left value is below the right value
(whatever follows the byte); otherwise it is accepted, the hook (if any) gets
`left - right` as the result, and the left tile then holds `left - right`. -/
theorem NumbersValidate_negativeResult (target : Nat) (tiles : List Nat)
    (operationHook : Bool) (pre : List Nat) (operationEncoded valueLeft valueRight : Nat)
    (hpre0 : ∀ x ∈ pre, x ≠ 0)
    (hpre : (NumbersValidate target (some tiles) (some pre) true operationHook).error
      = .Success)
    (hop : operationEncoded >>> 6 = SUB)
    (hleft : operationEncoded &&& 7 < tiles.length)
    (hright : (operationEncoded >>> 3) &&& 7 < tiles.length)
    (hne : operationEncoded &&& 7 ≠ (operationEncoded >>> 3) &&& 7)
    (hvl : (NumbersValidate.loop target tiles.length operationHook
      (NumbersValidate.init target tiles) pre).2.tileValues.getD (operationEncoded &&& 7) 0
        = valueLeft)
    (hvr : (NumbersValidate.loop target tiles.length operationHook
      (NumbersValidate.init target tiles) pre).2.tileValues.getD
        ((operationEncoded >>> 3) &&& 7) 0 = valueRight)
    (hul : valueLeft ≠ UINT32_MAX) (hur : valueRight ≠ UINT32_MAX) :
    ((NumbersValidate target (some tiles) (some (pre ++ [operationEncoded, 0])) true
        operationHook).error = .NegativeResultError ↔ valueLeft < valueRight)
    ∧ (valueLeft < valueRight → ∀ rest,
        (NumbersValidate target (some tiles) (some (pre ++ operationEncoded :: rest)) true
          operationHook).error = .NegativeResultError)
    ∧ (¬ valueLeft < valueRight →
        (NumbersValidate target (some tiles) (some (pre ++ [operationEncoded, 0])) true
          operationHook).error = .Success
        ∧ (NumbersValidate target (some tiles) (some (pre ++ [operationEncoded, 0])) true
            operationHook).hookCalls
          = (NumbersValidate target (some tiles) (some pre) true operationHook).hookCalls
            ++ (if operationHook then
                  [⟨valueLeft, '-', valueRight, valueLeft - valueRight⟩] else [])
        ∧ (NumbersValidate.loop target tiles.length operationHook
            (NumbersValidate.init target tiles) (pre ++ [operationEncoded, 0])).2.tileValues.getD
              (operationEncoded &&& 7) 0 = valueLeft - valueRight) := by
  have hb : operationEncoded ≠ 0 := by
    rintro rfl
    revert hop
    decide
  obtain ⟨herr, hok⟩ := NumbersValidate_next target tiles operationHook pre [0]
    operationEncoded hpre0 hpre hb hleft hright hne valueLeft valueRight hvl hvr hul hur
  have hc : NumbersValidate.compute (operationEncoded >>> 6) valueLeft valueRight =
      if valueLeft < valueRight then .error .NegativeResultError
      else .ok (valueLeft - valueRight, '-') := by
    rw [hop]
    unfold NumbersValidate.compute
    rw [if_neg (by decide), if_neg (by decide), if_pos rfl]
  by_cases hlt : valueLeft < valueRight
  · rw [if_pos hlt] at hc
    refine ⟨⟨fun _ => hlt, fun _ => herr _ hc⟩, fun _ rest => ?_, fun h => absurd hlt h⟩
    exact (NumbersValidate_next target tiles operationHook pre rest operationEncoded hpre0
      hpre hb hleft hright hne valueLeft valueRight hvl hvr hul hur).1 _ hc
  · rw [if_neg hlt] at hc
    obtain ⟨h1, h2, h3⟩ := hok _ _ hc
    refine ⟨⟨fun h => ?_, fun h => absurd h hlt⟩, fun h => absurd h hlt, fun _ => ⟨h1, h2, h3⟩⟩
    rw [h1] at h
    cases h

/-- C11 at the input of the specification: the tiles 5, 3 and the stream 65, 0
(`SUB` with left = 1, right = 0, that is 3 - 5) are refused with
`NegativeResultError`. -/
theorem NumbersValidate_negativeResult_witness :
    (NumbersValidate 10 (some [5, 3]) (some [65, 0]) true false).error
      = .NegativeResultError :=
  (NumbersValidate_negativeResult 10 [5, 3] false [] 65 3 5 (by decide) (by decide)
    (by decide) (by decide) (by decide) (by decide) (by decide) (by decide) (by decide)
    (by decide)).1.mpr (by decide)

/-- C12: in `NumbersValidate`, after an accepted stream, a `DIV` byte (operator
code 3) on two valid, different tiles that are not marked as used is refused
with `DivisionByZeroError` exactly when the right value is 0, with
`RemainderNotNullError` exactly when the right value is not 0 and does not
divide the left value; otherwise it is accepted and the result, given to the
hook (if any) and stored in the left tile, is the quotient `q` with
`q * right = left`. -/
theorem NumbersValidate_division (target : Nat) (tiles : List Nat)
    (htiles : ∀ t ∈ tiles, t < 2 ^ 32)
    (operationHook : Bool) (pre : List Nat) (operationEncoded valueLeft valueRight : Nat)
    (hpre0 : ∀ x ∈ pre, x ≠ 0)
    (hpre : (NumbersValidate target (some tiles) (some pre) true operationHook).error
      = .Success)
    (hop : operationEncoded >>> 6 = DIV)
    (hleft : operationEncoded &&& 7 < tiles.length)
    (hright : (operationEncoded >>> 3) &&& 7 < tiles.length)
    (hne : operationEncoded &&& 7 ≠ (operationEncoded >>> 3) &&& 7)
    (hvl : (NumbersValidate.loop target tiles.length operationHook
      (NumbersValidate.init target tiles) pre).2.tileValues.getD (operationEncoded &&& 7) 0
        = valueLeft)
    (hvr : (NumbersValidate.loop target tiles.length operationHook
      (NumbersValidate.init target tiles) pre).2.tileValues.getD
        ((operationEncoded >>> 3) &&& 7) 0 = valueRight)
    (hul : valueLeft ≠ UINT32_MAX) (hur : valueRight ≠ UINT32_MAX) :
    ((NumbersValidate target (some tiles) (some (pre ++ [operationEncoded, 0])) true
        operationHook).error = .DivisionByZeroError ↔ valueRight = 0)
    ∧ ((NumbersValidate target (some tiles) (some (pre ++ [operationEncoded, 0])) true
        operationHook).error = .RemainderNotNullError
          ↔ valueRight ≠ 0 ∧ ¬ valueRight ∣ valueLeft)
    ∧ (valueRight = 0 → ∀ rest,
        (NumbersValidate target (some tiles) (some (pre ++ operationEncoded :: rest)) true
          operationHook).error = .DivisionByZeroError)
    ∧ (valueRight ≠ 0 → ¬ valueRight ∣ valueLeft → ∀ rest,
        (NumbersValidate target (some tiles) (some (pre ++ operationEncoded :: rest)) true
          operationHook).error = .RemainderNotNullError)
    ∧ (valueRight ≠ 0 → valueRight ∣ valueLeft →
        (NumbersValidate target (some tiles) (some (pre ++ [operationEncoded, 0])) true
          operationHook).error = .Success
        ∧ (NumbersValidate target (some tiles) (some (pre ++ [operationEncoded, 0])) true
            operationHook).hookCalls
          = (NumbersValidate target (some tiles) (some pre) true operationHook).hookCalls
            ++ (if operationHook then
                  [⟨valueLeft, '/', valueRight, valueLeft / valueRight⟩] else [])
        ∧ (NumbersValidate.loop target tiles.length operationHook
            (NumbersValidate.init target tiles) (pre ++ [operationEncoded, 0])).2.tileValues.getD
              (operationEncoded &&& 7) 0 = valueLeft / valueRight
        ∧ valueLeft / valueRight * valueRight = valueLeft) := by
  have hb : operationEncoded ≠ 0 := by
    rintro rfl
    revert hop
    decide
  have hlt : valueLeft < 2 ^ 32 := by
    rw [← hvl]
    apply getD_lt_of_all _ _ _ (by norm_num)
    apply (NumbersValidate.loop_lt target tiles.length operationHook pre
      (NumbersValidate.init target tiles) _ _).1
    · rw [(NumbersValidate.init_spec target tiles).1]
      exact htiles
    · intro o ho
      have : (NumbersValidate.init target tiles).hookCalls = [] := by
        unfold NumbersValidate.init
        apply foldl_inv (fun st : ValidateState => st.hookCalls = [])
        · intro s x _ hs
          unfold CheckResult
          dsimp only
          split_ifs <;> exact hs
        · rfl
      rw [this] at ho
      cases ho
  have hnext := fun rest => NumbersValidate_next target tiles operationHook pre rest
    operationEncoded hpre0 hpre hb hleft hright hne valueLeft valueRight hvl hvr hul hur
  have hc : NumbersValidate.compute (operationEncoded >>> 6) valueLeft valueRight =
      if valueRight = 0 then .error .DivisionByZeroError
      else if ¬ valueRight ∣ valueLeft then .error .RemainderNotNullError
      else .ok (valueLeft / valueRight, '/') := by
    rw [hop]
    unfold NumbersValidate.compute
    rw [if_neg (by decide), if_neg (by decide), if_neg (by decide)]
    by_cases h0 : valueRight = 0
    · rw [if_pos h0, if_pos h0]
    · rw [if_neg h0, if_neg h0]
      have hle : valueRight * (valueLeft / valueRight) ≤ valueLeft := Nat.mul_div_le _ _
      rw [Nat.mod_eq_of_lt (lt_of_le_of_lt hle hlt)]
      by_cases hd : valueRight ∣ valueLeft
      · rw [if_neg (by rw [Nat.mul_div_cancel' hd]; exact fun h => h rfl),
          if_neg (fun h => h hd)]
      · rw [if_pos (fun h => hd (Dvd.intro _ h)), if_pos hd]
  by_cases h0 : valueRight = 0
  · rw [if_pos h0] at hc
    have herr := fun rest => (hnext rest).1 _ hc
    refine ⟨⟨fun _ => h0, fun _ => herr _⟩, ⟨fun h => ?_, fun h => absurd h0 h.1⟩,
      fun _ rest => herr rest, fun h => absurd h0 h, fun h => absurd h0 h⟩
    rw [herr] at h
    cases h
  · rw [if_neg h0] at hc
    by_cases hd : valueRight ∣ valueLeft
    · rw [if_neg (fun h => h hd)] at hc
      obtain ⟨h1, h2, h3⟩ := (hnext [0]).2 _ _ hc
      refine ⟨⟨fun h => ?_, fun h => absurd h h0⟩, ⟨fun h => ?_, fun h => absurd hd h.2⟩,
        fun h => absurd h h0, fun _ h => absurd hd h,
        fun _ _ => ⟨h1, h2, h3, Nat.div_mul_cancel hd⟩⟩
      · rw [h1] at h
        cases h
      · rw [h1] at h
        cases h
    · rw [if_pos hd] at hc
      have herr := fun rest => (hnext rest).1 _ hc
      refine ⟨⟨fun h => ?_, fun h => absurd h h0⟩, ⟨fun _ => ⟨h0, hd⟩, fun _ => herr _⟩,
        fun h => absurd h h0, fun _ _ rest => herr rest, fun _ h => absurd h hd⟩
      rw [herr] at h
      cases h

/-- C12 at a concrete input: the tiles 7, 2 and the stream 200, 0 (`DIV` with
left = 0, right = 1, that is 7 / 2) are refused with `RemainderNotNullError`. -/
theorem NumbersValidate_division_witness :
    (NumbersValidate 10 (some [7, 2]) (some [200, 0]) true false).error
      = .RemainderNotNullError :=
  (NumbersValidate_division 10 [7, 2] (by decide) false [] 200 7 2 (by decide) (by decide)
    (by decide) (by decide) (by decide) (by decide) (by decide) (by decide) (by decide)
    (by decide)).2.1.mpr (by decide)

end Numbers
namespace Numbers

/-- C13, as stated, fails: with the tiles 4294967295 (`UINT32_MAX`) and 1, the
very first byte 8 (`ADD` with left = 0, right = 1, two valid and different
indices) is refused with `TileUsedTwiceError`, although no earlier operation
exists (the hook was never called). -/
theorem NumbersValidate_tileUsedTwice_counterexample :
    NumbersValidate 7 (some [4294967295, 1]) (some [8, 0]) true true
      = ⟨.TileUsedTwiceError, some 1, []⟩ := by
  decide

/-- C13 (amended): when no tile and no result of an accepted operation equals
`UINT32_MAX`, `NumbersValidate` returns `TileUsedTwiceError` if and only if the
stream has a non-zero byte, all bytes before it being accepted, whose two
indices are valid and different and one of which was the right operand of an
earlier accepted operation; and after every accepted operation the left tile
holds the result of that operation (the one given to the hook), which is not
the mark of a used tile. -/
theorem NumbersValidate_tileUsedTwice (target : Nat) (tiles stream : List Nat)
    (operationHook : Bool) (htiles : ∀ t ∈ tiles, t ≠ UINT32_MAX)
    (hres : ∀ o ∈ (NumbersValidate target (some tiles) (some stream) true true).hookCalls,
      o.valueResult ≠ UINT32_MAX) :
    ((NumbersValidate target (some tiles) (some stream) true operationHook).error
        = .TileUsedTwiceError
      ↔ ∃ pre b rest, stream = pre ++ b :: rest ∧ (∀ x ∈ pre, x ≠ 0)
          ∧ (NumbersValidate target (some tiles) (some pre) true operationHook).error
              = .Success
          ∧ b ≠ 0 ∧ b &&& 7 < tiles.length ∧ (b >>> 3) &&& 7 < tiles.length
          ∧ b &&& 7 ≠ (b >>> 3) &&& 7
          ∧ ∃ a ∈ pre, (a >>> 3) &&& 7 = b &&& 7 ∨ (a >>> 3) &&& 7 = (b >>> 3) &&& 7)
    ∧ (∀ pre b rest, stream = pre ++ b :: rest → (∀ x ∈ pre, x ≠ 0) → b ≠ 0 →
        (NumbersValidate target (some tiles) (some (pre ++ [b])) true operationHook).error
          = .Success →
        ∃ o, (NumbersValidate target (some tiles) (some (pre ++ [b])) true true).hookCalls
            = (NumbersValidate target (some tiles) (some pre) true true).hookCalls ++ [o]
          ∧ (NumbersValidate.loop target tiles.length operationHook
              (NumbersValidate.init target tiles) (pre ++ [b])).2.tileValues.getD (b &&& 7) 0
            = o.valueResult
          ∧ o.valueResult ≠ UINT32_MAX) := by
  constructor
  · rw [(NumbersValidate_error_hook target tiles stream operationHook true).1,
      NumbersValidate_marks target tiles stream htiles hres]
    constructor
    · rintro ⟨pre, b, rest, h1, h2, h3, h4⟩
      exact ⟨pre, b, rest, h1, h2,
        by rw [(NumbersValidate_error_hook target tiles pre operationHook true).1]; exact h3,
        h4⟩
    · rintro ⟨pre, b, rest, h1, h2, h3, h4⟩
      exact ⟨pre, b, rest, h1, h2,
        by rw [← (NumbersValidate_error_hook target tiles pre operationHook true).1]; exact h3,
        h4⟩
  · intro pre b rest hs hp0 hb hok
    rw [(NumbersValidate_error_hook target tiles (pre ++ [b]) operationHook true).1] at hok
    obtain ⟨o, h1, h2, h3⟩ := NumbersValidate_left target tiles pre b hp0 hb hok
    refine ⟨o, h1, ?_, hres o (hs ▸ h3 rest)⟩
    rw [(NumbersValidate_error_hook target tiles (pre ++ [b]) operationHook true).2.2]
    exact h2

/-- C13 (amended) at a concrete input: with the tiles 5, 3, 2 the stream
8, 17, 0 (5 + 3, then tile 1 as left operand again) is refused with
`TileUsedTwiceError`. -/
theorem NumbersValidate_tileUsedTwice_witness :
    (NumbersValidate 10 (some [5, 3, 2]) (some [8, 17, 0]) true false).error
      = .TileUsedTwiceError :=
  (NumbersValidate_tileUsedTwice 10 [5, 3, 2] [8, 17, 0] false (by decide)
    (by decide)).1.mpr ⟨[8], 17, [0], rfl, by decide, by decide, by decide, by decide,
      by decide, by decide, 8, by decide, by decide⟩

end Numbers
namespace Numbers

/-- C15 Single tile: for every object with an arena of at least one record
(whatever it holds), every target, every single tile `t` and every complexity
bound, `NumbersSolve` returns `Success`, writes `t` as the result, 0 as the
complexity and a stream made of the final zero only; the distance kept is
`|t - target|`. -/
theorem NumbersSolve_singleTile (s : NumbersStruct) (hwf : s.WellFormed) (target t : Nat)
    (complexity : Option Nat) (solutionOperations result : Bool) :
    ∃ s', NumbersSolve (some s) target (some [t]) complexity solutionOperations result =
        some
          { error := .Success
            numbersObject := some s'
            complexity := complexity.map (fun _ => 0)
            solutionOperations := if solutionOperations then some [0] else none
            result := if result then some t else none }
      ∧ s'.solution.targetDiff = targetDiffOf target t := by
  obtain ⟨s', hph, hsolve⟩ := NumbersSolve_tiles_only s hwf target [t] complexity
    solutionOperations result (by simp) (Or.inl rfl)
  have hb := hph.best (by simp)
  have hid : s'.solution.operationId = 0 := by
    have := hb.1
    simp only [List.length_singleton] at this
    omega
  have hc : ¬ s.operationSize < [t].length := by
    have := hwf.1
    simp only [List.length_singleton]
    omega
  rw [if_neg hc, hid] at hsolve
  refine ⟨s', hsolve, ?_⟩
  rw [hb.2.1, hid]
  rfl

/-- C15 at the inputs of the specification: target 999999999 with the tile 1
gives the result 1 at distance 999999998, on an object of capacities 4 and 1. -/
theorem NumbersSolve_singleTile_witness :
    ∃ s', NumbersSolve (some (NumbersStruct.zeroed 4 1)) 999999999 (some [1]) none true true =
        some ⟨.Success, some s', none, some [0], some 1⟩
      ∧ s'.solution.targetDiff = 999999998 :=
  NumbersSolve_singleTile (NumbersStruct.zeroed 4 1) (by decide) 999999999 1 none true true

/-- C17: on every object with an arena of 4 records and a result index of 1
entry (whatever they hold), `NumbersSolve` for the target 4 and the tiles 2, 2,
with no complexity bound or a bound of at least 1, returns `Success`, writes the
result 4, the complexity 1 and the stream 8, 0; the byte 8 is `ADD` with
left = 0 and right = 1, and `NumbersValidate` reads that stream as the single
operation 2 + 2 = 4. -/
theorem NumbersSolve_complexityProbe (s : NumbersStruct) (hwf : s.WellFormed)
    (hsize : s.operationSize = 4) (hidsize : s.operationIdSize = 1)
    (complexity : Option Nat) (hM : 1 ≤ complexity.getD UINT16_MAX)
    (solutionOperations result : Bool) :
    (NumbersSolve (some s) 4 (some [2, 2]) complexity solutionOperations result).map
        (fun out => (out.error, out.complexity, out.solutionOperations, out.result))
      = some (.Success, complexity.map (fun _ => 1),
          if solutionOperations then some [8, 0] else none,
          if result then some 4 else none)
    ∧ (8 >>> 6 = ADD ∧ 8 &&& 7 = 0 ∧ (8 >>> 3) &&& 7 = 1)
    ∧ NumbersValidate 4 (some [2, 2]) (some [8, 0]) true true
        = ⟨.Success, some 4, [⟨2, '+', 2, 4⟩]⟩ := by
  refine ⟨?_, by decide, by decide⟩
  obtain ⟨final, solution, current, operationIdSize, operationIds, operationSize,
    operations⟩ := s
  obtain ⟨_, _, _, _, hlen, hidlen⟩ := hwf
  simp only at hsize hidsize hlen hidlen
  subst hsize hidsize
  rcases operationIds with _ | ⟨y, _ | ⟨y1, ids⟩⟩
  · simp at hidlen
  · rcases operations with _ | ⟨x0, _ | ⟨x1, _ | ⟨x2, _ | ⟨x3, _ | ⟨x4, ops⟩⟩⟩⟩⟩
    · simp at hlen
    · simp at hlen
    · simp at hlen
    · simp at hlen
    · exact NumbersSolve_two_twos final solution current y x0 x1 x2 x3 complexity hM
        solutionOperations result
    · simp at hlen
  · simp at hidlen

/-- C17 as the benchmark calls it: an object of capacities 4 and 1, the
complexity bound 65535 and no buffer for the stream nor the result; the
complexity written is 1. -/
theorem NumbersSolve_complexityProbe_witness :
    (NumbersSolve (some (NumbersStruct.zeroed 4 1)) 4 (some [2, 2]) (some 65535) false
        false).map
        (fun out => (out.error, out.complexity, out.solutionOperations, out.result))
      = some (.Success, some 1, none, none) :=
  (NumbersSolve_complexityProbe (NumbersStruct.zeroed 4 1) (by decide) rfl rfl (some 65535)
    (by decide) false false).1

/-- C18 Arena exhaustion: for every object whose arena holds `c` records
(`c ≥ 1`, whatever it holds), every target and every sequence of at most 8
positive tiles longer than `c`, `NumbersSolve` returns `AbortedError`, with an
empty stream and the complexity 0, and the result written is not zero: it is
the tile of index `i < c` that is strictly closer to the target than every
tile before it and at least as close as every one of the first `c` tiles. -/
theorem NumbersSolve_arenaExhaustion (s : NumbersStruct) (hwf : s.WellFormed) (target : Nat)
    (tiles : List Nat) (hN : tiles.length ≤ 8) (hpos : ∀ t ∈ tiles, 0 < t)
    (hc : s.operationSize < tiles.length) (complexity : Option Nat)
    (solutionOperations result : Bool) :
    ∃ s' i, NumbersSolve (some s) target (some tiles) complexity solutionOperations result =
        some
          { error := .AbortedError
            numbersObject := some s'
            complexity := complexity.map (fun _ => 0)
            solutionOperations := if solutionOperations then some [0] else none
            result := if result then some (tiles.getD i 0) else none }
      ∧ i < s.operationSize ∧ tiles.getD i 0 ≠ 0
      ∧ (∀ k, k < i →
          targetDiffOf target (tiles.getD i 0) < targetDiffOf target (tiles.getD k 0))
      ∧ (∀ k, k < s.operationSize →
          targetDiffOf target (tiles.getD i 0) ≤ targetDiffOf target (tiles.getD k 0)) := by
  obtain ⟨s', hph, hsolve⟩ := NumbersSolve_tiles_only s hwf target tiles complexity
    solutionOperations result hN (Or.inr hc)
  have hb := hph.best (by omega)
  have hmin : min tiles.length s.operationSize = s.operationSize := by omega
  rw [hmin] at hb
  rw [if_pos hc] at hsolve
  refine ⟨s', s'.solution.operationId, hsolve, hb.1, ?_, hb.2.2.1, hb.2.2.2⟩
  have hlt : s'.solution.operationId < tiles.length := by omega
  rw [List.getD_eq_getElem _ _ hlt]
  exact Nat.pos_iff_ne_zero.mp (hpos _ (List.getElem_mem hlt))

/-- C18 at the input of the specification: an object of capacities 4 and 1,
the tiles 1 to 6 and the target 999. -/
theorem NumbersSolve_arenaExhaustion_witness :
    ∃ s' i, NumbersSolve (some (NumbersStruct.zeroed 4 1)) 999 (some [1, 2, 3, 4, 5, 6]) none
        true true =
        some ⟨.AbortedError, some s', none, some [0], some ([1, 2, 3, 4, 5, 6].getD i 0)⟩
      ∧ i < 4 ∧ [1, 2, 3, 4, 5, 6].getD i 0 ≠ 0
      ∧ (∀ k, k < i → targetDiffOf 999 ([1, 2, 3, 4, 5, 6].getD i 0)
          < targetDiffOf 999 ([1, 2, 3, 4, 5, 6].getD k 0))
      ∧ (∀ k, k < 4 → targetDiffOf 999 ([1, 2, 3, 4, 5, 6].getD i 0)
          ≤ targetDiffOf 999 ([1, 2, 3, 4, 5, 6].getD k 0)) :=
  NumbersSolve_arenaExhaustion (NumbersStruct.zeroed 4 1) (by decide) 999
    [1, 2, 3, 4, 5, 6] (by decide) (by decide) (by decide) none true true

/-- C19 PRNG: `RandomSetSeed` stores `(seed xor 0x5DEECE66D) mod 2^48`; each
`RandomGetValue` replaces the state `x` by `(x * 0x5DEECE66D + 0xB) mod 2^48`,
the exact value (the product is taken modulo `2^64` first, which changes
nothing), and returns that state divided by `2^16`, a 32-bit value (the bits 16
to 47); from the seed 0 the first four values are 3139482720, 3571011896,
1033096058 and 2604232894, the unsigned forms of -1155484576, -723955400,
1033096058 and -1690734402. -/
theorem RandomGetValue_java (r : RandomStruct) (seed x : Nat) :
    RandomSetSeed (some r) seed = some ⟨(seed ^^^ 0x5DEECE66D) % 2 ^ 48⟩
    ∧ RandomGetValue (some ⟨x⟩)
        = ((x * 0x5DEECE66D + 0xB) % 2 ^ 48 / 2 ^ 16,
            some ⟨(x * 0x5DEECE66D + 0xB) % 2 ^ 48⟩)
    ∧ (x * 0x5DEECE66D + 0xB) % 2 ^ 48 / 2 ^ 16 < 2 ^ 32
    ∧ (RandomGetValue (RandomSetSeed (some r) 0)).1 = 3139482720
    ∧ (RandomGetValue (RandomGetValue (RandomSetSeed (some r) 0)).2).1 = 3571011896
    ∧ (RandomGetValue (RandomGetValue (RandomGetValue (RandomSetSeed (some r) 0)).2).2).1
        = 1033096058
    ∧ (RandomGetValue (RandomGetValue (RandomGetValue
        (RandomGetValue (RandomSetSeed (some r) 0)).2).2).2).1 = 2604232894
    ∧ ((3139482720 : Int) - 2 ^ 32 = -1155484576 ∧ (3571011896 : Int) - 2 ^ 32 = -723955400
      ∧ (2604232894 : Int) - 2 ^ 32 = -1690734402) := by
  have hlt : (x * 0x5DEECE66D + 0xB) % 2 ^ 48 / 2 ^ 16 < 2 ^ 32 := by
    apply Nat.div_lt_of_lt_mul
    calc (x * 0x5DEECE66D + 0xB) % 2 ^ 48 < 2 ^ 48 := Nat.mod_lt _ (by norm_num)
      _ = 2 ^ 16 * 2 ^ 32 := by norm_num
  have hseed : RandomSetSeed (some r) 0 = some ⟨25214903917⟩ := rfl
  refine ⟨?_, ?_, hlt, ?_, ?_, ?_, ?_, by norm_num⟩
  · show some (RandomStruct.mk _) = _
    rw [RandomGetValue_mask, Nat.and_pow_two_sub_one_eq_mod]
  · show (_, some (RandomStruct.mk _)) = _
    rw [RandomGetValue_seed, Nat.shiftRight_eq_div_pow, Nat.mod_eq_of_lt hlt]
  · rw [hseed]; decide
  · rw [hseed]; decide
  · rw [hseed]; decide
  · rw [hseed]; decide

/-- C20: for every sequence of tiles and every state of the generator,
`NumbersShuffle` returns `Success` and leaves a permutation of the tiles: the
same number of tiles and the same values with the same multiplicities; a
sequence of 0 or 1 tiles is left as it is and the generator is not used. -/
theorem NumbersShuffle_perm (tiles : List Nat) (r : RandomStruct) :
    ∃ tiles' r', NumbersShuffle (some tiles) (some r) = ⟨.Success, some tiles', r'⟩
      ∧ tiles'.Perm tiles ∧ tiles'.length = tiles.length
      ∧ (∀ a, tiles'.count a = tiles.count a)
      ∧ (tiles.length ≤ 1 → tiles' = tiles ∧ r' = some r) := by
  have hp := NumbersShuffle.loop_perm tiles.length tiles (some r) (le_refl _)
  refine ⟨_, _, rfl, hp, hp.length_eq, fun a => hp.count_eq a, ?_⟩
  intro h1
  rcases tiles with _ | ⟨a, _ | ⟨b, l⟩⟩
  · exact ⟨rfl, rfl⟩
  · exact ⟨rfl, rfl⟩
  · simp at h1

end Numbers
namespace Numbers

/-- C21 Weight table: for every positive `r` other than 1000,
`ComputeResultWeight r` is 0 for `r` in {1, 10, 100}; 1 for 2..9, for 25, for
75, for the multiples of 10 in 11..99 and for the multiples of 100 in
101..999; 3 for the other values in 11..99 and for the other multiples of 10 in
101..999; 5 for the other values in 101..999; 7 for `r > 1000`; one of these
cases applies; and the weight is always one of 0, 1, 3, 5, 7. -/
theorem ComputeResultWeight_table (r : Nat) (hr : 0 < r) (h1000 : r ≠ 1000) :
    (r = 1 ∨ r = 10 ∨ r = 100 → ComputeResultWeight r = 0)
    ∧ ((2 ≤ r ∧ r ≤ 9) ∨ r = 25 ∨ r = 75 ∨ (11 ≤ r ∧ r ≤ 99 ∧ r % 10 = 0)
        ∨ (101 ≤ r ∧ r ≤ 999 ∧ r % 100 = 0) → ComputeResultWeight r = 1)
    ∧ ((11 ≤ r ∧ r ≤ 99 ∧ r % 10 ≠ 0 ∧ r ≠ 25 ∧ r ≠ 75)
        ∨ (101 ≤ r ∧ r ≤ 999 ∧ r % 10 = 0 ∧ r % 100 ≠ 0) → ComputeResultWeight r = 3)
    ∧ (101 ≤ r ∧ r ≤ 999 ∧ r % 10 ≠ 0 → ComputeResultWeight r = 5)
    ∧ (1000 < r → ComputeResultWeight r = 7)
    ∧ ((r = 1 ∨ r = 10 ∨ r = 100)
        ∨ ((2 ≤ r ∧ r ≤ 9) ∨ r = 25 ∨ r = 75 ∨ (11 ≤ r ∧ r ≤ 99 ∧ r % 10 = 0)
          ∨ (101 ≤ r ∧ r ≤ 999 ∧ r % 100 = 0))
        ∨ ((11 ≤ r ∧ r ≤ 99 ∧ r % 10 ≠ 0 ∧ r ≠ 25 ∧ r ≠ 75)
          ∨ (101 ≤ r ∧ r ≤ 999 ∧ r % 10 = 0 ∧ r % 100 ≠ 0))
        ∨ (101 ≤ r ∧ r ≤ 999 ∧ r % 10 ≠ 0)
        ∨ 1000 < r)
    ∧ ComputeResultWeight r ∈ [0, 1, 3, 5, 7] := by
  unfold ComputeResultWeight
  refine ⟨?_, ?_, ?_, ?_, ?_, ?_, ?_⟩
  · intro h; split_ifs <;> omega
  · intro h; split_ifs <;> omega
  · intro h; split_ifs <;> omega
  · intro h; split_ifs <;> omega
  · intro h; split_ifs <;> omega
  · omega
  · split_ifs <;> simp

/-- C21 at `r = 25`: the weight is 1. -/
theorem ComputeResultWeight_table_witness : ComputeResultWeight 25 = 1 :=
  (ComputeResultWeight_table 25 (by decide) (by decide)).2.1 (Or.inr (Or.inl rfl))

/-- C23 Integer width of the complexity: for every well-formed object and
every input of `N ≤ 8` 32-bit tiles, at every turn of the inner loop of
`CombineOperationGroups` during `NumbersSolve`, the sum
`complexityA + complexityB`, the product `weightA * weightB` and each
per-operator total (for ADD, SUB, MUL or DIV, and for the DIV of two equal
operands), computed without any reduction, are at most
`(N - 1) * 2401 ≤ 16807 < 2 ^ 16`: the 16-bit arithmetic never wraps. -/
theorem NumbersSolve_complexity_width (s : NumbersStruct) (hwf : s.WellFormed) (target : Nat)
    (tiles : List Nat) (htiles : ∀ t ∈ tiles, t < 2 ^ 32) (hN : tiles.length ≤ 8)
    (complexity : Option Nat) :
    ∀ visit ∈ NumbersSolve.visits s target tiles complexity,
      visit.pair.complexityA
          + (visit.pair.numbersObject.operation visit.pair.operationIdB).complexity
        ≤ (tiles.length - 1) * 2401
      ∧ visit.pair.complexityA
          + (visit.pair.numbersObject.operation visit.pair.operationIdB).complexity
          + min visit.pair.weightA
              (visit.pair.numbersObject.operation visit.pair.operationIdB).weight
        ≤ (tiles.length - 1) * 2401
      ∧ visit.pair.complexityA
          + (visit.pair.numbersObject.operation visit.pair.operationIdB).complexity
          + (visit.pair.weightA
              + (visit.pair.numbersObject.operation visit.pair.operationIdB).weight) / 2
        ≤ (tiles.length - 1) * 2401
      ∧ visit.pair.weightA
          * (visit.pair.numbersObject.operation visit.pair.operationIdB).weight ≤ 49
      ∧ visit.pair.complexityA
          + (visit.pair.numbersObject.operation visit.pair.operationIdB).complexity
          + (visit.pair.weightA
              * (visit.pair.numbersObject.operation visit.pair.operationIdB).weight) ^ 2
        ≤ (tiles.length - 1) * 2401
      ∧ visit.pair.complexityA
          + (visit.pair.numbersObject.operation visit.pair.operationIdB).complexity + 1
        ≤ (tiles.length - 1) * 2401
      ∧ (tiles.length - 1) * 2401 ≤ 16807 ∧ 16807 < 2 ^ 16 := by
  intro visit hvisit
  obtain ⟨E, hv⟩ := (NumbersSolve.search_course s hwf target tiles complexity htiles hN).2.1 visit
    hvisit
  obtain ⟨hwA, hwB, hc, htc, _, _⟩ := hv.pair.bounds
  have hmul : visit.pair.weightA
      * (visit.pair.numbersObject.operation visit.pair.operationIdB).weight ≤ 49 := by
    calc visit.pair.weightA
          * (visit.pair.numbersObject.operation visit.pair.operationIdB).weight
        ≤ 7 * 7 := Nat.mul_le_mul hwA hwB
      _ = 49 := by norm_num
  have hsq : (visit.pair.weightA
      * (visit.pair.numbersObject.operation visit.pair.operationIdB).weight) ^ 2 ≤ 2401 := by
    calc (visit.pair.weightA
          * (visit.pair.numbersObject.operation visit.pair.operationIdB).weight) ^ 2
        ≤ 49 ^ 2 := Nat.pow_le_pow_left hmul 2
      _ = 2401 := by norm_num
  have h1 : 2401 * visit.pair.numbersObject.current.tileCount ≤ 2401 * tiles.length :=
    Nat.mul_le_mul_left _ htc
  have hN1 : 1 ≤ tiles.length := by omega
  have h2 : (tiles.length - 1) * 2401 + 2401 = 2401 * tiles.length := by
    obtain ⟨n, hn⟩ : ∃ n, tiles.length = n + 1 := ⟨tiles.length - 1, by omega⟩
    rw [hn]
    simp only [Nat.add_sub_cancel]
    ring
  have h3 : (tiles.length - 1) * 2401 ≤ 16807 := by
    have : (tiles.length - 1) * 2401 ≤ 7 * 2401 := Nat.mul_le_mul_right _ (by omega)
    omega
  have hmin : min visit.pair.weightA
      (visit.pair.numbersObject.operation visit.pair.operationIdB).weight ≤ 7 :=
    le_trans (Nat.min_le_left _ _) hwA
  refine ⟨by omega, by omega, by omega, hmul, by omega, by omega, h3, by norm_num⟩

set_option maxRecDepth 100000 in
/-- C23 at a concrete input: capacities 4 and 1, target 4, tiles 2, 2, at the
first turn of the inner loop. -/
theorem NumbersSolve_complexity_width_witness :
    ∃ visit ∈ NumbersSolve.visits (NumbersStruct.zeroed 4 1) 4 [2, 2] none,
      visit.pair.complexityA
          + (visit.pair.numbersObject.operation visit.pair.operationIdB).complexity
        ≤ ([2, 2].length - 1) * 2401
      ∧ visit.pair.complexityA
          + (visit.pair.numbersObject.operation visit.pair.operationIdB).complexity
          + min visit.pair.weightA
              (visit.pair.numbersObject.operation visit.pair.operationIdB).weight
        ≤ ([2, 2].length - 1) * 2401
      ∧ visit.pair.complexityA
          + (visit.pair.numbersObject.operation visit.pair.operationIdB).complexity
          + (visit.pair.weightA
              + (visit.pair.numbersObject.operation visit.pair.operationIdB).weight) / 2
        ≤ ([2, 2].length - 1) * 2401
      ∧ visit.pair.weightA
          * (visit.pair.numbersObject.operation visit.pair.operationIdB).weight ≤ 49
      ∧ visit.pair.complexityA
          + (visit.pair.numbersObject.operation visit.pair.operationIdB).complexity
          + (visit.pair.weightA
              * (visit.pair.numbersObject.operation visit.pair.operationIdB).weight) ^ 2
        ≤ ([2, 2].length - 1) * 2401
      ∧ visit.pair.complexityA
          + (visit.pair.numbersObject.operation visit.pair.operationIdB).complexity + 1
        ≤ ([2, 2].length - 1) * 2401
      ∧ ([2, 2].length - 1) * 2401 ≤ 16807 ∧ 16807 < 2 ^ 16 :=
  have hne : NumbersSolve.visits (NumbersStruct.zeroed 4 1) 4 [2, 2] none ≠ [] := by decide!
  ⟨_, List.head_mem hne,
    NumbersSolve_complexity_width (NumbersStruct.zeroed 4 1) (by decide) 4 [2, 2] (by decide)
      (by decide) none _ (List.head_mem hne)⟩

end Numbers
namespace Numbers

/-- C24 Per-operation cost: for every well-formed object and every input of at
most 8 32-bit tiles, at every turn of the inner loop of
`CombineOperationGroups` during `NumbersSolve`, with `cAB` the sum of the
complexities of the two operands and `wa`, `wb` their weights, every call of
the recorder is for ADD, SUB, MUL or DIV, and the complexity it passes is
`cAB + min wa wb` for ADD, `cAB + (wa + wb) / 2` for SUB, `cAB + (wa * wb) ^ 2`
for MUL and for the DIV of two different results, and `cAB + 1` for the DIV of
two equal results (all in exact arithmetic). -/
theorem CombineOperationGroups_cost (s : NumbersStruct) (hwf : s.WellFormed) (target : Nat)
    (tiles : List Nat) (htiles : ∀ t ∈ tiles, t < 2 ^ 32) (hN : tiles.length ≤ 8)
    (complexity : Option Nat) :
    ∀ visit ∈ NumbersSolve.visits s target tiles complexity, ∀ call ∈ visit.pair.calls,
      (call.op = ADD ∨ call.op = SUB ∨ call.op = MUL ∨ call.op = DIV)
      ∧ (call.op = ADD → call.complexity
          = visit.pair.complexityA
            + (visit.pair.numbersObject.operation visit.pair.operationIdB).complexity
            + min visit.pair.weightA
                (visit.pair.numbersObject.operation visit.pair.operationIdB).weight)
      ∧ (call.op = SUB → call.complexity
          = visit.pair.complexityA
            + (visit.pair.numbersObject.operation visit.pair.operationIdB).complexity
            + (visit.pair.weightA
                + (visit.pair.numbersObject.operation visit.pair.operationIdB).weight) / 2)
      ∧ (call.op = MUL → call.complexity
          = visit.pair.complexityA
            + (visit.pair.numbersObject.operation visit.pair.operationIdB).complexity
            + (visit.pair.weightA
                * (visit.pair.numbersObject.operation visit.pair.operationIdB).weight) ^ 2)
      ∧ (call.op = DIV →
          visit.pair.resultA
            ≠ (visit.pair.numbersObject.operation visit.pair.operationIdB).result →
          call.complexity
          = visit.pair.complexityA
            + (visit.pair.numbersObject.operation visit.pair.operationIdB).complexity
            + (visit.pair.weightA
                * (visit.pair.numbersObject.operation visit.pair.operationIdB).weight) ^ 2)
      ∧ (call.op = DIV →
          visit.pair.resultA
            = (visit.pair.numbersObject.operation visit.pair.operationIdB).result →
          call.complexity
          = visit.pair.complexityA
            + (visit.pair.numbersObject.operation visit.pair.operationIdB).complexity + 1) := by
  intro visit hvisit call hcall
  obtain ⟨E, hv⟩ := (NumbersSolve.search_course s hwf target tiles complexity htiles hN).2.1 visit
    hvisit
  obtain ⟨hop, hc⟩ := PairVisit.call_complexity hv.pair hN call hcall
  have hmin : ∀ a b : Nat, (if a < b then a else b) = min a b := by
    intro a b
    split_ifs with h
    · exact (min_eq_left (le_of_lt h)).symm
    · exact (min_eq_right (by omega)).symm
  have hmaxmin : ∀ a b : Nat, max a b = min a b ↔ a = b := by
    intro a b
    constructor
    · intro h
      rcases le_total a b with hab | hab
      · rw [max_eq_right hab, min_eq_left hab] at h; exact h.symm
      · rw [max_eq_left hab, min_eq_right hab] at h; exact h
    · intro h
      rw [h, max_self, min_self]
  refine ⟨?_, ?_, ?_, ?_, ?_, ?_⟩
  · unfold ADD SUB MUL DIV
    omega
  · intro h
    rw [hc, h]
    simp only [operationCost, if_true, hmin]
  · intro h
    rw [hc, h]
    simp [operationCost, ADD, SUB, Nat.shiftRight_eq_div_pow]
  · intro h
    rw [hc, h]
    simp [operationCost, ADD, SUB, MUL, DIV, sq]
  · intro h hne
    rw [hc, h]
    simp [operationCost, ADD, SUB, DIV, sq, hmaxmin, hne]
  · intro h heq
    rw [hc, h]
    simp [operationCost, ADD, SUB, DIV, hmaxmin, heq]

set_option maxRecDepth 100000 in
/-- C24 at a concrete input: capacities 4 and 1, target 4, tiles 2, 2, at the
first call of the first turn of the inner loop. -/
theorem CombineOperationGroups_cost_witness :
    ∃ visit ∈ NumbersSolve.visits (NumbersStruct.zeroed 4 1) 4 [2, 2] none,
      ∃ call ∈ visit.pair.calls,
      (call.op = ADD ∨ call.op = SUB ∨ call.op = MUL ∨ call.op = DIV)
      ∧ (call.op = ADD → call.complexity
          = visit.pair.complexityA
            + (visit.pair.numbersObject.operation visit.pair.operationIdB).complexity
            + min visit.pair.weightA
                (visit.pair.numbersObject.operation visit.pair.operationIdB).weight)
      ∧ (call.op = SUB → call.complexity
          = visit.pair.complexityA
            + (visit.pair.numbersObject.operation visit.pair.operationIdB).complexity
            + (visit.pair.weightA
                + (visit.pair.numbersObject.operation visit.pair.operationIdB).weight) / 2)
      ∧ (call.op = MUL → call.complexity
          = visit.pair.complexityA
            + (visit.pair.numbersObject.operation visit.pair.operationIdB).complexity
            + (visit.pair.weightA
                * (visit.pair.numbersObject.operation visit.pair.operationIdB).weight) ^ 2)
      ∧ (call.op = DIV →
          visit.pair.resultA
            ≠ (visit.pair.numbersObject.operation visit.pair.operationIdB).result →
          call.complexity
          = visit.pair.complexityA
            + (visit.pair.numbersObject.operation visit.pair.operationIdB).complexity
            + (visit.pair.weightA
                * (visit.pair.numbersObject.operation visit.pair.operationIdB).weight) ^ 2)
      ∧ (call.op = DIV →
          visit.pair.resultA
            = (visit.pair.numbersObject.operation visit.pair.operationIdB).result →
          call.complexity
          = visit.pair.complexityA
            + (visit.pair.numbersObject.operation visit.pair.operationIdB).complexity + 1) :=
  have h : ∃ visit ∈ NumbersSolve.visits (NumbersStruct.zeroed 4 1) 4 [2, 2] none,
      visit.pair.calls ≠ [] := by decide!
  match h with
  | ⟨visit, hv, hc⟩ =>
    ⟨visit, hv, _, List.head_mem hc,
      CombineOperationGroups_cost (NumbersStruct.zeroed 4 1) (by decide) 4 [2, 2] (by decide)
        (by decide) none visit hv _ (List.head_mem hc)⟩

/-- C25 Candidate set of the combiner: for every well-formed object and every
input of at most 8 32-bit tiles, at every turn of the inner loop of
`CombineOperationGroups` during `NumbersSolve`, with `hi` the larger and `lo`
the smaller of the two results, the operations and results offered to the
recorder are, in this order: ADD `hi + lo` always; SUB `hi - lo` iff `hi ≠ lo`
and `hi - lo ≠ lo`; MUL `hi * lo` iff `lo > 1`; DIV with result 1 iff `lo > 1`
and `hi = lo`; DIV `hi / lo` iff `lo > 1`, `hi ≠ lo`, `lo` divides `hi` and
`hi / lo ≠ lo` (sums and products in 32-bit arithmetic); and nothing at all
when the sum of the complexities of the two operands exceeds
`complexityMax`. -/
theorem CombineOperationGroups_candidates (s : NumbersStruct) (hwf : s.WellFormed)
    (target : Nat) (tiles : List Nat) (htiles : ∀ t ∈ tiles, t < 2 ^ 32)
    (hN : tiles.length ≤ 8) (complexity : Option Nat) :
    ∀ visit ∈ NumbersSolve.visits s target tiles complexity, ∀ hi lo : Nat,
      hi = max visit.pair.resultA
        (visit.pair.numbersObject.operation visit.pair.operationIdB).result →
      lo = min visit.pair.resultA
        (visit.pair.numbersObject.operation visit.pair.operationIdB).result →
      visit.pair.calls.map (fun call => (call.op, call.result))
        = if visit.pair.complexityA
              + (visit.pair.numbersObject.operation visit.pair.operationIdB).complexity
              > visit.pair.numbersObject.current.complexityMax then []
          else
            [(ADD, (hi + lo) % 2 ^ 32)]
            ++ (if hi ≠ lo ∧ hi - lo ≠ lo then [(SUB, hi - lo)] else [])
            ++ (if lo > 1 then [(MUL, (hi * lo) % 2 ^ 32)] else [])
            ++ (if lo > 1 ∧ hi = lo then [(DIV, 1)] else [])
            ++ (if lo > 1 ∧ hi ≠ lo ∧ lo ∣ hi ∧ hi / lo ≠ lo then [(DIV, hi / lo)]
                else []) := by
  intro visit hvisit hi lo hhi hlo
  obtain ⟨E, hv⟩ := (NumbersSolve.search_course s hwf target tiles complexity htiles hN).2.1 visit
    hvisit
  exact PairVisit.call_candidates hv.pair hN hi lo hhi hlo

set_option maxRecDepth 100000 in
/-- C25 at a concrete input: capacities 4 and 1, target 4, tiles 2, 2, at the
first turn of the inner loop. -/
theorem CombineOperationGroups_candidates_witness :
    ∃ visit ∈ NumbersSolve.visits (NumbersStruct.zeroed 4 1) 4 [2, 2] none, ∃ hi lo : Nat,
      hi = max visit.pair.resultA
        (visit.pair.numbersObject.operation visit.pair.operationIdB).result
      ∧ lo = min visit.pair.resultA
        (visit.pair.numbersObject.operation visit.pair.operationIdB).result
      ∧ visit.pair.calls.map (fun call => (call.op, call.result))
        = if visit.pair.complexityA
              + (visit.pair.numbersObject.operation visit.pair.operationIdB).complexity
              > visit.pair.numbersObject.current.complexityMax then []
          else
            [(ADD, (hi + lo) % 2 ^ 32)]
            ++ (if hi ≠ lo ∧ hi - lo ≠ lo then [(SUB, hi - lo)] else [])
            ++ (if lo > 1 then [(MUL, (hi * lo) % 2 ^ 32)] else [])
            ++ (if lo > 1 ∧ hi = lo then [(DIV, 1)] else [])
            ++ (if lo > 1 ∧ hi ≠ lo ∧ lo ∣ hi ∧ hi / lo ≠ lo then [(DIV, hi / lo)]
                else []) :=
  have hne : NumbersSolve.visits (NumbersStruct.zeroed 4 1) 4 [2, 2] none ≠ [] := by decide!
  ⟨_, List.head_mem hne, _, _, rfl, rfl,
    CombineOperationGroups_candidates (NumbersStruct.zeroed 4 1) (by decide) 4 [2, 2]
      (by decide) (by decide) none _ (List.head_mem hne) _ _ rfl rfl⟩

end Numbers
namespace Numbers

/-- C26 Canonicalization invariant: for every well-formed object and every
input of at most 8 32-bit tiles, before and after every call of the recorder
during `NumbersSolve`, and in the object that `NumbersSolve` returns, every
non-leaf operation written so far has `result(left) ≥ result(right)`; the
object after a call covers the record that the call overwrote in place. -/
theorem NumbersSolve_canonical (s : NumbersStruct) (hwf : s.WellFormed) (target : Nat)
    (tiles : List Nat) (htiles : ∀ t ∈ tiles, t < 2 ^ 32) (hN : tiles.length ≤ 8)
    (complexity : Option Nat) (solutionOperations result : Bool) :
    (∀ call ∈ NumbersSolve.calls s target tiles complexity,
      call.call.numbersObject.Canonical ∧ call.call.after.Canonical)
    ∧ ∃ out s',
      NumbersSolve (some s) target (some tiles) complexity solutionOperations result = some out
      ∧ out.numbersObject = some s' ∧ s'.Canonical := by
  refine ⟨fun call hcall => ?_, ?_⟩
  · obtain ⟨E, hinv⟩ := NumbersSolve.calls_inv s hwf target tiles complexity htiles hN call hcall
    obtain ⟨E', _, _, hrec', _⟩ := hinv.after htiles hN
    exact ⟨hinv.records.canonical, hrec'.canonical⟩
  · obtain ⟨out, st, E, hsolve, hobj, _, hc, _⟩ := NumbersSolve_final s hwf target tiles
      complexity solutionOperations result htiles hN
    exact ⟨out, st.numbersObject, hsolve, hobj, hc.records.canonical⟩

/-- C26 at a concrete input: capacities 50 and 100, target 17, tiles 2, 2, 3. -/
theorem NumbersSolve_canonical_witness :
    (∀ call ∈ NumbersSolve.calls (NumbersStruct.zeroed 50 100) 17 [2, 2, 3] none,
      call.call.numbersObject.Canonical ∧ call.call.after.Canonical)
    ∧ ∃ out s',
      NumbersSolve (some (NumbersStruct.zeroed 50 100)) 17 (some [2, 2, 3]) none true true
        = some out
      ∧ out.numbersObject = some s' ∧ s'.Canonical :=
  NumbersSolve_canonical (NumbersStruct.zeroed 50 100)
    (by simp [NumbersStruct.WellFormed, NumbersStruct.zeroed, UINT16_MAX]) 17 [2, 2, 3]
    (by decide) (by decide) none true true

/-- C27 Reference order invariant: for every well-formed object and every
input of `N ≤ 8` 32-bit tiles, before and after every call of the recorder
during `NumbersSolve` (so also after an in-place update), and in the object
that `NumbersSolve` returns, every non-leaf operation at index `i` has
`left < i` and `right < i`, and `GenerateSolution` returns on every record
written so far within `N` nested calls, that is at depth at most `N - 1` below
the first call. -/
theorem NumbersSolve_reference_order (s : NumbersStruct) (hwf : s.WellFormed) (target : Nat)
    (tiles : List Nat) (htiles : ∀ t ∈ tiles, t < 2 ^ 32) (hN : tiles.length ≤ 8)
    (complexity : Option Nat) (solutionOperations result : Bool) :
    (∀ call ∈ NumbersSolve.calls s target tiles complexity,
      call.call.numbersObject.ReferenceOrder
      ∧ call.call.after.ReferenceOrder
      ∧ (∀ i, i < call.call.numbersObject.current.operationIdLast →
          ∃ r, GenerateSolution call.call.numbersObject tiles.length i = some r)
      ∧ (∀ i, i < call.call.after.current.operationIdLast →
          ∃ r, GenerateSolution call.call.after tiles.length i = some r))
    ∧ ∃ out s',
      NumbersSolve (some s) target (some tiles) complexity solutionOperations result = some out
      ∧ out.numbersObject = some s' ∧ s'.ReferenceOrder
      ∧ ∀ i, i < s'.current.operationIdLast →
          ∃ r, GenerateSolution s' tiles.length i = some r := by
  refine ⟨fun call hcall => ?_, ?_⟩
  · obtain ⟨E, hinv⟩ := NumbersSolve.calls_inv s hwf target tiles complexity htiles hN call hcall
    obtain ⟨E', harena', _, _, _⟩ := hinv.after htiles hN
    obtain ⟨h1, h2⟩ := hinv.arena.reference_order _ (fun _ => rfl) rfl
    obtain ⟨h3, h4⟩ := harena'.reference_order _ (fun _ => rfl) rfl
    exact ⟨h1, h3, h2, h4⟩
  · obtain ⟨out, st, E, hsolve, hobj, hinv, _, _⟩ := NumbersSolve_final s hwf target tiles
      complexity solutionOperations result htiles hN
    obtain ⟨h1, h2⟩ := hinv.solve.arena.reference_order st.numbersObject (fun _ => rfl) rfl
    exact ⟨out, st.numbersObject, hsolve, hobj, h1, h2⟩

/-- C27 at a concrete input: capacities 50 and 100, target 17, tiles 2, 2, 3. -/
theorem NumbersSolve_reference_order_witness :
    (∀ call ∈ NumbersSolve.calls (NumbersStruct.zeroed 50 100) 17 [2, 2, 3] none,
      call.call.numbersObject.ReferenceOrder
      ∧ call.call.after.ReferenceOrder
      ∧ (∀ i, i < call.call.numbersObject.current.operationIdLast →
          ∃ r, GenerateSolution call.call.numbersObject [2, 2, 3].length i = some r)
      ∧ (∀ i, i < call.call.after.current.operationIdLast →
          ∃ r, GenerateSolution call.call.after [2, 2, 3].length i = some r))
    ∧ ∃ out s',
      NumbersSolve (some (NumbersStruct.zeroed 50 100)) 17 (some [2, 2, 3]) none true true
        = some out
      ∧ out.numbersObject = some s' ∧ s'.ReferenceOrder
      ∧ ∀ i, i < s'.current.operationIdLast →
          ∃ r, GenerateSolution s' [2, 2, 3].length i = some r :=
  NumbersSolve_reference_order (NumbersStruct.zeroed 50 100)
    (by simp [NumbersStruct.WellFormed, NumbersStruct.zeroed, UINT16_MAX]) 17 [2, 2, 3]
    (by decide) (by decide) none true true

set_option maxRecDepth 100000 in
/-- C28, as stated, fails: with a result index of capacity 1, target 100 and
the tiles 2, 2, 3, the recorder is called at a point where the current
operation group holds the records 3 and 4 with the same result (4, from
2 + 2 and from 2 x 2). -/
theorem NumbersSolve_group_distinct_counterexample :
    ∃ call ∈ NumbersSolve.calls (NumbersStruct.zeroed 5 1) 100 [2, 2, 3] none,
      call.call.numbersObject.current.operationIdFirst ≤ 3
      ∧ 4 < call.call.numbersObject.current.operationIdLast
      ∧ (call.call.numbersObject.operation 3).result
        = (call.call.numbersObject.operation 4).result := by
  decide!

/-- C28 (amended) Group uniqueness: for every well-formed object (any
capacities) and every input of at most 8 32-bit tiles, before and after every
call of the recorder during `NumbersSolve`, the results below the capacity of
the result index are pairwise distinct within the operation group under
construction and within every operation group stored so far. -/
theorem NumbersSolve_group_distinct (s : NumbersStruct) (hwf : s.WellFormed) (target : Nat)
    (tiles : List Nat) (htiles : ∀ t ∈ tiles, t < 2 ^ 32) (hN : tiles.length ≤ 8)
    (complexity : Option Nat) :
    ∀ call ∈ NumbersSolve.calls s target tiles complexity,
      GroupDistinct call.call.numbersObject
        ⟨call.call.numbersObject.current.operationIdFirst,
          call.call.numbersObject.current.operationIdLast⟩
      ∧ GroupDistinct call.call.after
        ⟨call.call.after.current.operationIdFirst, call.call.after.current.operationIdLast⟩
      ∧ ∀ m grp, call.operationGroups.getD m none = some grp →
        GroupDistinct call.call.numbersObject grp ∧ GroupDistinct call.call.after grp := by
  intro call hcall
  obtain ⟨E, hinv⟩ := NumbersSolve.calls_inv s hwf target tiles complexity htiles hN call hcall
  obtain ⟨E', _, _, hrec', hgroups'⟩ := hinv.after htiles hN
  have hcur : ∀ s' : NumbersStruct, RecordInv s' →
      GroupDistinct s' ⟨s'.current.operationIdFirst, s'.current.operationIdLast⟩ := by
    intro s' hrec i j hi1 hi2 hj1 hj2 hres hlt
    have e1 := hrec.index i hi1 hi2 hlt
    have e2 := hrec.index j hj1 hj2 (by rw [← hres]; exact hlt)
    rw [hres] at e1
    omega
  exact ⟨hcur _ hinv.records, hcur _ hrec', fun m grp hm =>
    ⟨hinv.groups.distinct m grp hm, hgroups'.distinct m grp hm⟩⟩

set_option maxRecDepth 100000 in
/-- C28 (amended) at a concrete input: capacities 50 and 100, target 17, tiles
2, 2, 3, at a call of the recorder that finds at least two records in the
operation group under construction, all results written so far being below the
capacity of the result index, while the stored operation group of the tiles 0
and 1 holds the two records 3 and 4. -/
theorem NumbersSolve_group_distinct_witness :
    ∃ call ∈ NumbersSolve.calls (NumbersStruct.zeroed 50 100) 17 [2, 2, 3] none,
      call.call.numbersObject.current.operationIdFirst + 2
        ≤ call.call.numbersObject.current.operationIdLast
      ∧ (∀ i, i < call.call.numbersObject.current.operationIdLast →
          (call.call.numbersObject.operation i).result
            < call.call.numbersObject.operationIdSize)
      ∧ call.operationGroups.getD 3 none = some ⟨3, 5⟩
      ∧ GroupDistinct call.call.numbersObject
        ⟨call.call.numbersObject.current.operationIdFirst,
          call.call.numbersObject.current.operationIdLast⟩
      ∧ GroupDistinct call.call.after
        ⟨call.call.after.current.operationIdFirst, call.call.after.current.operationIdLast⟩
      ∧ ∀ m grp, call.operationGroups.getD m none = some grp →
        GroupDistinct call.call.numbersObject grp ∧ GroupDistinct call.call.after grp :=
  have h : ∃ call ∈ NumbersSolve.calls (NumbersStruct.zeroed 50 100) 17 [2, 2, 3] none,
      call.call.numbersObject.current.operationIdFirst + 2
        ≤ call.call.numbersObject.current.operationIdLast
      ∧ (∀ i, i < call.call.numbersObject.current.operationIdLast →
          (call.call.numbersObject.operation i).result
            < call.call.numbersObject.operationIdSize)
      ∧ call.operationGroups.getD 3 none = some ⟨3, 5⟩ := by decide!
  match h with
  | ⟨call, hmem, hlast, hlt, hgrp⟩ =>
    ⟨call, hmem, hlast, hlt, hgrp,
      NumbersSolve_group_distinct (NumbersStruct.zeroed 50 100)
        (by simp [NumbersStruct.WellFormed, NumbersStruct.zeroed, UINT16_MAX]) 17 [2, 2, 3]
        (by decide) (by decide) none call hmem⟩

end Numbers
namespace Numbers

/-- C30 Arena bound: for every well-formed object (capacity at least 1) and
every input of at most 8 32-bit tiles, during `NumbersSolve`: before and after
every call of the recorder the arena head is at most `operationSize`; the best
record, when there is one, and the record that `SearchOperation` returns are
written records or the head; the operands of an operation offered, and the two
records read at every turn of the combiner, are below the head; every call
either changes nothing, or gives up on a full arena (setting `aborted` and
nothing else: the arena, the result index and the best operation stay), or
appends at the head below `operationSize`, or overwrites a written record; and
the object returned has its head within the capacity and, with at least one
tile, a best record that is a written record. -/
theorem NumbersSolve_arena_bound (s : NumbersStruct) (hwf : s.WellFormed) (target : Nat)
    (tiles : List Nat) (htiles : ∀ t ∈ tiles, t < 2 ^ 32) (hN : tiles.length ≤ 8)
    (complexity : Option Nat) (solutionOperations result : Bool) :
    (∀ call ∈ NumbersSolve.calls s target tiles complexity,
      call.call.numbersObject.current.operationIdLast ≤ call.call.numbersObject.operationSize
      ∧ call.call.after.current.operationIdLast ≤ call.call.after.operationSize
      ∧ (call.call.numbersObject.solution.operationId
            < call.call.numbersObject.operationSize →
          call.call.numbersObject.solution.operationId
            < call.call.numbersObject.current.operationIdLast)
      ∧ SearchOperation call.call.numbersObject call.call.result
          ≤ call.call.numbersObject.current.operationIdLast
      ∧ (call.call.op ≠ NOP →
          call.call.numbersObject.current.operationIdLeft
            < call.call.numbersObject.current.operationIdLast
          ∧ call.call.numbersObject.current.operationIdRight
            < call.call.numbersObject.current.operationIdLast)
      ∧ (call.call.after = call.call.numbersObject
        ∨ (call.call.after = RecordOperation.abort call.call.numbersObject
          ∧ call.call.numbersObject.current.operationIdLast
            = call.call.numbersObject.operationSize)
        ∨ (∃ best, call.call.after = RecordOperation.append call.call.numbersObject
              call.call.op call.call.result call.call.complexity best
          ∧ call.call.numbersObject.current.operationIdLast
            < call.call.numbersObject.operationSize)
        ∨ (∃ j, call.call.after = RecordOperation.update call.call.numbersObject j
              call.call.op call.call.complexity
          ∧ j < call.call.numbersObject.current.operationIdLast)))
    ∧ (∀ visit ∈ NumbersSolve.visits s target tiles complexity,
      visit.pair.operationIdA < visit.pair.numbersObject.current.operationIdLast
      ∧ visit.pair.operationIdB < visit.pair.numbersObject.current.operationIdLast
      ∧ visit.pair.numbersObject.current.operationIdLast
        ≤ visit.pair.numbersObject.operationSize)
    ∧ (∀ s1 : NumbersStruct,
      (RecordOperation.abort s1).operations = s1.operations
      ∧ (RecordOperation.abort s1).operationIds = s1.operationIds
      ∧ (RecordOperation.abort s1).current = s1.current
      ∧ (RecordOperation.abort s1).solution.operationId = s1.solution.operationId
      ∧ (RecordOperation.abort s1).solution.targetDiff = s1.solution.targetDiff
      ∧ (RecordOperation.abort s1).solution.tileCount = s1.solution.tileCount
      ∧ (RecordOperation.abort s1).solution.aborted = true)
    ∧ ∃ out s',
      NumbersSolve (some s) target (some tiles) complexity solutionOperations result = some out
      ∧ out.numbersObject = some s'
      ∧ s'.current.operationIdLast ≤ s'.operationSize
      ∧ (0 < tiles.length → s'.solution.operationId < s'.current.operationIdLast) := by
  refine ⟨fun call hcall => ?_, fun visit hvisit => ?_,
    fun s1 => ⟨rfl, rfl, rfl, rfl, rfl, rfl, rfl⟩, ?_⟩
  · obtain ⟨E, hinv⟩ := NumbersSolve.calls_inv s hwf target tiles complexity htiles hN call hcall
    obtain ⟨E', harena', _, _, _⟩ := hinv.after htiles hN
    have hlast := hinv.arena.last_le
    have hfirst := hinv.arena.first_le
    refine ⟨hlast, harena'.last_le, hinv.arena.solution_lt, ?_, ?_, ?_⟩
    · rcases SearchOperation_cases call.call.numbersObject call.call.result with h1 | h1
      · exact le_of_eq h1
      · exact le_of_lt h1.2.1
    · intro hnop
      rcases hinv.kind with ht | ⟨hc, _⟩
      · exact absurd ht.op_eq hnop
      · have := hc.left_lt
        have := hc.right_lt
        constructor <;> omega
    · rcases RecordOperation_cases call.call.numbersObject call.call.op call.call.result
          call.call.complexity with he | ⟨he, hfull, _⟩ | ⟨best, he, hlt, _, _⟩
          | ⟨j, _, he, _, hj2, _, _, _⟩
      · exact Or.inl he
      · exact Or.inr (Or.inl ⟨he, by omega⟩)
      · exact Or.inr (Or.inr (Or.inl ⟨best, he, hlt⟩))
      · exact Or.inr (Or.inr (Or.inr ⟨j, he, hj2⟩))
  · obtain ⟨E, hv⟩ := (NumbersSolve.search_course s hwf target tiles complexity htiles hN).2.1 visit
      hvisit
    have hlast := hv.pair.arena.last_le
    have hfirst := hv.pair.arena.first_le
    have := hv.pair.beforeA
    have := hv.pair.beforeB
    refine ⟨by omega, by omega, hlast⟩
  · obtain ⟨out, st, E, hsolve, hobj, hinv, _, hpos⟩ := NumbersSolve_final s hwf target tiles
      complexity solutionOperations result htiles hN
    exact ⟨out, st.numbersObject, hsolve, hobj, hinv.solve.arena.last_le,
      fun h0 => hinv.solve.arena.solution_lt (hpos h0)⟩

/-- C30 at the input of the arena-behaviour test of the specification:
capacities 4 and 1, target 999, tiles 1, 2, 3, 4, 5, 6. -/
theorem NumbersSolve_arena_bound_witness :
    ∃ out s',
      NumbersSolve (some (NumbersStruct.zeroed 4 1)) 999 (some [1, 2, 3, 4, 5, 6]) none true
        true = some out
      ∧ out.numbersObject = some s'
      ∧ s'.current.operationIdLast ≤ s'.operationSize
      ∧ (0 < [1, 2, 3, 4, 5, 6].length → s'.solution.operationId < s'.current.operationIdLast) :=
  (NumbersSolve_arena_bound (NumbersStruct.zeroed 4 1) (by decide) 999 [1, 2, 3, 4, 5, 6]
    (by decide) (by decide) none true true).2.2.2

end Numbers
namespace Numbers

/-- C31 Result index lookup: on every object, `SearchOperation (r)` returns
either the sentinel `current.operationIdLast` or an index of the current group
(`current.operationIdFirst ≤ id < current.operationIdLast`) whose record has
the result `r`, so never a stale slot of another group; it returns the
sentinel whenever `r ≥ operationIdSize`. For every well-formed object and every
input of at most 8 32-bit tiles, before and after every call of the recorder
during `NumbersSolve`, it returns the index of the entry, not the sentinel, for
every `r` below `operationIdSize` that is the result of an entry of the current
group. -/
theorem SearchOperation_lookup (s : NumbersStruct) (hwf : s.WellFormed) (target : Nat)
    (tiles : List Nat) (htiles : ∀ t ∈ tiles, t < 2 ^ 32) (hN : tiles.length ≤ 8)
    (complexity : Option Nat) :
    (∀ (numbersObject : NumbersStruct) (r : Nat),
      (SearchOperation numbersObject r = numbersObject.current.operationIdLast
        ∨ (numbersObject.current.operationIdFirst ≤ SearchOperation numbersObject r
          ∧ SearchOperation numbersObject r < numbersObject.current.operationIdLast
          ∧ (numbersObject.operation (SearchOperation numbersObject r)).result = r))
      ∧ (numbersObject.operationIdSize ≤ r →
          SearchOperation numbersObject r = numbersObject.current.operationIdLast))
    ∧ ∀ call ∈ NumbersSolve.calls s target tiles complexity,
        call.call.numbersObject.Indexed ∧ call.call.after.Indexed := by
  refine ⟨fun numbersObject r => ⟨SearchOperation_cases numbersObject r, fun hr => ?_⟩,
    fun call hcall => ?_⟩
  · unfold SearchOperation
    rw [if_neg (by omega)]
  · obtain ⟨E, hinv⟩ := NumbersSolve.calls_inv s hwf target tiles complexity htiles hN call hcall
    obtain ⟨E', _, _, hrec', _⟩ := hinv.after htiles hN
    exact ⟨hinv.records.indexed, hrec'.indexed⟩

/-- C31 at a concrete input: capacities 50 and 100, target 17, tiles 2, 2, 3. -/
theorem SearchOperation_lookup_witness :
    (∀ (numbersObject : NumbersStruct) (r : Nat),
      (SearchOperation numbersObject r = numbersObject.current.operationIdLast
        ∨ (numbersObject.current.operationIdFirst ≤ SearchOperation numbersObject r
          ∧ SearchOperation numbersObject r < numbersObject.current.operationIdLast
          ∧ (numbersObject.operation (SearchOperation numbersObject r)).result = r))
      ∧ (numbersObject.operationIdSize ≤ r →
          SearchOperation numbersObject r = numbersObject.current.operationIdLast))
    ∧ ∀ call ∈ NumbersSolve.calls (NumbersStruct.zeroed 50 100) 17 [2, 2, 3] none,
        call.call.numbersObject.Indexed ∧ call.call.after.Indexed :=
  SearchOperation_lookup (NumbersStruct.zeroed 50 100)
    (by simp [NumbersStruct.WellFormed, NumbersStruct.zeroed, UINT16_MAX]) 17 [2, 2, 3]
    (by decide) (by decide) none

/-- C35 Arithmetic consistency of the arena: for every well-formed object and
every input of at most 8 32-bit tiles, before and after every call of the
recorder during `NumbersSolve` (so also after an in-place overwrite), and in
the object that `NumbersSolve` returns, every non-leaf operation written so far
has one of the four operators and satisfies, with the results of its two
operands: for ADD, `result = (left + right) mod 2 ^ 32`, which is
`left + right` when the sum does not wrap; for SUB, `right ≤ left` and
`result = left - right`; for MUL, `result = (left * right) mod 2 ^ 32`, which
is `left * right` when the product does not wrap; for DIV,
`result * right = left`. -/
theorem NumbersSolve_arithmetic (s : NumbersStruct) (hwf : s.WellFormed) (target : Nat)
    (tiles : List Nat) (htiles : ∀ t ∈ tiles, t < 2 ^ 32) (hN : tiles.length ≤ 8)
    (complexity : Option Nat) (solutionOperations result : Bool) :
    (∀ call ∈ NumbersSolve.calls s target tiles complexity,
      call.call.numbersObject.Arithmetic ∧ call.call.after.Arithmetic)
    ∧ ∃ out s',
      NumbersSolve (some s) target (some tiles) complexity solutionOperations result = some out
      ∧ out.numbersObject = some s' ∧ s'.Arithmetic := by
  refine ⟨fun call hcall => ?_, ?_⟩
  · obtain ⟨E, hinv⟩ := NumbersSolve.calls_inv s hwf target tiles complexity htiles hN call hcall
    obtain ⟨E', harena', _, _, _⟩ := hinv.after htiles hN
    exact ⟨hinv.arena.arithmetic _ (fun _ => rfl) rfl, harena'.arithmetic _ (fun _ => rfl) rfl⟩
  · obtain ⟨out, st, E, hsolve, hobj, hinv, _, _⟩ := NumbersSolve_final s hwf target tiles
      complexity solutionOperations result htiles hN
    exact ⟨out, st.numbersObject, hsolve, hobj,
      hinv.solve.arena.arithmetic st.numbersObject (fun _ => rfl) rfl⟩

/-- C35 at a concrete input: capacities 50 and 100, target 17, tiles 2, 2, 3. -/
theorem NumbersSolve_arithmetic_witness :
    (∀ call ∈ NumbersSolve.calls (NumbersStruct.zeroed 50 100) 17 [2, 2, 3] none,
      call.call.numbersObject.Arithmetic ∧ call.call.after.Arithmetic)
    ∧ ∃ out s',
      NumbersSolve (some (NumbersStruct.zeroed 50 100)) 17 (some [2, 2, 3]) none true true
        = some out
      ∧ out.numbersObject = some s' ∧ s'.Arithmetic :=
  NumbersSolve_arithmetic (NumbersStruct.zeroed 50 100)
    (by simp [NumbersStruct.WellFormed, NumbersStruct.zeroed, UINT16_MAX]) 17 [2, 2, 3]
    (by decide) (by decide) none true true

end Numbers
namespace Numbers

/-- C36 Tile usage: for every well-formed object and every input of `N ≤ 8`
32-bit tiles, before and after every call of the recorder during
`NumbersSolve`: a leaf record sits at the arena index of its tile and holds its
value; the trees of the two operands of every non-leaf operation use disjoint
tiles, which together are the tiles of the operation; and the tree of every
record of the operation group under construction and of every stored operation
group uses every tile of the subset mask of its group, each once, and no other
tile. The object that `NumbersSolve` returns is so too, and the stream written
is that of the tree of the chosen operation, which uses no tile twice. -/
theorem NumbersSolve_tile_usage (s : NumbersStruct) (hwf : s.WellFormed) (target : Nat)
    (tiles : List Nat) (htiles : ∀ t ∈ tiles, t < 2 ^ 32) (hN : tiles.length ≤ 8)
    (complexity : Option Nat) (result : Bool) :
    (∀ call ∈ NumbersSolve.calls s target tiles complexity,
      call.call.numbersObject.TilesApart tiles
      ∧ call.call.after.TilesApart tiles
      ∧ TilesUsed call.call.numbersObject tiles.length call.tileGroup
          ⟨call.call.numbersObject.current.operationIdFirst,
            call.call.numbersObject.current.operationIdLast⟩
      ∧ TilesUsed call.call.after tiles.length call.tileGroup
          ⟨call.call.after.current.operationIdFirst, call.call.after.current.operationIdLast⟩
      ∧ ∀ m grp, call.operationGroups.getD m none = some grp →
          TilesUsed call.call.numbersObject tiles.length m grp
          ∧ TilesUsed call.call.after tiles.length m grp)
    ∧ ∃ out s',
      NumbersSolve (some s) target (some tiles) complexity true result = some out
      ∧ out.numbersObject = some s' ∧ s'.TilesApart tiles
      ∧ (0 < tiles.length →
          out.solutionOperations
            = some ((s'.tree tiles.length s'.solution.operationId).stream ++ [0])
          ∧ (s'.tree tiles.length s'.solution.operationId).leaves.Nodup
          ∧ ∀ t ∈ (s'.tree tiles.length s'.solution.operationId).leaves,
              t < tiles.length) := by
  refine ⟨fun call hcall => ?_, ?_⟩
  · obtain ⟨E, E', hinv, harena', _, _, hgroups', _, hpc, hpc'⟩ :=
      NumbersSolve.calls_both s hwf target tiles complexity htiles hN call hcall
    obtain ⟨u1, u2⟩ := hinv.arena.groups_used hN hpc _ hinv.groups
    obtain ⟨u3, u4⟩ := harena'.groups_used hN hpc' _ hgroups'
    exact ⟨hinv.arena.tiles_apart _ (fun _ => rfl) rfl,
      harena'.tiles_apart _ (fun _ => rfl) rfl, u1, u3,
      fun m grp hm => ⟨u2 m grp hm, u4 m grp hm⟩⟩
  · obtain ⟨st, E, hinv, _, hsolve, hpos⟩ := NumbersSolve_outputs s hwf target tiles
      complexity true result htiles hN
    have harena := hinv.solve.arena
    refine ⟨_, st.numbersObject, hsolve, rfl,
      harena.tiles_apart st.numbersObject (fun _ => rfl) rfl, fun h0 => ?_⟩
    obtain ⟨hsol, hlt⟩ := hpos h0
    have htree := harena.tree_eq st.numbersObject (fun _ => rfl) _ hlt
    rw [htree]
    refine ⟨?_, harena.nodup _ hlt, harena.leaves_lt _ hlt⟩
    simp only [if_true, if_pos hsol]

/-- C36 at a concrete input: capacities 50 and 100, target 17, tiles 2, 2, 3. -/
theorem NumbersSolve_tile_usage_witness :
    (∀ call ∈ NumbersSolve.calls (NumbersStruct.zeroed 50 100) 17 [2, 2, 3] none,
      call.call.numbersObject.TilesApart [2, 2, 3]
      ∧ call.call.after.TilesApart [2, 2, 3]
      ∧ TilesUsed call.call.numbersObject [2, 2, 3].length call.tileGroup
          ⟨call.call.numbersObject.current.operationIdFirst,
            call.call.numbersObject.current.operationIdLast⟩
      ∧ TilesUsed call.call.after [2, 2, 3].length call.tileGroup
          ⟨call.call.after.current.operationIdFirst, call.call.after.current.operationIdLast⟩
      ∧ ∀ m grp, call.operationGroups.getD m none = some grp →
          TilesUsed call.call.numbersObject [2, 2, 3].length m grp
          ∧ TilesUsed call.call.after [2, 2, 3].length m grp)
    ∧ ∃ out s',
      NumbersSolve (some (NumbersStruct.zeroed 50 100)) 17 (some [2, 2, 3]) none true true
        = some out
      ∧ out.numbersObject = some s' ∧ s'.TilesApart [2, 2, 3]
      ∧ (0 < [2, 2, 3].length →
          out.solutionOperations
            = some ((s'.tree [2, 2, 3].length s'.solution.operationId).stream ++ [0])
          ∧ (s'.tree [2, 2, 3].length s'.solution.operationId).leaves.Nodup
          ∧ ∀ t ∈ (s'.tree [2, 2, 3].length s'.solution.operationId).leaves,
              t < [2, 2, 3].length) :=
  NumbersSolve_tile_usage (NumbersStruct.zeroed 50 100)
    (by simp [NumbersStruct.WellFormed, NumbersStruct.zeroed, UINT16_MAX]) 17 [2, 2, 3]
    (by decide) (by decide) none true

/-- C37 Positive results: for every well-formed object and every input of at
most 8 32-bit tiles that are all `≥ 1`, before and after every call of the
recorder during `NumbersSolve`, and in the object that `NumbersSolve` returns:
if no sum and no product among the operations written so far wraps around 32
bits, every result written so far is `≥ 1`. And the combiner offers a
difference only of a left operand strictly above the right one (never 0, never
negative), and a quotient only when it is exact
(`result * right = left`). -/
theorem NumbersSolve_positive (s : NumbersStruct) (hwf : s.WellFormed) (target : Nat)
    (tiles : List Nat) (htiles : ∀ t ∈ tiles, t < 2 ^ 32) (hN : tiles.length ≤ 8)
    (hpos : ∀ t ∈ tiles, 1 ≤ t) (complexity : Option Nat)
    (solutionOperations result : Bool) :
    (∀ call ∈ NumbersSolve.calls s target tiles complexity,
      (call.call.numbersObject.NoWrap →
        ∀ i, i < call.call.numbersObject.current.operationIdLast →
          1 ≤ (call.call.numbersObject.operation i).result)
      ∧ (call.call.after.NoWrap →
        ∀ i, i < call.call.after.current.operationIdLast →
          1 ≤ (call.call.after.operation i).result)
      ∧ (call.call.op = SUB →
        (call.call.numbersObject.operation
            call.call.numbersObject.current.operationIdRight).result
          < (call.call.numbersObject.operation
            call.call.numbersObject.current.operationIdLeft).result
        ∧ call.call.result
          = (call.call.numbersObject.operation
              call.call.numbersObject.current.operationIdLeft).result
            - (call.call.numbersObject.operation
              call.call.numbersObject.current.operationIdRight).result)
      ∧ (call.call.op = DIV →
        call.call.result
            * (call.call.numbersObject.operation
              call.call.numbersObject.current.operationIdRight).result
          = (call.call.numbersObject.operation
            call.call.numbersObject.current.operationIdLeft).result))
    ∧ ∃ out s',
      NumbersSolve (some s) target (some tiles) complexity solutionOperations result = some out
      ∧ out.numbersObject = some s'
      ∧ (s'.NoWrap → ∀ i, i < s'.current.operationIdLast → 1 ≤ (s'.operation i).result) := by
  refine ⟨fun call hcall => ?_, ?_⟩
  · obtain ⟨E, E', hinv, harena', _, hrec', _, _, _, _⟩ :=
      NumbersSolve.calls_both s hwf target tiles complexity htiles hN call hcall
    exact ⟨hinv.arena.results_pos hinv.records _ (fun _ => rfl) rfl hpos,
      harena'.results_pos hrec' _ (fun _ => rfl) rfl hpos, hinv.offered.1, hinv.offered.2⟩
  · obtain ⟨out, st, E, hsolve, hobj, hinv, hc, _⟩ := NumbersSolve_final s hwf target tiles
      complexity solutionOperations result htiles hN
    exact ⟨out, st.numbersObject, hsolve, hobj,
      hinv.solve.arena.results_pos hc.records st.numbersObject (fun _ => rfl) rfl hpos⟩

set_option maxRecDepth 100000 in
/-- C37 at a concrete input: capacities 50 and 100, target 17, tiles 2, 2, 3,
after a call of the recorder that leaves more than the three tiles in the
arena, without any sum or product that wraps. -/
theorem NumbersSolve_positive_witness :
    ∃ call ∈ NumbersSolve.calls (NumbersStruct.zeroed 50 100) 17 [2, 2, 3] none,
      call.call.after.NoWrap
      ∧ 3 < call.call.after.current.operationIdLast
      ∧ ∀ i, i < call.call.after.current.operationIdLast →
          1 ≤ (call.call.after.operation i).result :=
  have h : ∃ call ∈ NumbersSolve.calls (NumbersStruct.zeroed 50 100) 17 [2, 2, 3] none,
      call.call.after.NoWrap ∧ 3 < call.call.after.current.operationIdLast := by decide!
  match h with
  | ⟨call, hmem, hnw, hlast⟩ =>
    ⟨call, hmem, hnw, hlast,
      ((NumbersSolve_positive (NumbersStruct.zeroed 50 100)
        (by simp [NumbersStruct.WellFormed, NumbersStruct.zeroed, UINT16_MAX]) 17 [2, 2, 3]
        (by decide) (by decide) (by decide) none true true).1 call hmem).2.1 hnw⟩

end Numbers
namespace Numbers

/-- C39 Complexity consistency: for every well-formed object and every input
of `N ≤ 8` 32-bit tiles, before and after every call of the recorder during
`NumbersSolve`, and in the object that `NumbersSolve` returns: every leaf has
complexity 0, every record has the weight `ComputeResultWeight (result)`, and
the stored complexity of every non-leaf record is
`complexity (left) + complexity (right)` plus the cost of its operator on the
weights of its two operands. The complexity that `NumbersSolve` reports for at
least one tile is the value of the complexity model on the tree of the chosen
operation, whose stream is the one written. -/
theorem NumbersSolve_costed (s : NumbersStruct) (hwf : s.WellFormed) (target : Nat)
    (tiles : List Nat) (htiles : ∀ t ∈ tiles, t < 2 ^ 32) (hN : tiles.length ≤ 8)
    (complexity : Option Nat) (result : Bool) :
    (∀ call ∈ NumbersSolve.calls s target tiles complexity,
      call.call.numbersObject.Costed ∧ call.call.after.Costed)
    ∧ ∃ out s',
      NumbersSolve (some s) target (some tiles) complexity true result = some out
      ∧ out.numbersObject = some s' ∧ s'.Costed
      ∧ (0 < tiles.length →
          out.complexity = complexity.map (fun _ =>
            (s'.tree tiles.length s'.solution.operationId).complexity tiles)
          ∧ out.solutionOperations
            = some ((s'.tree tiles.length s'.solution.operationId).stream ++ [0])) := by
  refine ⟨fun call hcall => ?_, ?_⟩
  · obtain ⟨E, E', hinv, harena', _, hrec', _, _, _, _⟩ :=
      NumbersSolve.calls_both s hwf target tiles complexity htiles hN call hcall
    exact ⟨hinv.arena.costed hinv.records _ (fun _ => rfl) rfl,
      harena'.costed hrec' _ (fun _ => rfl) rfl⟩
  · obtain ⟨st, E, hinv, hc, hsolve, hpos⟩ := NumbersSolve_outputs s hwf target tiles
      complexity true result htiles hN
    have harena := hinv.solve.arena
    refine ⟨_, st.numbersObject, hsolve, rfl,
      harena.costed hc.records st.numbersObject (fun _ => rfl) rfl, fun h0 => ?_⟩
    obtain ⟨hsol, hlt⟩ := hpos h0
    have htree := harena.tree_eq st.numbersObject (fun _ => rfl) _ hlt
    have hcx := harena.complexity_model hc.records _ hlt
    have hcx' : (st.numbersObject.operation st.numbersObject.solution.operationId).complexity
        = (E st.numbersObject.solution.operationId).complexity tiles := hcx
    rw [htree]
    simp only [if_true, if_pos hsol, hcx', and_self]

/-- C39 at a concrete input: capacities 50 and 100, target 17, tiles 2, 2, 3,
no bound on the complexity. -/
theorem NumbersSolve_costed_witness :
    (∀ call ∈ NumbersSolve.calls (NumbersStruct.zeroed 50 100) 17 [2, 2, 3] (some 65535),
      call.call.numbersObject.Costed ∧ call.call.after.Costed)
    ∧ ∃ out s',
      NumbersSolve (some (NumbersStruct.zeroed 50 100)) 17 (some [2, 2, 3]) (some 65535) true
        true = some out
      ∧ out.numbersObject = some s' ∧ s'.Costed
      ∧ (0 < [2, 2, 3].length →
          out.complexity = (some 65535).map (fun _ =>
            (s'.tree [2, 2, 3].length s'.solution.operationId).complexity [2, 2, 3])
          ∧ out.solutionOperations
            = some ((s'.tree [2, 2, 3].length s'.solution.operationId).stream ++ [0])) :=
  NumbersSolve_costed (NumbersStruct.zeroed 50 100)
    (by simp [NumbersStruct.WellFormed, NumbersStruct.zeroed, UINT16_MAX]) 17 [2, 2, 3]
    (by decide) (by decide) (some 65535) true

/-- C40 Stream shape: for every well-formed object and every input of `N ≤ 8`
32-bit tiles, at least one, `NumbersSolve` writes the stream of the tree of
the chosen operation: its non-leaf nodes in post-order (left sub-tree, right
sub-tree, node), each as the byte `leftTile | rightTile << 3 | op << 6` where
`leftTile` and `rightTile`, both below 8, are the left-most leaf tile indices
of the two sub-trees and `op` is below 4, then the final zero; and the number
of operation bytes is `solution.tileCount - 1`. -/
theorem NumbersSolve_stream_shape (s : NumbersStruct) (hwf : s.WellFormed) (target : Nat)
    (tiles : List Nat) (htiles : ∀ t ∈ tiles, t < 2 ^ 32) (hN : tiles.length ≤ 8)
    (h0 : 0 < tiles.length) (complexity : Option Nat) (result : Bool) :
    ∃ out s',
      NumbersSolve (some s) target (some tiles) complexity true result = some out
      ∧ out.numbersObject = some s'
      ∧ out.solutionOperations
        = some ((s'.tree tiles.length s'.solution.operationId).nodes.map
            (fun n => n.1 ||| (n.2.1 <<< 3) ||| (n.2.2 <<< 6)) ++ [0])
      ∧ (∀ n ∈ (s'.tree tiles.length s'.solution.operationId).nodes,
          n.1 < 8 ∧ n.2.1 < 8 ∧ n.2.2 < 4)
      ∧ (s'.tree tiles.length s'.solution.operationId).nodes.length
        = s'.solution.tileCount - 1
      ∧ 1 ≤ s'.solution.tileCount := by
  obtain ⟨st, E, hinv, _, hsolve, hpos⟩ := NumbersSolve_outputs s hwf target tiles
    complexity true result htiles hN
  have harena := hinv.solve.arena
  obtain ⟨hsol, hlt⟩ := hpos h0
  have htree := harena.tree_eq st.numbersObject (fun _ => rfl) _ hlt
  have hnodes : ∀ n ∈ (E st.numbersObject.solution.operationId).nodes,
      n.1 < 8 ∧ n.2.1 < 8 ∧ n.2.2 < 4 := by
    intro n hn
    obtain ⟨a, b, c⟩ := Expr.nodes_spec _ (harena.ops_valid _ hlt) n hn
    exact ⟨lt_of_lt_of_le (harena.leaves_lt _ hlt _ a) hN,
      lt_of_lt_of_le (harena.leaves_lt _ hlt _ b) hN, c⟩
  have hcount : st.numbersObject.solution.tileCount
      = (E st.numbersObject.solution.operationId).leaves.length :=
    harena.solution_tiles hsol
  have hlen := (E st.numbersObject.solution.operationId).nodes_length
  refine ⟨_, st.numbersObject, hsolve, rfl, ?_, ?_, ?_, ?_⟩
  · rw [htree]
    simp only [if_true, if_pos hsol, Option.some.injEq, List.append_cancel_right_eq]
    rw [Expr.stream_nodes]
    apply List.map_congr_left
    intro n hn
    obtain ⟨a, b, c⟩ := hnodes n hn
    exact encode_lt _ a _ b _ c
  · rw [htree]; exact hnodes
  · rw [htree, hcount]; omega
  · rw [hcount]; omega

/-- C40 at a concrete input: capacities 50 and 100, target 17, tiles 2, 2, 3. -/
theorem NumbersSolve_stream_shape_witness :
    ∃ out s',
      NumbersSolve (some (NumbersStruct.zeroed 50 100)) 17 (some [2, 2, 3]) none true true
        = some out
      ∧ out.numbersObject = some s'
      ∧ out.solutionOperations
        = some ((s'.tree [2, 2, 3].length s'.solution.operationId).nodes.map
            (fun n => n.1 ||| (n.2.1 <<< 3) ||| (n.2.2 <<< 6)) ++ [0])
      ∧ (∀ n ∈ (s'.tree [2, 2, 3].length s'.solution.operationId).nodes,
          n.1 < 8 ∧ n.2.1 < 8 ∧ n.2.2 < 4)
      ∧ (s'.tree [2, 2, 3].length s'.solution.operationId).nodes.length
        = s'.solution.tileCount - 1
      ∧ 1 ≤ s'.solution.tileCount :=
  NumbersSolve_stream_shape (NumbersStruct.zeroed 50 100)
    (by simp [NumbersStruct.WellFormed, NumbersStruct.zeroed, UINT16_MAX]) 17 [2, 2, 3]
    (by decide) (by decide) (by decide) none true

end Numbers
namespace Numbers

set_option maxRecDepth 100000 in
/-- C32 at the input target 29, tiles 2, 6, 6, complexity bound 65535, on an
object of capacities 20 and 40: in the group of the three tiles (the final
tile count) the recorder is offered 24 = 6 x (6 - 2) with the complexity 2
while record 14 of the current group, found through the result index, holds 24
with the stored complexity 2, and the best operation is record 15
(34 = 6 x 6 - 2, complexity 3), as close to the target as 24. The candidate is
not rejected: record 14 is overwritten, with the same complexity, and the best
operation stays record 15. The solve returns 34 with the complexity 3 and the
stream 145, 65, 0, while record 14 of the same group holds 24, as close to the
target, with the complexity 2. -/
theorem NumbersSolve_duplicate_overwrite :
    (∃ call ∈ NumbersSolve.calls (NumbersStruct.zeroed 20 40) 29 [2, 6, 6] (some 65535),
      call.call.numbersObject.current.tileCount = call.call.numbersObject.final.tileCount
      ∧ call.call.result = 24 ∧ call.call.complexity = 2
      ∧ SearchOperation call.call.numbersObject call.call.result = 14
      ∧ call.call.numbersObject.current.operationIdFirst ≤ 14
      ∧ 14 < call.call.numbersObject.current.operationIdLast
      ∧ (call.call.numbersObject.operation 14).result = 24
      ∧ (call.call.numbersObject.operation 14).complexity = 2
      ∧ call.call.numbersObject.solution.operationId = 15
      ∧ call.call.numbersObject.solution.targetDiff = 5
      ∧ targetDiffOf call.call.numbersObject.final.target call.call.result = 5
      ∧ call.call.complexity ≤ call.call.numbersObject.current.complexityMax
      ∧ call.call.after.operation 14 ≠ call.call.numbersObject.operation 14
      ∧ (call.call.after.operation 14).complexity = 2
      ∧ call.call.after.solution.operationId = 15)
    ∧ ∃ out ∈ NumbersSolve (some (NumbersStruct.zeroed 20 40)) 29 (some [2, 6, 6]) (some 65535)
        true true,
      out.error = .Success ∧ out.result = some 34 ∧ out.complexity = some 3
      ∧ out.solutionOperations = some [145, 65, 0]
      ∧ ∃ s ∈ out.numbersObject,
        s.solution.operationId = 15 ∧ s.solution.targetDiff = 5 ∧ s.solution.tileCount = 3
        ∧ s.current.tileCount = 3
        ∧ s.current.operationIdFirst ≤ 14 ∧ 14 < s.current.operationIdLast
        ∧ (s.operation 14).result = 24 ∧ (s.operation 14).complexity = 2
        ∧ (s.operation 15).result = 34 ∧ (s.operation 15).complexity = 3
        ∧ targetDiffOf 29 24 = 5 ∧ targetDiffOf 29 34 = 5 := by
  decide!

end Numbers
namespace Numbers

/-- C33 Partition enumeration: for every subset mask `g` below 256 (at most 8
tiles) with `k ≥ 2` bits, the array `tileSubGroups[]` that `NumbersSolve` builds
has `2 ^ (k - 1) - 1` entries, pairwise distinct; each entry is a non-empty
proper subset of the mask; and for every split of the mask into a non-empty
part `A` and its non-empty complement `g - A`, exactly one of the two is an
entry, so every unordered split is covered exactly once. -/
theorem tileSubGroups_partition (g : Nat) (hg : g < 256) (hk : 2 ≤ popCount g) :
    (tileSubGroups g (popCount g)).length = 2 ^ (popCount g - 1) - 1
    ∧ (tileSubGroups g (popCount g)).Nodup
    ∧ (∀ sub ∈ tileSubGroups g (popCount g), 0 < sub ∧ sub < g ∧ sub &&& g = sub)
    ∧ ∀ A, 0 < A → A < g → A &&& g = A →
        (A ∈ tileSubGroups g (popCount g) ∧ g - A ∉ tileSubGroups g (popCount g))
        ∨ (g - A ∈ tileSubGroups g (popCount g) ∧ A ∉ tileSubGroups g (popCount g)) := by
  obtain ⟨hlen, hnodup, hmem⟩ := tileSubGroups_mem g hg hk
  refine ⟨hlen, hnodup, fun sub hsub => ?_, fun A h0 hlt hpart => ?_⟩
  · obtain ⟨h1, h2, h3⟩ := (hmem sub).mp hsub
    exact ⟨h1, by omega, h2⟩
  · obtain ⟨hc1, hc2⟩ := complement_part g hg A hlt hpart
    have hne := hc2 h0
    by_cases hsmall : A < g - A
    · refine Or.inl ⟨(hmem A).mpr ⟨h0, hpart, hsmall⟩, fun hin => ?_⟩
      obtain ⟨_, _, h3⟩ := (hmem (g - A)).mp hin
      omega
    · refine Or.inr ⟨(hmem (g - A)).mpr ⟨by omega, hc1, by omega⟩, fun hin => ?_⟩
      obtain ⟨_, _, h3⟩ := (hmem A).mp hin
      exact hsmall h3

/-- C33 at the mask of the tiles 0, 1 and 2. -/
theorem tileSubGroups_partition_witness :
    (tileSubGroups 7 (popCount 7)).length = 2 ^ (popCount 7 - 1) - 1
    ∧ (tileSubGroups 7 (popCount 7)).Nodup
    ∧ (∀ sub ∈ tileSubGroups 7 (popCount 7), 0 < sub ∧ sub < 7 ∧ sub &&& 7 = sub)
    ∧ ∀ A, 0 < A → A < 7 → A &&& 7 = A →
        (A ∈ tileSubGroups 7 (popCount 7) ∧ 7 - A ∉ tileSubGroups 7 (popCount 7))
        ∨ (7 - A ∈ tileSubGroups 7 (popCount 7) ∧ A ∉ tileSubGroups 7 (popCount 7)) :=
  tileSubGroups_partition 7 (by decide) (by decide)

/-- C34 Subset enumeration: for every `N ≤ 8` and `2 ≤ k ≤ N`, the loop that
starts from `2 ^ k - 1` and repeats the step `u = g & -g`, `v = u + g`,
`g' = v + (((v xor g) / u) >> 2)` while `g < 2 ^ N` ends within `2 ^ N` turns
and goes through exactly the `C (N, k)` masks below `2 ^ N` that have `k` bits
set, each once, in strictly increasing order. And for every well-formed object
and every input of `N ≤ 8` 32-bit tiles, whenever `NumbersSolve` starts to build
the operation group of a mask, the search is not aborted, the mask is below
`2 ^ N` and has as many bits as the current number of tiles `k`, with
`2 ≤ k ≤ N`; the operation groups of all masks with fewer bits are stored, and
so are those of the masks with `k` bits below it; hence the operation groups
of every sub-group built for the mask and of its complement, which the
combiner reads, are stored. -/
theorem NumbersSolve_tileGroups (s : NumbersStruct) (hwf : s.WellFormed) (target : Nat)
    (tiles : List Nat) (htiles : ∀ t ∈ tiles, t < 2 ^ 32) (hN : tiles.length ≤ 8)
    (complexity : Option Nat) :
    (∀ n k, n ≤ 8 → 2 ≤ k → k ≤ n →
      ∃ l,
        NumbersSolve.tileGroups ((1 <<< n) % 2 ^ 16) (2 ^ n) (((1 <<< k) % 2 ^ 32) - 1)
          = some l
        ∧ l.length = n.choose k
        ∧ l.Pairwise (fun a b => a < b)
        ∧ ∀ m, m ∈ l ↔ (m < 2 ^ n ∧ popCount m = k))
    ∧ ∀ st ∈ NumbersSolve.builds s target tiles complexity,
      st.numbersObject.solution.aborted = false
      ∧ st.tileGroup < 2 ^ tiles.length
      ∧ popCount st.tileGroup = st.numbersObject.current.tileCount
      ∧ 2 ≤ st.numbersObject.current.tileCount
      ∧ st.numbersObject.current.tileCount ≤ tiles.length
      ∧ (∀ m, 0 < m → m < 2 ^ tiles.length →
          popCount m < st.numbersObject.current.tileCount →
          ∃ grp, st.operationGroups.getD m none = some grp)
      ∧ (∀ m, 0 < m → m < st.tileGroup →
          popCount m = st.numbersObject.current.tileCount →
          ∃ grp, st.operationGroups.getD m none = some grp)
      ∧ ∀ tileSubGroup ∈ tileSubGroups st.tileGroup st.numbersObject.current.tileCount,
          ∃ operationGroupA operationGroupB,
            st.operationGroups.getD tileSubGroup none = some operationGroupA
            ∧ st.operationGroups.getD (st.tileGroup - tileSubGroup) none
              = some operationGroupB := by
  refine ⟨fun n k hn h2 hkn => ?_, fun st hst => ?_⟩
  · obtain ⟨h1, h3⟩ := NumbersSolve.tileGroups_eq n k hn h2 hkn
    refine ⟨_, h1, h3, ?_, fun m => ?_⟩
    · exact (List.pairwise_lt_range (2 ^ n)).filter _
    · rw [List.mem_filter, List.mem_range, decide_eq_true_eq]
  · have hb := NumbersSolve.search_builds s hwf target tiles complexity htiles hN st hst
    obtain ⟨a, b, c, d⟩ := hb.stored hN
    obtain ⟨E, _, hg, hab, hk2, hkN⟩ := hb
    exact ⟨hab, hg, a, hk2, hkN, b, c, d⟩

/-- C34 at a concrete input: capacities 50 and 100, target 17, tiles 2, 2, 3. -/
theorem NumbersSolve_tileGroups_witness :
    (∀ n k, n ≤ 8 → 2 ≤ k → k ≤ n →
      ∃ l,
        NumbersSolve.tileGroups ((1 <<< n) % 2 ^ 16) (2 ^ n) (((1 <<< k) % 2 ^ 32) - 1)
          = some l
        ∧ l.length = n.choose k
        ∧ l.Pairwise (fun a b => a < b)
        ∧ ∀ m, m ∈ l ↔ (m < 2 ^ n ∧ popCount m = k))
    ∧ ∀ st ∈ NumbersSolve.builds (NumbersStruct.zeroed 50 100) 17 [2, 2, 3] none,
      st.numbersObject.solution.aborted = false
      ∧ st.tileGroup < 2 ^ [2, 2, 3].length
      ∧ popCount st.tileGroup = st.numbersObject.current.tileCount
      ∧ 2 ≤ st.numbersObject.current.tileCount
      ∧ st.numbersObject.current.tileCount ≤ [2, 2, 3].length
      ∧ (∀ m, 0 < m → m < 2 ^ [2, 2, 3].length →
          popCount m < st.numbersObject.current.tileCount →
          ∃ grp, st.operationGroups.getD m none = some grp)
      ∧ (∀ m, 0 < m → m < st.tileGroup →
          popCount m = st.numbersObject.current.tileCount →
          ∃ grp, st.operationGroups.getD m none = some grp)
      ∧ ∀ tileSubGroup ∈ tileSubGroups st.tileGroup st.numbersObject.current.tileCount,
          ∃ operationGroupA operationGroupB,
            st.operationGroups.getD tileSubGroup none = some operationGroupA
            ∧ st.operationGroups.getD (st.tileGroup - tileSubGroup) none
              = some operationGroupB :=
  NumbersSolve_tileGroups (NumbersStruct.zeroed 50 100)
    (by simp [NumbersStruct.WellFormed, NumbersStruct.zeroed, UINT16_MAX]) 17 [2, 2, 3]
    (by decide) (by decide) none

end Numbers
namespace Numbers

/-- C38 Independence from leftover state: for every two well-formed objects of
the same capacities, whatever their arenas, result indexes, solution fields and
current fields hold, and for the same target, the same tiles (at most 8, each
of 32 bits) and the same complexity bound, `NumbersSolve` returns on both, with
the same return code, the same output complexity, the same solution stream and
the same `outResult`: a solve is unaffected by previous solves on the same
object or by uninitialised memory. (With no tile at all too.) -/
theorem NumbersSolve_independent (s1 s2 : NumbersStruct) (hwf1 : s1.WellFormed)
    (hwf2 : s2.WellFormed) (hsize : s1.operationSize = s2.operationSize)
    (hid : s1.operationIdSize = s2.operationIdSize) (target : Nat) (tiles : List Nat)
    (htiles : ∀ t ∈ tiles, t < 2 ^ 32) (hN : tiles.length ≤ 8)
    (complexity : Option Nat) (solutionOperations result : Bool) :
    ∃ out1 out2,
      NumbersSolve (some s1) target (some tiles) complexity solutionOperations result
        = some out1
      ∧ NumbersSolve (some s2) target (some tiles) complexity solutionOperations result
        = some out2
      ∧ out1.error = out2.error
      ∧ out1.complexity = out2.complexity
      ∧ out1.solutionOperations = out2.solutionOperations
      ∧ out1.result = out2.result := by
  obtain ⟨o1, E1, hs1, a1, _⟩ :=
    NumbersSolve.search_spec s1 hwf1 target tiles complexity htiles hN
  obtain ⟨o2, E2, hs2, a2, _⟩ :=
    NumbersSolve.search_spec s2 hwf2 target tiles complexity htiles hN
  have h := NumbersSolve.search_alike s1 s2 hwf1 hwf2 hsize hid target tiles complexity
    htiles hN o1 o2 hs1 hs2
  have hf1 := NumbersSolve.finish_spec a1 complexity solutionOperations result
  have hf2 := NumbersSolve.finish_spec a2 complexity solutionOperations result
  have hn1 : NumbersSolve (some s1) target (some tiles) complexity solutionOperations result
      = NumbersSolve.finish o1 complexity solutionOperations result := by
    unfold NumbersSolve
    simp only [gt_iff_lt]
    rw [if_neg (by omega), hs1]
    rfl
  have hn2 : NumbersSolve (some s2) target (some tiles) complexity solutionOperations result
      = NumbersSolve.finish o2 complexity solutionOperations result := by
    unfold NumbersSolve
    simp only [gt_iff_lt]
    rw [if_neg (by omega), hs2]
    rfl
  refine ⟨_, _, hn1.trans hf1, hn2.trans hf2, ?_, ?_, ?_, ?_⟩
  · show (if o1.solution.aborted then NumbersError.AbortedError else NumbersError.Success)
      = (if o2.solution.aborted then NumbersError.AbortedError else NumbersError.Success)
    rw [h.aborted_eq]
  · show complexity.map (fun _ =>
        if o1.solution.operationId < o1.operationSize then
          (o1.operation o1.solution.operationId).complexity else 0)
      = complexity.map (fun _ =>
        if o2.solution.operationId < o2.operationSize then
          (o2.operation o2.solution.operationId).complexity else 0)
    rw [← h.solution_eq, ← h.operationSize_eq]
    by_cases hsol : o1.solution.operationId < o1.operationSize
    · have hlt : o1.solution.operationId < o1.current.operationIdLast := a1.solution_lt hsol
      simp only [if_pos hsol]
      rw [(h.records _ hlt).2.2.2.1]
    · simp only [if_neg hsol]
  · show (if solutionOperations then
        some ((if o1.solution.operationId < o1.operationSize then
          (E1 o1.solution.operationId).stream else []) ++ [0]) else none)
      = (if solutionOperations then
        some ((if o2.solution.operationId < o2.operationSize then
          (E2 o2.solution.operationId).stream else []) ++ [0]) else none)
    rw [← h.solution_eq, ← h.operationSize_eq]
    by_cases hsol : o1.solution.operationId < o1.operationSize
    · have hlt : o1.solution.operationId < o1.current.operationIdLast := a1.solution_lt hsol
      simp only [if_pos hsol]
      rw [h.started.1.trees a1 a2 _ hlt]
    · simp only [if_neg hsol]
  · show (if result then
        some (if o1.solution.operationId < o1.operationSize then
          (o1.operation o1.solution.operationId).result else 0) else none)
      = (if result then
        some (if o2.solution.operationId < o2.operationSize then
          (o2.operation o2.solution.operationId).result else 0) else none)
    rw [← h.solution_eq, ← h.operationSize_eq]
    by_cases hsol : o1.solution.operationId < o1.operationSize
    · have hlt : o1.solution.operationId < o1.current.operationIdLast := a1.solution_lt hsol
      simp only [if_pos hsol]
      rw [(h.records _ hlt).1]
    · simp only [if_neg hsol]

/-- C38 at a concrete input: an object that holds zeros and an object that
holds the arena, the result index and the fields left by a solve for the target
100 on the tiles 2, 2, 3, both of capacities 20 and 40; target 17, tiles
2, 2, 3. -/
theorem NumbersSolve_independent_witness :
    ∃ out1 out2,
      NumbersSolve (some (NumbersStruct.zeroed 20 40)) 17 (some [2, 2, 3]) none true true
        = some out1
      ∧ NumbersSolve
          (some ((NumbersSolve.search (NumbersStruct.zeroed 20 40) 100 [2, 2, 3] none).getD
            (NumbersStruct.zeroed 20 40)))
          17 (some [2, 2, 3]) none true true
        = some out2
      ∧ out1.error = out2.error
      ∧ out1.complexity = out2.complexity
      ∧ out1.solutionOperations = out2.solutionOperations
      ∧ out1.result = out2.result :=
  NumbersSolve_independent (NumbersStruct.zeroed 20 40)
    ((NumbersSolve.search (NumbersStruct.zeroed 20 40) 100 [2, 2, 3] none).getD
      (NumbersStruct.zeroed 20 40))
    (by decide) (by decide!) (by decide!) (by decide!) 17 [2, 2, 3] (by decide) (by decide)
    none true true

end Numbers
